import Mathlib

/-!
Verification of the uigen core: the in-memory `VirtualFileSystem`
(`src/lib/file-system.ts`) and the JSX transform pipeline
(`src/lib/transform/jsx-transformer.ts`).

Strings are modelled as `List Char` (`Str`), JavaScript `Map`s and plain
objects as insertion-ordered association lists, and the mutable node objects
of the file system as an explicit heap (`id ↦ node`) so that the aliasing
between the flat `files` table and the `children` maps is represented
faithfully.  External platform features (Babel compilation, blob URLs,
JSON parsing) are modelled as parameters or tagged constructors.
-/

set_option maxRecDepth 100000

namespace Uigen

/-- JS strings are sequences of characters. -/
abbrev Str := List Char

/-! ### Insertion-ordered association lists, modelling JS `Map` and objects

`setA` overwrites in place when the key is present (JS `Map.set` keeps the
original insertion position) and appends otherwise; `delA` removes the entry;
`getA` is `Map.get`. -/

def getA {α β : Type} [DecidableEq α] (k : α) : List (α × β) → Option β
  | [] => none
  | (k', v) :: rest => if k' = k then some v else getA k rest

def setA {α β : Type} [DecidableEq α] (k : α) (v : β) : List (α × β) → List (α × β)
  | [] => [(k, v)]
  | (k', v') :: rest => if k' = k then (k, v) :: rest else (k', v') :: setA k v rest

def delA {α β : Type} [DecidableEq α] (k : α) : List (α × β) → List (α × β)
  | [] => []
  | (k', v') :: rest => if k' = k then rest else (k', v') :: delA k rest

def hasA {α β : Type} [DecidableEq α] (k : α) (l : List (α × β)) : Bool :=
  (getA k l).isSome

/-- `Map.keys` / `Object.keys`. -/
def keysA {α β : Type} (l : List (α × β)) : List α := l.map (·.1)

/-! ### Character-level string helpers -/

/-- JS whitespace test (`\s`), restricted to the ASCII whitespace characters
that can occur in the sources this model is evaluated on. -/
def isWs (c : Char) : Bool :=
  c = ' ' ∨ c = '\t' ∨ c = '\n' ∨ c = '\r' ∨ c = '\x0b' ∨ c = '\x0c'

/-- `s.replace(/\/+/g, "/")`: collapse every maximal run of slashes to one. -/
def collapseSlashes : Str → Str
  | [] => []
  | [c] => [c]
  | c :: d :: rest =>
    if c = '/' ∧ d = '/' then collapseSlashes (d :: rest)
    else c :: collapseSlashes (d :: rest)

/-- `VirtualFileSystem.normalizePath`: ensure a leading slash, strip one
trailing slash (except for root), then collapse repeated slashes — in that
order, exactly as the source does. -/
def normalizePath (path : Str) : Str :=
  let path := if path.head? = some '/' then path else '/' :: path
  let path := if path ≠ ['/'] ∧ path.getLast? = some '/' then path.dropLast else path
  collapseSlashes path

/-- `path.split("/")` (JS `String.split` with a single-character separator). -/
def splitSlash (path : Str) : List Str := path.splitOn '/'

/-- `parts.join("/")`. -/
def joinSlash (parts : List Str) : Str := [ '/' ].intercalate parts

/-- `VirtualFileSystem.getParentPath`. -/
def getParentPath (path : Str) : Str :=
  let n := normalizePath path
  if n = ['/'] then ['/']
  else
    let parts := (splitSlash n).dropLast
    if parts.length = 1 then ['/'] else joinSlash parts

/-- `VirtualFileSystem.getFileName`. -/
def getFileName (path : Str) : Str :=
  let n := normalizePath path
  if n = ['/'] then ['/']
  else (splitSlash n).getLast?.getD []

/-- Does the string contain two consecutive slashes? -/
def hasDbl : Str → Bool
  | [] => false
  | [_] => false
  | c :: d :: rest => (c = '/' ∧ d = '/') ∨ hasDbl (d :: rest)

/-- A fully normalized path: leading slash, no repeated slashes, no trailing
slash except for the root itself. -/
def pathOk (p : Str) : Prop :=
  p.head? = some '/' ∧ hasDbl p = false ∧ (p = ['/'] ∨ p.getLast? ≠ some '/')

/-- A well-formed node name: nonempty and slash-free. -/
def nameOk (n : Str) : Prop := n ≠ [] ∧ '/' ∉ n

/-- The path of the child named `n` of a directory at `pp` (children of the
root are at `/n`, not `//n`). -/
def childPath (pp n : Str) : Str := if pp = ['/'] then '/' :: n else pp ++ '/' :: n

/-- Is `p` the path `q` itself or inside `q`'s subtree (`q` not root)? -/
def inSubB (q p : Str) : Bool := q = p ∨ (q ++ ['/']).isPrefixOf p

/-! ### The virtual file system

TS `FileNode` objects are mutable and shared between the flat `files` map and
the parents' `children` maps.  We model the object store as an explicit heap
`heap : List (Nat × Node)` of node records addressed by ids; `files` maps
paths to ids and `children` maps names to ids.  Field mutation of a node
becomes `setA id {node with ...}` on the heap; heap entries are never
removed (unreachable nodes simply become garbage, as in JS). -/

inductive NodeType : Type
  | file
  | directory
deriving DecidableEq

/-- `FileNode` from `src/lib/file-system.ts`.  `content` is present only on
files and `children` only on directories, mirroring the optional fields. -/
structure Node : Type where
  type : NodeType
  name : Str
  path : Str
  content : Option Str := none
  children : Option (List (Str × Nat)) := none
deriving DecidableEq

/-- The state of a `VirtualFileSystem`: the heap of node objects, the flat
path→node table (`files`), the id of the root object, and the next fresh
heap id (JS object allocation). -/
structure VFS : Type where
  heap : List (Nat × Node)
  files : List (Str × Nat)
  root : Nat
  nextId : Nat
deriving DecidableEq

/-- The constructor: a root directory at `/`. -/
def VFS.init : VFS :=
  let rootNode : Node :=
    { type := .directory, name := ['/'], path := ['/'], children := some [] }
  { heap := [(0, rootNode)], files := [(['/'], 0)], root := 0, nextId := 1 }

/-- Raw table lookup `this.files.get(path)` (no normalization), dereferencing
the id through the heap: returns the id together with the node record. -/
def VFS.lookup (s : VFS) (path : Str) : Option (Nat × Node) :=
  match getA path s.files with
  | none => none
  | some i =>
    match getA i s.heap with
    | none => none
    | some n => some (i, n)

/-- `this.files.get(this.normalizePath(path))`, as done by `getNode`,
`readFile` and `updateFile`. -/
def VFS.getEntry (s : VFS) (path : Str) : Option (Nat × Node) :=
  s.lookup (normalizePath path)

/-- `VirtualFileSystem.exists`. -/
def VFS.existsP (s : VFS) (path : Str) : Bool :=
  hasA (normalizePath path) s.files

/-- `VirtualFileSystem.getNode` (returns the node record). -/
def VFS.getNode (s : VFS) (path : Str) : Option Node :=
  (s.getEntry path).map (·.2)

/-- `this.getParentNode(path)`: raw lookup of `getParentPath path`. -/
def VFS.getParentEntry (s : VFS) (path : Str) : Option (Nat × Node) :=
  s.lookup (getParentPath path)

/-- `VirtualFileSystem.createDirectory`.  Returns the created node's id (or
`none`) together with the updated state. -/
def VFS.createDirectory (s : VFS) (path : Str) : Option Nat × VFS :=
  let normalized := normalizePath path
  if hasA normalized s.files then (none, s)
  else
    match s.getParentEntry normalized with
    | none => (none, s)
    | some (pid, pnode) =>
      if pnode.type ≠ .directory then (none, s)
      else
        let dirName := getFileName normalized
        let dir : Node :=
          { type := .directory, name := dirName, path := normalized, children := some [] }
        let id := s.nextId
        let heap := setA id dir s.heap
        let files := setA normalized id s.files
        let pnode' : Node :=
          { pnode with children := some (setA dirName id (pnode.children.getD [])) }
        let heap := setA pid pnode' heap
        (some id, { s with heap := heap, files := files, nextId := id + 1 })

/-- The ancestor-creation loop shared by `createFile`, `rename` and
`deserialize`: walk a list of path segments, extending `currentPath` and
creating each missing directory. -/
def VFS.createAncestors (s : VFS) (parts : List Str) (currentPath : Str) : VFS :=
  match parts with
  | [] => s
  | part :: rest =>
    let currentPath := currentPath ++ '/' :: part
    let s := if s.existsP currentPath then s else (s.createDirectory currentPath).2
    s.createAncestors rest currentPath

/-- `VirtualFileSystem.createFile`. -/
def VFS.createFile (s : VFS) (path : Str) (content : Str) : Option Nat × VFS :=
  let normalized := normalizePath path
  if hasA normalized s.files then (none, s)
  else
    let parts := (splitSlash normalized).filter (· ≠ [])
    let s := s.createAncestors parts.dropLast []
    match s.getParentEntry normalized with
    | none => (none, s)
    | some (pid, pnode) =>
      if pnode.type ≠ .directory then (none, s)
      else
        let fileName := getFileName normalized
        let file : Node :=
          { type := .file, name := fileName, path := normalized, content := some content }
        let id := s.nextId
        let heap := setA id file s.heap
        let files := setA normalized id s.files
        let pnode' : Node :=
          { pnode with children := some (setA fileName id (pnode.children.getD [])) }
        let heap := setA pid pnode' heap
        (some id, { s with heap := heap, files := files, nextId := id + 1 })

/-- `VirtualFileSystem.readFile`. -/
def VFS.readFile (s : VFS) (path : Str) : Option Str :=
  match s.getEntry path with
  | none => none
  | some (_, n) => if n.type ≠ .file then none else some (n.content.getD [])

/-- `VirtualFileSystem.updateFile`. -/
def VFS.updateFile (s : VFS) (path : Str) (content : Str) : Bool × VFS :=
  match s.getEntry path with
  | none => (false, s)
  | some (i, n) =>
    if n.type ≠ .file then (false, s)
    else (true, { s with heap := setA i ({ n with content := some content }) s.heap })

/-- One step of `deleteFile`'s recursive child loop: look the child object up
in the current heap and delete it by its current path. -/
def VFS.deleteChildren (del : VFS → Str → VFS) (s : VFS) : List (Str × Nat) → VFS
  | [] => s
  | (_, cid) :: rest =>
    let s := match getA cid s.heap with
      | none => s
      | some child => del s child.path
    VFS.deleteChildren del s rest

/-- `VirtualFileSystem.deleteFile`, with explicit fuel bounding the recursion
depth (the TS recursion terminates on well-formed trees; `deleteFile` below
supplies fuel larger than any possible depth). -/
def VFS.deleteFileAux (s : VFS) (path : Str) : Nat → Bool × VFS
  | 0 => (false, s)
  | fuel + 1 =>
    let normalized := normalizePath path
    match s.lookup normalized with
    | none => (false, s)
    | some (_id, node) =>
      if normalized = ['/'] then (false, s)
      else
        match s.getParentEntry normalized with
        | none => (false, s)
        | some (pid, pnode) =>
          if pnode.type ≠ .directory then (false, s)
          else
            let s :=
              if node.type = .directory ∧ node.children.isSome then
                VFS.deleteChildren (fun s' p => (VFS.deleteFileAux s' p fuel).2) s
                  (node.children.getD [])
              else s
            let s := match getA pid s.heap with
              | none => s
              | some pn =>
                let pn' : Node :=
                  { pn with children := some (delA node.name (pn.children.getD [])) }
                { s with heap := setA pid pn' s.heap }
            (true, { s with files := delA normalized s.files })

def VFS.deleteFile (s : VFS) (path : Str) : Bool × VFS :=
  s.deleteFileAux path (s.heap.length + 1)

/-- The child-deletion loop of `deleteFile` at a fixed fuel (abbreviation used
by the verification below; unfolds to the `deleteChildren` call of
`deleteFileAux`). -/
def delKids (fuel : Nat) (s : VFS) (cs : List (Str × Nat)) : VFS :=
  VFS.deleteChildren (fun s0 p0 => (VFS.deleteFileAux s0 p0 fuel).2) s cs

/-- The parent-object mutation of a successful `deleteFile` (abbreviation for
the verification below). -/
def dsAux (s2 : VFS) (nodeName : Str) (pid : Nat) : VFS :=
  match getA pid s2.heap with
  | none => s2
  | some pn => { s2 with heap := setA pid { pn with children := some (delA nodeName (pn.children.getD [])) } s2.heap }

/-- The final two mutations of a successful `deleteFile`: remove the node from
its parent object and from the flat table (abbreviation for the verification
below). -/
def delState (s2 : VFS) (normalized : Str) (nodeName : Str) (pid : Nat) : VFS :=
  { dsAux s2 nodeName pid with files := delA normalized (dsAux s2 nodeName pid).files }

/-- `VirtualFileSystem.updateChildrenPaths`, with fuel for the recursion
depth.  Children are iterated in insertion order; each child object's path is
rewritten underneath the (already renamed) parent and its flat-table entry is
re-keyed. -/
def VFS.updateChildrenPaths (s : VFS) (nid : Nat) : Nat → VFS
  | 0 => s
  | fuel + 1 =>
    match getA nid s.heap with
    | none => s
    | some n =>
      if n.type = .directory ∧ n.children.isSome then
        (n.children.getD []).foldl
          (fun acc (c : Str × Nat) =>
            match getA c.2 acc.heap with
            | none => acc
            | some child =>
              -- `node.path` is read from the live object on every iteration
              let npath := ((getA nid acc.heap).map (·.path)).getD n.path
              let oldChildPath := child.path
              let newChildPath := npath ++ '/' :: child.name
              let acc := { acc with
                heap := setA c.2 ({ child with path := newChildPath }) acc.heap }
              let acc := { acc with
                files := setA newChildPath c.2 (delA oldChildPath acc.files) }
              if child.type = .directory then VFS.updateChildrenPaths acc c.2 fuel else acc)
          s
      else s

/-- One iteration of `updateChildrenPaths`' child loop (abbreviation for the
verification below; unfolds to the `foldl` body of `updateChildrenPaths`). -/
def ucpStep (fuel : Nat) (nid : Nat) (dflt : Str) (acc : VFS) (c : Str × Nat) : VFS :=
  match getA c.2 acc.heap with
  | none => acc
  | some child =>
    let npath := ((getA nid acc.heap).map (·.path)).getD dflt
    let oldChildPath := child.path
    let newChildPath := npath ++ '/' :: child.name
    let acc := { acc with heap := setA c.2 ({ child with path := newChildPath }) acc.heap }
    let acc := { acc with files := setA newChildPath c.2 (delA oldChildPath acc.files) }
    if child.type = .directory then VFS.updateChildrenPaths acc c.2 fuel else acc

/-- `VirtualFileSystem.rename`. -/
def VFS.rename (s : VFS) (oldPath newPath : Str) : Bool × VFS :=
  let normalizedOld := normalizePath oldPath
  let normalizedNew := normalizePath newPath
  if normalizedOld = ['/'] ∨ normalizedNew = ['/'] then (false, s)
  else
    match s.lookup normalizedOld with
    | none => (false, s)
    | some (sid, sourceNode) =>
      if hasA normalizedNew s.files then (false, s)
      else
        match s.getParentEntry normalizedOld with
        | none => (false, s)
        | some (opid, opnode) =>
          if opnode.type ≠ .directory then (false, s)
          else
            let newParentPath := getParentPath normalizedNew
            let s :=
              if ¬ s.existsP newParentPath then
                s.createAncestors ((splitSlash newParentPath).filter (· ≠ [])) []
              else s
            match s.lookup newParentPath with
            | none => (false, s)
            | some (npid, npnode) =>
              if npnode.type ≠ .directory then (false, s)
              else
                  -- oldParent.children!.delete(sourceNode.name) — on the live object
                  let s := match getA opid s.heap with
                    | none => s
                    | some opn =>
                      let opn' : Node :=
                        { opn with
                          children := some (delA sourceNode.name (opn.children.getD [])) }
                      { s with heap := setA opid opn' s.heap }
                  -- sourceNode.name = newName; sourceNode.path = normalizedNew
                  let newName := getFileName normalizedNew
                  let s := match getA sid s.heap with
                    | none => s
                    | some src =>
                      let src' : Node := { src with name := newName, path := normalizedNew }
                      { s with heap := setA sid src' s.heap }
                  -- newParent.children!.set(newName, sourceNode)
                  let s := match getA npid s.heap with
                    | none => s
                    | some npn =>
                      let npn' : Node :=
                        { npn with
                          children := some (setA newName sid (npn.children.getD [])) }
                      { s with heap := setA npid npn' s.heap }
                  -- files.delete(old); files.set(new, node)
                  let s := { s with
                    files := setA normalizedNew sid (delA normalizedOld s.files) }
                  -- recursive path rewrite for directories
                  let s :=
                    if sourceNode.type = .directory ∧ sourceNode.children.isSome then
                      s.updateChildrenPaths sid (s.heap.length + 1)
                    else s
                  (true, s)

/-- The five in-place mutations of a successful `rename` before the recursive
path rewrite: detach the source from its old parent, rewrite the source
object's name and path, attach it to the new parent, and re-key the flat
table (abbreviation for the verification below; unfolds to the corresponding
`let` chain of `rename`). -/
def moveState (s1 : VFS) (N O srcName : Str) (sid opid npid : Nat) : VFS :=
  let s2 := match getA opid s1.heap with
    | none => s1
    | some opn => { s1 with heap := setA opid { opn with children := some (delA srcName (opn.children.getD [])) } s1.heap }
  let s3 := match getA sid s2.heap with
    | none => s2
    | some src => { s2 with heap := setA sid { src with name := getFileName N, path := N } s2.heap }
  let s4 := match getA npid s3.heap with
    | none => s3
    | some npn => { s3 with heap := setA npid { npn with children := some (setA (getFileName N) sid (npn.children.getD [])) } s3.heap }
  { s4 with files := setA N sid (delA O s4.files) }

/-- The parent-autocreation step of `rename`: if the destination's parent path
is missing, run `createAncestors` over its nonempty segments (abbreviation for
the verification below; unfolds to the corresponding `let` of `rename`). -/
def renameS1 (s : VFS) (newPath : Str) : VFS :=
  let newParentPath := getParentPath (normalizePath newPath)
  if ¬ s.existsP newParentPath then
    s.createAncestors ((splitSlash newParentPath).filter (· ≠ [])) []
  else s

/-- The tail of `rename` after its source-side guards: look up the (possibly
just created) destination parent, check it is a directory, perform the move,
and rewrite the subtree's paths when the source is a directory with children
(abbreviation for the verification below; unfolds to the corresponding part of
`rename`, with the source node's fields passed explicitly). -/
def renameCont (s1 : VFS) (O N : Str) (sid opid : Nat) (srcType : NodeType)
    (srcChl : Option (List (Str × Nat))) (srcName : Str) : Bool × VFS :=
  match s1.lookup (getParentPath N) with
  | none => (false, s1)
  | some (npid, npnode) =>
    if npnode.type ≠ NodeType.directory then (false, s1)
    else
      (true,
        if srcType = NodeType.directory ∧ srcChl.isSome then
          (moveState s1 N O srcName sid opid npid).updateChildrenPaths sid
            ((moveState s1 N O srcName sid opid npid).heap.length + 1)
        else moveState s1 N O srcName sid opid npid)

/-- `VirtualFileSystem.getAllFiles`: the path→content view of all file nodes,
in `files`-map insertion order. -/
def VFS.getAllFiles (s : VFS) : List (Str × Str) :=
  s.files.foldr
    (fun (e : Str × Nat) acc =>
      match getA e.2 s.heap with
      | some n => if n.type = .file then (e.1, n.content.getD []) :: acc else acc
      | none => acc) []

/-- `VirtualFileSystem.reset`: fresh root object, everything else garbage. -/
def VFS.reset (s : VFS) : VFS :=
  let rootNode : Node :=
    { type := .directory, name := ['/'], path := ['/'], children := some [] }
  let id := s.nextId
  { heap := setA id rootNode s.heap, files := [(['/'], id)], root := id, nextId := id + 1 }

/-- The body of `deserialize`'s per-path loop: create missing ancestors from
the raw (unnormalized) path segments, then `createFile`. -/
def VFS.deserializeStep (s : VFS) (path : Str) (content : Str) : VFS :=
  let parts := (splitSlash path).filter (· ≠ [])
  let s := s.createAncestors parts.dropLast []
  (s.createFile path content).2

/-- `VirtualFileSystem.deserialize(data)`: clear everything but the root
object (keeping its identity, with children emptied), then materialize the
entries in sorted key order. -/
def VFS.deserialize (s : VFS) (data : List (Str × Str)) : VFS :=
  let s := match getA s.root s.heap with
    | none => { s with files := [(['/'], s.root)] }
    | some rn =>
      let rn' : Node := { rn with children := some [] }
      { s with heap := setA s.root rn' s.heap, files := [(['/'], s.root)] }
  let paths := (keysA data).mergeSort (fun a b => ¬ decide (b < a))
  paths.foldl (fun acc p => acc.deserializeStep p ((getA p data).getD [])) s

/-! ### `replaceInFile` and its string machinery

`replaceInFile` counts occurrences with an escaped global regex (the escaping
makes the pattern a literal string, and a global literal match finds the
leftmost non-overlapping occurrences) and replaces via
`content.split(oldStr).join(newStr)`.  Both are modelled by fuelled scanners;
the callers always supply fuel of at least the scanned string's length, which
is sufficient because every recursive call strictly shortens the string. -/

/-- Number of leftmost non-overlapping occurrences of `pat`:
`(content.match(new RegExp(escape(pat), "g")) || []).length`.
Only used with `pat ≠ []`. -/
def countOccAux (pat : Str) : Nat → Str → Nat
  | 0, _ => 0
  | _ + 1, [] => 0
  | fuel + 1, c :: rest =>
    if pat ≠ [] ∧ pat.isPrefixOf (c :: rest) then
      countOccAux pat fuel ((c :: rest).drop pat.length) + 1
    else countOccAux pat fuel rest

def countOcc (pat s : Str) : Nat := countOccAux pat s.length s

/-- `s.split(sep)` for a non-empty literal separator: the pieces between the
leftmost non-overlapping occurrences of `sep`. -/
def jsSplitAux (sep : Str) : Nat → Str → List Str
  | 0, s => [s]
  | _ + 1, [] => [[]]
  | fuel + 1, c :: rest =>
    if sep ≠ [] ∧ sep.isPrefixOf (c :: rest) then
      [] :: jsSplitAux sep fuel ((c :: rest).drop sep.length)
    else
      match jsSplitAux sep fuel rest with
      | [] => [[c]]
      | p :: ps => (c :: p) :: ps

def jsSplit (sep s : Str) : List Str := jsSplitAux sep s.length s

/-- `content.split(oldStr).join(newStr)`. -/
def jsReplaceAll (pat rep s : Str) : Str := rep.intercalate (jsSplit pat s)

/-- `hay.includes(sub)`: substring containment. -/
def strIncludes (hay sub : Str) : Bool :=
  (List.range (hay.length + 1)).any (fun i => sub.isPrefixOf (hay.drop i))

/-- Decimal rendering of a count, for the status strings. -/
def natToStr (n : Nat) : Str := (Nat.repr n).data

/-- `VirtualFileSystem.replaceInFile`.  Returns the status string and the
updated state. -/
def VFS.replaceInFile (s : VFS) (path oldStr newStr : Str) : Str × VFS :=
  match s.getNode path with
  | none => (("Error: File not found: ").data ++ path, s)
  | some node =>
    if node.type ≠ .file then (("Error: Cannot edit a directory: ").data ++ path, s)
    else
      let content := (s.readFile path).getD []
      -- `!oldStr || !content.includes(oldStr)`: the empty string is falsy
      if oldStr = [] ∨ ¬ strIncludes content oldStr then
        (("Error: String not found in file: \x22").data ++ oldStr ++ [ '\x22' ], s)
      else
        let occurrences := countOcc oldStr content
        let updatedContent := jsReplaceAll oldStr (if newStr = [] then [] else newStr) content
        let s := (s.updateFile path updatedContent).2
        (("Replaced ").data ++ natToStr occurrences ++
          (" occurrence(s) of the string in ").data ++ path, s)

/-! ### The file-system invariant

`Inv` is the full structural invariant of a `VirtualFileSystem` state:
well-formed tables, the root object, and the synchronization between the
flat path→node table and the parent→children relation.  `ClaimSync` states
the synchronization exactly as the specification phrases it (with the path
equation corrected at children of the root); it follows from `Inv`. -/

structure Inv (s : VFS) : Prop where
  filesNodup : (keysA s.files).Nodup
  heapNodup : (keysA s.heap).Nodup
  heapBound : ∀ i ∈ keysA s.heap, i < s.nextId
  rootFiles : getA ['/'] s.files = some s.root
  rootNode : ∃ rn, getA s.root s.heap = some rn ∧ rn.type = .directory ∧
    rn.path = ['/'] ∧ rn.name = ['/'] ∧ rn.children.isSome
  entries : ∀ p i, getA p s.files = some i → ∃ n, getA i s.heap = some n ∧
    n.path = p ∧ pathOk p ∧
    (n.type = .directory → n.children.isSome ∧ (keysA (n.children.getD [])).Nodup) ∧
    (n.type = .file → n.children = none)
  parentLink : ∀ p i, getA p s.files = some i → p ≠ ['/'] →
    ∃ n pid pn, getA i s.heap = some n ∧ nameOk n.name ∧
      getA (getParentPath p) s.files = some pid ∧ getA pid s.heap = some pn ∧
      pn.type = .directory ∧ getA n.name (pn.children.getD []) = some i ∧
      p = childPath pn.path n.name
  childrenLink : ∀ p i, getA p s.files = some i → ∀ n, getA i s.heap = some n →
    ∀ c ∈ n.children.getD [], ∃ cn, getA c.2 s.heap = some cn ∧ cn.name = c.1 ∧
      cn.path = childPath p c.1 ∧ getA cn.path s.files = some c.2

/-- The synchronization property exactly as the (amended) claim states it:
the root is present in the flat table; every non-root node of the table is
contained in exactly one live parent's children collection, under its own
name, with its stored path equal to `childPath parent.path name`; and every
child reachable from a table node appears in the flat table under its own
path. -/
def ClaimSync (s : VFS) : Prop :=
  (getA ['/'] s.files).isSome ∧
  (∀ p i, getA p s.files = some i → p ≠ ['/'] →
    ∃ n, getA i s.heap = some n ∧
      (∃! q : Str × Str, ∃ qi qn, getA q.1 s.files = some qi ∧
        getA qi s.heap = some qn ∧ (q.2, i) ∈ qn.children.getD []) ∧
      (∀ q qi qn, getA q s.files = some qi → getA qi s.heap = some qn →
        ∀ nm, (nm, i) ∈ qn.children.getD [] →
          nm = n.name ∧ n.path = childPath qn.path n.name)) ∧
  (∀ p i, getA p s.files = some i → ∀ n, getA i s.heap = some n →
    ∀ c ∈ n.children.getD [], ∃ cn, getA c.2 s.heap = some cn ∧
      getA cn.path s.files = some c.2)

/-- The synchronization property with the path equation WORD FOR WORD as the
claim states it: `path = parent.path + "/" + name` (no special case at the
root).  Refuted below: children of the root have path `/name`, not `//name`. -/
def ClaimSyncLit (s : VFS) : Prop :=
  (getA ['/'] s.files).isSome ∧
  (∀ p i, getA p s.files = some i → p ≠ ['/'] →
    ∃ n, getA i s.heap = some n ∧
      (∃! q : Str × Str, ∃ qi qn, getA q.1 s.files = some qi ∧
        getA qi s.heap = some qn ∧ (q.2, i) ∈ qn.children.getD []) ∧
      (∀ q qi qn, getA q s.files = some qi → getA qi s.heap = some qn →
        ∀ nm, (nm, i) ∈ qn.children.getD [] →
          nm = n.name ∧ n.path = qn.path ++ '/' :: n.name)) ∧
  (∀ p i, getA p s.files = some i → ∀ n, getA i s.heap = some n →
    ∀ c ∈ n.children.getD [], ∃ cn, getA c.2 s.heap = some cn ∧
      getA cn.path s.files = some c.2)

/-- Rebuild a path from its slash-separated segments (the fold that
`createAncestors` performs on `currentPath`). -/
def segsPath (segs : List Str) : Str :=
  segs.foldl (fun acc seg => acc ++ '/' :: seg) []

/-- The nonempty slash-separated segments of a path: the `parts` computed by
`createFile`, `rename` and `deserialize` as `split("/").filter(Boolean)`. -/
def partsOf (p : Str) : List Str := (splitSlash p).filter (· ≠ [])

/-- The number of table entries strictly inside the subtree rooted at `p`
(the termination measure of `deleteFile` and `updateChildrenPaths`). -/
def subCount (s : VFS) (p : Str) : Nat :=
  ((keysA s.files).filter (fun q => q ≠ p ∧ inSubB p q)).length

/-- `deleteFile` only removes table entries and rewrites `children` fields:
the surviving table is a pointwise sub-map, and every live heap record keeps
its `path`, `name` and `type` (only `children` may change). -/
def Shrinks (s t : VFS) : Prop :=
  (∀ q j, getA q t.files = some j → getA q s.files = some j) ∧
  (∀ j m, getA j s.heap = some m → ∃ m2, getA j t.heap = some m2 ∧
    m2.path = m.path ∧ m2.name = m.name ∧ m2.type = m.type)

/-- Specification of `updateChildrenPaths` at a given fuel, relative to the
pre-rename state `s0`: called on a node `j` whose record already carries its
new path `Q` while its subtree (keyed under its old path `R` in `s0`) is still
stale, it moves every stale table entry `R ++ "/" ++ tail` to
`Q ++ "/" ++ tail` with the same id, rewrites the `path` field of exactly the
relocated records, and touches nothing else. -/
def UCPSpec (s0 : VFS) (fuel : Nat) : Prop :=
  ∀ (j : Nat) (s : VFS) (R Q : Str) (nj : Node),
    subCount s0 R < fuel →
    getA R s0.files = some j → pathOk R → R ≠ ['/'] →
    pathOk Q → Q ≠ ['/'] →
    (∀ q, inSubB R q = true → inSubB Q q = true → False) →
    (keysA s.files).Nodup →
    getA j s.heap = some nj → nj.path = Q →
    (∃ n0, getA j s0.heap = some n0 ∧ nj.type = n0.type ∧ nj.children = n0.children) →
    (∀ tail k, getA (R ++ '/' :: tail) s0.files = some k →
      getA (R ++ '/' :: tail) s.files = some k ∧ getA k s.heap = getA k s0.heap) →
    (∀ tail k, getA (R ++ '/' :: tail) s.files = some k →
      getA (R ++ '/' :: tail) s0.files = some k) →
    (∀ tail, getA (Q ++ '/' :: tail) s.files = none) →
    ((∀ tail, getA (Q ++ '/' :: tail) (s.updateChildrenPaths j fuel).files =
        getA (R ++ '/' :: tail) s0.files) ∧
     (∀ tail, getA (R ++ '/' :: tail) (s.updateChildrenPaths j fuel).files = none) ∧
     (∀ q, ¬ (R ++ ['/']) <+: q → ¬ (Q ++ ['/']) <+: q →
        getA q (s.updateChildrenPaths j fuel).files = getA q s.files) ∧
     (∀ k, (∀ tail, ¬ getA (R ++ '/' :: tail) s0.files = some k) →
        getA k (s.updateChildrenPaths j fuel).heap = getA k s.heap) ∧
     (∀ tail k, getA (R ++ '/' :: tail) s0.files = some k →
        ∃ m0, getA k s0.heap = some m0 ∧
          getA k (s.updateChildrenPaths j fuel).heap = some { m0 with path := Q ++ '/' :: tail }) ∧
     keysA (s.updateChildrenPaths j fuel).heap = keysA s.heap ∧
     (keysA (s.updateChildrenPaths j fuel).files).Nodup)

/-- The mutating operations of the claim. -/
inductive Op : Type
  | createFile (path content : Str)
  | createDirectory (path : Str)
  | updateFile (path content : Str)
  | deleteFile (path : Str)
  | rename (oldPath newPath : Str)
  | deserialize (data : List (Str × Str))
  | reset

/-- Apply a mutation, keeping only the state. -/
def applyOp (s : VFS) : Op → VFS
  | .createFile p c => (s.createFile p c).2
  | .createDirectory p => (s.createDirectory p).2
  | .updateFile p c => (s.updateFile p c).2
  | .deleteFile p => (s.deleteFile p).2
  | .rename o n => (s.rename o n).2
  | .deserialize d => s.deserialize d
  | .reset => s.reset

/-- The side conditions of the amended claim: path arguments that create
entries must normalize to fully normalized paths (ruling out inputs ending
in two or more slashes, on which `normalizePath` leaves a trailing slash),
and a rename of a directory into its own subtree — which the claim excludes
— is ruled out. -/
def OpOk (s : VFS) : Op → Prop
  | .createFile p _ => pathOk (normalizePath p)
  | .createDirectory p => pathOk (normalizePath p)
  | .updateFile _ _ => True
  | .deleteFile _ => True
  | .rename o n => pathOk (normalizePath n) ∧
      ¬ (∃ i node, s.lookup (normalizePath o) = some (i, node) ∧
          node.type = .directory ∧
          inSubB (normalizePath o) (normalizePath n) = true ∧
          normalizePath o ≠ normalizePath n)
  | .deserialize d => ∀ e ∈ d, pathOk (normalizePath e.1)
  | .reset => True

/-- States reachable from the fresh file system by claim-conforming
mutations. -/
inductive ReachableGood : VFS → Prop
  | init : ReachableGood VFS.init
  | step (s : VFS) (op : Op) : ReachableGood s → OpOk s op → ReachableGood (applyOp s op)

/-! ### The JSX transform pipeline (`src/lib/transform/jsx-transformer.ts`)

The two import-scanning regexes are modelled by deterministic scanners that
walk the text left to right, attempting a match at every position and
resuming after each match (the `exec`/`lastIndex` loop of a global regex).
Babel compilation is external to the repository and is modelled by an oracle
parameter `Compile`; `URL.createObjectURL` over a code blob is modelled by
the tagged constructor `Ref.blob`, which carries the code it was created
from. -/

/-- Consume a literal token. -/
def dropLit (lit s : Str) : Option Str :=
  if lit.isPrefixOf s then some (s.drop lit.length) else none

/-- Is this character a quote (`'` or `"`)? -/
def isQuote (c : Char) : Bool := c = '\x27' ∨ c = '\x22'

/-- `['"]([^'"]+)['"]` : a quoted specifier.  The capture runs to the next
quote character (either kind closes), and must be nonempty.  Returns the
capture and the rest after the closing quote. -/
def quotedSpec (t : Str) : Option (Str × Str) :=
  match t with
  | [] => none
  | q :: t2 =>
    if isQuote q then
      let content := t2.takeWhile (fun c => ¬ isQuote c)
      match t2.drop content.length with
      | [] => none
      | _ :: t4 => if content ≠ [] then some (content, t4) else none
    else none

/-- One attempt of `cssImportRegex = /import\s+['"]([^'"]+\.css)['"]/` at the
current position: literal `import`, one-or-more whitespace, then a quoted
specifier that ends in `.css` and has at least one character before it. -/
def cssMatchAt (s : Str) : Option (Str × Str) :=
  match dropLit ("import").data s with
  | none => none
  | some t =>
    if t.takeWhile isWs = [] then none
    else
      match quotedSpec (t.dropWhile isWs) with
      | none => none
      | some (content, rest) =>
        if (".css").data.isSuffixOf content ∧ 5 ≤ content.length then
          some (content, rest)
        else none

/-- All captures of the global `cssImportRegex` scan, in text order. -/
def scanCssAux : Nat → Str → List Str
  | 0, _ => []
  | fuel + 1, s =>
    match cssMatchAt s with
    | some (spec, rest) => spec :: scanCssAux fuel rest
    | none =>
      match s with
      | [] => []
      | _ :: rest => scanCssAux fuel rest

def scanCss (s : Str) : List Str := scanCssAux s.length s

/-- `code.replace(cssImportRegex, '')`: delete every matched span (single
pass, left to right). -/
def stripCssAux : Nat → Str → Str
  | 0, s => s
  | fuel + 1, s =>
    match cssMatchAt s with
    | some (_, rest) => stripCssAux fuel rest
    | none =>
      match s with
      | [] => []
      | c :: rest => c :: stripCssAux fuel rest

def stripCss (s : Str) : Str := stripCssAux s.length s

/-- The optional binding clause `(?:{[^}]+}|[^,\s]+)?` of the import regex:
either a brace group (at least one non-`\x7d` character) or a maximal
nonempty run of non-comma non-whitespace characters; matching nothing when
neither alternative applies. -/
def importBinding (t : Str) : Str :=
  let wordRun := t.dropWhile (fun c => ¬ (c = ',' ∨ isWs c))
  match t with
  | '\x7b' :: t2 =>
    let content := t2.takeWhile (· ≠ '\x7d')
    match t2.drop content.length with
    | [] => wordRun
    | _ :: t4 => if content ≠ [] then t4 else wordRun
  | _ => wordRun

/-- The optional second clause `(?:,\s*{[^}]+})?`: a comma, optional
whitespace and a brace group; `none` when it does not match here. -/
def importCommaGroup (t : Str) : Option Str :=
  match t with
  | ',' :: t2 =>
    match t2.dropWhile isWs with
    | '\x7b' :: t4 =>
      let content := t4.takeWhile (· ≠ '\x7d')
      match t4.drop content.length with
      | [] => none
      | _ :: t6 => if content ≠ [] then some t6 else none
    | _ => none
  | _ => none

/-- One attempt of
`importRegex = /import\s+(?:{[^}]+}|[^,\s]+)?\s*(?:,\s*{[^}]+})?\s+from\s+['"]([^'"]+)['"]/`
at the current position.  After the literal `import` and mandatory
whitespace comes the optional binding clause; between the binding clause
(or its comma group) and `from` at least one whitespace character is
required in total, and after `from` at least one more; the specifier is a
quoted capture. -/
def importMatchAt (s : Str) : Option (Str × Str) :=
  match dropLit ("import").data s with
  | none => none
  | some t =>
    if t.takeWhile isWs = [] then none
    else
      let t := importBinding (t.dropWhile isWs)
      let ws := t.takeWhile isWs
      let afterWs := t.dropWhile isWs
      let cont : Option Str :=
        match importCommaGroup afterWs with
        | some t2 => if t2.takeWhile isWs = [] then none else some (t2.dropWhile isWs)
        | none => if ws = [] then none else some afterWs
      match cont with
      | none => none
      | some t2 =>
        match dropLit ("from").data t2 with
        | none => none
        | some t3 =>
          if t3.takeWhile isWs = [] then none
          else quotedSpec (t3.dropWhile isWs)

/-- All captures of the global `importRegex` scan, in text order. -/
def scanImportsAux : Nat → Str → List Str
  | 0, _ => []
  | fuel + 1, s =>
    match importMatchAt s with
    | some (spec, rest) => spec :: scanImportsAux fuel rest
    | none =>
      match s with
      | [] => []
      | _ :: rest => scanImportsAux fuel rest

def scanImports (s : Str) : List Str := scanImportsAux s.length s

/-- JS `Set.add` (insertion-ordered, deduplicating). -/
def addUnique {α : Type} [DecidableEq α] (x : α) (l : List α) : List α :=
  if x ∈ l then l else l ++ [x]

/-- The result record of `transformJSX`. -/
structure TransformResult : Type where
  code : Str
  error : Option Str
  missingImports : List Str
  cssImports : List Str
deriving DecidableEq

/-- The Babel oracle: `Babel.transform` (with the file-name–dependent preset
selection) applied to the preprocessed source; throwing is modelled by
`Except.error` with the error message. -/
abbrev Compile := Str → Str → Except Str Str

/-- `transformJSX`.  (The `existingFiles` parameter of the source is unused
there and omitted here.)  CSS imports are collected and removed from the
text before compilation; every other import-statement specifier found by the
textual scan is collected unless it ends in `.css`. -/
def transformJSX (babel : Compile) (code filename : Str) : TransformResult :=
  match babel filename (stripCss code) with
  | .ok out =>
    { code := out, error := none,
      missingImports := (scanImports code).foldl
        (fun acc i => if ¬ (".css").data.isSuffixOf i then addUnique i acc else acc) [],
      cssImports := (scanCss code).foldl (fun acc i => addUnique i acc) [] }
  | .error e =>
    { code := [], error := some e, missingImports := [], cssImports := [] }

/-- A value of the resolution map: an external URL or a blob URL carrying the
code it was created from (`URL.createObjectURL` yields an opaque fresh
reference to exactly that code). -/
inductive Ref : Type
  | url (u : Str)
  | blob (code : Str)
deriving DecidableEq

/-- `createPlaceholderModule`. -/
def createPlaceholderModule (componentName : Str) : Str :=
  ("\nimport React from \x27react\x27;\nconst ").data ++ componentName ++
    (" = function() \x7b\n  return React.createElement(\x27div\x27, \x7b\x7d, null);\n\x7d\nexport default ").data ++
    componentName ++ (";\nexport \x7b ").data ++ componentName ++ (" \x7d;\n").data

/-- `https://esm.sh/` external package reference. -/
def esmUrl (imp : Str) : Str := ("https://esm.sh/").data ++ imp

/-- The pre-registered React entries of the import map. -/
def initialImports : List (Str × Ref) :=
  [(("react").data, .url (("https://esm.sh/react@19").data)),
   (("react-dom").data, .url (("https://esm.sh/react-dom@19").data)),
   (("react-dom/client").data, .url (("https://esm.sh/react-dom@19/client").data)),
   (("react/jsx-runtime").data, .url (("https://esm.sh/react@19/jsx-runtime").data)),
   (("react/jsx-dev-runtime").data, .url (("https://esm.sh/react@19/jsx-dev-runtime").data))]

/-- Script-file classification by extension. -/
def isScriptPath (p : Str) : Bool :=
  (".js").data.isSuffixOf p ∨ (".jsx").data.isSuffixOf p ∨
    (".ts").data.isSuffixOf p ∨ (".tsx").data.isSuffixOf p

/-- `path.replace(/\.(jsx?|tsx?)$/, "")`. -/
def stripExt (p : Str) : Str :=
  if (".jsx").data.isSuffixOf p then p.take (p.length - 4)
  else if (".tsx").data.isSuffixOf p then p.take (p.length - 4)
  else if (".js").data.isSuffixOf p then p.take (p.length - 3)
  else if (".ts").data.isSuffixOf p then p.take (p.length - 3)
  else p

/-- Third-party package test: no `.`/`/`/`@/` specifier head. -/
def isPackage (imp : Str) : Bool :=
  ¬ (imp.head? = some '.') ∧ ¬ (imp.head? = some '/') ∧ ¬ (("@/").data.isPrefixOf imp)

/-- JS `String.replace` with a string pattern: replace the first occurrence
only. -/
def replaceFirstAux (pat rep : Str) : Nat → Str → Str
  | 0, s => s
  | _ + 1, [] => []
  | fuel + 1, c :: rest =>
    if pat.isPrefixOf (c :: rest) then rep ++ (c :: rest).drop pat.length
    else c :: replaceFirstAux pat rep fuel rest

def replaceFirst (pat rep s : Str) : Str :=
  if pat = [] then rep ++ s else replaceFirstAux pat rep s.length s

/-- `importPath.match(/\/([^\/]+)$/)`-based component naming, with the
alphanumeric fallback. -/
def componentNameOf (p : Str) : Str :=
  let tail := (p.reverse.takeWhile (· ≠ '/')).reverse
  if ('/' ∈ p) ∧ tail ≠ [] then tail
  else p.filter (fun c => c.isAlphanum)

/-- Accumulator of `createImportMap`'s first pass over the snapshot. -/
structure PassState : Type where
  imports : List (Str × Ref)
  allImports : List Str
  allCss : List (Str × Str)
  styles : Str
  errors : List (Str × Str)
deriving DecidableEq

/-- The import-collection loop of the first pass: third-party packages are
registered directly against the esm.sh template; local specifiers are queued
in `allImports` for the second pass. -/
def collectImports (l : List Str) (st : PassState) : PassState :=
  l.foldl
    (fun st imp =>
      if isPackage imp then
        { st with imports := setA imp (Ref.url (esmUrl imp)) st.imports }
      else { st with allImports := addUnique imp st.allImports }) st

/-- The key registrations for one compiled file, for one spelling `q` of the
path `p` (the path itself, then the extension-stripped form): the key as
written; and, when the path is root-absolute, the form without the leading
slash and both alias-prefixed forms — in source order. -/
def regKeys (p q : Str) (b : Ref) (m : List (Str × Ref)) : List (Str × Ref) :=
  if p.head? = some '/' then
    setA (("@/").data ++ q.drop 1) b (setA ('@' :: q) b (setA (q.drop 1) b (setA q b m)))
  else setA q b m

/-- The per-file body of `createImportMap`'s first pass.  (The write-only
`transformedFiles` map of the source is omitted.) -/
def firstPassStep (babel : Compile) (st : PassState) (e : Str × Str) : PassState :=
  if isScriptPath e.1 then
    match (transformJSX babel e.2 e.1).error with
    | some err => { st with errors := st.errors ++ [(e.1, err)] }
    | none =>
      { imports :=
          regKeys e.1 (stripExt e.1) (Ref.blob (transformJSX babel e.2 e.1).code)
            (regKeys e.1 e.1 (Ref.blob (transformJSX babel e.2 e.1).code)
              (collectImports (transformJSX babel e.2 e.1).missingImports st).imports),
        allImports := (collectImports (transformJSX babel e.2 e.1).missingImports st).allImports,
        allCss := (collectImports (transformJSX babel e.2 e.1).missingImports st).allCss ++
          (transformJSX babel e.2 e.1).cssImports.map (fun c => (e.1, c)),
        styles := (collectImports (transformJSX babel e.2 e.1).missingImports st).styles,
        errors := (collectImports (transformJSX babel e.2 e.1).missingImports st).errors }
  else if (".css").data.isSuffixOf e.1 then
    { st with styles := st.styles ++ ("/* ").data ++ e.1 ++ (" */\n").data ++
        e.2 ++ ("\n\n").data }
  else st

/-- `from.substring(0, from.lastIndexOf("/"))` (empty when there is no
slash, as in JS where `substring(0, -1)` clamps to the empty string). -/
def dirOf (p : Str) : Str :=
  ((p.reverse.dropWhile (· ≠ '/')).drop 1).reverse

/-- `resolveRelativePath`. -/
def resolveRelativePath (fromDir rel : Str) : Str :=
  let parts := (splitSlash fromDir).filter (· ≠ [])
  let parts := (splitSlash rel).foldl
    (fun ps part =>
      if part = ("..").data then ps.dropLast
      else if part ≠ (".").data then ps ++ [part]
      else ps) parts
  '/' :: joinSlash parts

/-- Resolution of a stylesheet-import specifier against the importing file's
directory (alias-rooted, relative, or as written). -/
def cssResolve (fromPath cssPath : Str) : Str :=
  if ("@/").data.isPrefixOf cssPath then replaceFirst ("@/").data ("/").data cssPath
  else if ("./").data.isPrefixOf cssPath ∨ ("../").data.isPrefixOf cssPath then
    resolveRelativePath (dirOf fromPath) cssPath
  else cssPath

/-- The per-entry body of the CSS-import resolution pass: only the styles
blob can change (a "not found" marker is appended when the resolved path is
not in the snapshot). -/
def cssPassStep (files : List (Str × Str)) (st : PassState) (e : Str × Str) : PassState :=
  if hasA (cssResolve e.1 e.2) files then st
  else { st with styles := st.styles ++ ("/* ").data ++ e.2 ++ (" not found */\n").data }

/-- The `variations` list probed for a local import. -/
def variationsOf (importPath : Str) : List Str :=
  let rewritten := replaceFirst ("@/").data ("/").data importPath
  [importPath, importPath ++ (".jsx").data, importPath ++ (".tsx").data,
   importPath ++ (".js").data, importPath ++ (".ts").data,
   rewritten, rewritten ++ (".jsx").data, rewritten ++ (".tsx").data]

/-- The per-import body of `createImportMap`'s second pass (placeholder
synthesis).  Branches in source order: already registered or a `react`
specifier; a third-party package; some accepted variant already registered
or present in the snapshot; otherwise a placeholder registered under the
specifier and (for `@/` aliases) its rewritten forms. -/
def secondPassStep (files : List (Str × Str)) (imports : List (Str × Ref))
    (importPath : Str) : List (Str × Ref) :=
  if (getA importPath imports).isSome ∨ ("react").data.isPrefixOf importPath then imports
  else if isPackage importPath then setA importPath (.url (esmUrl importPath)) imports
  else if (variationsOf importPath).any
      (fun v => (getA v imports).isSome ∨ hasA v files) then imports
  else if ("@/").data.isPrefixOf importPath then
    setA (replaceFirst ("@/").data [] importPath)
      (Ref.blob (createPlaceholderModule (componentNameOf importPath)))
      (setA (replaceFirst ("@/").data ("/").data importPath)
        (Ref.blob (createPlaceholderModule (componentNameOf importPath)))
        (setA importPath
          (Ref.blob (createPlaceholderModule (componentNameOf importPath))) imports))
  else
    setA importPath
      (Ref.blob (createPlaceholderModule (componentNameOf importPath))) imports

/-- The result of `createImportMap`.  The source serializes `imports` with
`JSON.stringify`; the claims are about the map's contents, so the map itself
is returned. -/
structure ImportMapResult : Type where
  imports : List (Str × Ref)
  styles : Str
  errors : List (Str × Str)
deriving DecidableEq

/-- The accumulator at the start of the first pass. -/
def initialPassState : PassState :=
  { imports := initialImports, allImports := [], allCss := [], styles := [], errors := [] }

/-- The state after the first pass over the snapshot. -/
def firstPass (babel : Compile) (files : List (Str × Str)) : PassState :=
  files.foldl (firstPassStep babel) initialPassState

/-- The local import specifiers collected from the successfully compiled
files of the snapshot (`allImports`; package specifiers are registered
directly and never enter this set). -/
def collectedLocalImports (babel : Compile) (files : List (Str × Str)) : List Str :=
  (firstPass babel files).allImports

/-- The accumulator after the CSS-import resolution pass. -/
def cssPassState (babel : Compile) (files : List (Str × Str)) : PassState :=
  (firstPass babel files).allCss.foldl (cssPassStep files) (firstPass babel files)

/-- `createImportMap`, over a path→content snapshot in iteration order. -/
def createImportMap (babel : Compile) (files : List (Str × Str)) : ImportMapResult :=
  { imports := (cssPassState babel files).allImports.foldl (secondPassStep files)
      (cssPassState babel files).imports,
    styles := (cssPassState babel files).styles,
    errors := (cssPassState babel files).errors }

/-- The error entries contributed by one snapshot entry: a singleton for a
script file whose transform fails, nothing otherwise. -/
def errOf (babel : Compile) (e : Str × Str) : List (Str × Str) :=
  if isScriptPath e.1 then
    match (transformJSX babel e.2 e.1).error with
    | some err => [(e.1, err)]
    | none => []
  else []

/-- The specifier keys registered for a compiled file at a root-absolute
path: absolute, without the leading slash, alias-prefixed, and each of these
extension-stripped. -/
def pathDerivedKeys (p : Str) : List Str :=
  [p, p.drop 1, '@' :: p, ("@/").data ++ p.drop 1,
   stripExt p, (stripExt p).drop 1, '@' :: stripExt p, ("@/").data ++ (stripExt p).drop 1]

/-- Provenance of a blob's code: the compiled output of a successfully
transformed snapshot file, or a synthesized placeholder module. -/
def BlobSrc (babel : Compile) (files : List (Str × Str)) (b : Str) : Prop :=
  (∃ p c, (p, c) ∈ files ∧ (transformJSX babel c p).error = none ∧
    b = (transformJSX babel c p).code) ∨
  ∃ nm, b = createPlaceholderModule nm

/-- Every blob value in a resolution map has a provenance. -/
def ProvOk (babel : Compile) (files : List (Str × Str)) (m : List (Str × Ref)) : Prop :=
  ∀ k b, getA k m = some (.blob b) → BlobSrc babel files b

/-! ### `createPreviewHTML`

The template is the source's template literal split at its interpolation
points; the static chunks below are its exact text.  The `JSON.parse` used
to resolve the entry point's blob URL is a platform builtin and is modelled
by an oracle parameter. -/

/-- Template chunk of `createPreviewHTML`. -/
def previewT1 : Str := ("<!DOCTYPE html>\n<html lang=\x22en\x22>\n<head>\n  <meta charset=\x22UTF-8\x22>\n  <meta name=\x22viewport\x22 content=\x22width=device-width, initial-scale=1.0\x22>\n  <title>Preview</title>\n  <script src=\x22https://cdn.tailwindcss.com\x22></script>\n  <style>\n    body \x7b\n      margin: 0;\n      padding: 0;\n      font-family: -apple-system, BlinkMacSystemFont, \x27Segoe UI\x27, Roboto, sans-serif;\n    \x7d\n    #root \x7b\n      width: 100vw;\n      height: 100vh;\n    \x7d\n    .error-boundary \x7b\n      color: red;\n      padding: 1rem;\n      border: 2px solid red;\n      margin: 1rem;\n      border-radius: 4px;\n      background: #fee;\n    \x7d\n    .syntax-errors \x7b\n      background: #fef5f5;\n      border: 2px solid #ff6b6b;\n      border-radius: 12px;\n      padding: 32px;\n      margin: 24px;\n      font-family: \x27SF Mono\x27, Monaco, Consolas, \x27Courier New\x27, monospace;\n      font-size: 14px;\n      box-shadow: 0 4px 6px rgba(0, 0, 0, 0.1);\n    \x7d\n    .syntax-errors h3 \x7b\n      color: #dc2626;\n      margin: 0 0 20px 0;\n      font-size: 18px;\n      font-weight: 600;\n      display: flex;\n      align-items: center;\n      gap: 8px;\n    \x7d\n    .syntax-errors .error-item \x7b\n      margin: 16px 0;\n      padding: 16px;\n      background: #fff;\n      border-radius: 8px;\n      border-left: 4px solid #ff6b6b;\n      box-shadow: 0 2px 4px rgba(0, 0, 0, 0.05);\n    \x7d\n    .syntax-errors .error-path \x7b\n      font-weight: 600;\n      color: #991b1b;\n      font-size: 15px;\n      margin-bottom: 8px;\n    \x7d\n    .syntax-errors .error-message \x7b\n      color: #7c2d12;\n      margin-top: 8px;\n      white-space: pre-wrap;\n      line-height: 1.5;\n      font-size: 13px;\n    \x7d\n    .syntax-errors .error-location \x7b\n      display: inline-block;\n      background: #fee0e0;\n      padding: 2px 6px;\n      border-radius: 4px;\n      font-size: 12px;\n      margin-left: 8px;\n      color: #991b1b;\n    \x7d\n  </style>\n  ").data

/-- Template chunk of `createPreviewHTML`. -/
def previewT2 : Str := ("\n  <script type=\x22importmap\x22>\n    ").data

/-- Template chunk of `createPreviewHTML`. -/
def previewT3 : Str := ("\n  </script>\n</head>\n<body>\n  ").data

/-- Template chunk of `createPreviewHTML`. -/
def previewT4 : Str := ("\n  <div id=\x22root\x22></div>\n  ").data

/-- Template chunk of `createPreviewHTML`. -/
def previewT5 : Str := ("\n</body>\n</html>").data

/-- Template chunk of `createPreviewHTML`. -/
def bannerB1 : Str := ("\n    <div class=\x22syntax-errors\x22>\n      <h3>\n        <svg width=\x2220\x22 height=\x2220\x22 viewBox=\x220 0 20 20\x22 fill=\x22none\x22 style=\x22flex-shrink: 0;\x22>\n          <path d=\x22M10 0C4.48 0 0 4.48 0 10s4.48 10 10 10 10-4.48 10-10S15.52 0 10 0zm1 15h-2v-2h2v2zm0-4h-2V5h2v6z\x22 fill=\x22#dc2626\x22/>\n        </svg>\n        Syntax Error").data

/-- Template chunk of `createPreviewHTML`. -/
def bannerB2 : Str := (" (").data

/-- Template chunk of `createPreviewHTML`. -/
def bannerB3 : Str := (")\n      </h3>\n      ").data

/-- Template chunk of `createPreviewHTML`. -/
def bannerB4 : Str := ("\n    </div>\n  ").data

/-- Template chunk of `createPreviewHTML`. -/
def itemI1 : Str := ("\n        <div class=\x22error-item\x22>\n          <div class=\x22error-path\x22>\n            ").data

/-- Template chunk of `createPreviewHTML`. -/
def itemI2 : Str := ("\n            ").data

/-- Template chunk of `createPreviewHTML`. -/
def itemI3 : Str := ("\n          </div>\n          <div class=\x22error-message\x22>").data

/-- Template chunk of `createPreviewHTML`. -/
def itemI4 : Str := ("</div>\n        </div>\n      ").data

/-- Template chunk of `createPreviewHTML`. -/
def loaderL1 : Str := ("<script type=\x22module\x22>\n    import React from \x27react\x27;\n    import ReactDOM from \x27react-dom/client\x27;\n    \n    class ErrorBoundary extends React.Component \x7b\n      constructor(props) \x7b\n        super(props);\n        this.state = \x7b hasError: false, error: null \x7d;\n      \x7d\n\n      static getDerivedStateFromError(error) \x7b\n        return \x7b hasError: true, error \x7d;\n      \x7d\n\n      componentDidCatch(error, errorInfo) \x7b\n        console.error(\x27Error caught by boundary:\x27, error, errorInfo);\n      \x7d\n\n      render() \x7b\n        if (this.state.hasError) \x7b\n          return React.createElement(\x27div\x27, \x7b className: \x27error-boundary\x27 \x7d,\n            React.createElement(\x27h2\x27, null, \x27Something went wrong\x27),\n            React.createElement(\x27pre\x27, null, this.state.error?.toString())\n          );\n        \x7d\n\n        return this.props.children;\n      \x7d\n    \x7d\n\n    async function loadApp() \x7b\n      try \x7b\n        const module = await import(\x27").data

/-- Template chunk of `createPreviewHTML`. -/
def loaderL2 : Str := ("\x27);\n        const App = module.default || module.App;\n        \n        if (!App) \x7b\n          throw new Error(\x27No default export or App export found in ").data

/-- Template chunk of `createPreviewHTML`. -/
def loaderL3 : Str := ("\x27);\n        \x7d\n\n        const root = ReactDOM.createRoot(document.getElementById(\x27root\x27));\n        root.render(\n          React.createElement(ErrorBoundary, null,\n            React.createElement(App)\n          )\n        );\n      \x7d catch (error) \x7b\n        console.error(\x27Failed to load app:\x27, error);\n        console.error(\x27Import map:\x27, ").data

/-- Template chunk of `createPreviewHTML`. -/
def loaderL4 : Str := (");\n        document.getElementById(\x27root\x27).innerHTML = \x27<div class=\x22error-boundary\x22><h2>Failed to load app</h2><pre>\x27 + error.toString() + \x27</pre></div>\x27;\n      \x7d\n    \x7d\n\n    loadApp();\n  </script>").data

/-- One attempt of `/\\((\\d+:\\d+)\\)/` at the current position: a
parenthesised `line:column` pair.  Returns the capture and the rest. -/
def locTryAt (s : Str) : Option (Str × Str) :=
  match s with
  | '(' :: t =>
    let d1 := t.takeWhile Char.isDigit
    if d1 = [] then none
    else
      match t.drop d1.length with
      | ':' :: t2 =>
        let d2 := t2.takeWhile Char.isDigit
        if d2 = [] then none
        else
          match t2.drop d2.length with
          | ')' :: t3 => some (d1 ++ ':' :: d2, t3)
          | _ => none
      | _ => none
  | _ => none

/-- First match of the location pattern: the text before the matched span,
the capture, and the text after (used for both `match` and the
first-occurrence `replace`). -/
def firstLocAux : Nat → Str → Option (Str × Str × Str)
  | 0, _ => none
  | _ + 1, [] => none
  | fuel + 1, c :: rest =>
    match locTryAt (c :: rest) with
    | some (cap, after) => some ([], cap, after)
    | none =>
      match firstLocAux fuel rest with
      | some (b, cap, a) => some (c :: b, cap, a)
      | none => none

def firstLoc (s : Str) : Option (Str × Str × Str) := firstLocAux s.length s

/-- JS `String.trim`. -/
def jsTrim (s : Str) : Str := ((s.dropWhile isWs).reverse.dropWhile isWs).reverse

/-- `.replace(/</g, '&lt;').replace(/>/g, '&gt;')`. -/
def escLtGt (s : Str) : Str :=
  s.foldr
    (fun c acc =>
      (if c = '<' then ("&lt;").data else if c = '>' then ("&gt;").data else [c]) ++ acc) []

/-- The extracted `line:column` of an error message (empty when absent). -/
def errorLocation (err : Str) : Str :=
  match firstLoc err with
  | some x => x.2.1
  | none => []

/-- The cleaned error message: first location span removed, trimmed, with
`<`/`>` HTML-escaped. -/
def cleanedError (err : Str) : Str :=
  escLtGt (jsTrim (match firstLoc err with
    | some (b, _, a) => b ++ a
    | none => err))

/-- One `error-item` block of the banner. -/
def errorItemHTML (e : Str × Str) : Str :=
  let location := errorLocation e.2
  itemI1 ++ e.1 ++ itemI2 ++
    (if location ≠ [] then
      ("<span class=\x22error-location\x22>").data ++ location ++ ("</span>").data
    else []) ++
    itemI3 ++ cleanedError e.2 ++ itemI4

/-- The `syntax-errors` banner (the non-empty-errors branch). -/
def bannerHTML (errors : List (Str × Str)) : Str :=
  bannerB1 ++ (if 1 < errors.length then [ 's' ] else []) ++ bannerB2 ++
    natToStr errors.length ++ bannerB3 ++
    (errors.map errorItemHTML).flatten ++ bannerB4

/-- JSON string quoting of `JSON.stringify` applied to a string (the common
escapes; other control characters do not occur in the inputs considered). -/
def jsonQuote (s : Str) : Str :=
  '\x22' :: s.foldr
    (fun c acc =>
      (if c = '\x22' then ('\\' :: ['\x22'])
       else if c = '\\' then ('\\' :: ['\\'])
       else if c = '\n' then ('\\' :: ['n'])
       else if c = '\r' then ('\\' :: ['r'])
       else if c = '\t' then ('\\' :: ['t'])
       else [c]) ++ acc) ['\x22']

/-- The module-loading bootstrap script (the empty-errors branch). -/
def loaderHTML (entryPointUrl entryPoint importMap : Str) : Str :=
  loaderL1 ++ entryPointUrl ++ loaderL2 ++ entryPoint ++ loaderL3 ++
    jsonQuote importMap ++ loaderL4

/-- The entry-point resolution at the top of `createPreviewHTML`:
`jsonImports im key` models `JSON.parse(im).imports[key]` (with `none` for a
parse failure or a missing property; a falsy — empty — value is also
ignored, as in the source). -/
def resolvedEntryUrl (jsonImports : Str → Str → Option Str)
    (entryPoint importMap : Str) : Str :=
  match jsonImports importMap entryPoint with
  | some u => if u ≠ [] then u else entryPoint
  | none => entryPoint

/-- `createPreviewHTML`. -/
def createPreviewHTML (jsonImports : Str → Str → Option Str)
    (entryPoint importMap styles : Str) (errors : List (Str × Str)) : Str :=
  previewT1 ++
    (if styles ≠ [] then ("<style>\n").data ++ styles ++ ("</style>").data else []) ++
    previewT2 ++ importMap ++ previewT3 ++
    (if 0 < errors.length then bannerHTML errors else []) ++
    previewT4 ++
    (if errors.length = 0 then
      loaderHTML (resolvedEntryUrl jsonImports entryPoint importMap) entryPoint importMap
    else []) ++
    previewT5

/-! ### Helper lemmas -/

/-! #### Association lists, continued -/

theorem getA_eq_some_mem {α β : Type} [DecidableEq α] {k : α} {v : β} {l : List (α × β)}
    (h : getA k l = some v) : (k, v) ∈ l := by
  induction l with
  | nil => exact absurd h (by simp [getA])
  | cons e rest ih =>
    obtain ⟨k', v'⟩ := e
    by_cases hk : k' = k
    · subst hk
      rw [getA, if_pos rfl] at h
      injection h with h
      subst h
      exact List.mem_cons_self _ _
    · rw [getA, if_neg hk] at h
      exact List.mem_cons_of_mem _ (ih h)

theorem mem_getA_eq_some {α β : Type} [DecidableEq α] {k : α} {v : β} {l : List (α × β)}
    (hn : (keysA l).Nodup) (h : (k, v) ∈ l) : getA k l = some v := by
  induction l with
  | nil => cases h
  | cons e rest ih =>
    obtain ⟨k', v'⟩ := e
    simp only [keysA, List.map_cons, List.nodup_cons] at hn
    rcases List.mem_cons.mp h with he | hm
    · cases he
      rw [getA, if_pos rfl]
    · have hk : k' ≠ k := by
        intro hkk
        subst hkk
        have hmem : (k', v).1 ∈ List.map Prod.fst rest := List.mem_map_of_mem Prod.fst hm
        exact hn.1 hmem
      rw [getA, if_neg hk]
      exact ih hn.2 hm

theorem getA_mem_keysA {α β : Type} [DecidableEq α] {k : α} {v : β} {l : List (α × β)}
    (h : getA k l = some v) : k ∈ keysA l := by
  have hmem : (k, v).1 ∈ List.map Prod.fst l :=
    List.mem_map_of_mem Prod.fst (getA_eq_some_mem h)
  exact hmem

theorem mem_keysA_getA {α β : Type} [DecidableEq α] {k : α} {l : List (α × β)}
    (h : k ∈ keysA l) : ∃ v, getA k l = some v := by
  induction l with
  | nil => simp [keysA] at h
  | cons e rest ih =>
    obtain ⟨k', v'⟩ := e
    by_cases hk : k' = k
    · exact ⟨v', by rw [getA, if_pos hk]⟩
    · rw [getA, if_neg hk]
      refine ih ?_
      simp only [keysA, List.map_cons, List.mem_cons] at h
      rcases h with h | h
      · exact absurd h.symm hk
      · exact h

theorem getA_none_not_mem {α β : Type} [DecidableEq α] {k : α} {l : List (α × β)}
    (h : getA k l = none) : k ∉ keysA l := by
  intro hm
  obtain ⟨v, hv⟩ := mem_keysA_getA hm
  rw [h] at hv
  exact Option.noConfusion hv

theorem getA_delA_self {α β : Type} [DecidableEq α] {k : α} {l : List (α × β)}
    (hn : (keysA l).Nodup) : getA k (delA k l) = none := by
  induction l with
  | nil => simp [delA, getA]
  | cons e rest ih =>
    obtain ⟨k', v'⟩ := e
    simp only [keysA, List.map_cons, List.nodup_cons] at hn
    by_cases hk : k' = k
    · subst hk
      rw [delA, if_pos rfl]
      rcases hg : getA k' rest with _ | v
      · rfl
      · exact absurd (getA_mem_keysA hg) hn.1
    · rw [delA, if_neg hk, getA, if_neg hk]
      exact ih hn.2

theorem getA_delA_ne {α β : Type} [DecidableEq α] {k k' : α} {l : List (α × β)}
    (hk : k' ≠ k) : getA k' (delA k l) = getA k' l := by
  induction l with
  | nil => rfl
  | cons e rest ih =>
    obtain ⟨a, b⟩ := e
    by_cases ha : a = k
    · subst ha
      rw [delA, if_pos rfl, getA, if_neg (fun h => hk h.symm)]
    · rw [delA, if_neg ha]
      by_cases ha' : a = k'
      · rw [getA, if_pos ha', getA, if_pos ha']
      · rw [getA, if_neg ha', getA, if_neg ha']
        exact ih

theorem keysA_delA_subset {α β : Type} [DecidableEq α] (k : α) (l : List (α × β)) :
    keysA (delA k l) ⊆ keysA l := by
  induction l with
  | nil => simp [delA]
  | cons e rest ih =>
    obtain ⟨a, b⟩ := e
    by_cases ha : a = k
    · rw [delA, if_pos ha]
      exact fun x hx => List.mem_cons_of_mem _ hx
    · rw [delA, if_neg ha]
      intro x hx
      rcases List.mem_cons.mp hx with h | h
      · exact List.mem_cons.mpr (Or.inl h)
      · exact List.mem_cons_of_mem _ (ih h)

theorem keysA_delA_nodup {α β : Type} [DecidableEq α] (k : α) {l : List (α × β)}
    (hn : (keysA l).Nodup) : (keysA (delA k l)).Nodup := by
  induction l with
  | nil => simpa [delA] using hn
  | cons e rest ih =>
    obtain ⟨a, b⟩ := e
    simp only [keysA, List.map_cons, List.nodup_cons] at hn
    by_cases ha : a = k
    · rw [delA, if_pos ha]
      exact hn.2
    · rw [delA, if_neg ha]
      refine List.nodup_cons.mpr ⟨fun hm => hn.1 (keysA_delA_subset k rest hm), ih hn.2⟩

theorem mem_keysA_setA {α β : Type} [DecidableEq α] {x k : α} (v : β) (l : List (α × β)) :
    x ∈ keysA (setA k v l) ↔ x = k ∨ x ∈ keysA l := by
  induction l with
  | nil => simp [setA, keysA]
  | cons e rest ih =>
    obtain ⟨a, b⟩ := e
    by_cases ha : a = k
    · subst ha
      rw [setA, if_pos rfl]
      simp [keysA]
    · rw [setA, if_neg ha]
      simp only [keysA, List.map_cons, List.mem_cons] at ih ⊢
      constructor
      · rintro (h | h)
        · exact Or.inr (Or.inl h)
        · rcases ih.mp h with h' | h'
          · exact Or.inl h'
          · exact Or.inr (Or.inr h')
      · rintro (h | h | h)
        · exact Or.inr (ih.mpr (Or.inl h))
        · exact Or.inl h
        · exact Or.inr (ih.mpr (Or.inr h))

theorem keysA_setA_nodup {α β : Type} [DecidableEq α] (k : α) (v : β) {l : List (α × β)}
    (hn : (keysA l).Nodup) : (keysA (setA k v l)).Nodup := by
  induction l with
  | nil => simp [setA, keysA]
  | cons e rest ih =>
    obtain ⟨a, b⟩ := e
    simp only [keysA, List.map_cons, List.nodup_cons] at hn
    by_cases ha : a = k
    · subst ha
      rw [setA, if_pos rfl]
      exact List.nodup_cons.mpr ⟨hn.1, hn.2⟩
    · rw [setA, if_neg ha]
      refine List.nodup_cons.mpr ⟨?_, ih hn.2⟩
      intro hm
      rcases (mem_keysA_setA v rest).mp hm with h | h
      · exact ha h
      · exact hn.1 h

theorem getA_singleton {α β : Type} [DecidableEq α] (k k' : α) (v : β) :
    getA k' [(k, v)] = if k = k' then some v else none := by
  by_cases h : k = k'
  · rw [getA, if_pos h, if_pos h]
  · rw [getA, if_neg h, if_neg h]
    rfl

theorem getA_setA_self {α β : Type} [DecidableEq α] (k : α) (v : β) (l : List (α × β)) :
    getA k (setA k v l) = some v := by
  induction l with
  | nil => simp [getA, setA]
  | cons e rest ih =>
    obtain ⟨k', v'⟩ := e
    by_cases h : k' = k
    · simp [getA, setA, h]
    · simp [getA, setA, h, ih]


theorem getA_setA_ne {α β : Type} [DecidableEq α] {k k' : α} (v : β) (l : List (α × β))
    (h : k' ≠ k) : getA k (setA k' v l) = getA k l := by
  induction l with
  | nil => simp [getA, setA, h]
  | cons e rest ih =>
    obtain ⟨a, b⟩ := e
    show getA k (if a = k' then (k', v) :: rest else (a, b) :: setA k' v rest)
      = getA k ((a, b) :: rest)
    by_cases ha : a = k'
    · rw [if_pos ha]
      show (if k' = k then some v else getA k rest) = getA k ((a, b) :: rest)
      rw [if_neg h]
      show getA k rest = (if a = k then some b else getA k rest)
      rw [if_neg (by rw [ha]; exact h)]
    · rw [if_neg ha]
      show (if a = k then some b else getA k (setA k' v rest))
        = (if a = k then some b else getA k rest)
      rw [ih]


theorem getA_setA {α β : Type} [DecidableEq α] (k k' : α) (v : β) (l : List (α × β)) :
    getA k (setA k' v l) = if k' = k then some v else getA k l := by
  by_cases h : k' = k
  · subst h
    rw [if_pos rfl, getA_setA_self]
  · rw [if_neg h, getA_setA_ne v l h]


/-! #### Path lemmas -/

theorem hasDbl_cons_false {c d : Char} {t : Str} :
    hasDbl (c :: d :: t) = false ↔ ¬(c = '/' ∧ d = '/') ∧ hasDbl (d :: t) = false := by
  rw [hasDbl]
  by_cases h1 : c = '/' ∧ d = '/'
  · simp [h1]
  · simp [h1]

theorem collapseSlashes_head (p : Str) : (collapseSlashes p).head? = p.head? := by
  induction p with
  | nil => rfl
  | cons c rest ih =>
    cases rest with
    | nil => rfl
    | cons d t =>
      by_cases h : c = '/' ∧ d = '/'
      · rw [collapseSlashes, if_pos h, ih]
        simp [h.1, h.2]
      · rw [collapseSlashes, if_neg h]
        rfl

theorem hasDbl_collapseSlashes (p : Str) : hasDbl (collapseSlashes p) = false := by
  induction p with
  | nil => rfl
  | cons c rest ih =>
    cases rest with
    | nil => rfl
    | cons d t =>
      by_cases h : c = '/' ∧ d = '/'
      · rw [collapseSlashes, if_pos h]
        exact ih
      · rw [collapseSlashes, if_neg h]
        rcases hc : collapseSlashes (d :: t) with _ | ⟨e, u⟩
        · rfl
        · have h2 := collapseSlashes_head (d :: t)
          rw [hc] at h2
          have he : e = d := by
            rw [List.head?_cons, List.head?_cons] at h2
            injection h2
          rw [hc] at ih
          refine hasDbl_cons_false.mpr ⟨?_, ih⟩
          intro hcd
          exact h ⟨hcd.1, he ▸ hcd.2⟩

theorem collapseSlashes_of_noDbl {p : Str} (h : hasDbl p = false) :
    collapseSlashes p = p := by
  induction p with
  | nil => rfl
  | cons c rest ih =>
    cases rest with
    | nil => rfl
    | cons d t =>
      obtain ⟨h1, h2⟩ := hasDbl_cons_false.mp h
      rw [collapseSlashes, if_neg h1, ih h2]

theorem normalizePath_of_pathOk {p : Str} (h : pathOk p) : normalizePath p = p := by
  obtain ⟨hh, hd, hl⟩ := h
  rcases hl with hr | hl
  · subst hr
    rfl
  · simp only [normalizePath]
    rw [if_pos hh]
    rw [if_neg (fun hc => hl hc.2)]
    exact collapseSlashes_of_noDbl hd

theorem pathOk_root : pathOk ['/'] := ⟨rfl, rfl, Or.inl rfl⟩

theorem hasDbl_of_noSlash {l : Str} (h : '/' ∉ l) : hasDbl l = false := by
  induction l with
  | nil => rfl
  | cons c rest ih =>
    cases rest with
    | nil => rfl
    | cons d t =>
      refine hasDbl_cons_false.mpr ⟨?_, ih (fun hm => h (List.mem_cons_of_mem _ hm))⟩
      intro hcd
      exact h (by simp [hcd.1])

theorem hasDbl_append {xs ys : Str} (hx : hasDbl xs = false) (hy : hasDbl ys = false)
    (hj : ¬ (xs.getLast? = some '/' ∧ ys.head? = some '/')) :
    hasDbl (xs ++ ys) = false := by
  induction xs with
  | nil => simpa using hy
  | cons c rest ih =>
    cases rest with
    | nil =>
      cases ys with
      | nil => rfl
      | cons d t =>
        rw [List.singleton_append]
        refine hasDbl_cons_false.mpr ⟨?_, hy⟩
        intro hcd
        exact hj (by simp [hcd.1, hcd.2])
    | cons d t =>
      obtain ⟨h1, h2⟩ := hasDbl_cons_false.mp hx
      have hj' : ¬ ((d :: t).getLast? = some '/' ∧ ys.head? = some '/') := by
        intro hcc
        exact hj ⟨by rw [List.getLast?_cons_cons]; exact hcc.1, hcc.2⟩
      have ihr := ih h2 hj'
      rw [List.cons_append, List.cons_append]
      rw [List.cons_append] at ihr
      exact hasDbl_cons_false.mpr ⟨h1, ihr⟩

theorem childPath_ne_root {pp n : Str} (hp : pathOk pp) (hn : nameOk n) :
    childPath pp n ≠ ['/'] := by
  rw [childPath]
  by_cases hr : pp = ['/']
  · rw [if_pos hr]
    intro hc
    injection hc with h1 h2
    exact hn.1 h2
  · rw [if_neg hr]
    intro hc
    obtain ⟨hh, _, _⟩ := hp
    cases pp with
    | nil => simp at hh
    | cons a b =>
      rw [List.cons_append] at hc
      injection hc with h1 h2
      simp at h2

theorem getLast?_childPath {pp n : Str} (hn : n ≠ []) :
    (childPath pp n).getLast? = n.getLast? := by
  rw [childPath]
  by_cases hr : pp = ['/']
  · rw [if_pos hr]
    cases n with
    | nil => exact absurd rfl hn
    | cons x y => rw [List.getLast?_cons_cons]
  · rw [if_neg hr]
    rw [List.getLast?_append_cons]
    cases n with
    | nil => exact absurd rfl hn
    | cons x y => rw [List.getLast?_cons_cons]

theorem pathOk_childPath {pp n : Str} (hp : pathOk pp) (hn : nameOk n) :
    pathOk (childPath pp n) := by
  obtain ⟨hh, hd, hl⟩ := hp
  obtain ⟨hne, hns⟩ := hn
  have hnd : hasDbl ('/' :: n) = false := by
    cases n with
    | nil => rfl
    | cons x y =>
      refine hasDbl_cons_false.mpr ⟨?_, hasDbl_of_noSlash hns⟩
      intro hcd
      exact hns (by simp [hcd.2])
  have hlast : n.getLast? ≠ some '/' := by
    intro hc
    exact hns (List.mem_of_mem_getLast? hc)
  refine ⟨?_, ?_, Or.inr ?_⟩
  · rw [childPath]
    by_cases hr : pp = ['/']
    · rw [if_pos hr]
      rfl
    · rw [if_neg hr]
      cases pp with
      | nil => simp at hh
      | cons a b =>
        have ha : a = '/' := by
          rw [List.head?_cons] at hh
          injection hh
        rw [List.cons_append, List.head?_cons, ha]
  · rw [childPath]
    by_cases hr : pp = ['/']
    · rw [if_pos hr]
      exact hnd
    · rw [if_neg hr]
      refine hasDbl_append hd hnd ?_
      intro hc
      rcases hl with hr' | hl'
      · exact hr hr'
      · exact hl' hc.1
  · rw [getLast?_childPath hne]
    exact hlast

theorem hasDbl_append_left {xs ys : Str} (h : hasDbl (xs ++ ys) = false) :
    hasDbl xs = false := by
  induction xs with
  | nil => rfl
  | cons c rest ih =>
    cases rest with
    | nil => rfl
    | cons d t =>
      rw [List.cons_append, List.cons_append] at h
      obtain ⟨h1, h2⟩ := hasDbl_cons_false.mp h
      refine hasDbl_cons_false.mpr ⟨h1, ih ?_⟩
      rw [List.cons_append]
      exact h2

theorem hasDbl_append_junction {xs ys : Str} (h : hasDbl (xs ++ ys) = false)
    (hx : xs.getLast? = some '/') (hy : ys.head? = some '/') : False := by
  induction xs with
  | nil => simp at hx
  | cons c rest ih =>
    cases rest with
    | nil =>
      cases ys with
      | nil => simp at hy
      | cons d t =>
        rw [List.singleton_append] at h
        obtain ⟨h1, _⟩ := hasDbl_cons_false.mp h
        have hc : c = '/' := by simpa using hx
        have hdd : d = '/' := by simpa using hy
        exact h1 ⟨hc, hdd⟩
    | cons d t =>
      rw [List.cons_append, List.cons_append] at h
      obtain ⟨_, h2⟩ := hasDbl_cons_false.mp h
      refine ih ?_ ?_
      · rw [List.cons_append]
        exact h2
      · rw [List.getLast?_cons_cons] at hx
        exact hx

theorem splitSlash_nosep {n : Str} (h : '/' ∉ n) : splitSlash n = [n] := by
  induction n with
  | nil => rfl
  | cons c t ih =>
    have hc : ¬ (c == '/') = true := by
      simp only [beq_iff_eq]
      intro hcc
      exact h (by simp [hcc])
    have ht : List.splitOnP (· == '/') t = [t] :=
      ih (fun hm => h (List.mem_cons_of_mem _ hm))
    show List.splitOnP (· == '/') (c :: t) = [c :: t]
    rw [List.splitOnP_cons, if_neg hc, ht]
    rfl

theorem splitSlash_cons_slash (t : Str) : splitSlash ('/' :: t) = [] :: splitSlash t := by
  show List.splitOnP (· == '/') ('/' :: t) = [] :: List.splitOnP (· == '/') t
  rw [List.splitOnP_cons, if_pos (by simp)]

theorem splitSlash_append_seg {xs n : Str} (h : '/' ∉ n) :
    splitSlash (xs ++ '/' :: n) = splitSlash xs ++ [n] := by
  induction xs with
  | nil =>
    rw [List.nil_append, splitSlash_cons_slash, splitSlash_nosep h]
    rfl
  | cons c t ih =>
    have iht : List.splitOnP (· == '/') (t ++ '/' :: n)
        = List.splitOnP (· == '/') t ++ [n] := ih
    show List.splitOnP (· == '/') ((c :: t) ++ '/' :: n)
        = List.splitOnP (· == '/') (c :: t) ++ [n]
    rw [List.cons_append, List.splitOnP_cons, List.splitOnP_cons, iht]
    by_cases hc : (c == '/') = true
    · rw [if_pos hc, if_pos hc]
      rfl
    · rw [if_neg hc, if_neg hc]
      rcases hsp : List.splitOnP (· == '/') t with _ | ⟨p, ps⟩
      · exact absurd hsp (List.splitOnP_ne_nil _ t)
      · rfl

theorem partsOf_root : partsOf ['/'] = [] := by decide

theorem partsOf_childPath {q n : Str} (hq : pathOk q) (hn : nameOk n) :
    partsOf (childPath q n) = partsOf q ++ [n] := by
  rw [childPath]
  by_cases hr : q = ['/']
  · rw [if_pos hr, hr, partsOf_root]
    show ((splitSlash ('/' :: n)).filter (· ≠ [])) = [] ++ [n]
    rw [splitSlash_cons_slash, splitSlash_nosep hn.2]
    simp [hn.1]
  · rw [if_neg hr]
    show ((splitSlash (q ++ '/' :: n)).filter (· ≠ []))
        = (splitSlash q).filter (· ≠ []) ++ [n]
    rw [splitSlash_append_seg hn.2, List.filter_append]
    simp [hn.1]

theorem getParentPath_childPath {q n : Str} (hq : pathOk q) (hn : nameOk n) :
    getParentPath (childPath q n) = q := by
  simp only [getParentPath]
  rw [normalizePath_of_pathOk (pathOk_childPath hq hn),
    if_neg (childPath_ne_root hq hn)]
  by_cases hr : q = ['/']
  · subst hr
    rw [childPath, if_pos rfl, splitSlash_cons_slash, splitSlash_nosep hn.2]
    rfl
  · rw [childPath, if_neg hr, splitSlash_append_seg hn.2, List.dropLast_concat]
    have hlen : (splitSlash q).length ≠ 1 := by
      obtain ⟨hh, _, _⟩ := hq
      cases q with
      | nil => simp at hh
      | cons a t =>
        have ha : a = '/' := by
          rw [List.head?_cons] at hh
          injection hh
        subst ha
        rw [splitSlash_cons_slash]
        have hne := List.splitOnP_ne_nil (fun c => c == '/') t
        simp only [List.length_cons]
        intro hcon
        have h0 : (splitSlash t).length = 0 := by omega
        exact hne (List.length_eq_zero.mp h0)
    rw [if_neg hlen]
    exact List.intercalate_splitOn q '/'

theorem getFileName_childPath {q n : Str} (hq : pathOk q) (hn : nameOk n) :
    getFileName (childPath q n) = n := by
  simp only [getFileName]
  rw [normalizePath_of_pathOk (pathOk_childPath hq hn),
    if_neg (childPath_ne_root hq hn)]
  by_cases hr : q = ['/']
  · subst hr
    rw [childPath, if_pos rfl, splitSlash_cons_slash, splitSlash_nosep hn.2]
    rfl
  · rw [childPath, if_neg hr, splitSlash_append_seg hn.2, List.getLast?_concat]
    rfl

theorem childPath_inj {q1 n1 q2 n2 : Str} (h1 : pathOk q1) (hn1 : nameOk n1)
    (h2 : pathOk q2) (hn2 : nameOk n2) (he : childPath q1 n1 = childPath q2 n2) :
    q1 = q2 ∧ n1 = n2 := by
  constructor
  · have hq := getParentPath_childPath h1 hn1
    rw [he, getParentPath_childPath h2 hn2] at hq
    exact hq.symm
  · have hf := getFileName_childPath h1 hn1
    rw [he, getFileName_childPath h2 hn2] at hf
    exact hf.symm

theorem last_slash_decomp {t : Str} (h : '/' ∈ t) :
    ∃ t1 n, t = t1 ++ '/' :: n ∧ '/' ∉ n := by
  induction t with
  | nil => cases h
  | cons c rest ih =>
    by_cases hr : '/' ∈ rest
    · obtain ⟨t1, n, he, hn⟩ := ih hr
      exact ⟨c :: t1, n, by rw [List.cons_append, ← he], hn⟩
    · have hc : c = '/' := by
        rcases List.mem_cons.mp h with h' | h'
        · exact h'.symm
        · exact absurd h' hr
      exact ⟨[], rest, by rw [hc]; rfl, hr⟩

theorem pathOk_decomp {p : Str} (hp : pathOk p) (hr : p ≠ ['/']) :
    ∃ q n, pathOk q ∧ nameOk n ∧ p = childPath q n := by
  obtain ⟨hh, hd, hl⟩ := hp
  rcases hl with h' | hl
  · exact absurd h' hr
  cases p with
  | nil => simp at hh
  | cons a t =>
    have ha : a = '/' := by
      rw [List.head?_cons] at hh
      injection hh
    subst ha
    have ht : t ≠ [] := by
      intro h0
      subst h0
      exact hr rfl
    by_cases hs : '/' ∈ t
    · obtain ⟨t1, n, he, hn⟩ := last_slash_decomp hs
      subst he
      have ht1 : t1 ≠ [] := by
        intro h0
        subst h0
        rw [List.nil_append] at hd
        exact (hasDbl_cons_false.mp hd).1 ⟨rfl, rfl⟩
      have hnne : n ≠ [] := by
        intro h0
        subst h0
        apply hl
        rw [List.getLast?_cons, List.getLast?_concat]
        rfl
      have hdq : hasDbl ('/' :: t1) = false := by
        refine @hasDbl_append_left ('/' :: t1) ('/' :: n) ?_
        rw [List.cons_append]
        exact hd
      have hlq : ('/' :: t1).getLast? ≠ some '/' := by
        intro hc
        refine @hasDbl_append_junction ('/' :: t1) ('/' :: n) ?_ hc rfl
        rw [List.cons_append]
        exact hd
      have hqr : ('/' :: t1) ≠ ['/'] := by
        intro hc
        injection hc with h1 h2
        exact ht1 h2
      refine ⟨'/' :: t1, n, ⟨rfl, hdq, Or.inr hlq⟩, ⟨hnne, hn⟩, ?_⟩
      rw [childPath, if_neg hqr]
      rfl
    · refine ⟨['/'], t, pathOk_root, ⟨ht, hs⟩, ?_⟩
      rw [childPath, if_pos rfl]

theorem childPath_length_lt {q n : Str} (hq : pathOk q) (hn : nameOk n) :
    q.length < (childPath q n).length := by
  rw [childPath]
  by_cases hr : q = ['/']
  · rw [if_pos hr, hr]
    cases n with
    | nil => exact absurd rfl hn.1
    | cons x y =>
      simp only [List.length_cons, List.length_nil]
      omega
  · rw [if_neg hr]
    simp only [List.length_append, List.length_cons]
    omega

theorem pathOk_rec {P : Str → Prop} (hroot : P ['/'])
    (hstep : ∀ q n, pathOk q → nameOk n → P q → P (childPath q n)) :
    ∀ p, pathOk p → P p := by
  have main : ∀ len p, p.length ≤ len → pathOk p → P p := by
    intro len
    induction len with
    | zero =>
      intro p hl hp
      obtain ⟨hh, _, _⟩ := hp
      cases p with
      | nil => simp at hh
      | cons a t => simp at hl
    | succ k ih =>
      intro p hl hp
      by_cases hr : p = ['/']
      · subst hr
        exact hroot
      · obtain ⟨q, n, hq, hn, he⟩ := pathOk_decomp hp hr
        subst he
        refine hstep q n hq hn (ih q ?_ hq)
        have hlt := childPath_length_lt hq hn
        omega
  exact fun p hp => main p.length p le_rfl hp

theorem getParentPath_root : getParentPath ['/'] = ['/'] := by decide

theorem pathOk_getParentPath {p : Str} (hp : pathOk p) : pathOk (getParentPath p) := by
  by_cases hr : p = ['/']
  · subst hr
    rw [getParentPath_root]
    exact pathOk_root
  · obtain ⟨q, n, hq, hn, he⟩ := pathOk_decomp hp hr
    rw [he, getParentPath_childPath hq hn]
    exact hq

theorem nameOk_getFileName {p : Str} (hp : pathOk p) (hr : p ≠ ['/']) :
    nameOk (getFileName p) := by
  obtain ⟨q, n, hq, hn, he⟩ := pathOk_decomp hp hr
  rw [he, getFileName_childPath hq hn]
  exact hn

theorem childPath_parent_name {p : Str} (hp : pathOk p) (hr : p ≠ ['/']) :
    childPath (getParentPath p) (getFileName p) = p := by
  obtain ⟨q, n, hq, hn, he⟩ := pathOk_decomp hp hr
  rw [he, getParentPath_childPath hq hn, getFileName_childPath hq hn]

/-! #### The invariant implies the claimed synchronization -/

theorem Inv.filesIdInj {s : VFS} (hs : Inv s) {p1 p2 : Str} {i : Nat}
    (h1 : getA p1 s.files = some i) (h2 : getA p2 s.files = some i) : p1 = p2 := by
  obtain ⟨n1, hn1, hp1, _⟩ := hs.entries p1 i h1
  obtain ⟨n2, hn2, hp2, _⟩ := hs.entries p2 i h2
  rw [hn1] at hn2
  injection hn2 with h
  rw [← hp1, ← hp2, h]

theorem Inv_ClaimSync {s : VFS} (hs : Inv s) : ClaimSync s := by
  refine ⟨?_, ?_, ?_⟩
  · rw [hs.rootFiles]
    rfl
  · intro p i hpi hpr
    obtain ⟨n, pid, pn, hn, hname, hpf, hph, hptype, hmem, hpeq⟩ :=
      hs.parentLink p i hpi hpr
    obtain ⟨n', hn', hnpath, hpOk, _⟩ := hs.entries p i hpi
    have hnn : n = n' := by
      rw [hn] at hn'
      injection hn' with hinj
    subst hnn
    obtain ⟨pn', hpn', hpnpath, hppOk, _⟩ := hs.entries (getParentPath p) pid hpf
    have hpnn : pn = pn' := by
      rw [hph] at hpn'
      injection hpn' with hinj
    subst hpnn
    refine ⟨n, hn, ⟨(getParentPath p, n.name),
      ⟨pid, pn, hpf, hph, getA_eq_some_mem hmem⟩, ?_⟩, ?_⟩
    · rintro ⟨q1, nm⟩ ⟨qi, qn, hq1, hqi, hmemq⟩
      obtain ⟨cn, hcn, hcname, hcpath, _⟩ := hs.childrenLink q1 qi hq1 qn hqi (nm, i) hmemq
      have hcnn : n = cn := by
        rw [hn] at hcn
        injection hcn with hinj
      subst hcnn
      obtain ⟨qn', hqn', hqnpath, hq1Ok, _⟩ := hs.entries q1 qi hq1
      have hqnn : qn = qn' := by
        rw [hqi] at hqn'
        injection hqn' with hinj
      subst hqnn
      have hpnOk : pathOk pn.path := by
        rw [hpnpath]
        exact hppOk
      have heq : childPath q1 n.name = childPath pn.path n.name := by
        rw [← hpeq, ← hnpath, hcpath, hcname]
      obtain ⟨hq, _⟩ := childPath_inj hq1Ok hname hpnOk hname heq
      have hq1p : q1 = getParentPath p := by
        rw [hq, hpnpath]
      exact Prod.ext_iff.mpr ⟨hq1p, hcname.symm⟩
    · intro q qi qn hq hqi nm hmemq
      obtain ⟨cn, hcn, hcname, hcpath, _⟩ := hs.childrenLink q qi hq qn hqi (nm, i) hmemq
      have hcnn : n = cn := by
        rw [hn] at hcn
        injection hcn with hinj
      subst hcnn
      obtain ⟨qn', hqn', hqnpath, _⟩ := hs.entries q qi hq
      have hqnn : qn = qn' := by
        rw [hqi] at hqn'
        injection hqn' with hinj
      subst hqnn
      refine ⟨hcname.symm, ?_⟩
      rw [hqnpath, hcname]
      exact hcpath
  · intro p i hpi n hn c hc
    obtain ⟨cn, hcn, _, _, hcf⟩ := hs.childrenLink p i hpi n hn c hc
    exact ⟨cn, hcn, hcf⟩

theorem getA_init_files {p : Str} {i : Nat} (h : getA p VFS.init.files = some i) :
    p = ['/'] ∧ i = 0 := by
  have h' : getA p [(['/'], (0 : Nat))] = some i := h
  rw [getA_singleton] at h'
  by_cases hp : ['/'] = p
  · rw [if_pos hp] at h'
    injection h' with h''
    exact ⟨hp.symm, h''.symm⟩
  · rw [if_neg hp] at h'
    exact Option.noConfusion h'

theorem Inv_init : Inv VFS.init := by
  refine ⟨?_, ?_, ?_, ?_, ?_, ?_, ?_, ?_⟩
  · exact List.nodup_singleton _
  · exact List.nodup_singleton _
  · intro i hi
    have : i = 0 := by simpa [VFS.init, keysA] using hi
    subst this
    exact Nat.zero_lt_one
  · rfl
  · exact ⟨{ type := .directory, name := ['/'], path := ['/'], children := some [] },
      rfl, rfl, rfl, rfl, rfl⟩
  · intro p i h
    obtain ⟨hp, hi⟩ := getA_init_files h
    subst hp
    subst hi
    refine ⟨{ type := .directory, name := ['/'], path := ['/'], children := some [] },
      rfl, rfl, pathOk_root, fun _ => ⟨rfl, List.nodup_nil⟩, fun hft => nomatch hft⟩
  · intro p i h hpr
    exact absurd (getA_init_files h).1 hpr
  · intro p i h n hn c hc
    obtain ⟨hp, hi⟩ := getA_init_files h
    subst hp
    subst hi
    have hn' : n = { type := .directory, name := ['/'], path := ['/'], children := some [] } := by
      have : getA 0 VFS.init.heap =
          some { type := NodeType.directory, name := ['/'], path := ['/'],
                 children := some ([] : List (Str × Nat)) } := rfl
      rw [this] at hn
      injection hn with h'
      exact h'.symm
    subst hn'
    simp at hc

theorem mem_setA_weak {α β : Type} [DecidableEq α] {c : α × β} {k : α} {v : β}
    {l : List (α × β)} (h : c ∈ setA k v l) : c = (k, v) ∨ c ∈ l := by
  induction l with
  | nil =>
    rw [setA] at h
    rcases List.mem_cons.mp h with h | h
    · exact Or.inl h
    · cases h
  | cons e rest ih =>
    obtain ⟨a, b⟩ := e
    by_cases ha : a = k
    · subst ha
      rw [setA, if_pos rfl] at h
      rcases List.mem_cons.mp h with h | h
      · exact Or.inl h
      · exact Or.inr (List.mem_cons_of_mem _ h)
    · rw [setA, if_neg ha] at h
      rcases List.mem_cons.mp h with h | h
      · exact Or.inr (h ▸ List.mem_cons_self _ _)
      · rcases ih h with h' | h'
        · exact Or.inl h'
        · exact Or.inr (List.mem_cons_of_mem _ h')

theorem getA_singleton_inv {α β : Type} [DecidableEq α] {k k' : α} {v j : β}
    (h : getA k' [(k, v)] = some j) : k' = k ∧ j = v := by
  rw [getA_singleton] at h
  by_cases hp : k = k'
  · rw [if_pos hp] at h
    injection h with h2
    exact ⟨hp.symm, h2.symm⟩
  · rw [if_neg hp] at h
    exact Option.noConfusion h

theorem lookup_eq_some {s : VFS} {p : Str} {i : Nat} {n : Node}
    (h : s.lookup p = some (i, n)) : getA p s.files = some i ∧ getA i s.heap = some n := by
  rcases hf : getA p s.files with _ | j
  · rw [VFS.lookup, hf] at h
    exact Option.noConfusion h
  · rw [VFS.lookup, hf] at h
    have h' : (match getA j s.heap with
        | none => (none : Option (Nat × Node))
        | some m => some (j, m)) = some (i, n) := h
    rcases hh : getA j s.heap with _ | m
    · rw [hh] at h'
      exact Option.noConfusion h'
    · rw [hh] at h'
      injection h' with h2
      injection h2 with h3 h4
      subst h3
      subst h4
      exact ⟨rfl, hh⟩

theorem lookup_iff {s : VFS} {p : Str} {i : Nat} {n : Node}
    (hf : getA p s.files = some i) (hh : getA i s.heap = some n) :
    s.lookup p = some (i, n) := by
  rw [VFS.lookup, hf]
  show (match getA i s.heap with
      | none => (none : Option (Nat × Node))
      | some m => some (i, m)) = some (i, n)
  rw [hh]

theorem splitOnP_sep_free : ∀ (t : Str), ∀ seg ∈ List.splitOnP (· == '/') t, '/' ∉ seg := by
  intro t
  induction t with
  | nil =>
    intro seg h
    rw [List.splitOnP_nil] at h
    rcases List.mem_cons.mp h with h | h
    · subst h
      simp
    · cases h
  | cons c rest ih =>
    intro seg h
    rw [List.splitOnP_cons] at h
    by_cases hc : (c == '/') = true
    · rw [if_pos hc] at h
      rcases List.mem_cons.mp h with h | h
      · subst h
        simp
      · exact ih seg h
    · rw [if_neg hc] at h
      rcases hsp : List.splitOnP (· == '/') rest with _ | ⟨p0, ps⟩
      · exact absurd hsp (List.splitOnP_ne_nil _ rest)
      · rw [hsp] at h
        rcases List.mem_cons.mp h with h | h
        · subst h
          intro hm
          rcases List.mem_cons.mp hm with h' | h'
          · simp only [beq_iff_eq] at hc
            exact hc h'.symm
          · exact ih p0 (by rw [hsp]; exact List.mem_cons_self _ _) h'
        · exact ih seg (by rw [hsp]; exact List.mem_cons_of_mem _ h)

theorem partsOf_nameOk (p : Str) : ∀ seg ∈ partsOf p, nameOk seg := by
  intro seg h
  rw [partsOf] at h
  have hmem := List.mem_of_mem_filter h
  have hne := List.of_mem_filter h
  refine ⟨by simpa using hne, ?_⟩
  exact splitOnP_sep_free p seg hmem

theorem segsPath_append_single (l : List Str) (n : Str) :
    segsPath (l ++ [n]) = segsPath l ++ '/' :: n := by
  rw [segsPath, segsPath, List.foldl_append]
  rfl

theorem segsPath_props (l : List Str) (hl : l ≠ []) (h : ∀ x ∈ l, nameOk x) :
    pathOk (segsPath l) ∧ segsPath l ≠ ['/'] ∧ partsOf (segsPath l) = l := by
  induction l using List.reverseRecOn with
  | nil => exact absurd rfl hl
  | append_singleton l' n ih =>
    have hn : nameOk n := h n (by simp)
    rcases hl' : l' with _ | ⟨x, xs⟩
    · subst hl'
      have he : segsPath ([] ++ [n]) = childPath ['/'] n := by
        rw [segsPath_append_single, childPath, if_pos rfl]
        rfl
      rw [List.nil_append] at he ⊢
      rw [he]
      refine ⟨pathOk_childPath pathOk_root hn, childPath_ne_root pathOk_root hn, ?_⟩
      rw [partsOf_childPath pathOk_root hn, partsOf_root]
      rfl
    · subst hl'
      obtain ⟨hOk, hnr, hparts⟩ := ih (by simp)
        (fun y hy => h y (List.mem_append_left _ hy))
      have he : segsPath ((x :: xs) ++ [n]) = childPath (segsPath (x :: xs)) n := by
        rw [segsPath_append_single, childPath, if_neg hnr]
      rw [he]
      refine ⟨pathOk_childPath hOk hn, childPath_ne_root hOk hn, ?_⟩
      rw [partsOf_childPath hOk hn, hparts]

theorem segsPath_partsOf {p : Str} (hp : pathOk p) (hr : p ≠ ['/']) :
    segsPath (partsOf p) = p := by
  have main : ∀ q, pathOk q → q ≠ ['/'] → segsPath (partsOf q) = q := by
    refine pathOk_rec (fun h => absurd rfl h) ?_
    intro q n hq hn ih hne
    rw [partsOf_childPath hq hn]
    by_cases hqr : q = ['/']
    · subst hqr
      rw [partsOf_root, List.nil_append, segsPath, List.foldl_cons, List.foldl_nil]
      rw [childPath, if_pos rfl]
      rfl
    · rw [segsPath_append_single, ih hqr, childPath, if_neg hqr]
  exact main p hp hr

/-! #### Invariant preservation: `updateFile` and `reset` -/

theorem Inv_heapUpdate_same {s : VFS} (hs : Inv s) {i : Nat} {n n' : Node}
    (hn : getA i s.heap = some n)
    (ht : n'.type = n.type) (hm : n'.name = n.name) (hp : n'.path = n.path)
    (hc : n'.children = n.children) :
    Inv { s with heap := setA i n' s.heap } := by
  have hget : ∀ j, getA j (setA i n' s.heap) = if i = j then some n' else getA j s.heap :=
    fun j => getA_setA j i n' s.heap
  have htrans : ∀ j m, getA j s.heap = some m →
      ∃ m2, getA j (setA i n' s.heap) = some m2 ∧ m2.type = m.type ∧ m2.name = m.name ∧
        m2.path = m.path ∧ m2.children = m.children := by
    intro j m hjm
    by_cases hij : i = j
    · subst hij
      have hmn : m = n := by
        rw [hn] at hjm
        injection hjm with hx
        exact hx.symm
      subst hmn
      exact ⟨n', by rw [hget, if_pos rfl], ht, hm, hp, hc⟩
    · exact ⟨m, by rw [hget, if_neg hij]; exact hjm, rfl, rfl, rfl, rfl⟩
  refine ⟨hs.filesNodup, keysA_setA_nodup i n' hs.heapNodup, ?_, hs.rootFiles, ?_, ?_, ?_, ?_⟩
  · intro j hj
    rcases (mem_keysA_setA n' s.heap).mp hj with hji | hjo
    · subst hji
      exact hs.heapBound j (getA_mem_keysA hn)
    · exact hs.heapBound j hjo
  · obtain ⟨rn, hrn, h1, h2, h3, h4⟩ := hs.rootNode
    obtain ⟨rn2, hrn2, ht2, hm2, hp2, hc2⟩ := htrans s.root rn hrn
    exact ⟨rn2, hrn2, by rw [ht2]; exact h1, by rw [hp2]; exact h2,
      by rw [hm2]; exact h3, by rw [hc2]; exact h4⟩
  · intro p0 j hpj
    obtain ⟨m, hmh, hmp, hOk, hdir, hfile⟩ := hs.entries p0 j hpj
    obtain ⟨m2, hm2, ht2, _, hp2, hc2⟩ := htrans j m hmh
    refine ⟨m2, hm2, by rw [hp2]; exact hmp, hOk, ?_, ?_⟩
    · intro hdt
      rw [ht2] at hdt
      obtain ⟨h1, h2⟩ := hdir hdt
      rw [hc2]
      exact ⟨h1, h2⟩
    · intro hft
      rw [ht2] at hft
      rw [hc2]
      exact hfile hft
  · intro p0 j hpj hpr
    obtain ⟨m, pid, pn, hmh, hname, hpf, hph, hptype, hmem, hpeq⟩ :=
      hs.parentLink p0 j hpj hpr
    obtain ⟨m2, hm2, _, hn2, hp2, _⟩ := htrans j m hmh
    obtain ⟨pn2, hpn2, htp2, _, hpp2, hcp2⟩ := htrans pid pn hph
    refine ⟨m2, pid, pn2, hm2, by rw [hn2]; exact hname, hpf, hpn2,
      by rw [htp2]; exact hptype, by rw [hcp2, hn2]; exact hmem,
      by rw [hpp2, hn2]; exact hpeq⟩
  · intro p0 j hpj m hm' c hc'
    have hback : ∃ m0, getA j s.heap = some m0 ∧ m0.children = m.children := by
      by_cases hij : i = j
      · subst hij
        rw [hget, if_pos rfl] at hm'
        injection hm' with hx
        exact ⟨n, hn, by rw [← hx, hc]⟩
      · rw [hget, if_neg hij] at hm'
        exact ⟨m, hm', rfl⟩
    obtain ⟨m0, hm0, hceq⟩ := hback
    have hc0 : c ∈ m0.children.getD [] := by
      rw [hceq]
      exact hc'
    obtain ⟨cn, hcn, hcname, hcpath, hcfiles⟩ := hs.childrenLink p0 j hpj m0 hm0 c hc0
    obtain ⟨cn2, hcn2, _, hnc, hpc, _⟩ := htrans c.2 cn hcn
    exact ⟨cn2, hcn2, by rw [hnc]; exact hcname, by rw [hpc]; exact hcpath,
      by rw [hpc]; exact hcfiles⟩

theorem Inv_updateFile (s : VFS) (p c : Str) (hs : Inv s) : Inv (s.updateFile p c).2 := by
  rcases hg : s.getEntry p with _ | ⟨i, n⟩
  · simp only [VFS.updateFile, hg]
    exact hs
  · simp only [VFS.updateFile, hg]
    by_cases htf : n.type ≠ NodeType.file
    · rw [if_pos htf]
      exact hs
    · rw [if_neg htf]
      have hlk := hg
      rw [VFS.getEntry] at hlk
      obtain ⟨hf, hh⟩ := lookup_eq_some hlk
      exact Inv_heapUpdate_same hs hh rfl rfl rfl rfl

theorem Inv_reset (s : VFS) (hs : Inv s) : Inv s.reset := by
  simp only [VFS.reset]
  refine ⟨List.nodup_singleton _, keysA_setA_nodup _ _ hs.heapNodup, ?_, ?_, ?_, ?_, ?_, ?_⟩
  · intro j hj
    rcases (mem_keysA_setA _ s.heap).mp hj with hji | hjo
    · subst hji
      show s.nextId < s.nextId + 1
      omega
    · have := hs.heapBound j hjo
      show j < s.nextId + 1
      omega
  · rw [getA, if_pos rfl]
  · exact ⟨_, getA_setA_self s.nextId _ s.heap, rfl, rfl, rfl, rfl⟩
  · intro p0 j hpj
    obtain ⟨hp0, hj⟩ := getA_singleton_inv hpj
    subst hp0
    subst hj
    refine ⟨_, getA_setA_self s.nextId _ s.heap, rfl, pathOk_root,
      fun _ => ⟨rfl, List.nodup_nil⟩, fun hft => nomatch hft⟩
  · intro p0 j hpj hpr
    exact absurd (getA_singleton_inv hpj).1 hpr
  · intro p0 j hpj m hm c hc
    obtain ⟨hp0, hj⟩ := getA_singleton_inv hpj
    subst hp0
    subst hj
    rw [getA_setA_self] at hm
    injection hm with hx
    rw [← hx] at hc
    simp at hc

/-! #### Invariant preservation: inserting a leaf under a checked parent
(the common tail of `createDirectory` and `createFile`) -/

theorem Inv_insertLeaf {s : VFS} (hs : Inv s) {np : Str} {pid : Nat} {pnode : Node}
    (hOk : pathOk np)
    (hmiss : getA np s.files = none)
    (hpf : getA (getParentPath np) s.files = some pid)
    (hph : getA pid s.heap = some pnode)
    (hptype : pnode.type = NodeType.directory)
    (node : Node)
    (hnname : node.name = getFileName np) (hnpath : node.path = np)
    (hndir : node.type = NodeType.directory → node.children = some [])
    (hnfile : node.type = NodeType.file → node.children = none) :
    Inv { s with
      heap := setA pid { pnode with children := some (setA (getFileName np) s.nextId (pnode.children.getD [])) } (setA s.nextId node s.heap),
      files := setA np s.nextId s.files,
      nextId := s.nextId + 1 } := by
  have hroot : np ≠ ['/'] := by
    intro h
    rw [h, hs.rootFiles] at hmiss
    exact Option.noConfusion hmiss
  have hnameOk : nameOk (getFileName np) := nameOk_getFileName hOk hroot
  have hppOk : pathOk (getParentPath np) := pathOk_getParentPath hOk
  have hppeq : pnode.path = getParentPath np := by
    obtain ⟨m, hmh, hmp, _⟩ := hs.entries (getParentPath np) pid hpf
    rw [hph] at hmh
    injection hmh with hx
    rw [hx]
    exact hmp
  have hchildEq : childPath (getParentPath np) (getFileName np) = np :=
    childPath_parent_name hOk hroot
  have hpid_ne : pid ≠ s.nextId := by
    have := hs.heapBound pid (getA_mem_keysA hph)
    omega
  have hid_ne : ∀ q j, getA q s.files = some j → j ≠ s.nextId := by
    intro q j hqj h
    obtain ⟨m, hmh, _⟩ := hs.entries q j hqj
    have := hs.heapBound j (getA_mem_keysA hmh)
    omega
  have hgp_ne_np : getParentPath np ≠ np := by
    intro h
    have hlt := childPath_length_lt hppOk hnameOk
    rw [hchildEq] at hlt
    rw [h] at hlt
    omega
  have hH : ∀ j, getA j (setA pid { pnode with children := some (setA (getFileName np) s.nextId (pnode.children.getD [])) } (setA s.nextId node s.heap)) = if pid = j then some { pnode with children := some (setA (getFileName np) s.nextId (pnode.children.getD [])) } else if s.nextId = j then some node else getA j s.heap := by
    intro j
    rw [getA_setA, getA_setA]
  have hF : ∀ q, getA q (setA np s.nextId s.files) =
      if np = q then some s.nextId else getA q s.files := by
    intro q
    rw [getA_setA]
  have htr : ∀ j m, getA j s.heap = some m →
      ∃ m2, getA j (setA pid { pnode with children := some (setA (getFileName np) s.nextId (pnode.children.getD [])) } (setA s.nextId node s.heap)) = some m2 ∧
        m2.type = m.type ∧ m2.name = m.name ∧ m2.path = m.path ∧
        (pid ≠ j → m2.children = m.children) := by
    intro j m hjm
    have hjn : s.nextId ≠ j := by
      have := hs.heapBound j (getA_mem_keysA hjm)
      omega
    by_cases hjp : pid = j
    · subst hjp
      have hm : pnode = m := by
        rw [hph] at hjm
        injection hjm with hx
      subst hm
      exact ⟨{ pnode with children := some (setA (getFileName np) s.nextId (pnode.children.getD [])) }, by rw [hH, if_pos rfl], rfl, rfl, rfl, fun h => absurd rfl h⟩
    · exact ⟨m, by rw [hH, if_neg hjp, if_neg hjn]; exact hjm, rfl, rfl, rfl, fun _ => rfl⟩
  refine ⟨keysA_setA_nodup _ _ hs.filesNodup,
    keysA_setA_nodup _ _ (keysA_setA_nodup _ _ hs.heapNodup), ?_, ?_, ?_, ?_, ?_, ?_⟩
  · intro j hj
    show j < s.nextId + 1
    rcases (mem_keysA_setA _ _).mp hj with hjp | hj2
    · subst hjp
      have := hs.heapBound j (getA_mem_keysA hph)
      omega
    · rcases (mem_keysA_setA _ _).mp hj2 with hjn | hjo
      · subst hjn
        omega
      · have := hs.heapBound j hjo
        omega
  · rw [hF, if_neg hroot]
    exact hs.rootFiles
  · obtain ⟨rn, hrn, h1, h2, h3, h4⟩ := hs.rootNode
    obtain ⟨rn2, hrn2, ht2, hm2, hp2, hc2cond⟩ := htr s.root rn hrn
    refine ⟨rn2, hrn2, by rw [ht2]; exact h1, by rw [hp2]; exact h2,
      by rw [hm2]; exact h3, ?_⟩
    by_cases hpr : pid = s.root
    · subst hpr
      have hrn2e : rn2 = { pnode with children := some (setA (getFileName np) s.nextId (pnode.children.getD [])) } := by
        rw [hH, if_pos rfl] at hrn2
        injection hrn2 with hx
        exact hx.symm
      rw [hrn2e]
      rfl
    · rw [hc2cond hpr]
      exact h4
  · intro q j hqj
    have hqj' : (if np = q then some s.nextId else getA q s.files) = some j := by
      rw [← hF]
      exact hqj
    by_cases hq : np = q
    · rw [if_pos hq] at hqj'
      injection hqj' with hj
      subst hq
      subst hj
      refine ⟨node, by rw [hH, if_neg hpid_ne, if_pos rfl], hnpath, hOk, ?_, hnfile⟩
      intro hdt
      rw [hndir hdt]
      exact ⟨rfl, List.nodup_nil⟩
    · rw [if_neg hq] at hqj'
      obtain ⟨m, hmh, hmp, hOkm, hdir, hfile⟩ := hs.entries q j hqj'
      by_cases hjp : pid = j
      · subst hjp
        have hm : pnode = m := by
          rw [hph] at hmh
          injection hmh with hx
        subst hm
        refine ⟨{ pnode with children := some (setA (getFileName np) s.nextId (pnode.children.getD [])) }, by rw [hH, if_pos rfl], hmp, hOkm, ?_, ?_⟩
        · intro hdt
          refine ⟨rfl, ?_⟩
          have hold := (hdir hdt).2
          exact keysA_setA_nodup _ _ hold
        · intro hft
          have hft' : pnode.type = NodeType.file := hft
          rw [hptype] at hft'
          exact NodeType.noConfusion hft'
      · have hjn : s.nextId ≠ j := fun h => hid_ne q j hqj' h.symm
        exact ⟨m, by rw [hH, if_neg hjp, if_neg hjn]; exact hmh, hmp, hOkm, hdir, hfile⟩
  · intro q j hqj hqr
    have hqj' : (if np = q then some s.nextId else getA q s.files) = some j := by
      rw [← hF]
      exact hqj
    by_cases hq : np = q
    · rw [if_pos hq] at hqj'
      injection hqj' with hj
      subst hq
      subst hj
      refine ⟨node, pid, { pnode with children := some (setA (getFileName np) s.nextId (pnode.children.getD [])) },
        by rw [hH, if_neg hpid_ne, if_pos rfl],
        by rw [hnname]; exact hnameOk,
        by rw [hF, if_neg (fun h => hgp_ne_np h.symm)]; exact hpf,
        by rw [hH, if_pos rfl], hptype, ?_, ?_⟩
      · show getA node.name (setA (getFileName np) s.nextId (pnode.children.getD []))
            = some s.nextId
        rw [hnname]
        exact getA_setA_self _ _ _
      · show np = childPath pnode.path node.name
        rw [hnname, hppeq]
        exact hchildEq.symm
    · rw [if_neg hq] at hqj'
      obtain ⟨m, opid, opn, hmh, hname, hopf, hoph, hoptype, hmem, hpeq⟩ :=
        hs.parentLink q j hqj' hqr
      obtain ⟨m2, hm2, _, hn2, hp2, _⟩ := htr j m hmh
      have hgp_ne : np ≠ getParentPath q := by
        intro h
        rw [← h, hmiss] at hopf
        exact Option.noConfusion hopf
      by_cases hop : pid = opid
      · subst hop
        have hopn : pnode = opn := by
          rw [hph] at hoph
          injection hoph with hx
        subst hopn
        have hmn_ne : m.name ≠ getFileName np := by
          intro h
          apply hq
          rw [hpeq, h, hppeq, hchildEq]
        refine ⟨m2, pid, { pnode with children := some (setA (getFileName np) s.nextId (pnode.children.getD [])) },
          hm2, by rw [hn2]; exact hname,
          by rw [hF, if_neg hgp_ne]; exact hopf,
          by rw [hH, if_pos rfl], hptype, ?_, ?_⟩
        · show getA m2.name (setA (getFileName np) s.nextId (pnode.children.getD []))
              = some j
          rw [hn2, getA_setA_ne _ _ (Ne.symm hmn_ne)]
          exact hmem
        · show q = childPath pnode.path m2.name
          rw [hn2]
          exact hpeq
      · have hon : s.nextId ≠ opid := by
          have := hs.heapBound opid (getA_mem_keysA hoph)
          omega
        refine ⟨m2, opid, opn, hm2, by rw [hn2]; exact hname,
          by rw [hF, if_neg hgp_ne]; exact hopf,
          by rw [hH, if_neg hop, if_neg hon]; exact hoph, hoptype, ?_, ?_⟩
        · rw [hn2]
          exact hmem
        · rw [hn2]
          exact hpeq
  · intro q j hqj m hm c hc
    have hqj' : (if np = q then some s.nextId else getA q s.files) = some j := by
      rw [← hF]
      exact hqj
    by_cases hq : np = q
    · rw [if_pos hq] at hqj'
      injection hqj' with hj
      subst hq
      subst hj
      rw [hH, if_neg hpid_ne, if_pos rfl] at hm
      injection hm with hx
      rcases htc : node.type with _ | _
      · rw [← hx, hnfile htc] at hc
        simp at hc
      · rw [← hx, hndir htc] at hc
        simp at hc
    · rw [if_neg hq] at hqj'
      by_cases hjp : pid = j
      · subst hjp
        rw [hH, if_pos rfl] at hm
        injection hm with hx
        have hcm : c ∈ setA (getFileName np) s.nextId (pnode.children.getD []) := by
          rw [← hx] at hc
          exact hc
        rcases mem_setA_weak hcm with hnew | hold
        · subst hnew
          have hqg : q = getParentPath np := hs.filesIdInj hqj' hpf
          refine ⟨node, by rw [hH, if_neg hpid_ne, if_pos rfl], ?_, ?_, ?_⟩
          · rw [hnname]
          · rw [hnpath, hqg]
            exact hchildEq.symm
          · rw [hnpath, hF, if_pos rfl]
        · obtain ⟨cn, hcn, hcname, hcpath, hcfiles⟩ :=
            hs.childrenLink q pid hqj' pnode hph c hold
          obtain ⟨cn2, hcn2, _, hnc2, hpc2, _⟩ := htr c.2 cn hcn
          have hcp_ne : np ≠ cn.path := by
            intro h
            rw [← h, hmiss] at hcfiles
            exact Option.noConfusion hcfiles
          exact ⟨cn2, hcn2, by rw [hnc2]; exact hcname, by rw [hpc2]; exact hcpath,
            by rw [hpc2, hF, if_neg hcp_ne]; exact hcfiles⟩
      · have hjn : s.nextId ≠ j := fun h => hid_ne q j hqj' h.symm
        rw [hH, if_neg hjp, if_neg hjn] at hm
        obtain ⟨cn, hcn, hcname, hcpath, hcfiles⟩ :=
          hs.childrenLink q j hqj' m hm c hc
        obtain ⟨cn2, hcn2, _, hnc2, hpc2, _⟩ := htr c.2 cn hcn
        have hcp_ne : np ≠ cn.path := by
          intro h
          rw [← h, hmiss] at hcfiles
          exact Option.noConfusion hcfiles
        exact ⟨cn2, hcn2, by rw [hnc2]; exact hcname, by rw [hpc2]; exact hcpath,
          by rw [hpc2, hF, if_neg hcp_ne]; exact hcfiles⟩

/-! #### Invariant preservation: `createDirectory` and the ancestor loop -/

theorem Inv_createDirectory (s : VFS) (p : Str) (hs : Inv s)
    (hOk : pathOk (normalizePath p)) : Inv (s.createDirectory p).2 := by
  simp only [VFS.createDirectory]
  by_cases hh : hasA (normalizePath p) s.files = true
  · rw [if_pos hh]
    exact hs
  · rw [if_neg hh]
    cases hpe : s.getParentEntry (normalizePath p) with
    | none => exact hs
    | some e =>
      obtain ⟨pid, pnode⟩ := e
      show Inv ((if pnode.type ≠ NodeType.directory then (none, s)
        else (some s.nextId, { s with
          heap := setA pid { pnode with children := some (setA (getFileName (normalizePath p)) s.nextId (pnode.children.getD [])) } (setA s.nextId { type := NodeType.directory, name := getFileName (normalizePath p), path := normalizePath p, children := some [] } s.heap),
          files := setA (normalizePath p) s.nextId s.files,
          nextId := s.nextId + 1 })).2)
      by_cases htd : pnode.type ≠ NodeType.directory
      · rw [if_pos htd]
        exact hs
      · rw [if_neg htd]
        have hmiss : getA (normalizePath p) s.files = none := by
          rcases hg : getA (normalizePath p) s.files with _ | j
          · rfl
          · rw [hasA, hg] at hh
            exact absurd (rfl : (some j).isSome = true) hh
        rw [VFS.getParentEntry] at hpe
        obtain ⟨hpf, hph⟩ := lookup_eq_some hpe
        exact Inv_insertLeaf hs hOk hmiss hpf hph (not_not.mp htd) _ rfl rfl
          (fun _ => rfl) (fun hft => NodeType.noConfusion hft)

theorem createDirectory_files_sub {s : VFS} {p q : Str} {i : Nat}
    (h : getA q (s.createDirectory p).2.files = some i) :
    getA q s.files = some i ∨ q = normalizePath p := by
  simp only [VFS.createDirectory] at h
  by_cases hh : hasA (normalizePath p) s.files = true
  · rw [if_pos hh] at h
    exact Or.inl h
  · rw [if_neg hh] at h
    rcases hpe : s.getParentEntry (normalizePath p) with _ | ⟨pid, pnode⟩
    · rw [hpe] at h
      exact Or.inl h
    · rw [hpe] at h
      have h' : getA q ((if pnode.type ≠ NodeType.directory then ((none : Option Nat), s)
          else (some s.nextId, { s with
            heap := setA pid { pnode with children := some (setA (getFileName (normalizePath p)) s.nextId (pnode.children.getD [])) } (setA s.nextId { type := NodeType.directory, name := getFileName (normalizePath p), path := normalizePath p, children := some [] } s.heap),
            files := setA (normalizePath p) s.nextId s.files,
            nextId := s.nextId + 1 })).2).files = some i := h
      by_cases htd : pnode.type ≠ NodeType.directory
      · rw [if_pos htd] at h'
        exact Or.inl h'
      · rw [if_neg htd] at h'
        rw [getA_setA] at h'
        by_cases hq : normalizePath p = q
        · exact Or.inr hq.symm
        · rw [if_neg hq] at h'
          exact Or.inl h'

theorem Inv_createAncestors : ∀ (parts : List Str) (cp : Str) (s : VFS), Inv s →
    (cp = [] ∨ (pathOk cp ∧ cp ≠ ['/'])) → (∀ part ∈ parts, nameOk part) →
    Inv (s.createAncestors parts cp) := by
  intro parts
  induction parts with
  | nil =>
    intro cp s hs _ _
    exact hs
  | cons part rest ih =>
    intro cp s hs hcp hparts
    simp only [VFS.createAncestors]
    have hn : nameOk part := hparts part (List.mem_cons_self _ _)
    have hcp' : pathOk (cp ++ '/' :: part) ∧ (cp ++ '/' :: part) ≠ ['/'] := by
      rcases hcp with h0 | ⟨hOk, hnr⟩
      · subst h0
        have he : ([] : Str) ++ '/' :: part = childPath ['/'] part := by
          rw [childPath, if_pos rfl]
          rfl
        rw [he]
        exact ⟨pathOk_childPath pathOk_root hn, childPath_ne_root pathOk_root hn⟩
      · have he : cp ++ '/' :: part = childPath cp part := by
          rw [childPath, if_neg hnr]
        rw [he]
        exact ⟨pathOk_childPath hOk hn, childPath_ne_root hOk hn⟩
    have hparts' : ∀ x ∈ rest, nameOk x := fun x hx => hparts x (List.mem_cons_of_mem _ hx)
    by_cases he : s.existsP (cp ++ '/' :: part) = true
    · rw [if_pos he]
      exact ih (cp ++ '/' :: part) s hs (Or.inr hcp') hparts'
    · rw [if_neg he]
      refine ih (cp ++ '/' :: part) _ ?_ (Or.inr hcp') hparts'
      refine Inv_createDirectory s (cp ++ '/' :: part) hs ?_
      rw [normalizePath_of_pathOk hcp'.1]
      exact hcp'.1

theorem createAncestors_newKeys : ∀ (parts : List Str) (cp : Str) (s : VFS) (q : Str)
    (i : Nat), getA q ((s.createAncestors parts cp).files) = some i →
    getA q s.files = some i ∨
      ∃ l, l ≠ [] ∧ l <+: parts ∧
        q = normalizePath (List.foldl (fun a seg => a ++ '/' :: seg) cp l) := by
  intro parts
  induction parts with
  | nil =>
    intro cp s q i h
    exact Or.inl h
  | cons part rest ih =>
    intro cp s q i h
    simp only [VFS.createAncestors] at h
    by_cases he : s.existsP (cp ++ '/' :: part) = true
    · rw [if_pos he] at h
      rcases ih (cp ++ '/' :: part) s q i h with h' | ⟨l, hl, hpre, hq⟩
      · exact Or.inl h'
      · obtain ⟨t, ht⟩ := hpre
        exact Or.inr ⟨part :: l, by simp, ⟨t, by rw [List.cons_append, ht]⟩, hq⟩
    · rw [if_neg he] at h
      rcases ih (cp ++ '/' :: part) _ q i h with h' | ⟨l, hl, hpre, hq⟩
      · rcases createDirectory_files_sub h' with h'' | h''
        · exact Or.inl h''
        · refine Or.inr ⟨[part], by simp, ⟨rest, rfl⟩, ?_⟩
          rw [h'']
          rfl
      · obtain ⟨t, ht⟩ := hpre
        exact Or.inr ⟨part :: l, by simp, ⟨t, by rw [List.cons_append, ht]⟩, hq⟩

theorem Inv_createFile_tail (s1 : VFS) (normalized : Str) (c : Str) (hs1 : Inv s1)
    (hOk : pathOk normalized) (hmiss : getA normalized s1.files = none) :
    Inv ((match s1.getParentEntry normalized with
      | none => ((none : Option Nat), s1)
      | some (pid, pnode) =>
        if pnode.type ≠ NodeType.directory then (none, s1)
        else (some s1.nextId, { s1 with
          heap := setA pid { pnode with children := some (setA (getFileName normalized) s1.nextId (pnode.children.getD [])) } (setA s1.nextId { type := NodeType.file, name := getFileName normalized, path := normalized, content := some c } s1.heap),
          files := setA normalized s1.nextId s1.files,
          nextId := s1.nextId + 1 })).2) := by
  cases hpe : s1.getParentEntry normalized with
  | none => exact hs1
  | some e =>
    obtain ⟨pid, pnode⟩ := e
    show Inv ((if pnode.type ≠ NodeType.directory then ((none : Option Nat), s1)
      else (some s1.nextId, { s1 with
        heap := setA pid { pnode with children := some (setA (getFileName normalized) s1.nextId (pnode.children.getD [])) } (setA s1.nextId { type := NodeType.file, name := getFileName normalized, path := normalized, content := some c } s1.heap),
        files := setA normalized s1.nextId s1.files,
        nextId := s1.nextId + 1 })).2)
    by_cases htd : pnode.type ≠ NodeType.directory
    · rw [if_pos htd]
      exact hs1
    · rw [if_neg htd]
      rw [VFS.getParentEntry] at hpe
      obtain ⟨hpf, hph⟩ := lookup_eq_some hpe
      exact Inv_insertLeaf hs1 hOk hmiss hpf hph (not_not.mp htd) _ rfl rfl
        (fun hdt => NodeType.noConfusion hdt) (fun _ => rfl)

theorem Inv_createFile (s : VFS) (p c : Str) (hs : Inv s)
    (hOk : pathOk (normalizePath p)) : Inv (s.createFile p c).2 := by
  simp only [VFS.createFile]
  by_cases hh : hasA (normalizePath p) s.files = true
  · rw [if_pos hh]
    exact hs
  · rw [if_neg hh]
    have hroot : normalizePath p ≠ ['/'] := by
      intro h0
      rw [hasA, h0, hs.rootFiles] at hh
      exact hh rfl
    have hnames : ∀ x ∈ partsOf (normalizePath p), nameOk x := partsOf_nameOk _
    have hnamesD : ∀ x ∈ (partsOf (normalizePath p)).dropLast, nameOk x :=
      fun x hx => hnames x ((List.dropLast_sublist _).subset hx)
    have hs1 : Inv (s.createAncestors (partsOf (normalizePath p)).dropLast []) :=
      Inv_createAncestors _ [] s hs (Or.inl rfl) hnamesD
    have hmiss1 : getA (normalizePath p)
        (s.createAncestors (partsOf (normalizePath p)).dropLast []).files = none := by
      rcases hg : getA (normalizePath p)
          (s.createAncestors (partsOf (normalizePath p)).dropLast []).files with _ | j
      · rfl
      · exfalso
        rcases createAncestors_newKeys _ [] s _ j hg with h' | ⟨l, hl, hpre, hq⟩
        · rw [hasA, h'] at hh
          exact hh rfl
        · have hlnames : ∀ x ∈ l, nameOk x := fun x hx => hnamesD x (hpre.subset hx)
          obtain ⟨hOkl, hnrl, hpartsl⟩ := segsPath_props l hl hlnames
          have hfold : List.foldl (fun a seg => a ++ '/' :: seg) [] l = segsPath l := rfl
          rw [hfold, normalizePath_of_pathOk hOkl] at hq
          have h1 : partsOf (normalizePath p) = l := by
            rw [hq, hpartsl]
          have hlen := hpre.length_le
          rw [← h1, List.length_dropLast] at hlen
          have hne : partsOf (normalizePath p) ≠ [] := by
            intro h0
            have hrepr := segsPath_partsOf hOk hroot
            rw [h0] at hrepr
            obtain ⟨hh1, _, _⟩ := hOk
            rw [← hrepr] at hh1
            simp [segsPath] at hh1
          have hpos : 0 < (partsOf (normalizePath p)).length := List.length_pos.mpr hne
          omega
    exact Inv_createFile_tail _ _ c hs1 hOk hmiss1

theorem Inv_deserializeStep (s : VFS) (path content : Str) (hs : Inv s)
    (hOk : pathOk (normalizePath path)) : Inv (s.deserializeStep path content) := by
  simp only [VFS.deserializeStep]
  have hnames : ∀ x ∈ partsOf path, nameOk x := partsOf_nameOk _
  have hnamesD : ∀ x ∈ (partsOf path).dropLast, nameOk x :=
    fun x hx => hnames x ((List.dropLast_sublist _).subset hx)
  exact Inv_createFile _ path content
    (Inv_createAncestors _ [] s hs (Or.inl rfl) hnamesD) hOk

theorem Inv_deserialize (s : VFS) (data : List (Str × Str)) (hs : Inv s)
    (hOk : ∀ e ∈ data, pathOk (normalizePath e.1)) : Inv (s.deserialize data) := by
  simp only [VFS.deserialize]
  obtain ⟨rn, hrn, hrt, hrp, hrm, hrc⟩ := hs.rootNode
  rw [hrn]
  have hs0 : Inv { s with
      heap := setA s.root { rn with children := some ([] : List (Str × Nat)) } s.heap,
      files := [(['/'], s.root)] } := by
    refine ⟨List.nodup_singleton _, keysA_setA_nodup _ _ hs.heapNodup, ?_, ?_, ?_, ?_, ?_, ?_⟩
    · intro j hj
      show j < s.nextId
      rcases (mem_keysA_setA _ _).mp hj with hjr | hjo
      · subst hjr
        exact hs.heapBound s.root (getA_mem_keysA hrn)
      · exact hs.heapBound j hjo
    · rw [getA, if_pos rfl]
    · exact ⟨{ rn with children := some ([] : List (Str × Nat)) },
        getA_setA_self _ _ _, hrt, hrp, hrm, rfl⟩
    · intro q j hqj
      obtain ⟨hq0, hj⟩ := getA_singleton_inv hqj
      subst hq0
      subst hj
      refine ⟨{ rn with children := some ([] : List (Str × Nat)) },
        getA_setA_self _ _ _, hrp, pathOk_root, fun _ => ⟨rfl, List.nodup_nil⟩, ?_⟩
      intro hft
      have hft' : rn.type = NodeType.file := hft
      rw [hrt] at hft'
      exact NodeType.noConfusion hft'
    · intro q j hqj hqr
      exact absurd (getA_singleton_inv hqj).1 hqr
    · intro q j hqj m hm c hc
      obtain ⟨hq0, hj⟩ := getA_singleton_inv hqj
      subst hq0
      subst hj
      rw [getA_setA_self] at hm
      injection hm with hx
      rw [← hx] at hc
      simp at hc
  have hfold : ∀ (ps : List Str) (acc : VFS), Inv acc →
      (∀ q ∈ ps, pathOk (normalizePath q)) →
      Inv (ps.foldl (fun acc0 q => acc0.deserializeStep q ((getA q data).getD [])) acc) := by
    intro ps
    induction ps with
    | nil =>
      intro acc hacc _
      exact hacc
    | cons q rest ih =>
      intro acc hacc hqs
      rw [List.foldl_cons]
      exact ih _ (Inv_deserializeStep acc q _ hacc (hqs q (List.mem_cons_self _ _)))
        (fun x hx => hqs x (List.mem_cons_of_mem _ hx))
  refine hfold _ _ hs0 ?_
  intro q hq
  have hq' : q ∈ keysA data := List.mem_mergeSort.mp hq
  obtain ⟨e, he, heq⟩ := List.mem_map.mp hq'
  rw [← heq]
  exact hOk e he

/-! #### Subtree structure lemmas -/

theorem Shrinks_refl (s : VFS) : Shrinks s s :=
  ⟨fun _ _ h => h, fun j m h => ⟨m, h, rfl, rfl, rfl⟩⟩

theorem Shrinks_trans {a b c : VFS} (h1 : Shrinks a b) (h2 : Shrinks b c) : Shrinks a c := by
  refine ⟨fun q j h => h1.1 q j (h2.1 q j h), ?_⟩
  intro j m hm
  obtain ⟨m2, hm2, hp2, hn2, ht2⟩ := h1.2 j m hm
  obtain ⟨m3, hm3, hp3, hn3, ht3⟩ := h2.2 j m2 hm2
  exact ⟨m3, hm3, by rw [hp3, hp2], by rw [hn3, hn2], by rw [ht3, ht2]⟩

theorem inSubB_iff {q p : Str} : inSubB q p = true ↔ (q = p ∨ (q ++ ['/']) <+: p) := by
  rw [inSubB]
  simp [List.isPrefixOf_iff_prefix]

theorem inSubB_refl (p : Str) : inSubB p p = true :=
  inSubB_iff.mpr (Or.inl rfl)

theorem inSubB_trans {a b c : Str} (h1 : inSubB a b = true) (h2 : inSubB b c = true) :
    inSubB a c = true := by
  rcases inSubB_iff.mp h1 with he | hp
  · subst he
    exact h2
  · rcases inSubB_iff.mp h2 with he | hp2
    · subst he
      exact inSubB_iff.mpr (Or.inr hp)
    · refine inSubB_iff.mpr (Or.inr (hp.trans ?_))
      exact (List.prefix_append b ['/']).trans hp2

theorem inSubB_length_le {a q : Str} (h : inSubB a q = true) : a.length ≤ q.length := by
  rcases inSubB_iff.mp h with he | hp
  · subst he
    exact le_rfl
  · have := hp.length_le
    rw [List.length_append] at this
    simp at this
    omega

theorem inSubB_length_lt {a q : Str} (h : inSubB a q = true) (hne : a ≠ q) :
    a.length < q.length := by
  rcases inSubB_iff.mp h with he | hp
  · exact absurd he hne
  · have := hp.length_le
    rw [List.length_append] at this
    simp at this
    omega

theorem inSubB_childPath {P nm : Str} (hP : P ≠ ['/']) :
    inSubB P (childPath P nm) = true := by
  refine inSubB_iff.mpr (Or.inr ?_)
  rw [childPath, if_neg hP]
  exact ⟨nm, by rw [List.append_assoc]; rfl⟩

theorem childPath_ne_root2 {P nm : Str} (hP : P ≠ ['/']) (hP0 : P ≠ []) :
    childPath P nm ≠ ['/'] := by
  rw [childPath, if_neg hP]
  intro h
  have hlen := congrArg List.length h
  rw [List.length_append, List.length_cons] at hlen
  simp only [List.length_cons, List.length_nil] at hlen
  have hP0' : P.length = 0 := by omega
  exact hP0 (List.length_eq_zero.mp hP0')

theorem splitSlash_append (xs ys : Str) :
    splitSlash (xs ++ '/' :: ys) = splitSlash xs ++ splitSlash ys := by
  induction xs with
  | nil =>
    rw [List.nil_append, splitSlash_cons_slash]
    rfl
  | cons c t ih =>
    have iht : List.splitOnP (· == '/') (t ++ '/' :: ys)
        = List.splitOnP (· == '/') t ++ List.splitOnP (· == '/') ys := ih
    show List.splitOnP (· == '/') ((c :: t) ++ '/' :: ys)
        = List.splitOnP (· == '/') (c :: t) ++ List.splitOnP (· == '/') ys
    rw [List.cons_append, List.splitOnP_cons, List.splitOnP_cons, iht]
    by_cases hc : (c == '/') = true
    · rw [if_pos hc, if_pos hc]
      rfl
    · rw [if_neg hc, if_neg hc]
      rcases hsp : List.splitOnP (· == '/') t with _ | ⟨p0, ps⟩
      · exact absurd hsp (List.splitOnP_ne_nil _ t)
      · rfl

theorem partsOf_append (xs ys : Str) :
    partsOf (xs ++ '/' :: ys) = partsOf xs ++ partsOf ys := by
  rw [partsOf, partsOf, partsOf, splitSlash_append, List.filter_append]

theorem partsOf_ne_nil {p : Str} (hp : pathOk p) (hr : p ≠ ['/']) : partsOf p ≠ [] := by
  intro h0
  have hrepr := segsPath_partsOf hp hr
  rw [h0] at hrepr
  obtain ⟨hh1, _, _⟩ := hp
  rw [← hrepr] at hh1
  simp [segsPath] at hh1

theorem foldl_slash (l : List Str) : ∀ (x : Str), l ≠ [] →
    ∃ rest, List.foldl (fun a seg => a ++ '/' :: seg) x l = x ++ '/' :: rest := by
  induction l with
  | nil => exact fun x h => absurd rfl h
  | cons y t ih =>
    intro x _
    by_cases ht : t = []
    · subst ht
      exact ⟨y, rfl⟩
    · obtain ⟨r, hr⟩ := ih (x ++ '/' :: y) ht
      refine ⟨y ++ '/' :: r, ?_⟩
      simp only [List.foldl_cons]
      rw [hr, List.append_assoc]
      rfl

theorem inSubB_iff_parts {a q : Str} (ha : pathOk a) (har : a ≠ ['/'])
    (hq : pathOk q) : inSubB a q = true ↔ partsOf a <+: partsOf q := by
  constructor
  · intro h
    rcases inSubB_iff.mp h with he | hp
    · subst he
      exact List.prefix_refl _
    · obtain ⟨rest, hrest⟩ := hp
      have hq' : q = a ++ '/' :: rest := by
        rw [← hrest, List.append_assoc]
        rfl
      rw [hq', partsOf_append]
      exact ⟨partsOf rest, rfl⟩
  · intro h
    obtain ⟨l, hl⟩ := h
    have hqr : q ≠ ['/'] := by
      intro h0
      subst h0
      rw [partsOf_root] at hl
      have := partsOf_ne_nil ha har
      rcases hpa : partsOf a with _ | _
      · exact this hpa
      · rw [hpa] at hl
        exact List.noConfusion hl
    rcases hl0 : l with _ | ⟨z, zs⟩
    · subst hl0
      rw [List.append_nil] at hl
      have : a = q := by
        rw [← segsPath_partsOf ha har, ← segsPath_partsOf hq hqr, hl]
      exact inSubB_iff.mpr (Or.inl this)
    · have hsq : segsPath (partsOf q) = q := segsPath_partsOf hq hqr
      rw [← hl] at hsq
      rw [segsPath, List.foldl_append] at hsq
      obtain ⟨rest, hrest⟩ := foldl_slash l
        (List.foldl (fun a0 seg => a0 ++ '/' :: seg) [] (partsOf a)) (by rw [hl0]; simp)
      rw [hrest] at hsq
      have hfa : List.foldl (fun a0 seg => a0 ++ '/' :: seg) [] (partsOf a) = a :=
        segsPath_partsOf ha har
      rw [hfa] at hsq
      refine inSubB_iff.mpr (Or.inr ⟨rest, ?_⟩)
      rw [List.append_assoc]
      rw [← hsq]
      rfl

theorem partsOf_inj {a b : Str} (ha : pathOk a) (har : a ≠ ['/'])
    (hb : pathOk b) (hbr : b ≠ ['/']) (h : partsOf a = partsOf b) : a = b := by
  rw [← segsPath_partsOf ha har, ← segsPath_partsOf hb hbr, h]

theorem first_step_sub {P q : Str} (hP : pathOk P) (hPr : P ≠ ['/']) (hq : pathOk q)
    (hsub : inSubB P q = true) (hne : q ≠ P) :
    ∃ nm, nameOk nm ∧ inSubB (childPath P nm) q = true ∧
      partsOf (childPath P nm) = partsOf P ++ [nm] := by
  have hparts := (inSubB_iff_parts hP hPr hq).mp hsub
  obtain ⟨l, hl⟩ := hparts
  have hqr : q ≠ ['/'] := by
    intro h0
    have hlt := inSubB_length_lt hsub (fun he => hne he.symm)
    subst h0
    obtain ⟨hh1, _, _⟩ := hP
    cases P with
    | nil => simp at hh1
    | cons c t =>
      simp only [List.length_cons, List.length_nil] at hlt
      omega
  rcases hl0 : l with _ | ⟨nm, l'⟩
  · subst hl0
    rw [List.append_nil] at hl
    exact absurd (partsOf_inj hq hqr hP hPr hl.symm).symm (fun he => hne he.symm)
  · subst hl0
    have hnm : nameOk nm := by
      refine partsOf_nameOk q nm ?_
      rw [← hl]
      exact List.mem_append_right _ (List.mem_cons_self _ _)
    have hcp : partsOf (childPath P nm) = partsOf P ++ [nm] :=
      partsOf_childPath hP hnm
    refine ⟨nm, hnm, ?_, hcp⟩
    refine (inSubB_iff_parts (pathOk_childPath hP hnm) (childPath_ne_root hP hnm) hq).mpr ?_
    rw [hcp]
    refine ⟨l', ?_⟩
    rw [List.append_assoc, ← hl]
    rfl

theorem length_filter_mono {α : Type} (A B : α → Bool) (l : List α)
    (himp : ∀ x ∈ l, A x = true → B x = true) :
    (l.filter A).length ≤ (l.filter B).length := by
  rw [← List.countP_eq_length_filter, ← List.countP_eq_length_filter]
  exact List.countP_mono_left himp

theorem countP_lt {α : Type} (A B : α → Bool) (l : List α)
    (himp : ∀ x ∈ l, A x = true → B x = true)
    (x0 : α) (hx0 : x0 ∈ l) (hB : B x0 = true) (hA : A x0 = false) :
    l.countP A < l.countP B := by
  induction l with
  | nil => cases hx0
  | cons y t ih =>
    rcases List.mem_cons.mp hx0 with he | hm
    · subst he
      have hA' : ¬ A x0 = true := by
        rw [hA]
        exact Bool.false_ne_true
      rw [List.countP_cons_of_neg _ _ hA', List.countP_cons_of_pos _ _ hB]
      have hle := List.countP_mono_left
        (fun x hx hax => himp x (List.mem_cons_of_mem _ hx) hax)
      omega
    · have iht := ih (fun x hx => himp x (List.mem_cons_of_mem _ hx)) hm
      by_cases hAy : A y = true
      · rw [List.countP_cons_of_pos _ _ hAy,
          List.countP_cons_of_pos _ _ (himp y (List.mem_cons_self _ _) hAy)]
        omega
      · rw [List.countP_cons_of_neg _ _ hAy]
        by_cases hBy : B y = true
        · rw [List.countP_cons_of_pos _ _ hBy]
          omega
        · rw [List.countP_cons_of_neg _ _ hBy]
          omega

theorem length_filter_lt {α : Type} (A B : α → Bool) (l : List α)
    (himp : ∀ x ∈ l, A x = true → B x = true)
    (x0 : α) (hx0 : x0 ∈ l) (hB : B x0 = true) (hA : A x0 = false) :
    (l.filter A).length < (l.filter B).length := by
  rw [← List.countP_eq_length_filter, ← List.countP_eq_length_filter]
  exact countP_lt A B l himp x0 hx0 hB hA

theorem length_le_of_nodup_subset {α : Type} [DecidableEq α] {l1 l2 : List α}
    (h1 : l1.Nodup) (hsub : l1 ⊆ l2) : l1.length ≤ l2.length := by
  rw [← List.toFinset_card_of_nodup h1]
  refine le_trans (Finset.card_le_card ?_) (List.toFinset_card_le l2)
  intro x hx
  rw [List.mem_toFinset] at hx ⊢
  exact hsub hx

theorem subCount_le_of_sub {s t : VFS}
    (h : ∀ q j, getA q t.files = some j → getA q s.files = some j)
    (hnodt : (keysA t.files).Nodup) (p : Str) : subCount t p ≤ subCount s p := by
  rw [subCount, subCount]
  refine length_le_of_nodup_subset (hnodt.filter _) ?_
  intro x hx
  rw [List.mem_filter] at hx ⊢
  refine ⟨?_, hx.2⟩
  obtain ⟨j, hj⟩ := mem_keysA_getA hx.1
  exact getA_mem_keysA (h x j hj)

theorem subCount_lt {t : VFS} (hnod : (keysA t.files).Nodup) {P cp : Str}
    (hmem : cp ∈ keysA t.files) (hsub : inSubB P cp = true) (hne : cp ≠ P) :
    subCount t cp < subCount t P := by
  rw [subCount, subCount]
  refine length_filter_lt _ _ _ ?_ cp hmem ?_ ?_
  · intro x hx hA
    simp only [decide_eq_true_eq] at hA ⊢
    obtain ⟨hxcp, hxsub⟩ := hA
    refine ⟨?_, inSubB_trans hsub hxsub⟩
    intro hxP
    subst hxP
    have h1 := inSubB_length_lt hxsub hne
    have h2 := inSubB_length_lt hsub (Ne.symm hne)
    omega
  · simp only [decide_eq_true_eq]
    exact ⟨hne, hsub⟩
  · simp only [decide_eq_false_iff_not, not_and]
    intro hcc
    exact absurd rfl hcc

theorem under_key_root {s : VFS} (hs : Inv s) {P : Str} (hP : pathOk P)
    (hPr : P ≠ ['/']) :
    ∀ len q j, q.length ≤ len → getA q s.files = some j → inSubB P q = true →
      ∃ i0, getA P s.files = some i0 := by
  intro len
  induction len with
  | zero =>
    intro q j hl hqj hsub
    obtain ⟨_, _, _, hOkq, _⟩ := hs.entries q j hqj
    obtain ⟨hh1, _, _⟩ := hOkq
    cases q with
    | nil => simp at hh1
    | cons a t => simp at hl
  | succ k ih =>
    intro q j hl hqj hsub
    by_cases he : q = P
    · subst he
      exact ⟨j, hqj⟩
    · obtain ⟨_, _, _, hOkq, _⟩ := hs.entries q j hqj
      have hqr : q ≠ ['/'] := by
        intro h0
        subst h0
        have hlt := inSubB_length_lt hsub (fun h => he h.symm)
        obtain ⟨hh1, _, _⟩ := hP
        cases P with
        | nil => simp at hh1
        | cons a t =>
          simp only [List.length_cons, List.length_nil] at hlt
          omega
      obtain ⟨_, pid, _, _, _, hpf, _⟩ := hs.parentLink q j hqj hqr
      have hgpp_sub : inSubB P (getParentPath q) = true := by
        have hparts := (inSubB_iff_parts hP hPr hOkq).mp hsub
        have hgppOk := pathOk_getParentPath hOkq
        refine (inSubB_iff_parts hP hPr hgppOk).mpr ?_
        obtain ⟨q0, n0, hq0, hn0, he0⟩ := pathOk_decomp hOkq hqr
        rw [he0, getParentPath_childPath hq0 hn0]
        rw [he0, partsOf_childPath hq0 hn0] at hparts
        rcases hparts with ⟨l, hl⟩
        rcases hl0 : l.getLast? with _ | z
        · rw [List.getLast?_eq_none_iff] at hl0
          subst hl0
          rw [List.append_nil] at hl
          exfalso
          refine he (partsOf_inj hOkq hqr hP hPr ?_)
          rw [he0, partsOf_childPath hq0 hn0, ← hl]
        · obtain ⟨l1, hl1⟩ := List.getLast?_eq_some_iff.mp hl0
          subst hl1
          refine ⟨l1, ?_⟩
          have := congrArg List.dropLast hl
          rw [← List.append_assoc, List.dropLast_concat, List.dropLast_concat] at this
          exact this
      have hlt : (getParentPath q).length < q.length := by
        obtain ⟨q0, n0, hq0, hn0, he0⟩ := pathOk_decomp hOkq hqr
        rw [he0, getParentPath_childPath hq0 hn0]
        exact childPath_length_lt hq0 hn0
      exact ih (getParentPath q) pid (by omega) hpf hgpp_sub

theorem subtree_empty {s : VFS} (hs : Inv s) {P : Str} (hP : pathOk P)
    (hPr : P ≠ ['/']) (hnone : getA P s.files = none) :
    ∀ q j, getA q s.files = some j → inSubB P q = true → False := by
  intro q j hqj hsub
  obtain ⟨i0, hi0⟩ := under_key_root hs hP hPr q.length q j le_rfl hqj hsub
  rw [hnone] at hi0
  exact Option.noConfusion hi0

/-! #### `deleteFile` -/

theorem pathOk_ne_nil {p : Str} (hp : pathOk p) : p ≠ [] := by
  intro h0
  obtain ⟨hh, _, _⟩ := hp
  rw [h0] at hh
  simp at hh

theorem childPath_length_gt {P nm : Str} (hP : P ≠ ['/']) :
    P.length < (childPath P nm).length := by
  rw [childPath, if_neg hP]
  simp only [List.length_append, List.length_cons]
  omega

theorem childPath_ne_self {P nm : Str} (hP : P ≠ ['/']) : childPath P nm ≠ P := by
  intro h
  have := @childPath_length_gt P nm hP
  rw [h] at this
  omega

theorem getA_delA_some {α β : Type} [DecidableEq α] {k q : α} {v : β} {l : List (α × β)}
    (hn : (keysA l).Nodup) (h : getA q (delA k l) = some v) :
    getA q l = some v ∧ q ≠ k := by
  by_cases hq : q = k
  · subst hq
    rw [getA_delA_self hn] at h
    exact Option.noConfusion h
  · rw [getA_delA_ne hq] at h
    exact ⟨h, hq⟩

theorem mem_delA {α β : Type} [DecidableEq α] {c : α × β} {k : α} {l : List (α × β)}
    (hn : (keysA l).Nodup) (h : c ∈ delA k l) : c ∈ l ∧ c.1 ≠ k := by
  induction l with
  | nil => cases h
  | cons e rest ih =>
    obtain ⟨a, b⟩ := e
    simp only [keysA, List.map_cons, List.nodup_cons] at hn
    by_cases ha : a = k
    · subst ha
      rw [delA, if_pos rfl] at h
      refine ⟨List.mem_cons_of_mem _ h, ?_⟩
      intro hck
      have : c.1 ∈ List.map Prod.fst rest := List.mem_map_of_mem Prod.fst h
      rw [hck] at this
      exact hn.1 this
    · rw [delA, if_neg ha] at h
      rcases List.mem_cons.mp h with he | hm
      · subst he
        exact ⟨List.mem_cons_self _ _, ha⟩
      · obtain ⟨h1, h2⟩ := ih hn.2 hm
        exact ⟨List.mem_cons_of_mem _ h1, h2⟩

theorem deleteFileAux_none_eq {s : VFS} {path : Str} (fuel : Nat)
    (hlk : s.lookup (normalizePath path) = none) :
    s.deleteFileAux path (fuel + 1) = (false, s) := by
  simp only [VFS.deleteFileAux]
  rw [hlk]

theorem deleteFileAux_root_eq {s : VFS} {path : Str} (fuel : Nat) {id0 : Nat} {node : Node}
    (hlk : s.lookup (normalizePath path) = some (id0, node))
    (hroot : normalizePath path = ['/']) :
    s.deleteFileAux path (fuel + 1) = (false, s) := by
  simp only [VFS.deleteFileAux]
  rw [hlk]
  show (if normalizePath path = ['/'] then ((false : Bool), s) else _) = ((false : Bool), s)
  rw [if_pos hroot]

theorem deleteFileAux_noparent_eq {s : VFS} {path : Str} (fuel : Nat) {id0 : Nat}
    {node : Node} (hlk : s.lookup (normalizePath path) = some (id0, node))
    (hroot : normalizePath path ≠ ['/'])
    (hpe : s.getParentEntry (normalizePath path) = none) :
    s.deleteFileAux path (fuel + 1) = (false, s) := by
  simp only [VFS.deleteFileAux]
  rw [hlk]
  show (if normalizePath path = ['/'] then ((false : Bool), s)
    else match s.getParentEntry (normalizePath path) with
      | none => ((false : Bool), s)
      | some (pid, pnode) =>
        if pnode.type ≠ NodeType.directory then ((false : Bool), s)
        else (true, delState (if node.type = NodeType.directory ∧ node.children.isSome = true then delKids fuel s (node.children.getD []) else s) (normalizePath path) node.name pid)) = ((false : Bool), s)
  rw [if_neg hroot, hpe]

theorem deleteFileAux_baddir_eq {s : VFS} {path : Str} (fuel : Nat) {id0 pid : Nat}
    {node pnode : Node} (hlk : s.lookup (normalizePath path) = some (id0, node))
    (hroot : normalizePath path ≠ ['/'])
    (hpe : s.getParentEntry (normalizePath path) = some (pid, pnode))
    (htd : pnode.type ≠ NodeType.directory) :
    s.deleteFileAux path (fuel + 1) = (false, s) := by
  simp only [VFS.deleteFileAux]
  rw [hlk]
  show (if normalizePath path = ['/'] then ((false : Bool), s)
    else match s.getParentEntry (normalizePath path) with
      | none => ((false : Bool), s)
      | some (pid, pnode) =>
        if pnode.type ≠ NodeType.directory then ((false : Bool), s)
        else (true, delState (if node.type = NodeType.directory ∧ node.children.isSome = true then delKids fuel s (node.children.getD []) else s) (normalizePath path) node.name pid)) = ((false : Bool), s)
  rw [if_neg hroot, hpe]
  show (if pnode.type ≠ NodeType.directory then ((false : Bool), s) else _) = ((false : Bool), s)
  rw [if_pos htd]

theorem deleteFileAux_succ_eq {s : VFS} {path : Str} (fuel : Nat) {id0 pid : Nat}
    {node pnode : Node} (hlk : s.lookup (normalizePath path) = some (id0, node))
    (hroot : normalizePath path ≠ ['/'])
    (hpe : s.getParentEntry (normalizePath path) = some (pid, pnode))
    (htd : ¬ pnode.type ≠ NodeType.directory) :
    s.deleteFileAux path (fuel + 1) =
      (true, delState (if node.type = NodeType.directory ∧ node.children.isSome = true then delKids fuel s (node.children.getD []) else s) (normalizePath path) node.name pid) := by
  simp only [VFS.deleteFileAux]
  rw [hlk]
  show (if normalizePath path = ['/'] then ((false : Bool), s)
    else match s.getParentEntry (normalizePath path) with
      | none => ((false : Bool), s)
      | some (pid, pnode) =>
        if pnode.type ≠ NodeType.directory then ((false : Bool), s)
        else (true, delState (if node.type = NodeType.directory ∧ node.children.isSome = true then delKids fuel s (node.children.getD []) else s) (normalizePath path) node.name pid)) = _
  rw [if_neg hroot, hpe]
  show (if pnode.type ≠ NodeType.directory then ((false : Bool), s)
    else (true, delState (if node.type = NodeType.directory ∧ node.children.isSome = true then delKids fuel s (node.children.getD []) else s) (normalizePath path) node.name pid)) = _
  rw [if_neg htd]

theorem first_step_child {t : VFS} (ht : Inv t) {P : Str} {i : Nat} {nd : Node}
    (hP : pathOk P) (hPr : P ≠ ['/'])
    (hPt : getA P t.files = some i) (hnd : getA i t.heap = some nd)
    {q : Str} {j : Nat} (hqj : getA q t.files = some j)
    (hsub : inSubB P q = true) (hne : q ≠ P) :
    ∃ c ∈ nd.children.getD [], inSubB (childPath P c.1) q = true := by
  obtain ⟨_, _, hqpath, hOkq, _⟩ := ht.entries q j hqj
  obtain ⟨nm, hnm, hsubc, hcp⟩ := first_step_sub hP hPr hOkq hsub hne
  have hcpOk : pathOk (childPath P nm) := pathOk_childPath hP hnm
  have hcpr : childPath P nm ≠ ['/'] := childPath_ne_root hP hnm
  obtain ⟨cid, hcid⟩ := under_key_root ht hcpOk hcpr q.length q j le_rfl hqj hsubc
  obtain ⟨n0, pid0, pn0, hn0, hn0name, hp0f, hp0h, _, hmem0, heq0⟩ :=
    ht.parentLink (childPath P nm) cid hcid hcpr
  rw [getParentPath_childPath hP hnm] at hp0f
  have hpid0 : pid0 = i := by
    rw [hPt] at hp0f
    injection hp0f with hx
    exact hx.symm
  rw [hpid0, hnd] at hp0h
  injection hp0h with hpn0
  obtain ⟨ndl, hndl, hndpath, _⟩ := ht.entries P i hPt
  rw [hnd] at hndl
  injection hndl with hnd_eq
  have hndP : nd.path = P := by
    rw [hnd_eq]
    exact hndpath
  rw [← hpn0, hndP] at heq0
  have hname_eq : n0.name = nm := ((childPath_inj hP hnm hP hn0name heq0).2).symm
  have hmem0' : getA n0.name (nd.children.getD []) = some cid := by
    rw [hpn0]
    exact hmem0
  refine ⟨(n0.name, cid), getA_eq_some_mem hmem0', ?_⟩
  rw [hname_eq]
  exact hsubc

theorem dsAux_eq {s2 : VFS} {nodeName : Str} {pid : Nat} {pn : Node}
    (h : getA pid s2.heap = some pn) :
    dsAux s2 nodeName pid =
      { s2 with heap := setA pid { pn with children := some (delA nodeName (pn.children.getD [])) } s2.heap } := by
  rw [dsAux, h]

theorem delState_eq {s2 : VFS} {P nodeName : Str} {pid : Nat} {pn : Node}
    (h : getA pid s2.heap = some pn) :
    delState s2 P nodeName pid =
      { s2 with
        heap := setA pid { pn with children := some (delA nodeName (pn.children.getD [])) } s2.heap,
        files := delA P s2.files } := by
  rw [delState, dsAux_eq h]

theorem Inv_delState {s2 : VFS} (hs2 : Inv s2) {P : Str} {i pid : Nat}
    (hP : pathOk P) (hProot : P ≠ ['/'])
    (hPf : getA P s2.files = some i)
    (hpidf : getA (getParentPath P) s2.files = some pid)
    (hcleared : ∀ q j, getA q s2.files = some j → inSubB P q = true → q = P)
    {nodeName : Str}
    (hnm : ∃ n2, getA i s2.heap = some n2 ∧ n2.name = nodeName) :
    Inv (delState s2 P nodeName pid) ∧ Shrinks s2 (delState s2 P nodeName pid) := by
  obtain ⟨n2, hn2, hn2name⟩ := hnm
  obtain ⟨n2e, pide, pne, hn2e, hnameOk2, hpfe, hphe, hptypee, hmeme, hpeqe⟩ :=
    hs2.parentLink P i hPf hProot
  have hn2e2 : n2 = n2e := by
    rw [hn2] at hn2e
    injection hn2e with hx
  have hpide : pide = pid := by
    rw [hpidf] at hpfe
    injection hpfe with hx
    exact hx.symm
  rw [hpide] at hphe
  rw [delState_eq hphe]
  have hn2ename : n2e.name = nodeName := by
    rw [← hn2e2]
    exact hn2name
  have hpchild : (keysA (pne.children.getD [])).Nodup := by
    obtain ⟨pne2, hpne2, _, _, hdir, _⟩ := hs2.entries (getParentPath P) pid hpidf
    rw [hphe] at hpne2
    injection hpne2 with hx
    rw [← hx] at hdir
    exact (hdir hptypee).2
  have hH : ∀ j, getA j (setA pid { pne with children := some (delA nodeName (pne.children.getD [])) } s2.heap) = if pid = j then some { pne with children := some (delA nodeName (pne.children.getD [])) } else getA j s2.heap :=
    fun j => getA_setA j pid _ s2.heap
  have htr : ∀ j m, getA j s2.heap = some m →
      ∃ m2, getA j (setA pid { pne with children := some (delA nodeName (pne.children.getD [])) } s2.heap) = some m2 ∧
        m2.type = m.type ∧ m2.name = m.name ∧ m2.path = m.path ∧
        (pid ≠ j → m2.children = m.children) := by
    intro j m hjm
    by_cases hjp : pid = j
    · subst hjp
      have hm : pne = m := by
        rw [hphe] at hjm
        injection hjm with hx
      rw [← hm]
      exact ⟨{ pne with children := some (delA nodeName (pne.children.getD [])) },
        by rw [hH, if_pos rfl], rfl, rfl, rfl, fun h => absurd rfl h⟩
    · exact ⟨m, by rw [hH, if_neg hjp]; exact hjm, rfl, rfl, rfl, fun _ => rfl⟩
  have hFdel : ∀ q j, getA q (delA P s2.files) = some j →
      getA q s2.files = some j ∧ q ≠ P :=
    fun q j h => getA_delA_some hs2.filesNodup h
  have hchild_not_del : ∀ q j, getA q s2.files = some j →
      ∀ c ∈ [(0, 0)], True := fun _ _ _ _ _ => trivial
  clear hchild_not_del
  have hcn_aux : ∀ q j, getA q s2.files = some j →
      ∀ cn (c : Str × Nat), getA c.2 s2.heap = some cn → cn.name = c.1 →
      cn.path = childPath q c.1 → getA cn.path s2.files = some c.2 →
      cn.path = P → q = getParentPath P ∧ c.1 = nodeName ∧ c.2 = i := by
    intro q j hqj cn c hcn hcname hcpath hcfiles hcnP
    have hc2 : c.2 = i := by
      rw [hcnP, hPf] at hcfiles
      injection hcfiles with hx
      exact hx.symm
    have hcne : cn = n2 := by
      rw [hc2, hn2] at hcn
      injection hcn with hx
      exact hx.symm
    have hc1 : c.1 = nodeName := by
      rw [← hcname, hcne, hn2name]
    have hc1ok : nameOk c.1 := by
      rw [← hcname, hcne, hn2name, ← hn2ename]
      exact hnameOk2
    obtain ⟨_, _, _, hOkq, _⟩ := hs2.entries q j hqj
    have hq : q = getParentPath P := by
      rw [← hcnP, hcpath]
      rw [getParentPath_childPath hOkq hc1ok]
    exact ⟨hq, hc1, hc2⟩
  constructor
  · refine ⟨keysA_delA_nodup _ hs2.filesNodup, keysA_setA_nodup _ _ hs2.heapNodup,
      ?_, ?_, ?_, ?_, ?_, ?_⟩
    · intro j hj
      show j < s2.nextId
      rcases (mem_keysA_setA _ _).mp hj with hjp | hjo
      · subst hjp
        exact hs2.heapBound j (getA_mem_keysA hphe)
      · exact hs2.heapBound j hjo
    · show getA ['/'] (delA P s2.files) = some s2.root
      rw [getA_delA_ne (fun h => hProot h.symm)]
      exact hs2.rootFiles
    · obtain ⟨rn, hrn, h1, h2, h3, h4⟩ := hs2.rootNode
      by_cases hpr : pid = s2.root
      · subst hpr
        have hrne : pne = rn := by
          rw [hphe] at hrn
          injection hrn with hx
        refine ⟨{ pne with children := some (delA nodeName (pne.children.getD [])) },
          by rw [hH, if_pos rfl], ?_, ?_, ?_, rfl⟩
        · show pne.type = NodeType.directory
          rw [hrne]
          exact h1
        · show pne.path = ['/']
          rw [hrne]
          exact h2
        · show pne.name = ['/']
          rw [hrne]
          exact h3
      · obtain ⟨rn2, hrn2, ht2, hm2, hp2, hc2⟩ := htr s2.root rn hrn
        exact ⟨rn2, hrn2, by rw [ht2]; exact h1, by rw [hp2]; exact h2,
          by rw [hm2]; exact h3, by rw [hc2 hpr]; exact h4⟩
    · intro q j hqj
      obtain ⟨hqj', hqP⟩ := hFdel q j hqj
      obtain ⟨m, hmh, hmp, hOkm, hdir, hfile⟩ := hs2.entries q j hqj'
      by_cases hjp : pid = j
      · subst hjp
        have hm : pne = m := by
          rw [hphe] at hmh
          injection hmh with hx
        refine ⟨{ pne with children := some (delA nodeName (pne.children.getD [])) },
          by rw [hH, if_pos rfl], ?_, hOkm, ?_, ?_⟩
        · show pne.path = q
          rw [hm]
          exact hmp
        · intro _
          exact ⟨rfl, keysA_delA_nodup _ hpchild⟩
        · intro hft
          have hft' : pne.type = NodeType.file := hft
          rw [hptypee] at hft'
          exact NodeType.noConfusion hft'
      · refine ⟨m, by rw [hH, if_neg hjp]; exact hmh, hmp, hOkm, hdir, hfile⟩
    · intro q j hqj hqr
      obtain ⟨hqj', hqP⟩ := hFdel q j hqj
      obtain ⟨m, opid, opn, hmh, hname, hopf, hoph, hoptype, hmem, hpeq⟩ :=
        hs2.parentLink q j hqj' hqr
      obtain ⟨m2, hm2, _, hnm2, hp2, _⟩ := htr j m hmh
      have hgpp_ne : getParentPath q ≠ P := by
        intro hgp
        have hopi : opid = i := by
          rw [hgp, hPf] at hopf
          injection hopf with hx
          exact hx.symm
        have hopn2 : n2 = opn := by
          rw [hopi, hn2] at hoph
          injection hoph with hx
        have hnpath : n2.path = P := by
          obtain ⟨n2x, hn2x, hn2xp, _⟩ := hs2.entries P i hPf
          rw [hn2] at hn2x
          injection hn2x with hx
          rw [← hx] at hn2xp
          exact hn2xp
        have hqsub : inSubB P q = true := by
          rw [hpeq, ← hopn2, hnpath]
          exact inSubB_childPath hProot
        exact hqP (hcleared q j hqj' hqsub)
      by_cases hop : pid = opid
      · have hopn : pne = opn := by
          rw [← hop, hphe] at hoph
          injection hoph with hx
        have hmn_ne : m.name ≠ nodeName := by
          intro hmn
          refine hqP ?_
          rw [hpeq, ← hopn, hmn, ← hn2ename, ← hpeqe]
        have hpf2 : getA (getParentPath q) (delA P s2.files) = some pid := by
          rw [getA_delA_ne hgpp_ne, hop]
          exact hopf
        refine ⟨m2, pid, { pne with children := some (delA nodeName (pne.children.getD [])) },
          hm2, by rw [hnm2]; exact hname, hpf2,
          by rw [hH, if_pos rfl], hptypee, ?_, ?_⟩
        · show getA m2.name (delA nodeName (pne.children.getD [])) = some j
          rw [hnm2, getA_delA_ne hmn_ne, hopn]
          exact hmem
        · show q = childPath pne.path m2.name
          rw [hnm2, hopn]
          exact hpeq
      · obtain ⟨opn2, hopn2, hto2, hno2, hpo2, hco2⟩ := htr opid opn hoph
        have hpf2 : getA (getParentPath q) (delA P s2.files) = some opid := by
          rw [getA_delA_ne hgpp_ne]
          exact hopf
        refine ⟨m2, opid, opn2, hm2, by rw [hnm2]; exact hname, hpf2,
          hopn2, by rw [hto2]; exact hoptype, ?_, ?_⟩
        · rw [hco2 hop, hnm2]
          exact hmem
        · rw [hpo2, hnm2]
          exact hpeq
    · intro q j hqj m hm c hc
      obtain ⟨hqj', hqP⟩ := hFdel q j hqj
      by_cases hjp : pid = j
      · subst hjp
        rw [hH, if_pos rfl] at hm
        injection hm with hx
        have hcm : c ∈ delA nodeName (pne.children.getD []) := by
          rw [← hx] at hc
          exact hc
        obtain ⟨hcold, hc1ne⟩ := mem_delA hpchild hcm
        obtain ⟨cn, hcn, hcname, hcpath, hcfiles⟩ :=
          hs2.childrenLink q pid hqj' pne hphe c hcold
        have hcnP : cn.path ≠ P := by
          intro h
          exact hc1ne (hcn_aux q pid hqj' cn c hcn hcname hcpath hcfiles h).2.1
        obtain ⟨cn2, hcn2, _, hnc2, hpc2, _⟩ := htr c.2 cn hcn
        refine ⟨cn2, hcn2, by rw [hnc2]; exact hcname, by rw [hpc2]; exact hcpath, ?_⟩
        show getA cn2.path (delA P s2.files) = some c.2
        rw [hpc2, getA_delA_ne hcnP]
        exact hcfiles
      · rw [hH, if_neg hjp] at hm
        obtain ⟨cn, hcn, hcname, hcpath, hcfiles⟩ :=
          hs2.childrenLink q j hqj' m hm c hc
        have hcnP : cn.path ≠ P := by
          intro h
          have hres := hcn_aux q j hqj' cn c hcn hcname hcpath hcfiles h
          apply hjp
          rw [hres.1] at hqj'
          rw [hpidf] at hqj'
          injection hqj' with hx
        obtain ⟨cn2, hcn2, _, hnc2, hpc2, _⟩ := htr c.2 cn hcn
        refine ⟨cn2, hcn2, by rw [hnc2]; exact hcname, by rw [hpc2]; exact hcpath, ?_⟩
        show getA cn2.path (delA P s2.files) = some c.2
        rw [hpc2, getA_delA_ne hcnP]
        exact hcfiles
  · constructor
    · intro q j h
      exact (hFdel q j h).1
    · intro j m hjm
      obtain ⟨m2, hm2, ht2, hn2x, hp2x, _⟩ := htr j m hjm
      exact ⟨m2, hm2, hp2x, hn2x, ht2⟩

theorem delKids_master (fuel : Nat)
    (IH : ∀ (path0 : Str) (s0 : VFS), Inv s0 → subCount s0 (normalizePath path0) < fuel →
      Inv (s0.deleteFileAux path0 fuel).2 ∧ Shrinks s0 (s0.deleteFileAux path0 fuel).2 ∧
      (∀ q j, getA q s0.files = some j → getA q (s0.deleteFileAux path0 fuel).2.files = none →
        inSubB (normalizePath path0) q = true) ∧
      ((pathOk (normalizePath path0) ∧ normalizePath path0 ≠ ['/'] ∧
          ∃ pid2 pn2, s0.lookup (getParentPath (normalizePath path0)) = some (pid2, pn2) ∧
            pn2.type = NodeType.directory) →
        ∀ q j, getA q (s0.deleteFileAux path0 fuel).2.files = some j →
          inSubB (normalizePath path0) q = true → False)) :
    ∀ (cs : List (Str × Nat)) (t s3 : VFS) (P : Str) (i : Nat),
    Inv s3 → Shrinks t s3 →
    (∀ q j, getA q t.files = some j → getA q s3.files = none →
      inSubB P q = true ∧ q ≠ P) →
    getA P t.files = some i → pathOk P → P ≠ ['/'] →
    (∃ nd0, getA i t.heap = some nd0 ∧ nd0.type = NodeType.directory) →
    (∀ c ∈ cs, getA (childPath P c.1) t.files = some c.2 ∧
      pathOk (childPath P c.1) ∧ nameOk c.1 ∧ subCount t (childPath P c.1) < fuel ∧
      (∃ cn, getA c.2 t.heap = some cn ∧ cn.path = childPath P c.1)) →
    Inv (delKids fuel s3 cs) ∧ Shrinks s3 (delKids fuel s3 cs) ∧
    (∀ q j, getA q t.files = some j → getA q (delKids fuel s3 cs).files = none →
      inSubB P q = true ∧ q ≠ P) ∧
    (∀ c ∈ cs, ∀ q j, getA q (delKids fuel s3 cs).files = some j →
      inSubB (childPath P c.1) q = true → False) := by
  intro cs
  induction cs with
  | nil =>
    intro t s3 P i hs3 hShr hdel hPt hPok hProot hnd hcs
    refine ⟨hs3, Shrinks_refl s3, hdel, ?_⟩
    intro c hc
    cases hc
  | cons c cs0 ih =>
    intro t s3 P i hs3 hShr hdel hPt hPok hProot hnd hcs
    obtain ⟨hcf, hcOk, hcnmOk, hccnt, cn0, hcn0, hcn0path⟩ := hcs c (List.mem_cons_self _ _)
    obtain ⟨cn2, hcn2a, hcp2, _, _⟩ := hShr.2 c.2 cn0 hcn0
    obtain ⟨c1, c2⟩ := c
    have hcn2 : getA c2 s3.heap = some cn2 := hcn2a
    have hstep : delKids fuel s3 ((c1, c2) :: cs0) =
        delKids fuel ((s3.deleteFileAux cn2.path fuel).2) cs0 := by
      simp only [delKids, VFS.deleteChildren]
      rw [hcn2]
    rw [hstep]
    have hcp2' : cn2.path = childPath P (c1, c2).1 := by
      rw [hcp2, hcn0path]
    have hnorm : normalizePath cn2.path = childPath P (c1, c2).1 := by
      rw [hcp2', normalizePath_of_pathOk hcOk]
    have hcnt2 : subCount s3 (normalizePath cn2.path) < fuel := by
      rw [hnorm]
      have h1 := subCount_le_of_sub hShr.1 hs3.filesNodup (childPath P (c1, c2).1)
      omega
    obtain ⟨hInv2, hShr2, hM3, hM4⟩ := IH cn2.path s3 hs3 hcnt2
    have hPs3 : getA P s3.files = some i := by
      rcases hg : getA P s3.files with _ | j
      · exact absurd rfl (hdel P i hPt hg).2
      · have hup := hShr.1 P j hg
        rw [hPt] at hup
        injection hup with hx
        rw [hx]
    have hcond : pathOk (normalizePath cn2.path) ∧ normalizePath cn2.path ≠ ['/'] ∧
        ∃ pid2 pn2, s3.lookup (getParentPath (normalizePath cn2.path)) = some (pid2, pn2) ∧
          pn2.type = NodeType.directory := by
      rw [hnorm]
      refine ⟨hcOk, childPath_ne_root hPok hcnmOk, ?_⟩
      rw [getParentPath_childPath hPok hcnmOk]
      obtain ⟨nd0, hnd0, hnd0t⟩ := hnd
      obtain ⟨nd2, hnd2, _, _, hndt2⟩ := hShr.2 i nd0 hnd0
      refine ⟨i, nd2, lookup_iff hPs3 hnd2, ?_⟩
      rw [hndt2]
      exact hnd0t
    have hdel2 : ∀ q j, getA q t.files = some j →
        getA q ((s3.deleteFileAux cn2.path fuel).2).files = none →
        inSubB P q = true ∧ q ≠ P := by
      intro q j hqt hqnone
      rcases hg : getA q s3.files with _ | j2
      · exact hdel q j hqt hg
      · have hunder := hM3 q j2 hg hqnone
        rw [hnorm] at hunder
        have hPsub : inSubB P (childPath P (c1, c2).1) = true := inSubB_childPath hProot
        refine ⟨inSubB_trans hPsub hunder, ?_⟩
        intro hqP
        subst hqP
        have hle := inSubB_length_le hunder
        have hgt := @childPath_length_gt q (c1, c2).1 hProot
        omega
    obtain ⟨hInvF, hShrF, hdelF, hclF⟩ := ih t ((s3.deleteFileAux cn2.path fuel).2) P i
      hInv2 (Shrinks_trans hShr hShr2) hdel2 hPt hPok hProot hnd
      (fun c0 hc0 => hcs c0 (List.mem_cons_of_mem _ hc0))
    refine ⟨hInvF, Shrinks_trans hShr2 hShrF, hdelF, ?_⟩
    intro c0 hc0 q j hq hsubq
    rcases List.mem_cons.mp hc0 with he | hm
    · subst he
      refine hM4 hcond q j (hShrF.1 q j hq) ?_
      rw [hnorm]
      exact hsubq
    · exact hclF c0 hm q j hq hsubq

theorem deleteAux_master : ∀ (fuel : Nat) (path : Str) (s : VFS), Inv s →
    subCount s (normalizePath path) < fuel →
    Inv (s.deleteFileAux path fuel).2 ∧ Shrinks s (s.deleteFileAux path fuel).2 ∧
    (∀ q j, getA q s.files = some j → getA q (s.deleteFileAux path fuel).2.files = none →
      inSubB (normalizePath path) q = true) ∧
    ((pathOk (normalizePath path) ∧ normalizePath path ≠ ['/'] ∧
        ∃ pid2 pn2, s.lookup (getParentPath (normalizePath path)) = some (pid2, pn2) ∧
          pn2.type = NodeType.directory) →
      ∀ q j, getA q (s.deleteFileAux path fuel).2.files = some j →
        inSubB (normalizePath path) q = true → False) := by
  intro fuel
  induction fuel with
  | zero =>
    intro path s hs hcnt
    exact absurd hcnt (by omega)
  | succ fuel ihf =>
    intro path s hs hcnt
    rcases hlk : s.lookup (normalizePath path) with _ | e
    · rw [deleteFileAux_none_eq fuel hlk]
      refine ⟨hs, Shrinks_refl s, ?_, ?_⟩
      · intro q j h1 h2
        rw [h1] at h2
        exact Option.noConfusion h2
      · rintro ⟨hOkP, hPr, pid2, pn2, hlk2, _⟩ q j hqj hsub
        rcases hPf : getA (normalizePath path) s.files with _ | i
        · exact subtree_empty hs hOkP hPr hPf q j hqj hsub
        · obtain ⟨m, hmh, _⟩ := hs.entries _ i hPf
          rw [lookup_iff hPf hmh] at hlk
          exact Option.noConfusion hlk
    · obtain ⟨id0, node⟩ := e
      have hfiles : getA (normalizePath path) s.files = some id0 := (lookup_eq_some hlk).1
      have hheap : getA id0 s.heap = some node := (lookup_eq_some hlk).2
      obtain ⟨nodeE, hnodeE, hnodePath, hOkP, hdirE, hfileE⟩ :=
        hs.entries (normalizePath path) id0 hfiles
      have hnodeEq : node = nodeE := by
        rw [hheap] at hnodeE
        injection hnodeE with hx
      rw [← hnodeEq] at hnodePath hdirE hfileE
      by_cases hroot : normalizePath path = ['/']
      · rw [deleteFileAux_root_eq fuel hlk hroot]
        refine ⟨hs, Shrinks_refl s, ?_, ?_⟩
        · intro q j h1 h2
          rw [h1] at h2
          exact Option.noConfusion h2
        · rintro ⟨_, hPr, _⟩
          exact absurd hroot hPr
      · rcases hpe : s.getParentEntry (normalizePath path) with _ | e2
        · rw [deleteFileAux_noparent_eq fuel hlk hroot hpe]
          refine ⟨hs, Shrinks_refl s, ?_, ?_⟩
          · intro q j h1 h2
            rw [h1] at h2
            exact Option.noConfusion h2
          · rintro ⟨_, _, pid2, pn2, hlk2, _⟩
            rw [VFS.getParentEntry] at hpe
            rw [hpe] at hlk2
            intro q j _ _
            exact Option.noConfusion hlk2
        · obtain ⟨pid, pnode⟩ := e2
          have hpe' := hpe
          rw [VFS.getParentEntry] at hpe'
          have hpidf : getA (getParentPath (normalizePath path)) s.files = some pid :=
            (lookup_eq_some hpe').1
          have hpidh : getA pid s.heap = some pnode := (lookup_eq_some hpe').2
          by_cases htd : pnode.type ≠ NodeType.directory
          · rw [deleteFileAux_baddir_eq fuel hlk hroot hpe htd]
            refine ⟨hs, Shrinks_refl s, ?_, ?_⟩
            · intro q j h1 h2
              rw [h1] at h2
              exact Option.noConfusion h2
            · rintro ⟨_, _, pid2, pn2, hlk2, hdir2⟩
              rw [hpe'] at hlk2
              injection hlk2 with hx
              injection hx with hx1 hx2
              rw [← hx2] at hdir2
              exact absurd hdir2 htd
          · rw [deleteFileAux_succ_eq fuel hlk hroot hpe htd]
            have hptype : pnode.type = NodeType.directory := not_not.mp htd
            have hS2 : Inv (if node.type = NodeType.directory ∧ node.children.isSome = true
                  then delKids fuel s (node.children.getD []) else s) ∧
                Shrinks s (if node.type = NodeType.directory ∧ node.children.isSome = true
                  then delKids fuel s (node.children.getD []) else s) ∧
                (∀ q j, getA q s.files = some j →
                  getA q (if node.type = NodeType.directory ∧ node.children.isSome = true
                    then delKids fuel s (node.children.getD []) else s).files = none →
                  inSubB (normalizePath path) q = true ∧ q ≠ normalizePath path) ∧
                (∀ c ∈ node.children.getD [], ∀ q j,
                  getA q (if node.type = NodeType.directory ∧ node.children.isSome = true
                    then delKids fuel s (node.children.getD []) else s).files = some j →
                  inSubB (childPath (normalizePath path) c.1) q = true → False) := by
              by_cases hdirb : node.type = NodeType.directory ∧ node.children.isSome = true
              · rw [if_pos hdirb]
                refine delKids_master fuel ihf (node.children.getD []) s s
                  (normalizePath path) id0 hs (Shrinks_refl s) ?_ hfiles hOkP hroot
                  ⟨node, hheap, hdirb.1⟩ ?_
                · intro q j h1 h2
                  rw [h1] at h2
                  exact Option.noConfusion h2
                · intro c hc
                  obtain ⟨cn, hcn, hcname, hcpath, hcfiles⟩ :=
                    hs.childrenLink (normalizePath path) id0 hfiles node hheap c hc
                  rw [hcpath] at hcfiles
                  obtain ⟨_, _, _, hcpOk, _⟩ :=
                    hs.entries (childPath (normalizePath path) c.1) c.2 hcfiles
                  have hcpr : childPath (normalizePath path) c.1 ≠ ['/'] :=
                    childPath_ne_root2 hroot (pathOk_ne_nil hOkP)
                  obtain ⟨ncp, pidcp, pncp, hncp, hncpName, _, _, _, _, _⟩ :=
                    hs.parentLink (childPath (normalizePath path) c.1) c.2 hcfiles hcpr
                  have hncp_cn : cn = ncp := by
                    rw [hcn] at hncp
                    injection hncp with hx
                  have hnamec : nameOk c.1 := by
                    rw [← hcname, hncp_cn]
                    exact hncpName
                  have hcnt2 : subCount s (childPath (normalizePath path) c.1) < fuel := by
                    have hlt := subCount_lt hs.filesNodup (getA_mem_keysA hcfiles)
                      (inSubB_childPath hroot) (childPath_ne_self hroot)
                    omega
                  exact ⟨hcfiles, hcpOk, hnamec, hcnt2, cn, hcn, hcpath⟩
              · rw [if_neg hdirb]
                refine ⟨hs, Shrinks_refl s, ?_, ?_⟩
                · intro q j h1 h2
                  rw [h1] at h2
                  exact Option.noConfusion h2
                · intro c hc
                  have hfile : node.type = NodeType.file := by
                    rcases htn : node.type with _ | _
                    · rfl
                    · exfalso
                      exact hdirb ⟨htn, (hdirE htn).1⟩
                  rw [hfileE hfile] at hc
                  cases hc
            obtain ⟨hInvS2, hShrS2, hdelS2, hclS2⟩ := hS2
            set S2 := if node.type = NodeType.directory ∧ node.children.isSome = true
              then delKids fuel s (node.children.getD []) else s with hS2d
            have hPS2 : getA (normalizePath path) S2.files = some id0 := by
              rcases hg : getA (normalizePath path) S2.files with _ | j
              · exact absurd rfl (hdelS2 _ id0 hfiles hg).2
              · have hup := hShrS2.1 _ j hg
                rw [hfiles] at hup
                injection hup with hx
                rw [hx]
            have hgpp_lt : (getParentPath (normalizePath path)).length <
                (normalizePath path).length := by
              have h1 := childPath_length_lt (pathOk_getParentPath hOkP)
                (nameOk_getFileName hOkP hroot)
              rw [childPath_parent_name hOkP hroot] at h1
              exact h1
            have hpidS2 : getA (getParentPath (normalizePath path)) S2.files = some pid := by
              rcases hg : getA (getParentPath (normalizePath path)) S2.files with _ | j
              · exfalso
                have hud := hdelS2 _ pid hpidf hg
                have hle := inSubB_length_le hud.1
                omega
              · have hup := hShrS2.1 _ j hg
                rw [hpidf] at hup
                injection hup with hx
                rw [hx]
            have hclearedS2 : ∀ q j, getA q S2.files = some j →
                inSubB (normalizePath path) q = true → q = normalizePath path := by
              intro q j hqj hsub
              by_contra hne
              have hqs : getA q s.files = some j := hShrS2.1 q j hqj
              obtain ⟨c, hc, hcsub⟩ := first_step_child hs hOkP hroot hfiles hheap hqs hsub hne
              exact hclS2 c hc q j hqj hcsub
            have hnmS2 : ∃ n2, getA id0 S2.heap = some n2 ∧ n2.name = node.name := by
              obtain ⟨n2, hn2, _, hn2name, _⟩ := hShrS2.2 id0 node hheap
              exact ⟨n2, hn2, hn2name⟩
            obtain ⟨hInvD, hShrD⟩ := Inv_delState hInvS2 hOkP hroot hPS2 hpidS2 hclearedS2 hnmS2
            obtain ⟨pn2, hpn2, _, _, _⟩ := hShrS2.2 pid pnode hpidh
            have hfilesD : (delState S2 (normalizePath path) node.name pid).files =
                delA (normalizePath path) S2.files := by
              rw [delState_eq hpn2]
            refine ⟨hInvD, Shrinks_trans hShrS2 hShrD, ?_, ?_⟩
            · intro q j h1 h2
              have h2a : getA q (delState S2 (normalizePath path) node.name pid).files =
                none := h2
              rw [hfilesD] at h2a
              by_cases hq : q = normalizePath path
              · rw [hq]
                exact inSubB_refl _
              · rw [getA_delA_ne hq] at h2a
                exact (hdelS2 q j h1 h2a).1
            · intro hcond q j hqj hsub
              have hqja : getA q (delState S2 (normalizePath path) node.name pid).files =
                some j := hqj
              rw [hfilesD] at hqja
              obtain ⟨hqS2, hqne⟩ := getA_delA_some hInvS2.filesNodup hqja
              exact hqne (hclearedS2 q j hqS2 hsub)

theorem Inv_deleteFile {s : VFS} (hs : Inv s) (path : Str) :
    Inv (s.deleteFile path).2 ∧ Shrinks s (s.deleteFile path).2 ∧
    (∀ q j, getA q s.files = some j → getA q (s.deleteFile path).2.files = none →
      inSubB (normalizePath path) q = true) ∧
    ((pathOk (normalizePath path) ∧ normalizePath path ≠ ['/'] ∧
        ∃ pid2 pn2, s.lookup (getParentPath (normalizePath path)) = some (pid2, pn2) ∧
          pn2.type = NodeType.directory) →
      ∀ q j, getA q (s.deleteFile path).2.files = some j →
        inSubB (normalizePath path) q = true → False) := by
  have hids : (s.files.map Prod.snd).Nodup := by
    refine List.Nodup.map_on ?_ (List.Nodup.of_map Prod.fst hs.filesNodup)
    intro x hx y hy hxy
    obtain ⟨x1, x2⟩ := x
    obtain ⟨y1, y2⟩ := y
    have hxy2 : x2 = y2 := hxy
    have hgx := mem_getA_eq_some hs.filesNodup hx
    have hgy := mem_getA_eq_some hs.filesNodup hy
    rw [hxy2] at hgx
    have h1 := hs.filesIdInj hgx hgy
    rw [h1, hxy2]
  have hsub : ∀ i ∈ s.files.map Prod.snd, i ∈ keysA s.heap := by
    intro i hi
    obtain ⟨x, hx, hxeq⟩ := List.mem_map.mp hi
    obtain ⟨x1, x2⟩ := x
    have hgx := mem_getA_eq_some hs.filesNodup hx
    obtain ⟨n, hn, _⟩ := hs.entries x1 x2 hgx
    rw [← hxeq]
    exact getA_mem_keysA hn
  have hlen : s.files.length ≤ s.heap.length := by
    have h1 := length_le_of_nodup_subset hids hsub
    rw [List.length_map] at h1
    have h2 : (keysA s.heap).length = s.heap.length := by simp [keysA]
    omega
  have hcnt : subCount s (normalizePath path) < s.heap.length + 1 := by
    have h1 : subCount s (normalizePath path) ≤ (keysA s.files).length :=
      List.length_filter_le _ _
    have h2 : (keysA s.files).length = s.files.length := by simp [keysA]
    omega
  exact deleteAux_master (s.heap.length + 1) path s hs hcnt

/-! #### `updateChildrenPaths` and `rename` -/

theorem childPath_nonroot {P nm : Str} (h : P ≠ ['/']) :
    childPath P nm = P ++ '/' :: nm := by
  rw [childPath, if_neg h]

theorem under_decomp {P a q : Str} (h : inSubB (P ++ '/' :: a) q = true) :
    ∃ r, q = P ++ '/' :: (a ++ r) ∧ (r = [] ∨ r.head? = some '/') := by
  rcases inSubB_iff.mp h with he | hp
  · refine ⟨[], ?_, Or.inl rfl⟩
    rw [List.append_nil]
    exact he.symm
  · obtain ⟨rest, hrest⟩ := hp
    refine ⟨'/' :: rest, ?_, Or.inr rfl⟩
    rw [← hrest]
    simp [List.append_assoc]

theorem under_char {P a q : Str} (h : inSubB (P ++ '/' :: a) q = true) :
    (P ++ ['/']) <+: q := by
  obtain ⟨r, hq, _⟩ := under_decomp h
  rw [hq]
  exact ⟨a ++ r, by simp⟩

theorem names_eq_of_append : ∀ (a b r1 r2 : Str), '/' ∉ a → '/' ∉ b →
    (r1 = [] ∨ r1.head? = some '/') → (r2 = [] ∨ r2.head? = some '/') →
    a ++ r1 = b ++ r2 → a = b := by
  intro a
  induction a with
  | nil =>
    intro b r1 r2 _ hb h1 _ he
    cases b with
    | nil => rfl
    | cons y ys =>
      exfalso
      simp only [List.nil_append, List.cons_append] at he
      rcases h1 with h1 | h1
      · rw [h1] at he
        exact (List.cons_ne_nil y (ys ++ r2)) he.symm
      · rw [he] at h1
        simp only [List.head?_cons] at h1
        injection h1 with hy
        refine hb ?_
        rw [← hy]
        exact List.mem_cons_self _ _
  | cons x xs ih =>
    intro b r1 r2 ha hb h1 h2 he
    cases b with
    | nil =>
      exfalso
      simp only [List.cons_append, List.nil_append] at he
      rcases h2 with h2 | h2
      · rw [h2] at he
        exact (List.cons_ne_nil x (xs ++ r1)) he
      · rw [← he] at h2
        simp only [List.head?_cons] at h2
        injection h2 with hx
        refine ha ?_
        rw [← hx]
        exact List.mem_cons_self _ _
    | cons y ys =>
      simp only [List.cons_append] at he
      injection he with hxy hrest
      rw [hxy]
      have hxs : xs = ys := ih ys r1 r2 (fun hm => ha (List.mem_cons_of_mem _ hm))
        (fun hm => hb (List.mem_cons_of_mem _ hm)) h1 h2 hrest
      rw [hxs]

theorem sib_names_eq {P a b q : Str} (ha : '/' ∉ a) (hb : '/' ∉ b)
    (h1 : inSubB (P ++ '/' :: a) q = true) (h2 : inSubB (P ++ '/' :: b) q = true) :
    a = b := by
  obtain ⟨r1, hq1, hr1⟩ := under_decomp h1
  obtain ⟨r2, hq2, hr2⟩ := under_decomp h2
  rw [hq1] at hq2
  have hc := List.append_cancel_left hq2
  injection hc with hc0 hc2
  exact names_eq_of_append a b r1 r2 ha hb hr1 hr2 hc2

theorem inSubB_shift {x y a b : Str} (h : inSubB (x ++ '/' :: a) (x ++ '/' :: b) = true) :
    inSubB (y ++ '/' :: a) (y ++ '/' :: b) = true := by
  rcases inSubB_iff.mp h with he | hp
  · have hc := List.append_cancel_left he
    injection hc with hc0 hc2
    rw [hc2]
    exact inSubB_refl _
  · refine inSubB_iff.mpr (Or.inr ?_)
    rw [List.append_assoc] at hp ⊢
    have hc := (List.prefix_append_right_inj x).mp hp
    exact (List.prefix_append_right_inj y).mpr hc

theorem mem_delA_weak {α β : Type} [DecidableEq α] {c : α × β} {k : α} :
    ∀ {l : List (α × β)}, c ∈ delA k l → c ∈ l := by
  intro l
  induction l with
  | nil =>
    intro h
    cases h
  | cons e rest ih =>
    intro h
    obtain ⟨a, b⟩ := e
    by_cases ha : a = k
    · rw [delA, if_pos ha] at h
      exact List.mem_cons_of_mem _ h
    · rw [delA, if_neg ha] at h
      rcases List.mem_cons.mp h with he | hm
      · rw [he]
        exact List.mem_cons_self _ _
      · exact List.mem_cons_of_mem _ (ih hm)

theorem getA_delA_none {α β : Type} [DecidableEq α] {k q : α} {l : List (α × β)}
    (h : getA q l = none) : getA q (delA k l) = none := by
  rcases hg : getA q (delA k l) with _ | v
  · rfl
  · exfalso
    have hm := getA_eq_some_mem hg
    have hm2 := mem_delA_weak hm
    have hk : q ∈ keysA l := List.mem_map_of_mem Prod.fst hm2
    obtain ⟨w, hw⟩ := mem_keysA_getA hk
    rw [h] at hw
    exact Option.noConfusion hw

theorem keysA_setA_mem {α β : Type} [DecidableEq α] {k : α} (v : β) :
    ∀ {l : List (α × β)}, k ∈ keysA l → keysA (setA k v l) = keysA l := by
  intro l
  induction l with
  | nil =>
    intro h
    simp [keysA] at h
  | cons e rest ih =>
    intro h
    obtain ⟨a, b⟩ := e
    by_cases ha : a = k
    · subst ha
      simp only [setA, if_pos rfl]
      simp [keysA]
    · simp only [setA, if_neg ha]
      simp only [keysA, List.map_cons]
      have hr : k ∈ keysA rest := by
        simp only [keysA, List.map_cons, List.mem_cons] at h
        rcases h with h | h
        · exact absurd h.symm ha
        · exact h
      have ih2 := ih hr
      simp only [keysA] at ih2
      rw [ih2]

theorem updateChildrenPaths_zero_eq (s : VFS) (nid : Nat) :
    s.updateChildrenPaths nid 0 = s := rfl

theorem updateChildrenPaths_none_eq {s : VFS} {nid : Nat} (fuel : Nat)
    (h : getA nid s.heap = none) : s.updateChildrenPaths nid (fuel + 1) = s := by
  simp only [VFS.updateChildrenPaths]
  rw [h]

theorem updateChildrenPaths_skip_eq {s : VFS} {nid : Nat} (fuel : Nat) {n : Node}
    (hn : getA nid s.heap = some n)
    (hnd : ¬ (n.type = NodeType.directory ∧ n.children.isSome = true)) :
    s.updateChildrenPaths nid (fuel + 1) = s := by
  simp only [VFS.updateChildrenPaths]
  rw [hn]
  show (if n.type = NodeType.directory ∧ n.children.isSome then _ else s) = s
  rw [if_neg hnd]

theorem updateChildrenPaths_succ_eq {s : VFS} {nid : Nat} (fuel : Nat) {n : Node}
    (hn : getA nid s.heap = some n)
    (hdir : n.type = NodeType.directory ∧ n.children.isSome = true) :
    s.updateChildrenPaths nid (fuel + 1) =
      (n.children.getD []).foldl (ucpStep fuel nid n.path) s := by
  simp only [VFS.updateChildrenPaths]
  rw [hn]
  show (if n.type = NodeType.directory ∧ n.children.isSome then _ else s) = _
  rw [if_pos hdir]
  rfl

theorem ucpStep_char {fuel nid : Nat} {dflt : Str} {acc : VFS} {c : Str × Nat}
    {child njx : Node} (hc : getA c.2 acc.heap = some child)
    (hj : getA nid acc.heap = some njx) :
    ucpStep fuel nid dflt acc c =
      (if child.type = NodeType.directory then
        VFS.updateChildrenPaths { acc with heap := setA c.2 { child with path := njx.path ++ '/' :: child.name } acc.heap, files := setA (njx.path ++ '/' :: child.name) c.2 (delA child.path acc.files) } c.2 fuel
      else
        { acc with heap := setA c.2 { child with path := njx.path ++ '/' :: child.name } acc.heap, files := setA (njx.path ++ '/' :: child.name) c.2 (delA child.path acc.files) }) := by
  simp only [ucpStep]
  rw [hc, hj]
  rfl

theorem ucpStep_char0 {fuel nid : Nat} {dflt : Str} {acc : VFS} {c : Str × Nat}
    {child : Node} (hc : getA c.2 acc.heap = some child) :
    ucpStep fuel nid dflt acc c =
      (if child.type = NodeType.directory then VFS.updateChildrenPaths { acc with heap := setA c.2 { child with path := ((getA nid acc.heap).map (·.path)).getD dflt ++ '/' :: child.name } acc.heap, files := setA (((getA nid acc.heap).map (·.path)).getD dflt ++ '/' :: child.name) c.2 (delA child.path acc.files) } c.2 fuel
      else { acc with heap := setA c.2 { child with path := ((getA nid acc.heap).map (·.path)).getD dflt ++ '/' :: child.name } acc.heap, files := setA (((getA nid acc.heap).map (·.path)).getD dflt ++ '/' :: child.name) c.2 (delA child.path acc.files) }) := by
  simp only [ucpStep]
  rw [hc]

theorem append_slash_ne (x tail : Str) : x ++ '/' :: tail ≠ x := by
  intro he
  have h2 := congrArg List.length he
  simp [List.length_append] at h2

theorem inSubB_append_tail (x tail : Str) : inSubB x (x ++ '/' :: tail) = true :=
  inSubB_iff.mpr (Or.inr ⟨tail, by simp⟩)

theorem prefix_slash_decomp {x q : Str} (h : (x ++ ['/']) <+: q) :
    ∃ tail, q = x ++ '/' :: tail := by
  obtain ⟨t, ht⟩ := h
  refine ⟨t, ?_⟩
  rw [← ht]
  simp

theorem childPath_append_tail {P : Str} (nm : Str) (hP : P ≠ ['/']) (tail : Str) :
    childPath P nm ++ '/' :: tail = P ++ '/' :: (nm ++ '/' :: tail) := by
  rw [childPath_nonroot hP]
  simp

theorem under_split {x q : Str} (h : inSubB x q = true) :
    q = x ∨ ∃ tail, q = x ++ '/' :: tail := by
  rcases inSubB_iff.mp h with he | hp
  · exact Or.inl he.symm
  · exact Or.inr (prefix_slash_decomp hp)

theorem ucp_fold {s0 : VFS} (hInv0 : Inv s0) (fuel : Nat) (IH : UCPSpec s0 fuel)
    {j : Nat} {R Q : Str} (dflt : Str) (hR : getA R s0.files = some j)
    (hRok : pathOk R) (hRroot : R ≠ ['/'])
    (hQok : pathOk Q) (hQroot : Q ≠ ['/'])
    (hdisj : ∀ q, inSubB R q = true → inSubB Q q = true → False) :
    ∀ (todo : List (Str × Nat)) (acc : VFS),
    (keysA acc.files).Nodup →
    (∃ njx, getA j acc.heap = some njx ∧ njx.path = Q) →
    (keysA todo).Nodup →
    (∀ c ∈ todo, nameOk c.1 ∧ getA (childPath R c.1) s0.files = some c.2 ∧
      subCount s0 (childPath R c.1) < fuel ∧
      (∃ cn0, getA c.2 s0.heap = some cn0 ∧ cn0.name = c.1 ∧
        cn0.path = childPath R c.1)) →
    (∀ c ∈ todo, ∀ q k, getA q s0.files = some k → inSubB (childPath R c.1) q = true →
      getA q acc.files = some k ∧ getA k acc.heap = getA k s0.heap) →
    (∀ c ∈ todo, ∀ q, inSubB (childPath Q c.1) q = true → getA q acc.files = none) →
    (∀ tail k, getA (R ++ '/' :: tail) acc.files = some k →
      getA (R ++ '/' :: tail) s0.files = some k) →
    ((∀ c ∈ todo, ∀ tail,
        getA (childPath Q c.1 ++ '/' :: tail)
          (todo.foldl (ucpStep fuel j dflt) acc).files =
        getA (childPath R c.1 ++ '/' :: tail) s0.files) ∧
     (∀ c ∈ todo,
        getA (childPath Q c.1) (todo.foldl (ucpStep fuel j dflt) acc).files = some c.2) ∧
     (∀ c ∈ todo,
        getA (childPath R c.1) (todo.foldl (ucpStep fuel j dflt) acc).files = none) ∧
     (∀ c ∈ todo, ∀ tail,
        getA (childPath R c.1 ++ '/' :: tail)
          (todo.foldl (ucpStep fuel j dflt) acc).files = none) ∧
     (∀ q, (∀ c ∈ todo, ¬ inSubB (childPath R c.1) q = true) →
        (∀ c ∈ todo, ¬ inSubB (childPath Q c.1) q = true) →
        getA q (todo.foldl (ucpStep fuel j dflt) acc).files = getA q acc.files) ∧
     (∀ k, (∀ c ∈ todo, ∀ q, getA q s0.files = some k →
          ¬ inSubB (childPath R c.1) q = true) →
        getA k (todo.foldl (ucpStep fuel j dflt) acc).heap = getA k acc.heap) ∧
     (∀ c ∈ todo, ∃ m0, getA c.2 s0.heap = some m0 ∧
        getA c.2 (todo.foldl (ucpStep fuel j dflt) acc).heap =
          some { m0 with path := childPath Q c.1 }) ∧
     (∀ c ∈ todo, ∀ tail k, getA (childPath R c.1 ++ '/' :: tail) s0.files = some k →
        ∃ m0, getA k s0.heap = some m0 ∧
          getA k (todo.foldl (ucpStep fuel j dflt) acc).heap =
            some { m0 with path := childPath Q c.1 ++ '/' :: tail }) ∧
     keysA (todo.foldl (ucpStep fuel j dflt) acc).heap = keysA acc.heap ∧
     (keysA (todo.foldl (ucpStep fuel j dflt) acc).files).Nodup) := by
  intro todo
  induction todo with
  | nil =>
    intro acc hnodF hjacc hnames hkids hstaleK hfreshK honlyK
    exact ⟨fun c hc => absurd hc (List.not_mem_nil c),
           fun c hc => absurd hc (List.not_mem_nil c),
           fun c hc => absurd hc (List.not_mem_nil c),
           fun c hc => absurd hc (List.not_mem_nil c),
           fun q h1 h2 => rfl,
           fun k h1 => rfl,
           fun c hc => absurd hc (List.not_mem_nil c),
           fun c hc => absurd hc (List.not_mem_nil c),
           rfl, hnodF⟩
  | cons c todo' ih =>
    intro acc hnodF hjacc hnames hkids hstaleK hfreshK honlyK
    obtain ⟨njx, hjx, hjxQ⟩ := hjacc
    obtain ⟨hnmOk, hcs0, hcnt, cn0, hcn0, hcn0name, hcn0path⟩ :=
      hkids c (List.mem_cons_self _ _)
    obtain ⟨hcaccf, hcacch⟩ :=
      hstaleK c (List.mem_cons_self _ _) (childPath R c.1) c.2 hcs0 (inSubB_refl _)
    have hc2acc : getA c.2 acc.heap = some cn0 := by
      rw [hcacch, hcn0]
    obtain ⟨e0, he0, he0path, hRcOk, he0dir, he0file⟩ :=
      hInv0.entries (childPath R c.1) c.2 hcs0
    have he0cn0 : e0 = cn0 := by
      rw [hcn0] at he0
      injection he0 with hx
      exact hx.symm
    rw [he0cn0] at he0dir he0file
    have hRcroot : childPath R c.1 ≠ ['/'] := childPath_ne_root hRok hnmOk
    have hQcOk : pathOk (childPath Q c.1) := pathOk_childPath hQok hnmOk
    have hQcroot : childPath Q c.1 ≠ ['/'] := childPath_ne_root hQok hnmOk
    have hcnotin : c.1 ∉ keysA todo' := by
      have h2 := hnames
      simp only [keysA, List.map_cons, List.nodup_cons] at h2
      exact h2.1
    have hnames' : (keysA todo').Nodup := by
      have h2 := hnames
      simp only [keysA, List.map_cons, List.nodup_cons] at h2
      exact h2.2
    have hsibR : ∀ c' ∈ todo', ∀ q, inSubB (childPath R c.1) q = true →
        inSubB (childPath R c'.1) q = true → False := by
      intro c' hc' q h1 h2
      rw [childPath_nonroot hRroot] at h1 h2
      have hEq := sib_names_eq hnmOk.2
        (hkids c' (List.mem_cons_of_mem _ hc')).1.2 h1 h2
      refine hcnotin ?_
      rw [hEq]
      exact List.mem_map_of_mem Prod.fst hc'
    have hsibQ : ∀ c' ∈ todo', ∀ q, inSubB (childPath Q c.1) q = true →
        inSubB (childPath Q c'.1) q = true → False := by
      intro c' hc' q h1 h2
      rw [childPath_nonroot hQroot] at h1 h2
      have hEq := sib_names_eq hnmOk.2
        (hkids c' (List.mem_cons_of_mem _ hc')).1.2 h1 h2
      refine hcnotin ?_
      rw [hEq]
      exact List.mem_map_of_mem Prod.fst hc'
    have hStepEq : ucpStep fuel j dflt acc c = (if cn0.type = NodeType.directory then VFS.updateChildrenPaths { acc with heap := setA c.2 { cn0 with path := childPath Q c.1 } acc.heap, files := setA (childPath Q c.1) c.2 (delA (childPath R c.1) acc.files) } c.2 fuel else { acc with heap := setA c.2 { cn0 with path := childPath Q c.1 } acc.heap, files := setA (childPath Q c.1) c.2 (delA (childPath R c.1) acc.files) }) := by
      rw [ucpStep_char hc2acc hjx, hjxQ, hcn0name, hcn0path, childPath_nonroot hQroot]
    rw [List.foldl_cons, hStepEq]
    set t3 : VFS := { acc with heap := setA c.2 { cn0 with path := childPath Q c.1 } acc.heap, files := setA (childPath Q c.1) c.2 (delA (childPath R c.1) acc.files) } with ht3d
    set tstep : VFS := if cn0.type = NodeType.directory then VFS.updateChildrenPaths t3 c.2 fuel else t3 with htsd
    have ht3f : t3.files = setA (childPath Q c.1) c.2 (delA (childPath R c.1) acc.files) := by
      rw [ht3d]
    have ht3h : t3.heap = setA c.2 { cn0 with path := childPath Q c.1 } acc.heap := by
      rw [ht3d]
    have hA1 : getA (childPath Q c.1) t3.files = some c.2 := by
      rw [ht3f]
      exact getA_setA_self _ _ _
    have hA2 : ∀ q, q ≠ childPath Q c.1 →
        getA q t3.files = getA q (delA (childPath R c.1) acc.files) := by
      intro q hne
      rw [ht3f]
      exact getA_setA_ne _ _ (Ne.symm hne)
    have hRcQc : childPath R c.1 ≠ childPath Q c.1 := by
      intro he
      refine hdisj (childPath R c.1) (inSubB_childPath hRroot) ?_
      rw [he]
      exact inSubB_childPath hQroot
    have hA3 : getA (childPath R c.1) t3.files = none := by
      rw [hA2 _ hRcQc]
      exact getA_delA_self hnodF
    have hA4 : ∀ q, q ≠ childPath Q c.1 → q ≠ childPath R c.1 →
        getA q t3.files = getA q acc.files := by
      intro q h1 h2
      rw [hA2 _ h1]
      exact getA_delA_ne h2
    have hA5 : (keysA t3.files).Nodup := by
      rw [ht3f]
      exact keysA_setA_nodup _ _ (keysA_delA_nodup _ hnodF)
    have hA6h : ∀ k2, k2 ≠ c.2 → getA k2 t3.heap = getA k2 acc.heap := by
      intro k2 hne
      rw [ht3h]
      exact getA_setA_ne _ _ (Ne.symm hne)
    have hA6self : getA c.2 t3.heap = some { cn0 with path := childPath Q c.1 } := by
      rw [ht3h]
      exact getA_setA_self _ _ _
    have hA6keys : keysA t3.heap = keysA acc.heap := by
      rw [ht3h]
      exact keysA_setA_mem _ (getA_mem_keysA hc2acc)
    have hnodesc : cn0.type = NodeType.file → ∀ tail k,
        ¬ getA (childPath R c.1 ++ '/' :: tail) s0.files = some k := by
      intro hf tail k hk
      have hsub : inSubB (childPath R c.1) (childPath R c.1 ++ '/' :: tail) = true :=
        inSubB_append_tail _ _
      have hne2 : childPath R c.1 ++ '/' :: tail ≠ childPath R c.1 := append_slash_ne _ _
      obtain ⟨cc, hcc, _⟩ :=
        first_step_child hInv0 hRcOk hRcroot hcs0 hcn0 hk hsub hne2
      rw [he0file hf] at hcc
      exact absurd hcc (List.not_mem_nil cc)
    have hM : (∀ tail, getA (childPath Q c.1 ++ '/' :: tail) tstep.files =
          getA (childPath R c.1 ++ '/' :: tail) s0.files) ∧
        (∀ tail, getA (childPath R c.1 ++ '/' :: tail) tstep.files = none) ∧
        (∀ q, ¬ (childPath R c.1 ++ ['/']) <+: q → ¬ (childPath Q c.1 ++ ['/']) <+: q →
          getA q tstep.files = getA q t3.files) ∧
        (∀ k, (∀ tail, ¬ getA (childPath R c.1 ++ '/' :: tail) s0.files = some k) →
          getA k tstep.heap = getA k t3.heap) ∧
        (∀ tail k, getA (childPath R c.1 ++ '/' :: tail) s0.files = some k →
          ∃ m0, getA k s0.heap = some m0 ∧
            getA k tstep.heap = some { m0 with path := childPath Q c.1 ++ '/' :: tail }) ∧
        keysA tstep.heap = keysA t3.heap ∧
        (keysA tstep.files).Nodup := by
      rw [htsd]
      by_cases hdirc : cn0.type = NodeType.directory
      · rw [if_pos hdirc]
        have hdisj2 : ∀ q, inSubB (childPath R c.1) q = true →
            inSubB (childPath Q c.1) q = true → False := by
          intro q h1 h2
          exact hdisj q (inSubB_trans (inSubB_childPath hRroot) h1)
            (inSubB_trans (inSubB_childPath hQroot) h2)
        have hstale3 : ∀ tail k,
            getA (childPath R c.1 ++ '/' :: tail) s0.files = some k →
            getA (childPath R c.1 ++ '/' :: tail) t3.files = some k ∧
            getA k t3.heap = getA k s0.heap := by
          intro tail k hk
          have hsub : inSubB (childPath R c.1) (childPath R c.1 ++ '/' :: tail) = true :=
            inSubB_append_tail _ _
          have hst := hstaleK c (List.mem_cons_self _ _) _ k hk hsub
          have hKQ : childPath R c.1 ++ '/' :: tail ≠ childPath Q c.1 := by
            intro he
            refine hdisj (childPath R c.1 ++ '/' :: tail)
              (inSubB_trans (inSubB_childPath hRroot) hsub) ?_
            rw [he]
            exact inSubB_childPath hQroot
          have hKR : childPath R c.1 ++ '/' :: tail ≠ childPath R c.1 :=
            append_slash_ne _ _
          have hkne : k ≠ c.2 := by
            intro he
            rw [he] at hk
            exact append_slash_ne _ _ (hInv0.filesIdInj hk hcs0)
          constructor
          · rw [hA4 _ hKQ hKR]
            exact hst.1
          · rw [hA6h k hkne]
            exact hst.2
        have honly3 : ∀ tail k,
            getA (childPath R c.1 ++ '/' :: tail) t3.files = some k →
            getA (childPath R c.1 ++ '/' :: tail) s0.files = some k := by
          intro tail k hk
          have hKQ : childPath R c.1 ++ '/' :: tail ≠ childPath Q c.1 := by
            intro he
            refine hdisj (childPath R c.1 ++ '/' :: tail)
              (inSubB_trans (inSubB_childPath hRroot) (inSubB_append_tail _ _)) ?_
            rw [he]
            exact inSubB_childPath hQroot
          have hKR : childPath R c.1 ++ '/' :: tail ≠ childPath R c.1 :=
            append_slash_ne _ _
          rw [hA4 _ hKQ hKR] at hk
          rw [childPath_append_tail c.1 hRroot tail] at hk
          rw [childPath_append_tail c.1 hRroot tail]
          exact honlyK _ k hk
        have hfresh3 : ∀ tail,
            getA (childPath Q c.1 ++ '/' :: tail) t3.files = none := by
          intro tail
          have hKQ : childPath Q c.1 ++ '/' :: tail ≠ childPath Q c.1 :=
            append_slash_ne _ _
          have hKR : childPath Q c.1 ++ '/' :: tail ≠ childPath R c.1 := by
            intro he
            refine hdisj (childPath Q c.1 ++ '/' :: tail) ?_
              (inSubB_trans (inSubB_childPath hQroot) (inSubB_append_tail _ _))
            rw [he]
            exact inSubB_childPath hRroot
          rw [hA4 _ hKQ hKR]
          exact hfreshK c (List.mem_cons_self _ _) _ (inSubB_append_tail _ _)
        exact IH c.2 t3 (childPath R c.1) (childPath Q c.1)
          { cn0 with path := childPath Q c.1 } hcnt hcs0 hRcOk hRcroot hQcOk hQcroot
          hdisj2 hA5 hA6self rfl ⟨cn0, hcn0, rfl, rfl⟩ hstale3 honly3 hfresh3
      · rw [if_neg hdirc]
        have hfile : cn0.type = NodeType.file := by
          rcases ht : cn0.type with _ | _
          · rfl
          · exact absurd ht hdirc
        refine ⟨?_, ?_, fun q h1 h2 => rfl, fun k hk => rfl, ?_, rfl, hA5⟩
        · intro tail
          have hKQ : childPath Q c.1 ++ '/' :: tail ≠ childPath Q c.1 :=
            append_slash_ne _ _
          have hKR : childPath Q c.1 ++ '/' :: tail ≠ childPath R c.1 := by
            intro he
            refine hdisj (childPath Q c.1 ++ '/' :: tail) ?_
              (inSubB_trans (inSubB_childPath hQroot) (inSubB_append_tail _ _))
            rw [he]
            exact inSubB_childPath hRroot
          rw [hA4 _ hKQ hKR]
          rw [hfreshK c (List.mem_cons_self _ _) _ (inSubB_append_tail _ _)]
          rcases hr : getA (childPath R c.1 ++ '/' :: tail) s0.files with _ | k
          · rfl
          · exact absurd hr (hnodesc hfile tail k)
        · intro tail
          have hKQ : childPath R c.1 ++ '/' :: tail ≠ childPath Q c.1 := by
            intro he
            refine hdisj (childPath R c.1 ++ '/' :: tail)
              (inSubB_trans (inSubB_childPath hRroot) (inSubB_append_tail _ _)) ?_
            rw [he]
            exact inSubB_childPath hQroot
          have hKR : childPath R c.1 ++ '/' :: tail ≠ childPath R c.1 :=
            append_slash_ne _ _
          rw [hA4 _ hKQ hKR]
          rcases hg : getA (childPath R c.1 ++ '/' :: tail) acc.files with _ | k
          · rfl
          · exfalso
            rw [childPath_append_tail c.1 hRroot tail] at hg
            have hs0 := honlyK _ k hg
            rw [← childPath_append_tail c.1 hRroot tail] at hs0
            exact hnodesc hfile tail k hs0
        · intro tail k hk
          exact absurd hk (hnodesc hfile tail k)
    obtain ⟨hM1, hM2, hM3, hM4, hM5, hM6, hM7⟩ := hM
    have hnpQQ : ¬ (childPath Q c.1 ++ ['/']) <+: childPath Q c.1 := by
      intro hp
      have h2 := hp.length_le
      simp [List.length_append] at h2
    have hnpRR : ¬ (childPath R c.1 ++ ['/']) <+: childPath R c.1 := by
      intro hp
      have h2 := hp.length_le
      simp [List.length_append] at h2
    have hnpRQc : ¬ (childPath R c.1 ++ ['/']) <+: childPath Q c.1 := by
      intro hp
      obtain ⟨tail, hq⟩ := prefix_slash_decomp hp
      refine hdisj (childPath Q c.1) ?_ (inSubB_childPath hQroot)
      rw [hq]
      exact inSubB_trans (inSubB_childPath hRroot) (inSubB_append_tail _ _)
    have hnpQRc : ¬ (childPath Q c.1 ++ ['/']) <+: childPath R c.1 := by
      intro hp
      obtain ⟨tail, hq⟩ := prefix_slash_decomp hp
      refine hdisj (childPath R c.1) (inSubB_childPath hRroot) ?_
      rw [hq]
      exact inSubB_trans (inSubB_childPath hQroot) (inSubB_append_tail _ _)
    have hS1b : getA (childPath Q c.1) tstep.files = some c.2 := by
      rw [hM3 _ hnpRQc hnpQQ]
      exact hA1
    have hS2a : getA (childPath R c.1) tstep.files = none := by
      rw [hM3 _ hnpRR hnpQRc]
      exact hA3
    have hg5a : ∀ tail, ¬ getA (childPath R c.1 ++ '/' :: tail) s0.files = some c.2 := by
      intro tail hk
      exact append_slash_ne _ _ (hInv0.filesIdInj hk hcs0)
    have hS5a : getA c.2 tstep.heap = some { cn0 with path := childPath Q c.1 } := by
      rw [hM4 c.2 hg5a]
      exact hA6self
    have hjstep : ∃ njy, getA j tstep.heap = some njy ∧ njy.path = Q := by
      have hgj : ∀ tail, ¬ getA (childPath R c.1 ++ '/' :: tail) s0.files = some j := by
        intro tail hk
        have h2 := congrArg List.length (hInv0.filesIdInj hk hR)
        simp only [List.length_append, List.length_cons] at h2
        have h3 := @childPath_length_gt R c.1 hRroot
        omega
      have hjne : j ≠ c.2 := by
        intro he
        rw [he] at hR
        have h2 := congrArg List.length (hInv0.filesIdInj hR hcs0)
        have h3 := @childPath_length_gt R c.1 hRroot
        omega
      refine ⟨njx, ?_, hjxQ⟩
      rw [hM4 j hgj, hA6h j hjne]
      exact hjx
    have hkids' : ∀ c' ∈ todo', nameOk c'.1 ∧ getA (childPath R c'.1) s0.files = some c'.2 ∧
        subCount s0 (childPath R c'.1) < fuel ∧
        (∃ cn0, getA c'.2 s0.heap = some cn0 ∧ cn0.name = c'.1 ∧
          cn0.path = childPath R c'.1) :=
      fun c' hc' => hkids c' (List.mem_cons_of_mem _ hc')
    have hstaleK' : ∀ c' ∈ todo', ∀ q k, getA q s0.files = some k →
        inSubB (childPath R c'.1) q = true →
        getA q tstep.files = some k ∧ getA k tstep.heap = getA k s0.heap := by
      intro c' hc' q k hk hsub
      have hst := hstaleK c' (List.mem_cons_of_mem _ hc') q k hk hsub
      constructor
      · have hg1 : ¬ (childPath R c.1 ++ ['/']) <+: q := by
          intro hp
          obtain ⟨tail, hq⟩ := prefix_slash_decomp hp
          refine hsibR c' hc' q ?_ hsub
          rw [hq]
          exact inSubB_append_tail _ _
        have hg2 : ¬ (childPath Q c.1 ++ ['/']) <+: q := by
          intro hp
          obtain ⟨tail, hq⟩ := prefix_slash_decomp hp
          refine hdisj q (inSubB_trans (inSubB_childPath hRroot) hsub) ?_
          rw [hq]
          exact inSubB_trans (inSubB_childPath hQroot) (inSubB_append_tail _ _)
        have hq1 : q ≠ childPath Q c.1 := by
          intro he
          refine hdisj q (inSubB_trans (inSubB_childPath hRroot) hsub) ?_
          rw [he]
          exact inSubB_childPath hQroot
        have hq2 : q ≠ childPath R c.1 := by
          intro he
          refine hsibR c' hc' q ?_ hsub
          rw [he]
          exact inSubB_refl _
        rw [hM3 q hg1 hg2, hA4 q hq1 hq2]
        exact hst.1
      · have hgk : ∀ tail, ¬ getA (childPath R c.1 ++ '/' :: tail) s0.files = some k := by
          intro tail hk2
          have hqeq := hInv0.filesIdInj hk2 hk
          refine hsibR c' hc' q ?_ hsub
          rw [← hqeq]
          exact inSubB_append_tail _ _
        have hkne : k ≠ c.2 := by
          intro he
          rw [he] at hk
          have hqeq := hInv0.filesIdInj hk hcs0
          refine hsibR c' hc' q ?_ hsub
          rw [hqeq]
          exact inSubB_refl _
        rw [hM4 k hgk, hA6h k hkne]
        exact hst.2
    have hfreshK' : ∀ c' ∈ todo', ∀ q, inSubB (childPath Q c'.1) q = true →
        getA q tstep.files = none := by
      intro c' hc' q hsub
      have hg1 : ¬ (childPath R c.1 ++ ['/']) <+: q := by
        intro hp
        obtain ⟨tail, hq⟩ := prefix_slash_decomp hp
        refine hdisj q ?_ (inSubB_trans (inSubB_childPath hQroot) hsub)
        rw [hq]
        exact inSubB_trans (inSubB_childPath hRroot) (inSubB_append_tail _ _)
      have hg2 : ¬ (childPath Q c.1 ++ ['/']) <+: q := by
        intro hp
        obtain ⟨tail, hq⟩ := prefix_slash_decomp hp
        refine hsibQ c' hc' q ?_ hsub
        rw [hq]
        exact inSubB_append_tail _ _
      have hq1 : q ≠ childPath Q c.1 := by
        intro he
        refine hsibQ c' hc' q ?_ hsub
        rw [he]
        exact inSubB_refl _
      have hq2 : q ≠ childPath R c.1 := by
        intro he
        refine hdisj q ?_ (inSubB_trans (inSubB_childPath hQroot) hsub)
        rw [he]
        exact inSubB_childPath hRroot
      rw [hM3 q hg1 hg2, hA4 q hq1 hq2]
      exact hfreshK c' (List.mem_cons_of_mem _ hc') q hsub
    have honlyK' : ∀ tail k, getA (R ++ '/' :: tail) tstep.files = some k →
        getA (R ++ '/' :: tail) s0.files = some k := by
      intro tail k hk
      by_cases hunder : inSubB (childPath R c.1) (R ++ '/' :: tail) = true
      · exfalso
        rcases under_split hunder with he | ⟨tail2, he⟩
        · rw [he, hS2a] at hk
          exact Option.noConfusion hk
        · rw [he, hM2 tail2] at hk
          exact Option.noConfusion hk
      · have hg1 : ¬ (childPath R c.1 ++ ['/']) <+: (R ++ '/' :: tail) := by
          intro hp
          exact hunder (inSubB_iff.mpr (Or.inr hp))
        have hg2 : ¬ (childPath Q c.1 ++ ['/']) <+: (R ++ '/' :: tail) := by
          intro hp
          obtain ⟨tail2, hq⟩ := prefix_slash_decomp hp
          refine hdisj (R ++ '/' :: tail) (inSubB_append_tail _ _) ?_
          rw [hq]
          exact inSubB_trans (inSubB_childPath hQroot) (inSubB_append_tail _ _)
        have hq1 : R ++ '/' :: tail ≠ childPath Q c.1 := by
          intro he
          refine hdisj (R ++ '/' :: tail) (inSubB_append_tail _ _) ?_
          rw [he]
          exact inSubB_childPath hQroot
        have hq2 : R ++ '/' :: tail ≠ childPath R c.1 := by
          intro he
          refine hunder ?_
          rw [he]
          exact inSubB_refl _
        rw [hM3 _ hg1 hg2, hA4 _ hq1 hq2] at hk
        exact honlyK tail k hk
    obtain ⟨hT1a, hT1b, hT2a, hT2b, hTfr, hThf, hT5a, hT5b, hT6, hT7⟩ :=
      ih tstep hM7 hjstep hnames' hkids' hstaleK' hfreshK' honlyK'
    have hTg : ∀ K : Str, inSubB (childPath Q c.1) K = true →
        (∀ c' ∈ todo', ¬ inSubB (childPath R c'.1) K = true) ∧
        (∀ c' ∈ todo', ¬ inSubB (childPath Q c'.1) K = true) := by
      intro K hK
      constructor
      · intro c' hc' h2
        exact hdisj K (inSubB_trans (inSubB_childPath hRroot) h2)
          (inSubB_trans (inSubB_childPath hQroot) hK)
      · intro c' hc' h2
        exact hsibQ c' hc' K hK h2
    have hTgR : ∀ K : Str, inSubB (childPath R c.1) K = true →
        (∀ c' ∈ todo', ¬ inSubB (childPath R c'.1) K = true) ∧
        (∀ c' ∈ todo', ¬ inSubB (childPath Q c'.1) K = true) := by
      intro K hK
      constructor
      · intro c' hc' h2
        exact hsibR c' hc' K hK h2
      · intro c' hc' h2
        exact hdisj K (inSubB_trans (inSubB_childPath hRroot) hK)
          (inSubB_trans (inSubB_childPath hQroot) h2)
    have hTgH : ∀ k2 : Nat,
        (∃ q2, getA q2 s0.files = some k2 ∧ inSubB (childPath R c.1) q2 = true) →
        (∀ c' ∈ todo', ∀ q, getA q s0.files = some k2 →
          ¬ inSubB (childPath R c'.1) q = true) := by
      intro k2 hex c' hc' q hq hqsub
      obtain ⟨q2, hq2, hq2sub⟩ := hex
      have he := hInv0.filesIdInj hq hq2
      rw [he] at hqsub
      exact hsibR c' hc' q2 hq2sub hqsub
    refine ⟨?_, ?_, ?_, ?_, ?_, ?_, ?_, ?_, ?_, ?_⟩
    · intro c' hc' tail
      rcases List.mem_cons.mp hc' with he | hm
      · subst he
        obtain ⟨g1, g2⟩ := hTg (childPath Q c'.1 ++ '/' :: tail) (inSubB_append_tail _ _)
        rw [hTfr _ g1 g2]
        exact hM1 tail
      · exact hT1a c' hm tail
    · intro c' hc'
      rcases List.mem_cons.mp hc' with he | hm
      · subst he
        obtain ⟨g1, g2⟩ := hTg (childPath Q c'.1) (inSubB_refl _)
        rw [hTfr _ g1 g2]
        exact hS1b
      · exact hT1b c' hm
    · intro c' hc'
      rcases List.mem_cons.mp hc' with he | hm
      · subst he
        obtain ⟨g1, g2⟩ := hTgR (childPath R c'.1) (inSubB_refl _)
        rw [hTfr _ g1 g2]
        exact hS2a
      · exact hT2a c' hm
    · intro c' hc' tail
      rcases List.mem_cons.mp hc' with he | hm
      · subst he
        obtain ⟨g1, g2⟩ := hTgR (childPath R c'.1 ++ '/' :: tail) (inSubB_append_tail _ _)
        rw [hTfr _ g1 g2]
        exact hM2 tail
      · exact hT2b c' hm tail
    · intro q g1 g2
      have hnc1 := g1 c (List.mem_cons_self _ _)
      have hnc2 := g2 c (List.mem_cons_self _ _)
      have hg1 : ¬ (childPath R c.1 ++ ['/']) <+: q :=
        fun hp => hnc1 (inSubB_iff.mpr (Or.inr hp))
      have hg2 : ¬ (childPath Q c.1 ++ ['/']) <+: q :=
        fun hp => hnc2 (inSubB_iff.mpr (Or.inr hp))
      have hq1 : q ≠ childPath Q c.1 := by
        intro he
        refine hnc2 ?_
        rw [he]
        exact inSubB_refl _
      have hq2 : q ≠ childPath R c.1 := by
        intro he
        refine hnc1 ?_
        rw [he]
        exact inSubB_refl _
      rw [hTfr q (fun c' hc' => g1 c' (List.mem_cons_of_mem _ hc'))
        (fun c' hc' => g2 c' (List.mem_cons_of_mem _ hc')), hM3 q hg1 hg2,
        hA4 q hq1 hq2]
    · intro k2 g
      have hgc := g c (List.mem_cons_self _ _)
      have hM4g : ∀ tail, ¬ getA (childPath R c.1 ++ '/' :: tail) s0.files = some k2 := by
        intro tail hk
        exact hgc _ hk (inSubB_append_tail _ _)
      have hk2ne : k2 ≠ c.2 := by
        intro he
        refine hgc (childPath R c.1) ?_ (inSubB_refl _)
        rw [he]
        exact hcs0
      rw [hThf k2 (fun c' hc' => g c' (List.mem_cons_of_mem _ hc')), hM4 k2 hM4g,
        hA6h k2 hk2ne]
    · intro c' hc'
      rcases List.mem_cons.mp hc' with he | hm
      · subst he
        refine ⟨cn0, hcn0, ?_⟩
        rw [hThf c'.2 (hTgH c'.2 ⟨childPath R c'.1, hcs0, inSubB_refl _⟩)]
        exact hS5a
      · exact hT5a c' hm
    · intro c' hc' tail k hk
      rcases List.mem_cons.mp hc' with he | hm
      · subst he
        obtain ⟨m0, hm0, hmeq⟩ := hM5 tail k hk
        refine ⟨m0, hm0, ?_⟩
        rw [hThf k (hTgH k ⟨childPath R c'.1 ++ '/' :: tail, hk, inSubB_append_tail _ _⟩)]
        exact hmeq
      · exact hT5b c' hm tail k hk
    · rw [hT6, hM6, hA6keys]
    · exact hT7

theorem ucp_master {s0 : VFS} (hInv0 : Inv s0) : ∀ fuel, UCPSpec s0 fuel := by
  intro fuel
  induction fuel with
  | zero =>
    intro j s R Q nj hfuel
    exact absurd hfuel (by omega)
  | succ fuel ihf =>
    intro j s R Q nj hfuel hR hRok hRroot hQok hQroot hdisj hnodF hnj hnjQ hnj0
      hstale honly hfresh
    obtain ⟨n0, hn0, htype, hchildren⟩ := hnj0
    obtain ⟨e0, he0, he0path, _, he0dir, he0file⟩ := hInv0.entries R j hR
    have he0n0 : e0 = n0 := by
      rw [hn0] at he0
      injection he0 with hx
      exact hx.symm
    rw [he0n0] at he0dir he0file
    by_cases hdirb : nj.type = NodeType.directory ∧ nj.children.isSome = true
    · rw [updateChildrenPaths_succ_eq fuel hnj hdirb]
      have hn0dir : n0.type = NodeType.directory := by
        rw [← htype]
        exact hdirb.1
      have hnamesX : (keysA (nj.children.getD [])).Nodup := by
        rw [hchildren]
        exact (he0dir hn0dir).2
      have hkidsX : ∀ c ∈ nj.children.getD [], nameOk c.1 ∧
          getA (childPath R c.1) s0.files = some c.2 ∧
          subCount s0 (childPath R c.1) < fuel ∧
          (∃ cn0, getA c.2 s0.heap = some cn0 ∧ cn0.name = c.1 ∧
            cn0.path = childPath R c.1) := by
        intro c hc
        rw [hchildren] at hc
        obtain ⟨cn, hcn, hcname, hcpath, hcfiles⟩ :=
          hInv0.childrenLink R j hR n0 hn0 c hc
        rw [hcpath] at hcfiles
        have hcproot : childPath R c.1 ≠ ['/'] :=
          childPath_ne_root2 hRroot (pathOk_ne_nil hRok)
        obtain ⟨n', pid', pn', hn', hn'Ok, _, _, _, _, _⟩ :=
          hInv0.parentLink (childPath R c.1) c.2 hcfiles hcproot
        have hn'cn : cn = n' := by
          rw [hcn] at hn'
          injection hn' with hx
        have hnameOkc : nameOk c.1 := by
          rw [← hcname, hn'cn]
          exact hn'Ok
        have hcntc : subCount s0 (childPath R c.1) < fuel := by
          have hlt := subCount_lt hInv0.filesNodup (getA_mem_keysA hcfiles)
            (inSubB_childPath hRroot) (childPath_ne_self hRroot)
          omega
        exact ⟨hnameOkc, hcfiles, hcntc, cn, hcn, hcname, hcpath⟩
      have hstaleX : ∀ c ∈ nj.children.getD [], ∀ q k, getA q s0.files = some k →
          inSubB (childPath R c.1) q = true →
          getA q s.files = some k ∧ getA k s.heap = getA k s0.heap := by
        intro c hc q k hk hsub
        rw [childPath_nonroot hRroot] at hsub
        obtain ⟨r, hq, _⟩ := under_decomp hsub
        rw [hq] at hk ⊢
        exact hstale _ k hk
      have hfreshX : ∀ c ∈ nj.children.getD [], ∀ q,
          inSubB (childPath Q c.1) q = true → getA q s.files = none := by
        intro c hc q hsub
        rw [childPath_nonroot hQroot] at hsub
        obtain ⟨r, hq, _⟩ := under_decomp hsub
        rw [hq]
        exact hfresh _
      obtain ⟨hF1a, hF1b, hF2a, hF2b, hF3, hF4, hF5a, hF5b, hF6, hF7⟩ :=
        ucp_fold hInv0 fuel ihf nj.path hR hRok hRroot hQok hQroot hdisj
          (nj.children.getD []) s hnodF ⟨nj, hnj, hnjQ⟩ hnamesX hkidsX hstaleX
          hfreshX honly
      refine ⟨?_, ?_, ?_, ?_, ?_, hF6, hF7⟩
      · intro tail
        by_cases hcex : ∃ c ∈ nj.children.getD [],
            inSubB (childPath Q c.1) (Q ++ '/' :: tail) = true
        · obtain ⟨c, hcm, hsubQd⟩ := hcex
          rcases under_split hsubQd with he | ⟨tail2, he⟩
          · rw [childPath_nonroot hQroot] at he
            have ht := List.append_cancel_left he
            injection ht with h1 h2
            rw [h2, ← childPath_nonroot hQroot, ← childPath_nonroot hRroot]
            rw [hF1b c hcm]
            exact ((hkidsX c hcm).2.1).symm
          · rw [childPath_append_tail c.1 hQroot tail2] at he
            have ht := List.append_cancel_left he
            injection ht with h1 h2
            rw [h2, ← childPath_append_tail c.1 hQroot tail2,
              ← childPath_append_tail c.1 hRroot tail2]
            exact hF1a c hcm tail2
        · have hcn : ∀ c ∈ nj.children.getD [],
              ¬ inSubB (childPath Q c.1) (Q ++ '/' :: tail) = true := by
            intro c hcm h
            exact hcex ⟨c, hcm, h⟩
          have hqR : ∀ c ∈ nj.children.getD [],
              ¬ inSubB (childPath R c.1) (Q ++ '/' :: tail) = true := by
            intro c hcm h
            exact hdisj (Q ++ '/' :: tail)
              (inSubB_trans (inSubB_childPath hRroot) h) (inSubB_append_tail _ _)
          rw [hF3 _ hqR hcn, hfresh tail]
          rcases hg : getA (R ++ '/' :: tail) s0.files with _ | k
          · rfl
          · exfalso
            obtain ⟨c, hcm0, hcsub⟩ := first_step_child hInv0 hRok hRroot hR hn0 hg
              (inSubB_append_tail _ _) (append_slash_ne _ _)
            have hcsub2 : inSubB (childPath Q c.1) (Q ++ '/' :: tail) = true := by
              rw [childPath_nonroot hRroot] at hcsub
              rw [childPath_nonroot hQroot]
              exact inSubB_shift hcsub
            refine hcn c ?_ hcsub2
            rw [hchildren]
            exact hcm0
      · intro tail
        by_cases hcex : ∃ c ∈ nj.children.getD [],
            inSubB (childPath R c.1) (R ++ '/' :: tail) = true
        · obtain ⟨c, hcm, hsubd⟩ := hcex
          rcases under_split hsubd with he | ⟨tail2, he⟩
          · rw [he]
            exact hF2a c hcm
          · rw [he]
            exact hF2b c hcm tail2
        · have hcn : ∀ c ∈ nj.children.getD [],
              ¬ inSubB (childPath R c.1) (R ++ '/' :: tail) = true := by
            intro c hcm h
            exact hcex ⟨c, hcm, h⟩
          have hqQ : ∀ c ∈ nj.children.getD [],
              ¬ inSubB (childPath Q c.1) (R ++ '/' :: tail) = true := by
            intro c hcm h
            exact hdisj (R ++ '/' :: tail) (inSubB_append_tail _ _)
              (inSubB_trans (inSubB_childPath hQroot) h)
          rw [hF3 _ hcn hqQ]
          rcases hg : getA (R ++ '/' :: tail) s.files with _ | k
          · rfl
          · exfalso
            have hs0 := honly tail k hg
            obtain ⟨c, hcm0, hcsub⟩ := first_step_child hInv0 hRok hRroot hR hn0 hs0
              (inSubB_append_tail _ _) (append_slash_ne _ _)
            refine hcn c ?_ hcsub
            rw [hchildren]
            exact hcm0
      · intro q h1 h2
        refine hF3 q ?_ ?_
        · intro c hcm h
          rw [childPath_nonroot hRroot] at h
          exact h1 (under_char h)
        · intro c hcm h
          rw [childPath_nonroot hQroot] at h
          exact h2 (under_char h)
      · intro k hg
        refine hF4 k ?_
        intro c hcm q hq hsub
        rw [childPath_nonroot hRroot] at hsub
        obtain ⟨r, hqe, _⟩ := under_decomp hsub
        rw [hqe] at hq
        exact hg _ hq
      · intro tail k hk
        obtain ⟨c, hcm0, hcsub⟩ := first_step_child hInv0 hRok hRroot hR hn0 hk
          (inSubB_append_tail _ _) (append_slash_ne _ _)
        have hcm : c ∈ nj.children.getD [] := by
          rw [hchildren]
          exact hcm0
        rcases under_split hcsub with he | ⟨tail2, he⟩
        · have hkc : k = c.2 := by
            rw [he] at hk
            rw [(hkidsX c hcm).2.1] at hk
            injection hk with hx
            exact hx.symm
          rw [childPath_nonroot hRroot] at he
          have ht := List.append_cancel_left he
          injection ht with h1 h2
          obtain ⟨m0, hm0, hmeq⟩ := hF5a c hcm
          refine ⟨m0, ?_, ?_⟩
          · rw [hkc]
            exact hm0
          · rw [hkc, hmeq, h2, childPath_nonroot hQroot]
        · have hk2 : getA (childPath R c.1 ++ '/' :: tail2) s0.files = some k := by
            rw [← he]
            exact hk
          obtain ⟨m0, hm0, hmeq⟩ := hF5b c hcm tail2 k hk2
          refine ⟨m0, hm0, ?_⟩
          rw [hmeq, childPath_append_tail c.1 hQroot tail2]
          rw [childPath_append_tail c.1 hRroot tail2] at he
          have ht := List.append_cancel_left he
          injection ht with h1 h2
          rw [h2]
    · rw [updateChildrenPaths_skip_eq fuel hnj hdirb]
      have hfile : nj.type = NodeType.file := by
        rcases ht : nj.type with _ | _
        · rfl
        · exfalso
          refine hdirb ⟨ht, ?_⟩
          have hn0d : n0.type = NodeType.directory := by
            rw [← htype]
            exact ht
          rw [hchildren]
          exact (he0dir hn0d).1
      have hnone : ∀ tail k, ¬ getA (R ++ '/' :: tail) s0.files = some k := by
        intro tail k hk
        obtain ⟨cc, hcc, _⟩ := first_step_child hInv0 hRok hRroot hR hn0 hk
          (inSubB_append_tail _ _) (append_slash_ne _ _)
        have hn0f : n0.type = NodeType.file := by
          rw [← htype]
          exact hfile
        rw [he0file hn0f] at hcc
        exact absurd hcc (List.not_mem_nil cc)
      refine ⟨?_, ?_, fun q h1 h2 => rfl, fun k hk => rfl, ?_, rfl, hnodF⟩
      · intro tail
        rw [hfresh tail]
        rcases hg : getA (R ++ '/' :: tail) s0.files with _ | k
        · rfl
        · exact absurd hg (hnone tail k)
      · intro tail
        rcases hg : getA (R ++ '/' :: tail) s.files with _ | k
        · rfl
        · exact absurd (honly tail k hg) (hnone tail k)
      · intro tail k hk
        exact absurd hk (hnone tail k)

theorem append_slash_ne_root {x : Str} (hx : x ≠ []) (tail : Str) :
    x ++ '/' :: tail ≠ ['/'] := by
  intro he
  cases x with
  | nil => exact hx rfl
  | cons a as =>
    have h2 := congrArg List.length he
    simp only [List.cons_append, List.length_cons, List.length_append,
      List.length_nil] at h2
    omega

theorem subtrees_disjoint {O N : Str} (h1 : ¬ inSubB O N = true)
    (h2 : ¬ inSubB N O = true) :
    ∀ q, inSubB O q = true → inSubB N q = true → False := by
  intro q hOq hNq
  rcases inSubB_iff.mp hOq with heO | hpO
  · subst heO
    exact h2 hNq
  · rcases inSubB_iff.mp hNq with heN | hpN
    · subst heN
      exact h1 (inSubB_iff.mpr (Or.inr hpO))
    · rcases List.prefix_or_prefix_of_prefix hpO hpN with hp | hp
      · rcases List.prefix_concat_iff.mp hp with he | hp2
        · refine h1 ?_
          rw [List.append_cancel_right he]
          exact inSubB_refl _
        · exact h1 (inSubB_iff.mpr (Or.inr hp2))
      · rcases List.prefix_concat_iff.mp hp with he | hp2
        · refine h2 ?_
          rw [List.append_cancel_right he]
          exact inSubB_refl _
        · exact h2 (inSubB_iff.mpr (Or.inr hp2))

theorem segsPath_acc : ∀ (l : List Str) (acc : Str),
    List.foldl (fun a seg => a ++ '/' :: seg) acc l = acc ++ segsPath l := by
  intro l
  induction l with
  | nil =>
    intro acc
    simp [segsPath]
  | cons s t ih =>
    intro acc
    show List.foldl _ (acc ++ '/' :: s) t = acc ++ segsPath (s :: t)
    have h2 : segsPath (s :: t) = List.foldl (fun a seg => a ++ '/' :: seg) ('/' :: s) t := by
      rw [segsPath]
      rfl
    rw [ih, h2, ih ('/' :: s)]
    simp [List.append_assoc]

theorem segsPath_split (A B : List Str) :
    segsPath (A ++ B) = segsPath A ++ segsPath B := by
  rw [segsPath, List.foldl_append, segsPath_acc]
  rfl

theorem pathOk_shift {O N : Str} (tail : Str) (hO : pathOk O) (hOr : O ≠ ['/'])
    (hN : pathOk N) (hNr : N ≠ ['/']) (h : pathOk (O ++ '/' :: tail)) :
    pathOk (N ++ '/' :: tail) := by
  have hOnil : O ≠ [] := pathOk_ne_nil hO
  have hNnil : N ≠ [] := pathOk_ne_nil hN
  have hOtr : O ++ '/' :: tail ≠ ['/'] := append_slash_ne_root hOnil tail
  have hrep := segsPath_partsOf h hOtr
  rw [partsOf_append, segsPath_split, segsPath_partsOf hO hOr] at hrep
  have htail := List.append_cancel_left hrep
  have hNrep : segsPath (partsOf N ++ partsOf tail) = N ++ '/' :: tail := by
    rw [segsPath_split, segsPath_partsOf hN hNr, htail]
  have hne : (partsOf N ++ partsOf tail) ≠ [] := by
    intro h0
    exact partsOf_ne_nil hN hNr (List.append_eq_nil.mp h0).1
  have hnm : ∀ x ∈ partsOf N ++ partsOf tail, nameOk x := by
    intro x hx
    rcases List.mem_append.mp hx with hx | hx
    · exact partsOf_nameOk N x hx
    · exact partsOf_nameOk tail x hx
  have hfacts := segsPath_props _ hne hnm
  rw [hNrep] at hfacts
  exact hfacts.1

theorem length_setA_mem {α β : Type} [DecidableEq α] {k : α} (v : β)
    {l : List (α × β)} (h : k ∈ keysA l) : (setA k v l).length = l.length := by
  have h2 := congrArg List.length (keysA_setA_mem v h)
  simp only [keysA, List.length_map] at h2
  exact h2

theorem subCount_le_files (s : VFS) (p : Str) : subCount s p ≤ s.files.length := by
  have h1 : subCount s p ≤ (keysA s.files).length := List.length_filter_le _ _
  have h2 : (keysA s.files).length = s.files.length := by
    simp [keysA]
  omega

theorem files_le_heap {s : VFS} (hs : Inv s) : s.files.length ≤ s.heap.length := by
  have hids : (s.files.map Prod.snd).Nodup := by
    refine List.Nodup.map_on ?_ (List.Nodup.of_map Prod.fst hs.filesNodup)
    intro x hx y hy hxy
    obtain ⟨x1, x2⟩ := x
    obtain ⟨y1, y2⟩ := y
    have hxy2 : x2 = y2 := hxy
    have hgx := mem_getA_eq_some hs.filesNodup hx
    have hgy := mem_getA_eq_some hs.filesNodup hy
    rw [hxy2] at hgx
    have h1 := hs.filesIdInj hgx hgy
    rw [h1, hxy2]
  have hsub : ∀ i ∈ s.files.map Prod.snd, i ∈ keysA s.heap := by
    intro i hi
    obtain ⟨x, hx, hxeq⟩ := List.mem_map.mp hi
    obtain ⟨x1, x2⟩ := x
    have hgx := mem_getA_eq_some hs.filesNodup hx
    obtain ⟨n, hn, _⟩ := hs.entries x1 x2 hgx
    rw [← hxeq]
    exact getA_mem_keysA hn
  have h1 := length_le_of_nodup_subset hids hsub
  rw [List.length_map] at h1
  have h2 : (keysA s.heap).length = s.heap.length := by
    simp [keysA]
  omega

theorem ucp_root_nextId : ∀ (fuel : Nat) (s : VFS) (nid : Nat),
    (s.updateChildrenPaths nid fuel).root = s.root ∧
    (s.updateChildrenPaths nid fuel).nextId = s.nextId := by
  intro fuel
  induction fuel with
  | zero =>
    intro s nid
    exact ⟨rfl, rfl⟩
  | succ fuel ihf =>
    intro s nid
    rcases hn : getA nid s.heap with _ | n
    · rw [updateChildrenPaths_none_eq fuel hn]
      exact ⟨rfl, rfl⟩
    · by_cases hdir : n.type = NodeType.directory ∧ n.children.isSome = true
      · rw [updateChildrenPaths_succ_eq fuel hn hdir]
        have hfold : ∀ (l : List (Str × Nat)) (acc : VFS),
            (l.foldl (ucpStep fuel nid n.path) acc).root = acc.root ∧
            (l.foldl (ucpStep fuel nid n.path) acc).nextId = acc.nextId := by
          intro l
          induction l with
          | nil =>
            intro acc
            exact ⟨rfl, rfl⟩
          | cons c rest ihl =>
            intro acc
            rw [List.foldl_cons]
            have hstep : (ucpStep fuel nid n.path acc c).root = acc.root ∧
                (ucpStep fuel nid n.path acc c).nextId = acc.nextId := by
              rcases hc : getA c.2 acc.heap with _ | child
              · simp only [ucpStep]
                rw [hc]
                exact ⟨rfl, rfl⟩
              · rw [ucpStep_char0 hc]
                by_cases hcd : child.type = NodeType.directory
                · rw [if_pos hcd]
                  exact ⟨(ihf _ _).1, (ihf _ _).2⟩
                · rw [if_neg hcd]
                  exact ⟨rfl, rfl⟩
            obtain ⟨h1, h2⟩ := ihl (ucpStep fuel nid n.path acc c)
            exact ⟨h1.trans hstep.1, h2.trans hstep.2⟩
        exact hfold _ s
      · rw [updateChildrenPaths_skip_eq fuel hn hdir]
        exact ⟨rfl, rfl⟩

theorem getParentPath_length_lt {p : Str} (hp : pathOk p) (hr : p ≠ ['/']) :
    (getParentPath p).length < p.length := by
  have h1 := childPath_length_lt (pathOk_getParentPath hp) (nameOk_getFileName hp hr)
  rw [childPath_parent_name hp hr] at h1
  exact h1

theorem root_not_under {x : Str} (hxr : x ≠ ['/']) (hxn : x ≠ []) :
    ¬ inSubB x ['/'] = true := by
  intro h
  rcases inSubB_iff.mp h with he | hp
  · exact hxr he
  · have h2 := hp.length_le
    simp only [List.length_append, List.length_cons, List.length_nil] at h2
    cases x with
    | nil => exact hxn rfl
    | cons a as =>
      simp only [List.length_cons] at h2
      omega

theorem not_under_parent {O p : Str} (hOok : pathOk O) (hOr : O ≠ ['/'])
    (hp : pathOk p) (hpr : p ≠ ['/']) (h : ¬ inSubB O p = true) :
    ¬ inSubB O (getParentPath p) = true := by
  intro hg
  by_cases hgr : getParentPath p = ['/']
  · rw [hgr] at hg
    exact root_not_under hOr (pathOk_ne_nil hOok) hg
  · refine h ?_
    refine inSubB_trans hg ?_
    have h1 := childPath_parent_name hp hpr
    nth_rewrite 2 [← h1]
    exact inSubB_childPath hgr

theorem under_childPath_cases {O p c1 : Str} (hO : pathOk O) (hOr : O ≠ ['/'])
    (hc1 : nameOk c1) (h : inSubB O (childPath p c1) = true) :
    childPath p c1 = O ∨ inSubB O p = true := by
  rcases inSubB_iff.mp h with he | hp
  · exact Or.inl he.symm
  · by_cases hpr : p = ['/']
    · exfalso
      rw [hpr, childPath, if_pos rfl] at hp
      obtain ⟨o1, oRest, hOe⟩ : ∃ o1 oRest, O = o1 :: oRest := by
        cases O with
        | nil => exact absurd rfl (pathOk_ne_nil hO)
        | cons a as => exact ⟨a, as, rfl⟩
      have hOh : o1 = '/' := by
        have h1 := hO.1
        rw [hOe] at h1
        simp only [List.head?_cons] at h1
        injection h1 with hx
      subst hOh
      rw [hOe] at hp
      have hor : oRest ≠ [] := by
        intro h0
        rw [h0] at hOe
        exact hOr hOe
      obtain ⟨t, ht⟩ := hp
      simp only [List.cons_append] at ht
      injection ht with h1 h2
      -- h2 : oRest ++ ['/'] ++ t = c1
      refine hc1.2 ?_
      rw [← h2]
      rw [List.append_assoc]
      refine List.mem_append_right _ ?_
      exact List.mem_append_left _ (List.mem_singleton_self _)
    · rw [childPath_nonroot hpr] at hp
      have hp2 : (p ++ ['/']) <+: p ++ '/' :: c1 := ⟨c1, by simp⟩
      rcases List.prefix_or_prefix_of_prefix hp hp2 with hc | hc
      · rcases List.prefix_concat_iff.mp hc with he | hc2
        · refine Or.inr ?_
          rw [List.append_cancel_right he]
          exact inSubB_refl _
        · exact Or.inr (inSubB_iff.mpr (Or.inr hc2))
      · rcases List.prefix_concat_iff.mp hc with he | hc2
        · refine Or.inr ?_
          rw [← List.append_cancel_right he]
          exact inSubB_refl _
        · exfalso
          obtain ⟨o2, ho2⟩ := prefix_slash_decomp hc2
          rw [ho2] at hp
          rw [List.append_assoc] at hp
          have hc3 := (List.prefix_append_right_inj p).mp hp
          -- hc3 : '/' :: o2 ++ ['/'] <+: '/' :: c1
          obtain ⟨t, ht⟩ := hc3
          simp only [List.cons_append] at ht
          injection ht with h1 h2
          refine hc1.2 ?_
          rw [← h2, List.append_assoc]
          refine List.mem_append_right _ ?_
          exact List.mem_append_left _ (List.mem_singleton_self _)

theorem moveState_char {s1 : VFS} {O N srcName : Str} {sid opid npid : Nat}
    {opn1 npn1 src1 : Node}
    (hopn1 : getA opid s1.heap = some opn1)
    (hnpn1 : getA npid s1.heap = some npn1)
    (hsrc1 : getA sid s1.heap = some src1)
    (hsidop : sid ≠ opid) (hsidnp : sid ≠ npid)
    (hopnod : (keysA (opn1.children.getD [])).Nodup) :
    (moveState s1 N O srcName sid opid npid).files = setA N sid (delA O s1.files) ∧
    (moveState s1 N O srcName sid opid npid).root = s1.root ∧
    (moveState s1 N O srcName sid opid npid).nextId = s1.nextId ∧
    keysA (moveState s1 N O srcName sid opid npid).heap = keysA s1.heap ∧
    getA sid (moveState s1 N O srcName sid opid npid).heap =
      some { src1 with name := getFileName N, path := N } ∧
    (∃ npn3 : Node, getA npid (moveState s1 N O srcName sid opid npid).heap =
        some { npn3 with children := some (setA (getFileName N) sid (npn3.children.getD [])) } ∧
      npn3.type = npn1.type ∧ npn3.name = npn1.name ∧ npn3.path = npn1.path ∧
      npn3.content = npn1.content ∧
      ((keysA (npn1.children.getD [])).Nodup → (keysA (npn3.children.getD [])).Nodup) ∧
      (∀ nm, getA nm (npn3.children.getD []) =
        if npid = opid ∧ nm = srcName then none
        else getA nm (npn1.children.getD []))) ∧
    (npid ≠ opid → getA opid (moveState s1 N O srcName sid opid npid).heap =
      some { opn1 with children := some (delA srcName (opn1.children.getD [])) }) ∧
    (∀ k2, k2 ≠ sid → k2 ≠ opid → k2 ≠ npid →
      getA k2 (moveState s1 N O srcName sid opid npid).heap = getA k2 s1.heap) := by
  simp only [moveState]
  rw [hopn1]
  have h2 : getA sid (setA opid { opn1 with children := some (delA srcName (opn1.children.getD [])) } s1.heap) = some src1 := by
    rw [getA_setA_ne _ _ (Ne.symm hsidop)]
    exact hsrc1
  rw [h2]
  by_cases hpe : npid = opid
  · subst hpe
    have heq : opn1 = npn1 := by
      rw [hnpn1] at hopn1
      injection hopn1 with hx
      exact hx.symm
    have h3 : getA npid (setA sid { src1 with name := getFileName N, path := N } (setA npid { opn1 with children := some (delA srcName (opn1.children.getD [])) } s1.heap)) = some { opn1 with children := some (delA srcName (opn1.children.getD [])) } := by
      rw [getA_setA_ne _ _ hsidnp]
      exact getA_setA_self _ _ _
    rw [h3]
    have hk1 : keysA (setA npid { opn1 with children := some (delA srcName (opn1.children.getD [])) } s1.heap) = keysA s1.heap :=
      keysA_setA_mem _ (getA_mem_keysA hopn1)
    have hsidmem : sid ∈ keysA (setA npid { opn1 with children := some (delA srcName (opn1.children.getD [])) } s1.heap) := by
      rw [hk1]
      exact getA_mem_keysA hsrc1
    have hk2 : keysA (setA sid { src1 with name := getFileName N, path := N } (setA npid { opn1 with children := some (delA srcName (opn1.children.getD [])) } s1.heap)) = keysA s1.heap := by
      rw [keysA_setA_mem _ hsidmem]
      exact hk1
    have hnpmem : npid ∈ keysA (setA sid { src1 with name := getFileName N, path := N } (setA npid { opn1 with children := some (delA srcName (opn1.children.getD [])) } s1.heap)) := by
      rw [hk2]
      exact getA_mem_keysA hnpn1
    refine ⟨rfl, rfl, rfl, ?_, ?_, ?_, ?_, ?_⟩
    · rw [keysA_setA_mem _ hnpmem]
      exact hk2
    · rw [getA_setA_ne _ _ (Ne.symm hsidnp), getA_setA_self]
    · refine ⟨{ opn1 with children := some (delA srcName (opn1.children.getD [])) }, getA_setA_self _ _ _, ?_, ?_, ?_, ?_, ?_, ?_⟩
      · rw [heq]
      · rw [heq]
      · rw [heq]
      · rw [heq]
      · intro h
        exact keysA_delA_nodup _ hopnod
      · intro nm
        by_cases hnm : nm = srcName
        · rw [if_pos ⟨rfl, hnm⟩, hnm]
          exact getA_delA_self hopnod
        · rw [if_neg (fun hc => hnm hc.2), ← heq]
          exact getA_delA_ne hnm
    · intro h
      exact absurd rfl h
    · intro k2 hk2a hk2b hk2c
      rw [getA_setA_ne _ _ (Ne.symm hk2c), getA_setA_ne _ _ (Ne.symm hk2a),
        getA_setA_ne _ _ (Ne.symm hk2b)]
  · have h3 : getA npid (setA sid { src1 with name := getFileName N, path := N } (setA opid { opn1 with children := some (delA srcName (opn1.children.getD [])) } s1.heap)) = some npn1 := by
      rw [getA_setA_ne _ _ hsidnp, getA_setA_ne _ _ (fun he => hpe he.symm)]
      exact hnpn1
    rw [h3]
    have hk1 : keysA (setA opid { opn1 with children := some (delA srcName (opn1.children.getD [])) } s1.heap) = keysA s1.heap :=
      keysA_setA_mem _ (getA_mem_keysA hopn1)
    have hsidmem : sid ∈ keysA (setA opid { opn1 with children := some (delA srcName (opn1.children.getD [])) } s1.heap) := by
      rw [hk1]
      exact getA_mem_keysA hsrc1
    have hk2 : keysA (setA sid { src1 with name := getFileName N, path := N } (setA opid { opn1 with children := some (delA srcName (opn1.children.getD [])) } s1.heap)) = keysA s1.heap := by
      rw [keysA_setA_mem _ hsidmem]
      exact hk1
    have hnpmem : npid ∈ keysA (setA sid { src1 with name := getFileName N, path := N } (setA opid { opn1 with children := some (delA srcName (opn1.children.getD [])) } s1.heap)) := by
      rw [hk2]
      exact getA_mem_keysA hnpn1
    refine ⟨rfl, rfl, rfl, ?_, ?_, ?_, ?_, ?_⟩
    · rw [keysA_setA_mem _ hnpmem]
      exact hk2
    · rw [getA_setA_ne _ _ (Ne.symm hsidnp), getA_setA_self]
    · refine ⟨npn1, getA_setA_self _ _ _, rfl, rfl, rfl, rfl, fun h => h, ?_⟩
      intro nm
      rw [if_neg (fun hc => hpe hc.1)]
    · intro h
      rw [getA_setA_ne _ _ (fun he => hpe he), getA_setA_ne _ _ hsidop]
      exact getA_setA_self _ _ _
    · intro k2 hk2a hk2b hk2c
      rw [getA_setA_ne _ _ (Ne.symm hk2c), getA_setA_ne _ _ (Ne.symm hk2a),
        getA_setA_ne _ _ (Ne.symm hk2b)]

theorem moveUCP_char {s1 : VFS} (hs1 : Inv s1) {O N : Str} {sid opid npid : Nat}
    (hO : getA O s1.files = some sid)
    (hOroot : O ≠ ['/'])
    (hNok : pathOk N) (hNroot : N ≠ ['/'])
    (hNmiss : getA N s1.files = none)
    (hNsub : ∀ q, inSubB N q = true → q ≠ N → getA q s1.files = none)
    (hNO : ¬ inSubB O N = true) (hON : ¬ inSubB N O = true)
    (hop : getA (getParentPath O) s1.files = some opid)
    (hnp : getA (getParentPath N) s1.files = some npid)
    {npn1 : Node} (hnpn1 : getA npid s1.heap = some npn1)
    (hnpdir : npn1.type = NodeType.directory)
    {src1 : Node} (hsrc1 : getA sid s1.heap = some src1)
    (fuel : Nat) (hfuel : subCount s1 O < fuel) :
    getA N ((moveState s1 N O src1.name sid opid npid).updateChildrenPaths sid fuel).files = some sid ∧
    (∀ tail, getA (N ++ '/' :: tail) ((moveState s1 N O src1.name sid opid npid).updateChildrenPaths sid fuel).files = getA (O ++ '/' :: tail) s1.files) ∧
    getA O ((moveState s1 N O src1.name sid opid npid).updateChildrenPaths sid fuel).files = none ∧
    (∀ tail, getA (O ++ '/' :: tail) ((moveState s1 N O src1.name sid opid npid).updateChildrenPaths sid fuel).files = none) ∧
    (∀ q, ¬ inSubB O q = true → ¬ inSubB N q = true →
      getA q ((moveState s1 N O src1.name sid opid npid).updateChildrenPaths sid fuel).files = getA q s1.files) ∧
    getA sid ((moveState s1 N O src1.name sid opid npid).updateChildrenPaths sid fuel).heap = some { src1 with name := getFileName N, path := N } ∧
    (∀ tail k, getA (O ++ '/' :: tail) s1.files = some k →
      ∃ m1, getA k s1.heap = some m1 ∧
        getA k ((moveState s1 N O src1.name sid opid npid).updateChildrenPaths sid fuel).heap = some { m1 with path := N ++ '/' :: tail }) ∧
    (keysA ((moveState s1 N O src1.name sid opid npid).updateChildrenPaths sid fuel).files).Nodup ∧
    keysA ((moveState s1 N O src1.name sid opid npid).updateChildrenPaths sid fuel).heap = keysA s1.heap ∧
    ((moveState s1 N O src1.name sid opid npid).updateChildrenPaths sid fuel).root = s1.root ∧
    ((moveState s1 N O src1.name sid opid npid).updateChildrenPaths sid fuel).nextId = s1.nextId ∧
    (∀ k2 m1, getA k2 s1.heap = some m1 →
      (∀ tail, ¬ getA (O ++ '/' :: tail) s1.files = some k2) → k2 ≠ sid →
      ∃ m2, getA k2 ((moveState s1 N O src1.name sid opid npid).updateChildrenPaths sid fuel).heap = some m2 ∧
        m2.type = m1.type ∧ m2.name = m1.name ∧ m2.path = m1.path ∧ m2.content = m1.content ∧
        ((keysA (m1.children.getD [])).Nodup → (keysA (m2.children.getD [])).Nodup) ∧
        (m1.children.isSome = true → m2.children.isSome = true) ∧
        (m1.children = none → k2 ≠ opid → k2 ≠ npid → m2.children = none) ∧
        (∀ nm i2, getA nm (m2.children.getD []) = some i2 →
          (k2 = npid ∧ nm = getFileName N ∧ i2 = sid) ∨
          (getA nm (m1.children.getD []) = some i2 ∧ ¬(k2 = opid ∧ nm = src1.name))) ∧
        (∀ nm i2, getA nm (m1.children.getD []) = some i2 →
          ¬(k2 = opid ∧ nm = src1.name) → ¬(k2 = npid ∧ nm = getFileName N) →
          getA nm (m2.children.getD []) = some i2)) ∧
    (∃ npnT, getA npid ((moveState s1 N O src1.name sid opid npid).updateChildrenPaths sid fuel).heap = some npnT ∧
      npnT.type = npn1.type ∧ npnT.path = npn1.path ∧
      getA (getFileName N) (npnT.children.getD []) = some sid) := by
  obtain ⟨srcE, hsrcEh, hsrcEpath, hOok, hsrcEdir, hsrcEfile⟩ := hs1.entries O sid hO
  have hsrcEq : srcE = src1 := by
    rw [hsrc1] at hsrcEh
    injection hsrcEh with hx
    exact hx.symm
  obtain ⟨nO, pidO, pnO, hnO, hnOname, hpidO, hpnO0, hpnOdir, hbindO, hOeq⟩ :=
    hs1.parentLink O sid hO hOroot
  have hpidOop : pidO = opid := by
    rw [hop] at hpidO
    injection hpidO with hx
    exact hx.symm
  rw [hpidOop] at hpnO0
  have hnOeq : nO = src1 := by
    rw [hsrc1] at hnO
    injection hnO with hx
    exact hx.symm
  rw [hnOeq] at hnOname hbindO hOeq
  obtain ⟨opnE, hopnEh, hopnEpath, hgppOok, hopnEdir, _⟩ :=
    hs1.entries (getParentPath O) opid hop
  have hopnEq : opnE = pnO := by
    rw [hpnO0] at hopnEh
    injection hopnEh with hx
    exact hx.symm
  rw [hopnEq] at hopnEpath hopnEdir
  have hopnod : (keysA (pnO.children.getD [])).Nodup := (hopnEdir hpnOdir).2
  obtain ⟨npnE, hnpnEh, hnpnEpath, hgppNok, hnpnEdir, _⟩ :=
    hs1.entries (getParentPath N) npid hnp
  have hnpnEq : npnE = npn1 := by
    rw [hnpn1] at hnpnEh
    injection hnpnEh with hx
    exact hx.symm
  rw [hnpnEq] at hnpnEpath hnpnEdir
  have hONne : N ≠ O := by
    intro he
    rw [he, hO] at hNmiss
    exact Option.noConfusion hNmiss
  have hsidop : sid ≠ opid := by
    intro he
    rw [← he] at hop
    have h1 := hs1.filesIdInj hO hop
    have h2 := getParentPath_length_lt hOok hOroot
    rw [← h1] at h2
    exact absurd h2 (lt_irrefl _)
  have hgppN_ne_O : getParentPath N ≠ O := by
    intro he
    refine hNO ?_
    have h1 := childPath_parent_name hNok hNroot
    rw [he] at h1
    rw [← h1]
    exact inSubB_childPath hOroot
  have hsidnp : sid ≠ npid := by
    intro he
    rw [← he] at hnp
    exact hgppN_ne_O (hs1.filesIdInj hnp hO)
  have hdisj : ∀ q, inSubB O q = true → inSubB N q = true → False :=
    subtrees_disjoint hNO hON
  have hgppNext : ¬ inSubB O (getParentPath N) = true :=
    not_under_parent hOok hOroot hNok hNroot hNO
  obtain ⟨hBf, hBroot, hBnext, hBkeys, hBsid, ⟨npn3, hBnp, hnp3t, hnp3n, hnp3p, hnp3c, hnp3nod, hnp3g⟩, hBop, hBframe⟩ :=
    @moveState_char s1 O N src1.name sid opid npid pnO npn1 src1 hpnO0 hnpn1 hsrc1
      hsidop hsidnp hopnod
  set B := moveState s1 N O src1.name sid opid npid with hBdef
  have hBfN : getA N B.files = some sid := by
    rw [hBf]
    exact getA_setA_self _ _ _
  have hBfO : getA O B.files = none := by
    rw [hBf, getA_setA_ne _ _ hONne]
    exact getA_delA_self hs1.filesNodup
  have hBfother : ∀ q, q ≠ N → q ≠ O → getA q B.files = getA q s1.files := by
    intro q h1 h2
    rw [hBf, getA_setA_ne _ _ (Ne.symm h1)]
    exact getA_delA_ne h2
  have hBnod : (keysA B.files).Nodup := by
    rw [hBf]
    exact keysA_setA_nodup _ _ (keysA_delA_nodup _ hs1.filesNodup)
  have hkeyON : ∀ tail : Str, (O ++ '/' :: tail ≠ N) ∧ (O ++ '/' :: tail ≠ O) := by
    intro tail
    constructor
    · intro he
      refine hdisj (O ++ '/' :: tail) (inSubB_append_tail _ _) ?_
      rw [he]
      exact inSubB_refl _
    · exact append_slash_ne _ _
  have hstale : ∀ tail k, getA (O ++ '/' :: tail) s1.files = some k →
      getA (O ++ '/' :: tail) B.files = some k ∧ getA k B.heap = getA k s1.heap := by
    intro tail k hk
    refine ⟨by rw [hBfother _ (hkeyON tail).1 (hkeyON tail).2]; exact hk, ?_⟩
    have hks : k ≠ sid := by
      intro he
      rw [he] at hk
      exact (hkeyON tail).2 (hs1.filesIdInj hk hO)
    have hkop2 : k ≠ opid := by
      intro he
      rw [he] at hk
      have h1 := hs1.filesIdInj hk hop
      have h2 := getParentPath_length_lt hOok hOroot
      have h3 := congrArg List.length h1
      simp only [List.length_append, List.length_cons] at h3
      omega
    have hknp2 : k ≠ npid := by
      intro he
      rw [he] at hk
      refine hgppNext ?_
      rw [← hs1.filesIdInj hk hnp]
      exact inSubB_append_tail _ _
    exact hBframe k hks hkop2 hknp2
  have honly : ∀ tail k, getA (O ++ '/' :: tail) B.files = some k →
      getA (O ++ '/' :: tail) s1.files = some k := by
    intro tail k hk
    rw [hBfother _ (hkeyON tail).1 (hkeyON tail).2] at hk
    exact hk
  have hfresh : ∀ tail, getA (N ++ '/' :: tail) B.files = none := by
    intro tail
    have h1 : N ++ '/' :: tail ≠ N := append_slash_ne _ _
    have h2 : N ++ '/' :: tail ≠ O := by
      intro he
      refine hdisj (N ++ '/' :: tail) ?_ (inSubB_append_tail _ _)
      rw [he]
      exact inSubB_refl _
    rw [hBfother _ h1 h2]
    exact hNsub _ (inSubB_append_tail _ _) h1
  obtain ⟨hM1, hM2, hM3, hM4, hM5, hM6, hM7⟩ :=
    ucp_master hs1 fuel sid B O N { src1 with name := getFileName N, path := N }
      hfuel hO hOok hOroot hNok hNroot hdisj hBnod hBsid rfl ⟨src1, hsrc1, rfl, rfl⟩
      hstale honly hfresh
  have hnpN : ¬ (O ++ ['/']) <+: N := fun hp => hNO (inSubB_iff.mpr (Or.inr hp))
  have hnpNN : ¬ (N ++ ['/']) <+: N := by
    intro hp
    have h2 := hp.length_le
    simp [List.length_append] at h2
  have hnpOO : ¬ (O ++ ['/']) <+: O := by
    intro hp
    have h2 := hp.length_le
    simp [List.length_append] at h2
  have hnpNO : ¬ (N ++ ['/']) <+: O := fun hp => hON (inSubB_iff.mpr (Or.inr hp))
  have hgsid : ∀ tail, ¬ getA (O ++ '/' :: tail) s1.files = some sid := by
    intro tail hk
    exact (hkeyON tail).2 (hs1.filesIdInj hk hO)
  have hgnp : ∀ tail, ¬ getA (O ++ '/' :: tail) s1.files = some npid := by
    intro tail hk
    refine hgppNext ?_
    rw [← hs1.filesIdInj hk hnp]
    exact inSubB_append_tail _ _
  have hgop : ∀ tail, ¬ getA (O ++ '/' :: tail) s1.files = some opid := by
    intro tail hk
    have h1 := hs1.filesIdInj hk hop
    have h2 := getParentPath_length_lt hOok hOroot
    have h3 := congrArg List.length h1
    simp only [List.length_append, List.length_cons] at h3
    omega
  refine ⟨?_, hM1, ?_, hM2, ?_, ?_, hM5, hM7, hM6.trans hBkeys,
    (ucp_root_nextId fuel B sid).1.trans hBroot,
    (ucp_root_nextId fuel B sid).2.trans hBnext, ?_, ?_⟩
  · rw [hM3 N hnpN hnpNN]
    exact hBfN
  · rw [hM3 O hnpOO hnpNO]
    exact hBfO
  · intro q h1 h2
    have hg1 : ¬ (O ++ ['/']) <+: q := fun hp => h1 (inSubB_iff.mpr (Or.inr hp))
    have hg2 : ¬ (N ++ ['/']) <+: q := fun hp => h2 (inSubB_iff.mpr (Or.inr hp))
    have hq1 : q ≠ N := by
      intro he
      refine h2 ?_
      rw [he]
      exact inSubB_refl _
    have hq2 : q ≠ O := by
      intro he
      refine h1 ?_
      rw [he]
      exact inSubB_refl _
    rw [hM3 q hg1 hg2]
    exact hBfother q hq1 hq2
  · rw [hM4 sid hgsid]
    exact hBsid
  · intro k2 m1 hm1 hguard hksid
    have hTB : getA k2 (B.updateChildrenPaths sid fuel).heap = getA k2 B.heap :=
      hM4 k2 hguard
    by_cases hknp : k2 = npid
    · have hm1np : m1 = npn1 := by
        rw [hknp, hnpn1] at hm1
        injection hm1 with hx
        exact hx.symm
      refine ⟨{ npn3 with children := some (setA (getFileName N) sid (npn3.children.getD [])) }, ?_, ?_, ?_, ?_, ?_, ?_, ?_, ?_, ?_, ?_⟩
      · rw [hTB, hknp]
        exact hBnp
      · rw [hm1np]
        exact hnp3t
      · rw [hm1np]
        exact hnp3n
      · rw [hm1np]
        exact hnp3p
      · rw [hm1np]
        exact hnp3c
      · intro hnod
        rw [hm1np] at hnod
        exact keysA_setA_nodup _ _ (hnp3nod hnod)
      · intro _
        rfl
      · intro _ _ hc
        exact absurd hknp hc
      · intro nm i2 hread0
        have hread : getA nm (setA (getFileName N) sid (npn3.children.getD [])) = some i2 := hread0
        by_cases hnm : nm = getFileName N
        · rw [hnm, getA_setA_self] at hread
          injection hread with hx
          exact Or.inl ⟨hknp, hnm, hx.symm⟩
        · rw [getA_setA_ne _ _ (fun he => hnm he.symm)] at hread
          rw [hnp3g nm] at hread
          by_cases hcond : npid = opid ∧ nm = src1.name
          · rw [if_pos hcond] at hread
            exact Option.noConfusion hread
          · rw [if_neg hcond] at hread
            refine Or.inr ⟨by rw [hm1np]; exact hread, ?_⟩
            intro hc
            refine hcond ⟨?_, hc.2⟩
            rw [← hknp]
            exact hc.1
      · intro nm i2 hread hno hnn
        have hnmne : nm ≠ getFileName N := fun he => hnn ⟨hknp, he⟩
        show getA nm (setA (getFileName N) sid (npn3.children.getD [])) = some i2
        rw [getA_setA_ne _ _ (fun he => hnmne he.symm), hnp3g nm]
        rw [if_neg (fun hc => hno ⟨by rw [hknp]; exact hc.1, hc.2⟩)]
        rw [← hm1np]
        exact hread
    · by_cases hkop : k2 = opid
      · have hone : npid ≠ opid := fun he => hknp (hkop.trans he.symm)
        have hm1op : m1 = pnO := by
          rw [hkop, hpnO0] at hm1
          injection hm1 with hx
          exact hx.symm
        refine ⟨{ pnO with children := some (delA src1.name (pnO.children.getD [])) }, ?_, ?_, ?_, ?_, ?_, ?_, ?_, ?_, ?_, ?_⟩
        · rw [hTB, hkop]
          exact hBop hone
        · rw [hm1op]
        · rw [hm1op]
        · rw [hm1op]
        · rw [hm1op]
        · intro _
          exact keysA_delA_nodup _ hopnod
        · intro _
          rfl
        · intro _ hc _
          exact absurd hkop hc
        · intro nm i2 hread0
          have hread : getA nm (delA src1.name (pnO.children.getD [])) = some i2 := hread0
          by_cases hnm : nm = src1.name
          · rw [hnm] at hread
            rw [getA_delA_self hopnod] at hread
            exact Option.noConfusion hread
          · rw [getA_delA_ne hnm] at hread
            refine Or.inr ⟨by rw [hm1op]; exact hread, fun hc => hnm hc.2⟩
        · intro nm i2 hread hno _
          have hnmne : nm ≠ src1.name := fun he => hno ⟨hkop, he⟩
          show getA nm (delA src1.name (pnO.children.getD [])) = some i2
          rw [getA_delA_ne hnmne, ← hm1op]
          exact hread
      · refine ⟨m1, ?_, rfl, rfl, rfl, rfl, fun h => h, fun h => h, fun h _ _ => h, ?_, ?_⟩
        · rw [hTB]
          exact (hBframe k2 hksid hkop hknp).trans hm1
        · intro nm i2 hread
          exact Or.inr ⟨hread, fun hc => hkop hc.1⟩
        · intro nm i2 hread _ _
          exact hread
  · refine ⟨{ npn3 with children := some (setA (getFileName N) sid (npn3.children.getD [])) }, ?_, hnp3t, hnp3p, ?_⟩
    · rw [hM4 npid hgnp]
      exact hBnp
    · exact getA_setA_self _ _ _

theorem Inv_moveUCP {s1 : VFS} (hs1 : Inv s1) {O N : Str} {sid opid npid : Nat}
    (hO : getA O s1.files = some sid)
    (hOroot : O ≠ ['/'])
    (hNok : pathOk N) (hNroot : N ≠ ['/'])
    (hNmiss : getA N s1.files = none)
    (hNsub : ∀ q, inSubB N q = true → q ≠ N → getA q s1.files = none)
    (hNO : ¬ inSubB O N = true) (hON : ¬ inSubB N O = true)
    (hop : getA (getParentPath O) s1.files = some opid)
    (hnp : getA (getParentPath N) s1.files = some npid)
    {npn1 : Node} (hnpn1 : getA npid s1.heap = some npn1)
    (hnpdir : npn1.type = NodeType.directory)
    {src1 : Node} (hsrc1 : getA sid s1.heap = some src1)
    (fuel : Nat) (hfuel : subCount s1 O < fuel) :
    Inv ((moveState s1 N O src1.name sid opid npid).updateChildrenPaths sid fuel) := by
  obtain ⟨hK1, hK2, hK3, hK4, hK5, hK6, hK7, hK8, hK9, hK10a, hK10b, hK11, hK12⟩ :=
    moveUCP_char hs1 hO hOroot hNok hNroot hNmiss hNsub hNO hON hop hnp hnpn1 hnpdir
      hsrc1 fuel hfuel
  set T := (moveState s1 N O src1.name sid opid npid).updateChildrenPaths sid fuel with hTdef
  obtain ⟨srcE, hsrcEh, hsrcEpath, hOok, hsrcEdir, hsrcEfile⟩ := hs1.entries O sid hO
  have hsrcEq : srcE = src1 := by
    rw [hsrc1] at hsrcEh
    injection hsrcEh with hx
    exact hx.symm
  rw [hsrcEq] at hsrcEdir hsrcEfile
  obtain ⟨nO, pidO, pnO, hnO, hnOname, hpidO, hpnO0, hpnOdir, hbindO, hOeq⟩ :=
    hs1.parentLink O sid hO hOroot
  have hpidOop : pidO = opid := by
    rw [hop] at hpidO
    injection hpidO with hx
    exact hx.symm
  rw [hpidOop] at hpnO0
  have hnOeq : nO = src1 := by
    rw [hsrc1] at hnO
    injection hnO with hx
    exact hx.symm
  rw [hnOeq] at hnOname hbindO hOeq
  obtain ⟨opnE, hopnEh, hopnEpath, hgppOok, hopnEdir, _⟩ :=
    hs1.entries (getParentPath O) opid hop
  have hopnEq : opnE = pnO := by
    rw [hpnO0] at hopnEh
    injection hopnEh with hx
    exact hx.symm
  rw [hopnEq] at hopnEpath
  have hOeq2 : O = childPath (getParentPath O) src1.name := by
    rw [← hopnEpath]
    exact hOeq
  obtain ⟨npnE, hnpnEh, hnp1path, hgppNok, hnpnEdir, _⟩ :=
    hs1.entries (getParentPath N) npid hnp
  have hnpnEq : npnE = npn1 := by
    rw [hnpn1] at hnpnEh
    injection hnpnEh with hx
    exact hx.symm
  rw [hnpnEq] at hnp1path
  have hnewOk : nameOk (getFileName N) := nameOk_getFileName hNok hNroot
  have hgppNext : ¬ inSubB O (getParentPath N) = true :=
    not_under_parent hOok hOroot hNok hNroot hNO
  have hgppNextN : ¬ inSubB N (getParentPath N) = true := by
    intro h
    have h1 := inSubB_length_le h
    have h2 := getParentPath_length_lt hNok hNroot
    omega
  have hclass : ∀ p : Str, p = N ∨ (∃ tail, p = N ++ '/' :: tail) ∨ p = O ∨
      (∃ tail, p = O ++ '/' :: tail) ∨ (¬ inSubB O p = true ∧ ¬ inSubB N p = true) := by
    intro p
    by_cases h1 : inSubB N p = true
    · rcases under_split h1 with he | ⟨tail, he⟩
      · exact Or.inl he
      · exact Or.inr (Or.inl ⟨tail, he⟩)
    · by_cases h2 : inSubB O p = true
      · rcases under_split h2 with he | ⟨tail, he⟩
        · exact Or.inr (Or.inr (Or.inl he))
        · exact Or.inr (Or.inr (Or.inr (Or.inl ⟨tail, he⟩)))
      · exact Or.inr (Or.inr (Or.inr (Or.inr ⟨h2, h1⟩)))
  have higen : ∀ (q : Str) (i : Nat), getA q s1.files = some i → ¬ inSubB O q = true →
      (∀ tail, ¬ getA (O ++ '/' :: tail) s1.files = some i) ∧ i ≠ sid := by
    intro q i hq hx1
    constructor
    · intro tail hk
      have h1 := hs1.filesIdInj hk hq
      refine hx1 ?_
      rw [← h1]
      exact inSubB_append_tail _ _
    · intro he2
      rw [he2] at hq
      have h1 := hs1.filesIdInj hq hO
      refine hx1 ?_
      rw [h1]
      exact inSubB_refl _
  have hiop_dir : ∀ (i : Nat) (m1 : Node), getA i s1.heap = some m1 →
      m1.type = NodeType.file → i ≠ opid ∧ i ≠ npid := by
    intro i m1 hm1 hfile
    constructor
    · intro he2
      rw [he2, hpnO0] at hm1
      injection hm1 with hx
      rw [← hx, hpnOdir] at hfile
      exact NodeType.noConfusion hfile
    · intro he2
      rw [he2, hnpn1] at hm1
      injection hm1 with hx
      rw [← hx, hnpdir] at hfile
      exact NodeType.noConfusion hfile
  refine ⟨hK8, ?_, ?_, ?_, ?_, ?_, ?_, ?_⟩
  · rw [hK9]
    exact hs1.heapNodup
  · intro i hi
    rw [hK9] at hi
    rw [hK10b]
    exact hs1.heapBound i hi
  · rw [hK10a, hK5 ['/'] (root_not_under hOroot (pathOk_ne_nil hOok))
      (root_not_under hNroot (pathOk_ne_nil hNok))]
    exact hs1.rootFiles
  · obtain ⟨rn, hrn, hrnd, hrnp, hrnn, hrns⟩ := hs1.rootNode
    have hrf := hs1.rootFiles
    obtain ⟨hgr, hrs⟩ := higen ['/'] s1.root hrf (root_not_under hOroot (pathOk_ne_nil hOok))
    obtain ⟨m2, hm2, ht2, hn2, hp2, _, _, hsome2, _, _, _⟩ := hK11 s1.root rn hrn hgr hrs
    refine ⟨m2, ?_, ?_, ?_, ?_, ?_⟩
    · rw [hK10a]
      exact hm2
    · rw [ht2]
      exact hrnd
    · rw [hp2]
      exact hrnp
    · rw [hn2]
      exact hrnn
    · exact hsome2 hrns
  · -- entries
    intro p i hpi
    rcases hclass p with he | ⟨tail, he⟩ | he | ⟨tail, he⟩ | ⟨hx1, hx2⟩
    · rw [he] at hpi ⊢
      rw [hK1] at hpi
      injection hpi with hi2
      rw [← hi2]
      refine ⟨{ src1 with name := getFileName N, path := N }, hK6, rfl, hNok, ?_, ?_⟩
      · intro hdir
        exact hsrcEdir hdir
      · intro hfile
        exact hsrcEfile hfile
    · rw [he] at hpi ⊢
      rw [hK2 tail] at hpi
      obtain ⟨m1, hm1, hm1path, hm1ok, hm1dir, hm1file⟩ := hs1.entries _ i hpi
      obtain ⟨m1', hm1', hm1'T⟩ := hK7 tail i hpi
      have hm1e : m1' = m1 := by
        rw [hm1] at hm1'
        injection hm1' with hx
        exact hx.symm
      rw [hm1e] at hm1'T
      refine ⟨{ m1 with path := N ++ '/' :: tail }, hm1'T, rfl,
        pathOk_shift tail hOok hOroot hNok hNroot hm1ok, ?_, ?_⟩
      · intro hdir
        exact hm1dir hdir
      · intro hfile
        exact hm1file hfile
    · rw [he, hK3] at hpi
      exact Option.noConfusion hpi
    · rw [he, hK4 tail] at hpi
      exact Option.noConfusion hpi
    · rw [hK5 p hx1 hx2] at hpi
      obtain ⟨m1, hm1, hm1path, hm1ok, hm1dir, hm1file⟩ := hs1.entries p i hpi
      obtain ⟨hig, his⟩ := higen p i hpi hx1
      obtain ⟨m2, hm2, ht2, _, hp2, _, hnodI, hsomeI, hnoneI, _, _⟩ := hK11 i m1 hm1 hig his
      refine ⟨m2, hm2, ?_, hm1ok, ?_, ?_⟩
      · rw [hp2, hm1path]
      · intro hdir
        rw [ht2] at hdir
        obtain ⟨hs2, hn2⟩ := hm1dir hdir
        exact ⟨hsomeI hs2, hnodI hn2⟩
      · intro hfile
        rw [ht2] at hfile
        obtain ⟨hiop, hinp⟩ := hiop_dir i m1 hm1 hfile
        exact hnoneI (hm1file hfile) hiop hinp
  · -- parentLink
    intro p i hpi hproot
    rcases hclass p with he | ⟨tail, he⟩ | he | ⟨tail, he⟩ | ⟨hx1, hx2⟩
    · rw [he] at hpi ⊢
      rw [hK1] at hpi
      injection hpi with hi2
      rw [← hi2]
      obtain ⟨npnT, hnpnT, hnpnTt, hnpnTp, hnpnTb⟩ := hK12
      refine ⟨{ src1 with name := getFileName N, path := N }, npid, npnT, hK6,
        hnewOk, ?_, hnpnT, ?_, hnpnTb, ?_⟩
      · rw [hK5 _ hgppNext hgppNextN]
        exact hnp
      · rw [hnpnTt]
        exact hnpdir
      · show N = childPath npnT.path (getFileName N)
        rw [hnpnTp, hnp1path]
        exact (childPath_parent_name hNok hNroot).symm
    · rw [he] at hpi ⊢
      rw [hK2 tail] at hpi
      have hpOldroot : O ++ '/' :: tail ≠ ['/'] :=
        append_slash_ne_root (pathOk_ne_nil hOok) tail
      obtain ⟨n1, pid1, pn1, hn1, hn1Ok, hpid1, hpn1, hpn1dir, hbind1, heq1⟩ :=
        hs1.parentLink _ i hpi hpOldroot
      obtain ⟨pnE1, hpnE1, hpnE1path, hgpOldok, _, _⟩ := hs1.entries _ pid1 hpid1
      have hpnE1eq : pnE1 = pn1 := by
        rw [hpn1] at hpnE1
        injection hpnE1 with hx
        exact hx.symm
      rw [hpnE1eq] at hpnE1path
      rw [hpnE1path] at heq1
      set G := getParentPath (O ++ '/' :: tail) with hGdef
      obtain ⟨m1', hm1', hm1'T⟩ := hK7 tail i hpi
      have hn1e : m1' = n1 := by
        rw [hn1] at hm1'
        injection hm1' with hx
        exact hx.symm
      rw [hn1e] at hm1'T
      by_cases hc : G = O
      · rw [hc] at hpid1 heq1
        have hpid1sid : pid1 = sid := by
          rw [hO] at hpid1
          injection hpid1 with hx
          exact hx.symm
        rw [hpid1sid] at hpn1
        have hpn1src : pn1 = src1 := by
          rw [hsrc1] at hpn1
          injection hpn1 with hx
          exact hx.symm
        rw [hpn1src] at hbind1 hpn1dir
        rw [childPath_nonroot hOroot] at heq1
        have htl := List.append_cancel_left heq1
        injection htl with h1 h2
        refine ⟨{ n1 with path := N ++ '/' :: tail }, sid,
          { src1 with name := getFileName N, path := N }, hm1'T, hn1Ok, ?_, hK6,
          hpn1dir, hbind1, ?_⟩
        · have hgp : getParentPath (N ++ '/' :: tail) = N := by
            rw [h2, ← childPath_nonroot hNroot]
            exact getParentPath_childPath hNok hn1Ok
          rw [hgp]
          exact hK1
        · show N ++ '/' :: tail = childPath N n1.name
          rw [h2, childPath_nonroot hNroot]
      · have hgpr : G ≠ ['/'] := by
          intro h0
          rw [h0, childPath, if_pos rfl] at heq1
          obtain ⟨o1, os, hOe⟩ : ∃ o1 os, O = o1 :: os := by
            cases O with
            | nil => exact absurd rfl (pathOk_ne_nil hOok)
            | cons a as => exact ⟨a, as, rfl⟩
          rw [hOe] at heq1
          simp only [List.cons_append] at heq1
          injection heq1 with hh1 hh2
          refine hn1Ok.2 ?_
          rw [← hh2]
          exact List.mem_append_right _ (List.mem_cons_self _ _)
        have hpre1 : (O ++ ['/']) <+: O ++ '/' :: tail := ⟨tail, by simp⟩
        have hpre2 : (G ++ ['/']) <+: O ++ '/' :: tail := by
          rw [heq1, childPath_nonroot hgpr]
          exact ⟨n1.name, by simp⟩
        rcases List.prefix_or_prefix_of_prefix hpre1 hpre2 with hcp | hcp
        · rcases List.prefix_concat_iff.mp hcp with he2 | hcp2
          · exact absurd (List.append_cancel_right he2).symm hc
          · obtain ⟨tail2, hG2⟩ := prefix_slash_decomp hcp2
            have hpid1' : getA (O ++ '/' :: tail2) s1.files = some pid1 := by
              rw [← hG2]
              exact hpid1
            obtain ⟨pm1, hpm1, hpm1T⟩ := hK7 tail2 pid1 hpid1'
            have hpm1e : pm1 = pn1 := by
              rw [hpn1] at hpm1
              injection hpm1 with hx
              exact hx.symm
            rw [hpm1e] at hpm1T
            have hOt2root : O ++ '/' :: tail2 ≠ ['/'] :=
              append_slash_ne_root (pathOk_ne_nil hOok) tail2
            have hNt2root : N ++ '/' :: tail2 ≠ ['/'] :=
              append_slash_ne_root (pathOk_ne_nil hNok) tail2
            have hshO : childPath (O ++ '/' :: tail2) n1.name =
                O ++ '/' :: (tail2 ++ '/' :: n1.name) := by
              rw [childPath_nonroot hOt2root]
              simp
            have htl : tail = tail2 ++ '/' :: n1.name := by
              rw [hG2] at heq1
              rw [hshO] at heq1
              have h3 := List.append_cancel_left heq1
              injection h3 with hh1 hh2
            have hgpOldok2 : pathOk (O ++ '/' :: tail2) := by
              rw [← hG2]
              exact hgpOldok
            refine ⟨{ n1 with path := N ++ '/' :: tail }, pid1,
              { pn1 with path := N ++ '/' :: tail2 }, hm1'T, hn1Ok, ?_, hpm1T,
              hpn1dir, hbind1, ?_⟩
            · have hsh : N ++ '/' :: (tail2 ++ '/' :: n1.name) =
                  childPath (N ++ '/' :: tail2) n1.name := by
                rw [childPath_nonroot hNt2root]
                simp
              have hgp : getParentPath (N ++ '/' :: tail) = N ++ '/' :: tail2 := by
                rw [htl, hsh]
                exact getParentPath_childPath
                  (pathOk_shift tail2 hOok hOroot hNok hNroot hgpOldok2) hn1Ok
              rw [hgp, hK2 tail2]
              exact hpid1'
            · show N ++ '/' :: tail = childPath (N ++ '/' :: tail2) n1.name
              rw [htl, childPath_nonroot hNt2root]
              simp
        · rcases List.prefix_concat_iff.mp hcp with he2 | hcp2
          · exact absurd (List.append_cancel_right he2) hc
          · exfalso
            obtain ⟨o2, ho2⟩ := prefix_slash_decomp hcp2
            rw [childPath_nonroot hgpr] at heq1
            rw [ho2] at heq1
            rw [List.append_assoc] at heq1
            have h3 := List.append_cancel_left heq1
            simp only [List.cons_append] at h3
            injection h3 with hh1 hh2
            refine hn1Ok.2 ?_
            rw [← hh2]
            exact List.mem_append_right _ (List.mem_cons_self _ _)
    · rw [he, hK3] at hpi
      exact Option.noConfusion hpi
    · rw [he, hK4 tail] at hpi
      exact Option.noConfusion hpi
    · rw [hK5 p hx1 hx2] at hpi
      obtain ⟨pE, hpE, hpEpath, hpok, _, _⟩ := hs1.entries p i hpi
      obtain ⟨n1, pid1, pn1, hn1, hn1Ok, hpid1, hpn1, hpn1dir, hbind1, heq1⟩ :=
        hs1.parentLink p i hpi hproot
      have hgx1 : ¬ inSubB O (getParentPath p) = true :=
        not_under_parent hOok hOroot hpok hproot hx1
      have hgx2 : ¬ inSubB N (getParentPath p) = true :=
        not_under_parent hNok hNroot hpok hproot hx2
      obtain ⟨hig, his⟩ := higen p i hpi hx1
      obtain ⟨m2, hm2, _, hnm2, _, _, _, _, _, _, hbwd⟩ := hK11 i n1 hn1 hig his
      obtain ⟨hpig, hpis⟩ := higen (getParentPath p) pid1 hpid1 hgx1
      obtain ⟨pm2, hpm2, hpt2, _, hpp2, _, _, _, _, _, hpbwd⟩ := hK11 pid1 pn1 hpn1 hpig hpis
      have hpn1path : pn1.path = getParentPath p := by
        obtain ⟨pnE2, hpnE2, hpnE2path, _, _, _⟩ := hs1.entries _ pid1 hpid1
        rw [hpn1] at hpnE2
        injection hpnE2 with hx
        rw [← hx] at hpnE2path
        exact hpnE2path
      refine ⟨m2, pid1, pm2, hm2, ?_, ?_, hpm2, ?_, ?_, ?_⟩
      · rw [hnm2]
        exact hn1Ok
      · rw [hK5 _ hgx1 hgx2]
        exact hpid1
      · rw [hpt2]
        exact hpn1dir
      · rw [hnm2]
        refine hpbwd n1.name i hbind1 ?_ ?_
        · rintro ⟨hpo, hnms⟩
          rw [hpo] at hpid1
          have hgp : getParentPath p = getParentPath O := hs1.filesIdInj hpid1 hop
          refine hx1 ?_
          have hpe : p = O := by
            rw [heq1, hpn1path, hgp, hnms]
            exact hOeq2.symm
          rw [hpe]
          exact inSubB_refl _
        · rintro ⟨hpnd, hnmn⟩
          rw [hpnd] at hpid1
          have hgp : getParentPath p = getParentPath N := hs1.filesIdInj hpid1 hnp
          refine hx2 ?_
          have hpe : p = N := by
            rw [heq1, hpn1path, hgp, hnmn]
            exact childPath_parent_name hNok hNroot
          rw [hpe]
          exact inSubB_refl _
      · rw [hpp2, hnm2]
        exact heq1
  · -- childrenLink
    intro p i hpi n hni c hc
    rcases hclass p with he | ⟨tail, he⟩ | he | ⟨tail, he⟩ | ⟨hx1, hx2⟩
    · rw [he] at hpi ⊢
      rw [hK1] at hpi
      injection hpi with hi2
      rw [← hi2] at hni
      rw [hK6] at hni
      injection hni with hn2
      rw [← hn2] at hc
      have hc2 : c ∈ src1.children.getD [] := hc
      obtain ⟨cn1, hcn1, hcn1n, hcn1p, hcn1f⟩ := hs1.childrenLink O sid hO src1 hsrc1 c hc2
      rw [hcn1p, childPath_nonroot hOroot] at hcn1f
      obtain ⟨m1', hm1', hm1'T⟩ := hK7 c.1 c.2 hcn1f
      have hm1e : m1' = cn1 := by
        rw [hcn1] at hm1'
        injection hm1' with hx
        exact hx.symm
      rw [hm1e] at hm1'T
      refine ⟨{ cn1 with path := N ++ '/' :: c.1 }, hm1'T, hcn1n, ?_, ?_⟩
      · show N ++ '/' :: c.1 = childPath N c.1
        rw [childPath_nonroot hNroot]
      · show getA (N ++ '/' :: c.1) T.files = some c.2
        rw [hK2 c.1]
        exact hcn1f
    · rw [he] at hpi ⊢
      rw [hK2 tail] at hpi
      obtain ⟨m1, hm1, hm1path, hm1ok, hm1dir, hm1file⟩ := hs1.entries _ i hpi
      obtain ⟨m1', hm1', hm1'T⟩ := hK7 tail i hpi
      have hm1e : m1' = m1 := by
        rw [hm1] at hm1'
        injection hm1' with hx
        exact hx.symm
      rw [hm1e] at hm1'T
      rw [hm1'T] at hni
      injection hni with hn2
      rw [← hn2] at hc
      have hc2 : c ∈ m1.children.getD [] := hc
      obtain ⟨cn1, hcn1, hcn1n, hcn1p, hcn1f⟩ := hs1.childrenLink _ i hpi m1 hm1 c hc2
      have hOtroot : O ++ '/' :: tail ≠ ['/'] := append_slash_ne_root (pathOk_ne_nil hOok) tail
      have hNtroot : N ++ '/' :: tail ≠ ['/'] := append_slash_ne_root (pathOk_ne_nil hNok) tail
      have hshO : childPath (O ++ '/' :: tail) c.1 = O ++ '/' :: (tail ++ '/' :: c.1) := by
        rw [childPath_nonroot hOtroot]
        simp
      rw [hcn1p, hshO] at hcn1f
      obtain ⟨cm1, hcm1, hcm1T⟩ := hK7 (tail ++ '/' :: c.1) c.2 hcn1f
      have hcm1e : cm1 = cn1 := by
        rw [hcn1] at hcm1
        injection hcm1 with hx
        exact hx.symm
      rw [hcm1e] at hcm1T
      refine ⟨{ cn1 with path := N ++ '/' :: (tail ++ '/' :: c.1) }, hcm1T, hcn1n, ?_, ?_⟩
      · show N ++ '/' :: (tail ++ '/' :: c.1) = childPath (N ++ '/' :: tail) c.1
        rw [childPath_nonroot hNtroot]
        simp
      · show getA (N ++ '/' :: (tail ++ '/' :: c.1)) T.files = some c.2
        rw [hK2]
        exact hcn1f
    · rw [he, hK3] at hpi
      exact Option.noConfusion hpi
    · rw [he, hK4 tail] at hpi
      exact Option.noConfusion hpi
    · rw [hK5 p hx1 hx2] at hpi
      obtain ⟨m1, hm1, hm1path, hm1ok, hm1dir, hm1file⟩ := hs1.entries p i hpi
      obtain ⟨hig, his⟩ := higen p i hpi hx1
      obtain ⟨m2, hm2, ht2, _, _, _, hnodI, _, hnoneI, hfwd, _⟩ := hK11 i m1 hm1 hig his
      rw [hm2] at hni
      injection hni with hn2
      rw [← hn2] at hc
      by_cases htype : m1.type = NodeType.file
      · obtain ⟨hiop, hinp⟩ := hiop_dir i m1 hm1 htype
        have h0 := hnoneI (hm1file htype) hiop hinp
        rw [h0] at hc
        exact absurd hc (List.not_mem_nil c)
      · have hdir : m1.type = NodeType.directory := by
          rcases htx : m1.type with _ | _
          · exact absurd htx htype
          · rfl
        have hnod2 := hnodI (hm1dir hdir).2
        have hcg : getA c.1 (m2.children.getD []) = some c.2 := mem_getA_eq_some hnod2 hc
        rcases hfwd c.1 c.2 hcg with ⟨hinp2, hnm2n, hc2sid⟩ | ⟨hold, hnotop⟩
        · refine ⟨{ src1 with name := getFileName N, path := N }, ?_, ?_, ?_, ?_⟩
          · rw [hc2sid]
            exact hK6
          · show getFileName N = c.1
            rw [hnm2n]
          · show N = childPath p c.1
            have hpg : p = getParentPath N := by
              rw [hinp2] at hpi
              exact hs1.filesIdInj hpi hnp
            rw [hpg, hnm2n]
            exact (childPath_parent_name hNok hNroot).symm
          · show getA N T.files = some c.2
            rw [hc2sid]
            exact hK1
        · have hcmem : (c.1, c.2) ∈ m1.children.getD [] := getA_eq_some_mem hold
          obtain ⟨cn1, hcn1, hcn1n, hcn1p, hcn1f⟩ :=
            hs1.childrenLink p i hpi m1 hm1 (c.1, c.2) hcmem
          rw [hcn1p] at hcn1f
          by_cases hkr : childPath p c.1 = ['/']
          · have hcpx1 : ¬ inSubB O (childPath p c.1) = true := by
              rw [hkr]
              exact root_not_under hOroot (pathOk_ne_nil hOok)
            have hcpx2 : ¬ inSubB N (childPath p c.1) = true := by
              rw [hkr]
              exact root_not_under hNroot (pathOk_ne_nil hNok)
            obtain ⟨hcg2, hc2s⟩ := higen _ c.2 hcn1f hcpx1
            obtain ⟨cm2, hcm2, _, hcm2n, hcm2p, _, _, _, _, _, _⟩ :=
              hK11 c.2 cn1 hcn1 hcg2 hc2s
            refine ⟨cm2, hcm2, ?_, ?_, ?_⟩
            · rw [hcm2n]
              exact hcn1n
            · rw [hcm2p]
              exact hcn1p
            · rw [hcm2p, hcn1p, hK5 _ hcpx1 hcpx2]
              exact hcn1f
          · obtain ⟨nc, pidc, pnc, hnc, hncOk, _, _, _, _, heqc⟩ :=
              hs1.parentLink _ c.2 hcn1f hkr
            have hncc : nc = cn1 := by
              rw [hcn1] at hnc
              injection hnc with hx
              exact hx.symm
            rw [hncc] at hncOk
            have hc1Ok : nameOk c.1 := by
              rw [← hcn1n]
              exact hncOk
            have hcpx1 : ¬ inSubB O (childPath p c.1) = true := by
              intro hun
              rcases under_childPath_cases hOok hOroot hc1Ok hun with he2 | he2
              · have h3 : childPath p c.1 = childPath (getParentPath O) src1.name := by
                  rw [he2]
                  exact hOeq2
                obtain ⟨hpp, hcc⟩ := childPath_inj hm1ok hc1Ok hgppOok hnOname h3
                refine hnotop ⟨?_, hcc⟩
                rw [hpp, hop] at hpi
                injection hpi with hx
                exact hx.symm
              · exact hx1 he2
            have hcpx2 : ¬ inSubB N (childPath p c.1) = true := by
              intro hun
              rcases under_childPath_cases hNok hNroot hc1Ok hun with he2 | he2
              · rw [he2, hNmiss] at hcn1f
                exact Option.noConfusion hcn1f
              · exact hx2 he2
            obtain ⟨hcg2, hc2s⟩ := higen _ c.2 hcn1f hcpx1
            obtain ⟨cm2, hcm2, _, hcm2n, hcm2p, _, _, _, _, _, _⟩ :=
              hK11 c.2 cn1 hcn1 hcg2 hc2s
            refine ⟨cm2, hcm2, ?_, ?_, ?_⟩
            · rw [hcm2n]
              exact hcn1n
            · rw [hcm2p]
              exact hcn1p
            · rw [hcm2p, hcn1p, hK5 _ hcpx1 hcpx2]
              exact hcn1f

theorem createDirectory_frame {s : VFS} (hs : Inv s) (p : Str) :
    (∀ q k, getA q s.files = some k → getA q (s.createDirectory p).2.files = some k) ∧
    (∀ k m, getA k s.heap = some m → ∃ m2, getA k (s.createDirectory p).2.heap = some m2 ∧
      m2.type = m.type ∧ m2.name = m.name ∧ m2.path = m.path ∧ m2.content = m.content) := by
  simp only [VFS.createDirectory]
  by_cases hh : hasA (normalizePath p) s.files = true
  · rw [if_pos hh]
    exact ⟨fun q k h => h, fun k m h => ⟨m, h, rfl, rfl, rfl, rfl⟩⟩
  · rw [if_neg hh]
    cases hpe : s.getParentEntry (normalizePath p) with
    | none =>
      exact ⟨fun q k h => h, fun k m h => ⟨m, h, rfl, rfl, rfl, rfl⟩⟩
    | some e =>
      obtain ⟨pid, pnode⟩ := e
      show (∀ q k, getA q s.files = some k →
          getA q ((if pnode.type ≠ NodeType.directory then ((none : Option Nat), s)
            else (some s.nextId, { s with
              heap := setA pid { pnode with children := some (setA (getFileName (normalizePath p)) s.nextId (pnode.children.getD [])) } (setA s.nextId { type := NodeType.directory, name := getFileName (normalizePath p), path := normalizePath p, children := some [] } s.heap),
              files := setA (normalizePath p) s.nextId s.files,
              nextId := s.nextId + 1 })).2).files = some k) ∧
        (∀ k m, getA k s.heap = some m →
          ∃ m2, getA k ((if pnode.type ≠ NodeType.directory then ((none : Option Nat), s)
            else (some s.nextId, { s with
              heap := setA pid { pnode with children := some (setA (getFileName (normalizePath p)) s.nextId (pnode.children.getD [])) } (setA s.nextId { type := NodeType.directory, name := getFileName (normalizePath p), path := normalizePath p, children := some [] } s.heap),
              files := setA (normalizePath p) s.nextId s.files,
              nextId := s.nextId + 1 })).2).heap = some m2 ∧
            m2.type = m.type ∧ m2.name = m.name ∧ m2.path = m.path ∧ m2.content = m.content)
      by_cases htd : pnode.type ≠ NodeType.directory
      · rw [if_pos htd]
        exact ⟨fun q k h => h, fun k m h => ⟨m, h, rfl, rfl, rfl, rfl⟩⟩
      · rw [if_neg htd]
        have hmiss : getA (normalizePath p) s.files = none := by
          rcases hg : getA (normalizePath p) s.files with _ | j
          · rfl
          · rw [hasA, hg] at hh
            exact absurd (rfl : (some j).isSome = true) hh
        rw [VFS.getParentEntry] at hpe
        obtain ⟨hpf, hph⟩ := lookup_eq_some hpe
        constructor
        · intro q k h
          show getA q (setA (normalizePath p) s.nextId s.files) = some k
          have hne : normalizePath p ≠ q := by
            intro he
            rw [he, h] at hmiss
            exact Option.noConfusion hmiss
          rw [getA_setA_ne _ _ hne]
          exact h
        · intro k m h
          show ∃ m2, getA k (setA pid { pnode with children := some (setA (getFileName (normalizePath p)) s.nextId (pnode.children.getD [])) } (setA s.nextId { type := NodeType.directory, name := getFileName (normalizePath p), path := normalizePath p, children := some [] } s.heap)) = some m2 ∧
            m2.type = m.type ∧ m2.name = m.name ∧ m2.path = m.path ∧ m2.content = m.content
          have hkid : k ≠ s.nextId := by
            intro he
            have := hs.heapBound k (getA_mem_keysA h)
            omega
          by_cases hkp : k = pid
          · subst hkp
            have hm : m = pnode := by
              rw [hph] at h
              injection h with hx
              exact hx.symm
            subst hm
            exact ⟨_, getA_setA_self _ _ _, rfl, rfl, rfl, rfl⟩
          · rw [getA_setA_ne _ _ (fun he => hkp he.symm),
              getA_setA_ne _ _ (fun he => hkid he.symm)]
            exact ⟨m, h, rfl, rfl, rfl, rfl⟩

theorem createAncestors_frame : ∀ (parts : List Str) (cp : Str) (s : VFS), Inv s →
    (cp = [] ∨ (pathOk cp ∧ cp ≠ ['/'])) → (∀ part ∈ parts, nameOk part) →
    (∀ q k, getA q s.files = some k → getA q (s.createAncestors parts cp).files = some k) ∧
    (∀ k m, getA k s.heap = some m →
      ∃ m2, getA k (s.createAncestors parts cp).heap = some m2 ∧
        m2.type = m.type ∧ m2.name = m.name ∧ m2.path = m.path ∧ m2.content = m.content) := by
  intro parts
  induction parts with
  | nil =>
    intro cp s hs _ _
    exact ⟨fun q k h => h, fun k m h => ⟨m, h, rfl, rfl, rfl, rfl⟩⟩
  | cons part rest ih =>
    intro cp s hs hcp hparts
    simp only [VFS.createAncestors]
    have hn : nameOk part := hparts part (List.mem_cons_self _ _)
    have hcp' : pathOk (cp ++ '/' :: part) ∧ (cp ++ '/' :: part) ≠ ['/'] := by
      rcases hcp with h0 | ⟨hOk, hnr⟩
      · subst h0
        have he : ([] : Str) ++ '/' :: part = childPath ['/'] part := by
          rw [childPath, if_pos rfl]
          rfl
        rw [he]
        exact ⟨pathOk_childPath pathOk_root hn, childPath_ne_root pathOk_root hn⟩
      · have he : cp ++ '/' :: part = childPath cp part := by
          rw [childPath, if_neg hnr]
        rw [he]
        exact ⟨pathOk_childPath hOk hn, childPath_ne_root hOk hn⟩
    have hparts' : ∀ x ∈ rest, nameOk x := fun x hx => hparts x (List.mem_cons_of_mem _ hx)
    by_cases he : s.existsP (cp ++ '/' :: part) = true
    · rw [if_pos he]
      exact ih (cp ++ '/' :: part) s hs (Or.inr hcp') hparts'
    · rw [if_neg he]
      have hs2 : Inv (s.createDirectory (cp ++ '/' :: part)).2 := by
        refine Inv_createDirectory s (cp ++ '/' :: part) hs ?_
        rw [normalizePath_of_pathOk hcp'.1]
        exact hcp'.1
      obtain ⟨f1, g1⟩ := createDirectory_frame hs (cp ++ '/' :: part)
      obtain ⟨f2, g2⟩ := ih (cp ++ '/' :: part) _ hs2 (Or.inr hcp') hparts'
      refine ⟨fun q k h => f2 q k (f1 q k h), fun k m h => ?_⟩
      obtain ⟨m2, hm2, e1, e2, e3, e4⟩ := g1 k m h
      obtain ⟨m3, hm3, j1, j2, j3, j4⟩ := g2 k m2 hm2
      exact ⟨m3, hm3, j1.trans e1, j2.trans e2, j3.trans e3, j4.trans e4⟩

theorem renameS1_frame {s : VFS} (hs : Inv s) (newPath : Str) :
    Inv (renameS1 s newPath) ∧
    (∀ q k, getA q s.files = some k → getA q (renameS1 s newPath).files = some k) ∧
    (∀ k m, getA k s.heap = some m → ∃ m2, getA k (renameS1 s newPath).heap = some m2 ∧
      m2.type = m.type ∧ m2.name = m.name ∧ m2.path = m.path ∧ m2.content = m.content) := by
  rw [renameS1]
  by_cases he : s.existsP (getParentPath (normalizePath newPath)) = true
  · rw [if_neg (not_not_intro he)]
    exact ⟨hs, fun q k h => h, fun k m h => ⟨m, h, rfl, rfl, rfl, rfl⟩⟩
  · rw [if_pos he]
    have hnames : ∀ part ∈ (splitSlash (getParentPath (normalizePath newPath))).filter (· ≠ []),
        nameOk part := partsOf_nameOk _
    refine ⟨Inv_createAncestors _ [] s hs (Or.inl rfl) hnames, ?_⟩
    exact createAncestors_frame _ [] s hs (Or.inl rfl) hnames

theorem renameS1_miss {s : VFS} {newPath : Str}
    (hNok : pathOk (normalizePath newPath)) (hNroot : normalizePath newPath ≠ ['/'])
    (hmiss : getA (normalizePath newPath) s.files = none) :
    getA (normalizePath newPath) (renameS1 s newPath).files = none := by
  rw [renameS1]
  by_cases he : s.existsP (getParentPath (normalizePath newPath)) = true
  · rw [if_neg (not_not_intro he)]
    exact hmiss
  · rw [if_pos he]
    rcases hg : getA (normalizePath newPath)
        (s.createAncestors ((splitSlash (getParentPath (normalizePath newPath))).filter (· ≠ [])) []).files with _ | i
    · rfl
    · exfalso
      rcases createAncestors_newKeys _ [] s _ i hg with h' | ⟨l, hl, hpre, hq⟩
      · rw [hmiss] at h'
        exact Option.noConfusion h'
      · have hseg : List.foldl (fun a seg => a ++ '/' :: seg) ([] : Str) l = segsPath l := rfl
        rw [hseg] at hq
        have hlname : ∀ x ∈ l, nameOk x := by
          intro x hx
          exact partsOf_nameOk (getParentPath (normalizePath newPath)) x (hpre.subset hx)
        obtain ⟨hsOk, hsne, hsparts⟩ := segsPath_props l hl hlname
        rw [normalizePath_of_pathOk hsOk] at hq
        have hNparts : partsOf (normalizePath newPath) =
            partsOf (getParentPath (normalizePath newPath)) ++ [getFileName (normalizePath newPath)] := by
          have h1 := childPath_parent_name hNok hNroot
          calc partsOf (normalizePath newPath) = partsOf (childPath (getParentPath (normalizePath newPath)) (getFileName (normalizePath newPath))) := by rw [h1]
            _ = _ := partsOf_childPath (pathOk_getParentPath hNok) (nameOk_getFileName hNok hNroot)
        have hlen1 : l.length ≤ (partsOf (getParentPath (normalizePath newPath))).length :=
          hpre.length_le
        have hlen2 : (partsOf (normalizePath newPath)).length =
            (partsOf (getParentPath (normalizePath newPath))).length + 1 := by
          rw [hNparts, List.length_append]
          rfl
        have hlen3 : partsOf (normalizePath newPath) = l := by
          rw [hq, hsparts]
        rw [hlen3] at hlen2
        omega

theorem file_no_subtree {t : VFS} (ht : Inv t) {P : Str} {i : Nat} {m : Node}
    (hP : getA P t.files = some i) (hm : getA i t.heap = some m)
    (hft : m.type = NodeType.file) :
    ∀ q, inSubB P q = true → q ≠ P → getA q t.files = none := by
  have hProot : P ≠ ['/'] := by
    intro he
    rw [he, ht.rootFiles] at hP
    injection hP with hx
    obtain ⟨rn, hrn, hrt, _⟩ := ht.rootNode
    rw [hx, hm] at hrn
    injection hrn with hy
    rw [← hy] at hrt
    rw [hft] at hrt
    exact NodeType.noConfusion hrt
  obtain ⟨mE, hmE, hmEpath, hPok, _⟩ := ht.entries P i hP
  have main : ∀ len q, q.length ≤ len → inSubB P q = true → q ≠ P → getA q t.files = none := by
    intro len
    induction len with
    | zero =>
      intro q hlen hsub hne
      rcases hq : getA q t.files with _ | j
      · rfl
      · exfalso
        obtain ⟨_, _, _, hqok, _⟩ := ht.entries q j hq
        have := pathOk_ne_nil hqok
        cases q with
        | nil => exact this rfl
        | cons a as => simp at hlen
    | succ len ih =>
      intro q hlen hsub hne
      rcases hq : getA q t.files with _ | j
      · rfl
      · exfalso
        obtain ⟨_, _, _, hqok, _⟩ := ht.entries q j hq
        have hqroot : q ≠ ['/'] := by
          intro he
          rw [he] at hsub
          exact root_not_under hProot (pathOk_ne_nil hPok) hsub
        obtain ⟨n, pid, pn, hn, hnname, hpidf, hpnh, hpndir, hbind, hqeq⟩ :=
          ht.parentLink q j hq hqroot
        have hq2 : q = childPath (getParentPath q) (getFileName q) :=
          (childPath_parent_name hqok hqroot).symm
        have hsub2 : inSubB P (childPath (getParentPath q) (getFileName q)) = true := by
          rw [← hq2]
          exact hsub
        rcases under_childPath_cases hPok hProot (nameOk_getFileName hqok hqroot) hsub2 with
          he2 | he2
        · rw [← hq2] at he2
          exact hne he2
        · by_cases hgp : getParentPath q = P
          · rw [hgp, hP] at hpidf
            injection hpidf with hx
            rw [← hx, hm] at hpnh
            injection hpnh with hy
            rw [← hy, hft] at hpndir
            exact NodeType.noConfusion hpndir
          · have hglen : (getParentPath q).length ≤ len := by
              have := getParentPath_length_lt hqok hqroot
              omega
            have := ih (getParentPath q) hglen he2 hgp
            rw [this] at hpidf
            exact Option.noConfusion hpidf
  intro q hsub hne
  exact main q.length q le_rfl hsub hne

theorem rename_guard_eq {s : VFS} {oldPath newPath : Str}
    (h : normalizePath oldPath = ['/'] ∨ normalizePath newPath = ['/'] ∨
      s.lookup (normalizePath oldPath) = none ∨
      hasA (normalizePath newPath) s.files = true) :
    s.rename oldPath newPath = (false, s) := by
  unfold VFS.rename
  by_cases h1 : normalizePath oldPath = ['/'] ∨ normalizePath newPath = ['/']
  · simp only [if_pos h1]
  · simp only [if_neg h1]
    rcases h with h | h | h | h
    · exact absurd (Or.inl h) h1
    · exact absurd (Or.inr h) h1
    · rw [h]
    · cases hl : s.lookup (normalizePath oldPath) with
      | none => simp
      | some e => cases e with
        | mk i n => simp [h]

theorem rename_noparent_eq {s : VFS} {oldPath newPath : Str}
    (hroot : ¬(normalizePath oldPath = ['/'] ∨ normalizePath newPath = ['/']))
    {sid : Nat} {sourceNode : Node}
    (hl : s.lookup (normalizePath oldPath) = some (sid, sourceNode))
    (hNmiss : ¬ hasA (normalizePath newPath) s.files = true)
    (hpe : s.getParentEntry (normalizePath oldPath) = none) :
    s.rename oldPath newPath = (false, s) := by
  simp only [VFS.rename]
  rw [if_neg hroot, hl]
  show (if hasA (normalizePath newPath) s.files = true then ((false : Bool), s)
    else match s.getParentEntry (normalizePath oldPath) with
      | none => ((false : Bool), s)
      | some (opid, opnode) =>
        if opnode.type ≠ NodeType.directory then ((false : Bool), s)
        else renameCont (renameS1 s newPath) (normalizePath oldPath) (normalizePath newPath)
          sid opid sourceNode.type sourceNode.children sourceNode.name) = _
  rw [if_neg hNmiss, hpe]

theorem rename_badparent_eq {s : VFS} {oldPath newPath : Str}
    (hroot : ¬(normalizePath oldPath = ['/'] ∨ normalizePath newPath = ['/']))
    {sid : Nat} {sourceNode : Node}
    (hl : s.lookup (normalizePath oldPath) = some (sid, sourceNode))
    (hNmiss : ¬ hasA (normalizePath newPath) s.files = true)
    {opid : Nat} {opnode : Node}
    (hpe : s.getParentEntry (normalizePath oldPath) = some (opid, opnode))
    (hopd : opnode.type ≠ NodeType.directory) :
    s.rename oldPath newPath = (false, s) := by
  simp only [VFS.rename]
  rw [if_neg hroot, hl]
  show (if hasA (normalizePath newPath) s.files = true then ((false : Bool), s)
    else match s.getParentEntry (normalizePath oldPath) with
      | none => ((false : Bool), s)
      | some (opid, opnode) =>
        if opnode.type ≠ NodeType.directory then ((false : Bool), s)
        else renameCont (renameS1 s newPath) (normalizePath oldPath) (normalizePath newPath)
          sid opid sourceNode.type sourceNode.children sourceNode.name) = _
  rw [if_neg hNmiss, hpe]
  show (if opnode.type ≠ NodeType.directory then ((false : Bool), s)
    else renameCont (renameS1 s newPath) (normalizePath oldPath) (normalizePath newPath)
      sid opid sourceNode.type sourceNode.children sourceNode.name) = _
  rw [if_pos hopd]

theorem rename_cont_eq {s : VFS} {oldPath newPath : Str}
    (hroot : ¬(normalizePath oldPath = ['/'] ∨ normalizePath newPath = ['/']))
    {sid : Nat} {sourceNode : Node}
    (hl : s.lookup (normalizePath oldPath) = some (sid, sourceNode))
    (hNmiss : ¬ hasA (normalizePath newPath) s.files = true)
    {opid : Nat} {opnode : Node}
    (hpe : s.getParentEntry (normalizePath oldPath) = some (opid, opnode))
    (hopd : ¬ opnode.type ≠ NodeType.directory) :
    s.rename oldPath newPath =
      renameCont (renameS1 s newPath) (normalizePath oldPath) (normalizePath newPath)
        sid opid sourceNode.type sourceNode.children sourceNode.name := by
  simp only [VFS.rename]
  rw [if_neg hroot, hl]
  show (if hasA (normalizePath newPath) s.files = true then ((false : Bool), s)
    else match s.getParentEntry (normalizePath oldPath) with
      | none => ((false : Bool), s)
      | some (opid, opnode) =>
        if opnode.type ≠ NodeType.directory then ((false : Bool), s)
        else renameCont (renameS1 s newPath) (normalizePath oldPath) (normalizePath newPath)
          sid opid sourceNode.type sourceNode.children sourceNode.name) = _
  rw [if_neg hNmiss, hpe]
  show (if opnode.type ≠ NodeType.directory then ((false : Bool), s)
    else renameCont (renameS1 s newPath) (normalizePath oldPath) (normalizePath newPath)
      sid opid sourceNode.type sourceNode.children sourceNode.name) = _
  rw [if_neg hopd]

theorem renameCont_none_eq {s1 : VFS} {O N : Str} {sid opid : Nat} {st : NodeType}
    {sc : Option (List (Str × Nat))} {sn : Str}
    (h : s1.lookup (getParentPath N) = none) :
    renameCont s1 O N sid opid st sc sn = (false, s1) := by
  simp only [renameCont]
  rw [h]

theorem renameCont_some_eq {s1 : VFS} {O N : Str} {sid opid npid : Nat} {npnode : Node}
    {st : NodeType} {sc : Option (List (Str × Nat))} {sn : Str}
    (h : s1.lookup (getParentPath N) = some (npid, npnode)) :
    renameCont s1 O N sid opid st sc sn =
      (if npnode.type ≠ NodeType.directory then (false, s1)
       else (true,
         if st = NodeType.directory ∧ sc.isSome = true then
           (moveState s1 N O sn sid opid npid).updateChildrenPaths sid
             ((moveState s1 N O sn sid opid npid).heap.length + 1)
         else moveState s1 N O sn sid opid npid)) := by
  simp only [renameCont]
  rw [h]

theorem Inv_rename (s : VFS) (oldPath newPath : Str) (hs : Inv s)
    (hNok : pathOk (normalizePath newPath))
    (hdir : ¬ ∃ i node, s.lookup (normalizePath oldPath) = some (i, node) ∧
        node.type = NodeType.directory ∧
        inSubB (normalizePath oldPath) (normalizePath newPath) = true ∧
        normalizePath oldPath ≠ normalizePath newPath) :
    Inv (s.rename oldPath newPath).2 := by
  by_cases hroot : normalizePath oldPath = ['/'] ∨ normalizePath newPath = ['/']
  · rw [rename_guard_eq (by tauto)]
    exact hs
  rcases hl : s.lookup (normalizePath oldPath) with _ | ⟨sid, sourceNode⟩
  · rw [rename_guard_eq (Or.inr (Or.inr (Or.inl hl)))]
    exact hs
  by_cases hEx : hasA (normalizePath newPath) s.files = true
  · rw [rename_guard_eq (Or.inr (Or.inr (Or.inr hEx)))]
    exact hs
  rcases hpe : s.getParentEntry (normalizePath oldPath) with _ | ⟨opid, opnode⟩
  · rw [rename_noparent_eq hroot hl hEx hpe]
    exact hs
  by_cases hopd : opnode.type ≠ NodeType.directory
  · rw [rename_badparent_eq hroot hl hEx hpe hopd]
    exact hs
  rw [rename_cont_eq hroot hl hEx hpe hopd]
  obtain ⟨hs1, fmono, hframe⟩ := renameS1_frame hs newPath
  obtain ⟨hOf, hsh⟩ := lookup_eq_some hl
  have hOroot : normalizePath oldPath ≠ ['/'] := fun h => hroot (Or.inl h)
  have hNroot : normalizePath newPath ≠ ['/'] := fun h => hroot (Or.inr h)
  have hNmiss0 : getA (normalizePath newPath) s.files = none := by
    rcases hg : getA (normalizePath newPath) s.files with _ | j
    · rfl
    · refine absurd ?_ hEx
      show (getA (normalizePath newPath) s.files).isSome = true
      rw [hg]
      rfl
  have hNmiss1 := renameS1_miss hNok hNroot hNmiss0
  have hO1 : getA (normalizePath oldPath) (renameS1 s newPath).files = some sid :=
    fmono _ _ hOf
  obtain ⟨src1, hsrc1, hty, hnm, hpath, hct⟩ := hframe sid sourceNode hsh
  obtain ⟨hopf, hoph⟩ := lookup_eq_some hpe
  have hop1 : getA (getParentPath (normalizePath oldPath)) (renameS1 s newPath).files =
      some opid := fmono _ _ hopf
  have hON : ¬ inSubB (normalizePath newPath) (normalizePath oldPath) = true := by
    intro h
    obtain ⟨i0, hi0⟩ := under_key_root hs1 hNok hNroot
      (normalizePath oldPath).length _ sid le_rfl hO1 h
    rw [hNmiss1] at hi0
    exact Option.noConfusion hi0
  have hNsub1 : ∀ q, inSubB (normalizePath newPath) q = true → q ≠ normalizePath newPath →
      getA q (renameS1 s newPath).files = none := by
    intro q hq hne
    rcases hgq : getA q (renameS1 s newPath).files with _ | j
    · rfl
    · exfalso
      obtain ⟨i0, hi0⟩ := under_key_root hs1 hNok hNroot q.length q j le_rfl hgq hq
      rw [hNmiss1] at hi0
      exact Option.noConfusion hi0
  rcases hnp : (renameS1 s newPath).lookup (getParentPath (normalizePath newPath)) with
    _ | ⟨npid, npnode⟩
  · rw [renameCont_none_eq hnp]
    exact hs1
  rw [renameCont_some_eq hnp]
  by_cases hnpd : npnode.type ≠ NodeType.directory
  · rw [if_pos hnpd]
    exact hs1
  rw [if_neg hnpd]
  obtain ⟨hnpf, hnph⟩ := lookup_eq_some hnp
  have hnpdir : npnode.type = NodeType.directory := not_not.mp hnpd
  have hONne : normalizePath oldPath ≠ normalizePath newPath := by
    intro he
    rw [he, hNmiss0] at hOf
    exact Option.noConfusion hOf
  obtain ⟨nE, hnEh, hnEpath, hOok, hnEdir, hnEfile⟩ := hs.entries _ sid hOf
  have hnEeq : nE = sourceNode := by
    rw [hsh] at hnEh
    injection hnEh with hx
    exact hx.symm
  rw [hnEeq] at hnEdir hnEfile
  have hNO : ¬ inSubB (normalizePath oldPath) (normalizePath newPath) = true := by
    cases hst : sourceNode.type with
    | directory =>
      intro h
      exact hdir ⟨sid, sourceNode, hl, hst, h, hONne⟩
    | file =>
      intro h
      have hsub2 : inSubB (normalizePath oldPath)
          (childPath (getParentPath (normalizePath newPath))
            (getFileName (normalizePath newPath))) = true := by
        rw [childPath_parent_name hNok hNroot]
        exact h
      rcases under_childPath_cases hOok hOroot (nameOk_getFileName hNok hNroot) hsub2 with
        he2 | he2
      · rw [childPath_parent_name hNok hNroot] at he2
        exact hONne he2.symm
      · have hsf : src1.type = NodeType.file := by rw [hty, hst]
        by_cases hgp : getParentPath (normalizePath newPath) = normalizePath oldPath
        · rw [hgp, hO1] at hnpf
          injection hnpf with hx
          rw [← hx, hsrc1] at hnph
          injection hnph with hy
          rw [← hy, hsf] at hnpdir
          exact NodeType.noConfusion hnpdir
        · have h0 := file_no_subtree hs1 hO1 hsrc1 hsf _ he2 hgp
          rw [h0] at hnpf
          exact Option.noConfusion hnpf
  obtain ⟨opn1, hopn1, hopn1path, hgppOok, hopn1dirc, _⟩ := hs1.entries _ opid hop1
  have hopddir : opnode.type = NodeType.directory := not_not.mp hopd
  have hopn1dir : opn1.type = NodeType.directory := by
    obtain ⟨m2, hm2, e1, _, _, _⟩ := hframe opid opnode hoph
    rw [hopn1] at hm2
    injection hm2 with hx
    rw [hx, e1]
    exact hopddir
  have hopnod : (keysA (opn1.children.getD [])).Nodup := (hopn1dirc hopn1dir).2
  have hsidop : sid ≠ opid := by
    intro he
    rw [he] at hO1
    have h1 := hs1.filesIdInj hO1 hop1
    have h2 := getParentPath_length_lt hOok hOroot
    rw [← h1] at h2
    omega
  have hsidnp : sid ≠ npid := by
    intro he
    rw [he] at hO1
    have h1 := hs1.filesIdInj hO1 hnpf
    refine hNO ?_
    have h2 : normalizePath newPath =
        childPath (normalizePath oldPath) (getFileName (normalizePath newPath)) := by
      nth_rewrite 1 [← childPath_parent_name hNok hNroot]
      rw [h1]
    rw [h2]
    exact inSubB_childPath hOroot
  obtain ⟨_, _, _, hBkeys, hBsid, _, _, _⟩ :=
    @moveState_char (renameS1 s newPath) (normalizePath oldPath) (normalizePath newPath)
      src1.name sid opid npid opn1 npnode src1 hopn1 hnph hsrc1 hsidop hsidnp hopnod
  have hBlen : (moveState (renameS1 s newPath) (normalizePath newPath) (normalizePath oldPath)
      src1.name sid opid npid).heap.length = (renameS1 s newPath).heap.length := by
    have h1 := congrArg List.length hBkeys
    rw [keysA, keysA, List.length_map, List.length_map] at h1
    exact h1
  have hfuel : subCount (renameS1 s newPath) (normalizePath oldPath) <
      (moveState (renameS1 s newPath) (normalizePath newPath) (normalizePath oldPath)
        src1.name sid opid npid).heap.length + 1 := by
    have h1 := subCount_le_files (renameS1 s newPath) (normalizePath oldPath)
    have h2 := files_le_heap hs1
    omega
  by_cases hcond : sourceNode.type = NodeType.directory ∧ sourceNode.children.isSome = true
  · rw [if_pos hcond]
    have hInvT := Inv_moveUCP hs1 hO1 hOroot hNok hNroot hNmiss1 hNsub1 hNO hON hop1 hnpf
      hnph hnpdir hsrc1
      ((moveState (renameS1 s newPath) (normalizePath newPath) (normalizePath oldPath)
        src1.name sid opid npid).heap.length + 1) hfuel
    rw [hnm] at hInvT
    exact hInvT
  · rw [if_neg hcond]
    have hsf : src1.type = NodeType.file := by
      cases hst : sourceNode.type with
      | directory => exact absurd ⟨hst, (hnEdir hst).1⟩ hcond
      | file => rw [hty, hst]
    have hInvT := Inv_moveUCP hs1 hO1 hOroot hNok hNroot hNmiss1 hNsub1 hNO hON hop1 hnpf
      hnph hnpdir hsrc1 (subCount (renameS1 s newPath) (normalizePath oldPath) + 1)
      (Nat.lt_succ_self _)
    have hskip := updateChildrenPaths_skip_eq
      (subCount (renameS1 s newPath) (normalizePath oldPath)) hBsid ?_
    · rw [hskip] at hInvT
      rw [hnm] at hInvT
      exact hInvT
    · intro hcc
      have hcc1 : src1.type = NodeType.directory := hcc.1
      rw [hsf] at hcc1
      exact NodeType.noConfusion hcc1

theorem ReachableGood_Inv {s : VFS} (h : ReachableGood s) : Inv s := by
  induction h with
  | init => exact Inv_init
  | step s op hr hok ih =>
    cases op with
    | createFile p c => exact Inv_createFile s p c ih hok
    | createDirectory p => exact Inv_createDirectory s p ih hok
    | updateFile p c => exact Inv_updateFile s p c ih
    | deleteFile p => exact (Inv_deleteFile ih p).1
    | rename o n => exact Inv_rename s o n ih hok.1 hok.2
    | deserialize d => exact Inv_deserialize s d ih hok
    | reset => exact Inv_reset s ih

theorem createDirectory_creates {s : VFS} (hs : Inv s) {P : Str} (hP : pathOk P)
    (hmiss : getA P s.files = none)
    {pid : Nat} {pnode : Node}
    (hpf : getA (getParentPath P) s.files = some pid)
    (hph : getA pid s.heap = some pnode)
    (hpd : pnode.type = NodeType.directory) :
    ∃ j nj, getA P (s.createDirectory P).2.files = some j ∧
      getA j (s.createDirectory P).2.heap = some nj ∧ nj.type = NodeType.directory := by
  simp only [VFS.createDirectory]
  rw [normalizePath_of_pathOk hP]
  have hh : ¬ hasA P s.files = true := by
    show ¬ (getA P s.files).isSome = true
    rw [hmiss]
    simp
  rw [if_neg hh]
  have hpe : s.getParentEntry P = some (pid, pnode) := by
    rw [VFS.getParentEntry]
    exact lookup_iff hpf hph
  rw [hpe]
  show ∃ j nj, getA P ((if pnode.type ≠ NodeType.directory then ((none : Option Nat), s)
      else (some s.nextId, { s with
        heap := setA pid { pnode with children := some (setA (getFileName P) s.nextId (pnode.children.getD [])) } (setA s.nextId { type := NodeType.directory, name := getFileName P, path := P, children := some [] } s.heap),
        files := setA P s.nextId s.files,
        nextId := s.nextId + 1 })).2).files = some j ∧
    getA j ((if pnode.type ≠ NodeType.directory then ((none : Option Nat), s)
      else (some s.nextId, { s with
        heap := setA pid { pnode with children := some (setA (getFileName P) s.nextId (pnode.children.getD [])) } (setA s.nextId { type := NodeType.directory, name := getFileName P, path := P, children := some [] } s.heap),
        files := setA P s.nextId s.files,
        nextId := s.nextId + 1 })).2).heap = some nj ∧ nj.type = NodeType.directory
  rw [if_neg (not_not_intro hpd)]
  refine ⟨s.nextId, { type := NodeType.directory, name := getFileName P, path := P, children := some [] }, getA_setA_self _ _ _, ?_, rfl⟩
  show getA s.nextId (setA pid { pnode with children := some (setA (getFileName P) s.nextId (pnode.children.getD [])) } (setA s.nextId { type := NodeType.directory, name := getFileName P, path := P, children := some [] } s.heap)) = _
  have hpid : pid ≠ s.nextId := by
    intro he
    have := hs.heapBound pid (getA_mem_keysA hph)
    omega
  rw [getA_setA_ne _ _ hpid]
  exact getA_setA_self _ _ _

theorem createAncestors_creates : ∀ (parts : List Str) (cp : Str) (s : VFS), Inv s →
    (cp = [] ∨ (pathOk cp ∧ cp ≠ ['/'])) →
    (∀ part ∈ parts, nameOk part) →
    (∃ pid pn, getA (if cp = [] then ['/'] else cp) s.files = some pid ∧
      getA pid s.heap = some pn ∧ pn.type = NodeType.directory) →
    (∀ l, l ≠ [] → l <+: parts → ∀ i n,
      getA (List.foldl (fun a seg => a ++ '/' :: seg) cp l) s.files = some i →
      getA i s.heap = some n → n.type = NodeType.directory) →
    ∃ pid pn,
      getA (if parts = [] then (if cp = [] then ['/'] else cp)
          else List.foldl (fun a seg => a ++ '/' :: seg) cp parts)
        (s.createAncestors parts cp).files = some pid ∧
      getA pid (s.createAncestors parts cp).heap = some pn ∧
      pn.type = NodeType.directory := by
  intro parts
  induction parts with
  | nil =>
    intro cp s hs hcp hparts hparent hanc
    rw [if_pos rfl]
    exact hparent
  | cons part rest ih =>
    intro cp s hs hcp hparts hparent hanc
    simp only [VFS.createAncestors]
    rw [if_neg (List.cons_ne_nil part rest)]
    have hn : nameOk part := hparts part (List.mem_cons_self _ _)
    have hcp' : pathOk (cp ++ '/' :: part) ∧ (cp ++ '/' :: part) ≠ ['/'] := by
      rcases hcp with h0 | ⟨hOk, hnr⟩
      · subst h0
        have he : ([] : Str) ++ '/' :: part = childPath ['/'] part := by
          rw [childPath, if_pos rfl]
          rfl
        rw [he]
        exact ⟨pathOk_childPath pathOk_root hn, childPath_ne_root pathOk_root hn⟩
      · have he : cp ++ '/' :: part = childPath cp part := by
          rw [childPath, if_neg hnr]
        rw [he]
        exact ⟨pathOk_childPath hOk hn, childPath_ne_root hOk hn⟩
    have hcpnil : (cp ++ '/' :: part) ≠ [] := pathOk_ne_nil hcp'.1
    have hgpp : getParentPath (cp ++ '/' :: part) = (if cp = [] then ['/'] else cp) := by
      rcases hcp with h0 | ⟨hOk, hnr⟩
      · subst h0
        rw [if_pos rfl]
        have he : ([] : Str) ++ '/' :: part = childPath ['/'] part := by
          rw [childPath, if_pos rfl]
          rfl
        rw [he]
        exact getParentPath_childPath pathOk_root hn
      · rw [if_neg (fun h0 => (by rw [h0] at hOk; exact pathOk_ne_nil hOk rfl : False))]
        have he : cp ++ '/' :: part = childPath cp part := by
          rw [childPath, if_neg hnr]
        rw [he]
        exact getParentPath_childPath hOk hn
    have hparts' : ∀ x ∈ rest, nameOk x := fun x hx => hparts x (List.mem_cons_of_mem _ hx)
    obtain ⟨pid0, pn0, hpf0, hph0, hpd0⟩ := hparent
    by_cases he : s.existsP (cp ++ '/' :: part) = true
    · rw [if_pos he]
      have hj : ∃ j, getA (cp ++ '/' :: part) s.files = some j := by
        have he2 : (getA (normalizePath (cp ++ '/' :: part)) s.files).isSome = true := he
        rw [normalizePath_of_pathOk hcp'.1] at he2
        rcases hg : getA (cp ++ '/' :: part) s.files with _ | j
        · rw [hg] at he2
          exact Bool.noConfusion he2
        · exact ⟨j, rfl⟩
      obtain ⟨j, hj⟩ := hj
      obtain ⟨nj, hnj, _⟩ := hs.entries _ j hj
      have hjd : nj.type = NodeType.directory := by
        refine hanc [part] (List.cons_ne_nil _ _) ⟨rest, rfl⟩ j nj ?_ hnj
        exact hj
      have hrec := ih (cp ++ '/' :: part) s hs (Or.inr hcp') hparts'
        ⟨j, nj, by rw [if_neg hcpnil]; exact hj, hnj, hjd⟩
        (fun l hl hpre i n hgi hgn =>
          hanc (part :: l) (List.cons_ne_nil _ _)
            (by obtain ⟨t, ht⟩ := hpre; exact ⟨t, by rw [List.cons_append, ht]⟩) i n hgi hgn)
      by_cases hrest0 : rest = []
      · subst hrest0
        rw [if_pos rfl, if_neg hcpnil] at hrec
        exact hrec
      · rw [if_neg hrest0] at hrec
        exact hrec
    · rw [if_neg he]
      have hmiss : getA (cp ++ '/' :: part) s.files = none := by
        rcases hg : getA (cp ++ '/' :: part) s.files with _ | j
        · rfl
        · exfalso
          refine he ?_
          show (getA (normalizePath (cp ++ '/' :: part)) s.files).isSome = true
          rw [normalizePath_of_pathOk hcp'.1, hg]
          rfl
      have hpf0' : getA (getParentPath (cp ++ '/' :: part)) s.files = some pid0 := by
        rw [hgpp]
        exact hpf0
      obtain ⟨j, nj, hjf, hjh, hjd⟩ :=
        createDirectory_creates hs hcp'.1 hmiss hpf0' hph0 hpd0
      have hs2 : Inv (s.createDirectory (cp ++ '/' :: part)).2 := by
        refine Inv_createDirectory s (cp ++ '/' :: part) hs ?_
        rw [normalizePath_of_pathOk hcp'.1]
        exact hcp'.1
      obtain ⟨f1, g1⟩ := createDirectory_frame hs (cp ++ '/' :: part)
      have hanc2 : ∀ l, l ≠ [] → l <+: rest → ∀ i n,
          getA (List.foldl (fun a seg => a ++ '/' :: seg) (cp ++ '/' :: part) l)
            (s.createDirectory (cp ++ '/' :: part)).2.files = some i →
          getA i (s.createDirectory (cp ++ '/' :: part)).2.heap = some n →
          n.type = NodeType.directory := by
        intro l hl hpre i n hgi hgn
        rcases createDirectory_files_sub hgi with hold | hnew
        · obtain ⟨n0, hn0, _⟩ := hs.entries _ i hold
          have hn0d : n0.type = NodeType.directory :=
            hanc (part :: l) (List.cons_ne_nil _ _)
              (by obtain ⟨t, ht⟩ := hpre; exact ⟨t, by rw [List.cons_append, ht]⟩) i n0 hold hn0
          obtain ⟨m2, hm2, e1, _, _, _⟩ := g1 i n0 hn0
          rw [hgn] at hm2
          injection hm2 with hx
          rw [hx, e1]
          exact hn0d
        · exfalso
          rw [normalizePath_of_pathOk hcp'.1] at hnew
          obtain ⟨rest0, hrest0⟩ := foldl_slash l (cp ++ '/' :: part) hl
          rw [hrest0] at hnew
          have hlen := congrArg List.length hnew
          simp only [List.length_append, List.length_cons] at hlen
          omega
      have hrec := ih (cp ++ '/' :: part) _ hs2 (Or.inr hcp') hparts'
        ⟨j, nj, by rw [if_neg hcpnil]; exact hjf, hjh, hjd⟩ hanc2
      by_cases hrest0 : rest = []
      · subst hrest0
        rw [if_pos rfl, if_neg hcpnil] at hrec
        exact hrec
      · rw [if_neg hrest0] at hrec
        exact hrec

theorem renameS1_newKeys {s : VFS} {newPath : Str} {q : Str} {i : Nat}
    (hNok : pathOk (normalizePath newPath))
    (h : getA q (renameS1 s newPath).files = some i) :
    getA q s.files = some i ∨
      (inSubB q (getParentPath (normalizePath newPath)) = true ∧
        getParentPath (normalizePath newPath) ≠ ['/']) := by
  rw [renameS1] at h
  by_cases he : s.existsP (getParentPath (normalizePath newPath)) = true
  · rw [if_neg (not_not_intro he)] at h
    exact Or.inl h
  · rw [if_pos he] at h
    rcases createAncestors_newKeys _ [] s q i h with hold | ⟨l, hl, hpre, hq⟩
    · exact Or.inl hold
    · have hseg : List.foldl (fun a seg => a ++ '/' :: seg) ([] : Str) l = segsPath l := rfl
      rw [hseg] at hq
      have hlname : ∀ x ∈ l, nameOk x := by
        intro x hx
        exact partsOf_nameOk (getParentPath (normalizePath newPath)) x (hpre.subset hx)
      obtain ⟨hsOk, hsne, hsparts⟩ := segsPath_props l hl hlname
      rw [normalizePath_of_pathOk hsOk] at hq
      by_cases hgr : getParentPath (normalizePath newPath) = ['/']
      · exfalso
        rw [hgr] at hpre
        have hpre2 : l <+: partsOf ['/'] := hpre
        rw [partsOf_root] at hpre2
        exact hl (List.prefix_nil.mp hpre2)
      · refine Or.inr ⟨?_, hgr⟩
        rw [hq]
        refine (inSubB_iff_parts hsOk hsne (pathOk_getParentPath hNok)).mpr ?_
        rw [hsparts]
        exact hpre

theorem rename_moves {s : VFS} (hs : Inv s) {oldPath newPath : Str}
    {sid : Nat} {sourceNode : Node}
    (hl : s.lookup (normalizePath oldPath) = some (sid, sourceNode))
    (hst : sourceNode.type = NodeType.directory)
    (hOroot : normalizePath oldPath ≠ ['/'])
    (hNok : pathOk (normalizePath newPath))
    (hNroot : normalizePath newPath ≠ ['/'])
    (hNmiss : getA (normalizePath newPath) s.files = none)
    (hNO : ¬ inSubB (normalizePath oldPath) (normalizePath newPath) = true)
    (hanc : ∀ q i n, inSubB q (normalizePath newPath) = true → q ≠ normalizePath newPath →
      getA q s.files = some i → getA i s.heap = some n → n.type = NodeType.directory) :
    (s.rename oldPath newPath).1 = true ∧
    getA (normalizePath newPath) (s.rename oldPath newPath).2.files = some sid ∧
    (∀ tail, getA (normalizePath newPath ++ '/' :: tail) (s.rename oldPath newPath).2.files =
      getA (normalizePath oldPath ++ '/' :: tail) s.files) ∧
    getA (normalizePath oldPath) (s.rename oldPath newPath).2.files = none ∧
    (∀ tail, getA (normalizePath oldPath ++ '/' :: tail)
      (s.rename oldPath newPath).2.files = none) ∧
    (∃ nd, getA sid (s.rename oldPath newPath).2.heap = some nd ∧
      nd.type = sourceNode.type ∧ nd.content = sourceNode.content ∧
      nd.path = normalizePath newPath) ∧
    (∀ tail k, getA (normalizePath oldPath ++ '/' :: tail) s.files = some k →
      ∃ m0 m1, getA k s.heap = some m0 ∧
        getA k (s.rename oldPath newPath).2.heap = some m1 ∧
        m1.type = m0.type ∧ m1.name = m0.name ∧ m1.content = m0.content ∧
        m1.path = normalizePath newPath ++ '/' :: tail) := by
  obtain ⟨hOf, hsh⟩ := lookup_eq_some hl
  have hroot : ¬(normalizePath oldPath = ['/'] ∨ normalizePath newPath = ['/']) := by
    rintro (h | h)
    · exact hOroot h
    · exact hNroot h
  have hEx : ¬ hasA (normalizePath newPath) s.files = true := by
    show ¬ (getA (normalizePath newPath) s.files).isSome = true
    rw [hNmiss]
    simp
  obtain ⟨n0, opid, opn, hn0, hn0name, hopf, hoph, hopdir, hbind, hOeq⟩ :=
    hs.parentLink _ sid hOf hOroot
  have hpe : s.getParentEntry (normalizePath oldPath) = some (opid, opn) := by
    rw [VFS.getParentEntry]
    exact lookup_iff hopf hoph
  rw [rename_cont_eq hroot hl hEx hpe (not_not_intro hopdir)]
  obtain ⟨hs1, fmono, hframe⟩ := renameS1_frame hs newPath
  have hNmiss1 := renameS1_miss hNok hNroot hNmiss
  have hO1 : getA (normalizePath oldPath) (renameS1 s newPath).files = some sid :=
    fmono _ _ hOf
  obtain ⟨src1, hsrc1, hty, hnm, hpath, hct⟩ := hframe sid sourceNode hsh
  have hop1 : getA (getParentPath (normalizePath oldPath)) (renameS1 s newPath).files =
      some opid := fmono _ _ hopf
  have hON : ¬ inSubB (normalizePath newPath) (normalizePath oldPath) = true := by
    intro h
    obtain ⟨i0, hi0⟩ := under_key_root hs1 hNok hNroot
      (normalizePath oldPath).length _ sid le_rfl hO1 h
    rw [hNmiss1] at hi0
    exact Option.noConfusion hi0
  have hNsub1 : ∀ q, inSubB (normalizePath newPath) q = true → q ≠ normalizePath newPath →
      getA q (renameS1 s newPath).files = none := by
    intro q hq hne
    rcases hgq : getA q (renameS1 s newPath).files with _ | j
    · rfl
    · exfalso
      obtain ⟨i0, hi0⟩ := under_key_root hs1 hNok hNroot q.length q j le_rfl hgq hq
      rw [hNmiss1] at hi0
      exact Option.noConfusion hi0
  have hnpEx : ∃ npid npnode,
      (renameS1 s newPath).lookup (getParentPath (normalizePath newPath)) =
        some (npid, npnode) ∧ npnode.type = NodeType.directory := by
    by_cases hgr : getParentPath (normalizePath newPath) = ['/']
    · obtain ⟨rn, hrn, hrt, _⟩ := hs1.rootNode
      refine ⟨(renameS1 s newPath).root, rn, ?_, hrt⟩
      rw [hgr]
      exact lookup_iff hs1.rootFiles hrn
    · have hsubgN : inSubB (getParentPath (normalizePath newPath))
          (normalizePath newPath) = true := by
        nth_rewrite 2 [← childPath_parent_name hNok hNroot]
        exact inSubB_childPath hgr
      have hgNne : getParentPath (normalizePath newPath) ≠ normalizePath newPath := by
        intro he
        have := getParentPath_length_lt hNok hNroot
        rw [he] at this
        omega
      rw [renameS1]
      by_cases he : s.existsP (getParentPath (normalizePath newPath)) = true
      · rw [if_neg (not_not_intro he)]
        have hj : ∃ j, getA (getParentPath (normalizePath newPath)) s.files = some j := by
          have he2 : (getA (normalizePath (getParentPath (normalizePath newPath)))
              s.files).isSome = true := he
          rw [normalizePath_of_pathOk (pathOk_getParentPath hNok)] at he2
          rcases hg : getA (getParentPath (normalizePath newPath)) s.files with _ | j
          · rw [hg] at he2
            exact Bool.noConfusion he2
          · exact ⟨j, rfl⟩
        obtain ⟨j, hj⟩ := hj
        obtain ⟨nj, hnj, _⟩ := hs.entries _ j hj
        exact ⟨j, nj, lookup_iff hj hnj, hanc _ j nj hsubgN hgNne hj hnj⟩
      · rw [if_pos he]
        have hpartsne : partsOf (getParentPath (normalizePath newPath)) ≠ [] :=
          partsOf_ne_nil (pathOk_getParentPath hNok) hgr
        obtain ⟨rn, hrn, hrt, _⟩ := hs.rootNode
        have hparent0 : ∃ pid pn,
            getA (if ([] : Str) = [] then ['/'] else []) s.files = some pid ∧
            getA pid s.heap = some pn ∧ pn.type = NodeType.directory := by
          refine ⟨s.root, rn, ?_, hrn, hrt⟩
          show getA ['/'] s.files = some s.root
          exact hs.rootFiles
        have hanc0 : ∀ l, l ≠ [] → l <+: partsOf (getParentPath (normalizePath newPath)) →
            ∀ i n, getA (List.foldl (fun a seg => a ++ '/' :: seg) ([] : Str) l) s.files =
              some i → getA i s.heap = some n → n.type = NodeType.directory := by
          intro l hl2 hpre i n hgi hgn
          have hseg : List.foldl (fun a seg => a ++ '/' :: seg) ([] : Str) l = segsPath l := rfl
          rw [hseg] at hgi
          have hlname : ∀ x ∈ l, nameOk x := fun x hx =>
            partsOf_nameOk (getParentPath (normalizePath newPath)) x (hpre.subset hx)
          obtain ⟨hsOk, hsne, hsparts⟩ := segsPath_props l hl2 hlname
          have hsub1 : inSubB (segsPath l) (getParentPath (normalizePath newPath)) = true := by
            refine (inSubB_iff_parts hsOk hsne (pathOk_getParentPath hNok)).mpr ?_
            rw [hsparts]
            exact hpre
          have hsub2 : inSubB (segsPath l) (normalizePath newPath) = true :=
            inSubB_trans hsub1 hsubgN
          have hne2 : segsPath l ≠ normalizePath newPath := by
            intro he2
            have h1 := inSubB_length_le hsub1
            have h2 := getParentPath_length_lt hNok hNroot
            rw [he2] at h1
            omega
          exact hanc _ i n hsub2 hne2 hgi hgn
        obtain ⟨npid, npn, hfe, hhe, hdirn⟩ := createAncestors_creates
          (partsOf (getParentPath (normalizePath newPath))) [] s hs (Or.inl rfl)
          (partsOf_nameOk _) hparent0 hanc0
        rw [if_neg hpartsne] at hfe
        have hfold : List.foldl (fun a seg => a ++ '/' :: seg) ([] : Str)
            (partsOf (getParentPath (normalizePath newPath))) =
            getParentPath (normalizePath newPath) := by
          show segsPath (partsOf (getParentPath (normalizePath newPath))) = _
          exact segsPath_partsOf (pathOk_getParentPath hNok) hgr
        rw [hfold] at hfe
        exact ⟨npid, npn, lookup_iff hfe hhe, hdirn⟩
  obtain ⟨npid, npnode, hnp, hnpdir⟩ := hnpEx
  rw [renameCont_some_eq hnp, if_neg (not_not_intro hnpdir)]
  obtain ⟨hnpf, hnph⟩ := lookup_eq_some hnp
  obtain ⟨nE, hnEh, hnEpath, hOok, hnEdir, _⟩ := hs.entries _ sid hOf
  have hnEeq : nE = sourceNode := by
    rw [hsh] at hnEh
    injection hnEh with hx
    exact hx.symm
  rw [hnEeq] at hnEdir
  have hcond : sourceNode.type = NodeType.directory ∧ sourceNode.children.isSome = true :=
    ⟨hst, (hnEdir hst).1⟩
  rw [if_pos hcond]
  obtain ⟨opn1, hopn1, _, hgppOok, hopn1dirc, _⟩ := hs1.entries _ opid hop1
  have hopn1dir : opn1.type = NodeType.directory := by
    obtain ⟨m2, hm2, e1, _, _, _⟩ := hframe opid opn hoph
    rw [hopn1] at hm2
    injection hm2 with hx
    rw [hx, e1]
    exact hopdir
  have hopnod : (keysA (opn1.children.getD [])).Nodup := (hopn1dirc hopn1dir).2
  have hsidop : sid ≠ opid := by
    intro he
    rw [he] at hO1
    have h1 := hs1.filesIdInj hO1 hop1
    have h2 := getParentPath_length_lt hOok hOroot
    rw [← h1] at h2
    omega
  have hsidnp : sid ≠ npid := by
    intro he
    rw [he] at hO1
    have h1 := hs1.filesIdInj hO1 hnpf
    refine hNO ?_
    have h2 : normalizePath newPath =
        childPath (normalizePath oldPath) (getFileName (normalizePath newPath)) := by
      nth_rewrite 1 [← childPath_parent_name hNok hNroot]
      rw [h1]
    rw [h2]
    exact inSubB_childPath hOroot
  obtain ⟨_, _, _, hBkeys, _, _, _, _⟩ :=
    @moveState_char (renameS1 s newPath) (normalizePath oldPath) (normalizePath newPath)
      src1.name sid opid npid opn1 npnode src1 hopn1 hnph hsrc1 hsidop hsidnp hopnod
  have hBlen : (moveState (renameS1 s newPath) (normalizePath newPath) (normalizePath oldPath)
      src1.name sid opid npid).heap.length = (renameS1 s newPath).heap.length := by
    have h1 := congrArg List.length hBkeys
    rw [keysA, keysA, List.length_map, List.length_map] at h1
    exact h1
  have hfuel : subCount (renameS1 s newPath) (normalizePath oldPath) <
      (moveState (renameS1 s newPath) (normalizePath newPath) (normalizePath oldPath)
        src1.name sid opid npid).heap.length + 1 := by
    have h1 := subCount_le_files (renameS1 s newPath) (normalizePath oldPath)
    have h2 := files_le_heap hs1
    omega
  have hchar := moveUCP_char hs1 hO1 hOroot hNok hNroot hNmiss1 hNsub1 hNO hON hop1 hnpf
    hnph hnpdir hsrc1
    ((moveState (renameS1 s newPath) (normalizePath newPath) (normalizePath oldPath)
      src1.name sid opid npid).heap.length + 1) hfuel
  rw [hnm] at hchar
  obtain ⟨hK1, hK2, hK3, hK4, hK5, hK6, hK7, hK8, hK9, hK10a, hK10b, hK11, hK12⟩ := hchar
  have hOtail : ∀ tail, getA (normalizePath oldPath ++ '/' :: tail)
      (renameS1 s newPath).files = getA (normalizePath oldPath ++ '/' :: tail) s.files := by
    intro tail
    rcases hgs : getA (normalizePath oldPath ++ '/' :: tail) s.files with _ | k
    · rcases hgs1 : getA (normalizePath oldPath ++ '/' :: tail)
          (renameS1 s newPath).files with _ | k2
      · rfl
      · exfalso
        rcases renameS1_newKeys hNok hgs1 with hold | ⟨hsub, hgr⟩
        · rw [hgs] at hold
          exact Option.noConfusion hold
        · have h1 : inSubB (normalizePath oldPath)
              (getParentPath (normalizePath newPath)) = true :=
            inSubB_trans (inSubB_append_tail _ tail) hsub
          have h2 : inSubB (getParentPath (normalizePath newPath))
              (normalizePath newPath) = true := by
            nth_rewrite 2 [← childPath_parent_name hNok hNroot]
            exact inSubB_childPath hgr
          exact hNO (inSubB_trans h1 h2)
    · exact fmono _ _ hgs
  refine ⟨rfl, hK1, ?_, hK3, hK4, ?_, ?_⟩
  · intro tail
    exact (hK2 tail).trans (hOtail tail)
  · refine ⟨{ src1 with name := getFileName (normalizePath newPath), path := normalizePath newPath }, hK6, ?_, ?_, rfl⟩
    · show src1.type = sourceNode.type
      exact hty
    · show src1.content = sourceNode.content
      exact hct
  · intro tail k hgs
    obtain ⟨m0, hm0, _⟩ := hs.entries _ k hgs
    have hgs1 : getA (normalizePath oldPath ++ '/' :: tail) (renameS1 s newPath).files =
        some k := fmono _ _ hgs
    obtain ⟨m1, hm1, hrel⟩ := hK7 tail k hgs1
    obtain ⟨m2, hm2, e1, e2, e3, e4⟩ := hframe k m0 hm0
    have hm12 : m1 = m2 := by
      rw [hm1] at hm2
      injection hm2
    refine ⟨m0, { m1 with path := normalizePath newPath ++ '/' :: tail }, hm0, hrel,
      ?_, ?_, ?_, rfl⟩
    · show m1.type = m0.type
      rw [hm12]
      exact e1
    · show m1.name = m0.name
      rw [hm12]
      exact e2
    · show m1.content = m0.content
      rw [hm12]
      exact e4

theorem countOccAux_eq_splitAux_length (pat : Str) :
    ∀ fuel s, s.length ≤ fuel →
      countOccAux pat fuel s + 1 = (jsSplitAux pat fuel s).length := by
  intro fuel
  induction fuel with
  | zero =>
    intro s hs
    have : s = [] := List.length_eq_zero.mp (Nat.le_zero.mp hs)
    subst this
    simp [countOccAux, jsSplitAux]
  | succ f ih =>
    intro s hs
    match s with
    | [] => simp [countOccAux, jsSplitAux]
    | c :: rest =>
      by_cases h : pat ≠ [] ∧ pat.isPrefixOf (c :: rest)
      · have hlen : ((c :: rest).drop pat.length).length ≤ f := by
          have hp : 1 ≤ pat.length := by
            cases hpat : pat with
            | nil => exact absurd hpat h.1
            | cons a l => simp
          have hs' : rest.length + 1 ≤ f + 1 := by simpa using hs
          rw [List.length_drop]
          simp only [List.length_cons]
          omega
        simp only [countOccAux, jsSplitAux, if_pos h]
        rw [ih _ hlen]
        simp
      · have hlen : rest.length ≤ f := by
          simpa using Nat.le_of_succ_le_succ hs
        simp only [countOccAux, jsSplitAux, if_neg h]
        have hrec := ih rest hlen
        cases hsp : jsSplitAux pat f rest with
        | nil => rw [hsp] at hrec; simp at hrec
        | cons p ps => rw [hsp] at hrec; simpa using hrec

theorem countOcc_eq_jsSplit_length (pat s : Str) :
    countOcc pat s + 1 = (jsSplit pat s).length :=
  countOccAux_eq_splitAux_length pat s.length s (Nat.le_refl _)

theorem mem_addUnique {α : Type} [DecidableEq α] (x y : α) (l : List α) :
    x ∈ addUnique y l ↔ x = y ∨ x ∈ l := by
  by_cases h : y ∈ l
  · have he : addUnique y l = l := by simp [addUnique, h]
    rw [he]
    constructor
    · exact Or.inr
    · rintro (rfl | hx)
      · exact h
      · exact hx
  · have he : addUnique y l = l ++ [y] := by simp [addUnique, h]
    rw [he]
    simp only [List.mem_append, List.mem_singleton]
    tauto

theorem mem_foldl_addUnique {α : Type} [DecidableEq α] (l acc : List α) (x : α) :
    x ∈ l.foldl (fun acc i => addUnique i acc) acc ↔ x ∈ acc ∨ x ∈ l := by
  induction l generalizing acc with
  | nil => simp
  | cons a t ih =>
    simp only [List.foldl_cons, ih, mem_addUnique, List.mem_cons]
    tauto

theorem mem_foldl_addUnique_filter {α : Type} [DecidableEq α] (p : α → Bool)
    (l acc : List α) (x : α) :
    x ∈ l.foldl (fun acc i => if ¬ p i then addUnique i acc else acc) acc ↔
      x ∈ acc ∨ (x ∈ l ∧ ¬ p x = true) := by
  induction l generalizing acc with
  | nil => simp
  | cons a t ih =>
    simp only [List.foldl_cons]
    by_cases hp : p a
    · rw [if_neg (by simp [hp])]
      rw [ih]
      simp only [List.mem_cons]
      constructor
      · rintro (hx | hx)
        · exact Or.inl hx
        · exact Or.inr ⟨Or.inr hx.1, hx.2⟩
      · rintro (hx | ⟨rfl | hx, hnp⟩)
        · exact Or.inl hx
        · exact absurd hp hnp
        · exact Or.inr ⟨hx, hnp⟩
    · rw [if_pos (by simp [hp])]
      rw [ih]
      simp only [mem_addUnique, List.mem_cons]
      constructor
      · rintro ((rfl | hx) | hx)
        · exact Or.inr ⟨Or.inl rfl, by simp [hp]⟩
        · exact Or.inl hx
        · exact Or.inr ⟨Or.inr hx.1, hx.2⟩
      · rintro (hx | ⟨rfl | hx, hnp⟩)
        · exact Or.inl (Or.inr hx)
        · exact Or.inl (Or.inl rfl)
        · exact Or.inr ⟨hx, hnp⟩

/-- Every specifier collected by the bare-stylesheet-import scan ends in
`.css`. -/
theorem scanCssAux_succ (fuel : Nat) (s : Str) :
    scanCssAux (fuel + 1) s =
      match cssMatchAt s with
      | some (spec, rest) => spec :: scanCssAux fuel rest
      | none =>
        match s with
        | [] => []
        | _ :: rest => scanCssAux fuel rest := rfl

theorem cssMatchAt_suffix {s sp rest : Str} (h : cssMatchAt s = some (sp, rest)) :
    (".css").data.isSuffixOf sp = true := by
  unfold cssMatchAt at h
  cases hd : dropLit ("import").data s with
  | none =>
    simp only [hd] at h
    exact Option.noConfusion h
  | some t =>
    simp only [hd] at h
    by_cases hw : t.takeWhile isWs = []
    · rw [if_pos hw] at h
      exact Option.noConfusion h
    · rw [if_neg hw] at h
      cases hq : quotedSpec (t.dropWhile isWs) with
      | none =>
        simp only [hq] at h
        exact Option.noConfusion h
      | some pr =>
        obtain ⟨cap, rst⟩ := pr
        simp only [hq] at h
        split at h
        · next hc =>
            cases h
            exact hc.1
        · next hc => exact Option.noConfusion h

theorem scanCssAux_suffix :
    ∀ fuel s, ∀ sp ∈ scanCssAux fuel s, (".css").data.isSuffixOf sp = true := by
  intro fuel
  induction fuel with
  | zero => intro s sp h; simp [scanCssAux] at h
  | succ f ih =>
    intro s sp h
    rw [scanCssAux_succ] at h
    cases hm : cssMatchAt s with
    | some pr =>
      obtain ⟨sp2, rest2⟩ := pr
      simp only [hm] at h
      rcases List.mem_cons.mp h with rfl | h2
      · exact cssMatchAt_suffix hm
      · exact ih _ _ h2
    | none =>
      cases s with
      | nil => simp [hm] at h
      | cons c rest =>
        simp only [hm] at h
        exact ih _ _ h

/-! ### Association-list lemmas -/

theorem hasA_setA_mono {α β : Type} [DecidableEq α] {k : α} {l : List (α × β)}
    (k' : α) (v : β) (h : hasA k l = true) : hasA k (setA k' v l) = true := by
  by_cases he : k' = k
  · subst he
    simp [hasA, getA_setA_self]
  · simpa [hasA, getA_setA_ne v l he] using h

/-! ### Second-pass lemmas for the resolution map -/

theorem hasA_secondPassStep_mono {k : Str} {m : List (Str × Ref)}
    (files : List (Str × Str)) (i : Str) (h : hasA k m = true) :
    hasA k (secondPassStep files m i) = true := by
  unfold secondPassStep
  split
  · exact h
  · split
    · exact hasA_setA_mono _ _ h
    · split
      · exact h
      · split
        · exact hasA_setA_mono _ _ (hasA_setA_mono _ _ (hasA_setA_mono _ _ h))
        · exact hasA_setA_mono _ _ h

theorem hasA_secondPass_mono {k : Str} (files : List (Str × Str)) :
    ∀ (l : List Str) (m : List (Str × Ref)), hasA k m = true →
      hasA k (l.foldl (secondPassStep files) m) = true := by
  intro l
  induction l with
  | nil => intro m h; simpa using h
  | cons a t ih =>
    intro m h
    exact ih _ (hasA_secondPassStep_mono files a h)

/-- A local specifier (leading `.`, `/` or `@/`) never starts with `react`. -/
theorem local_not_react {i : Str} (h : isPackage i = false) :
    ("react").data.isPrefixOf i = false := by
  cases i with
  | nil => rfl
  | cons c cs =>
    by_cases hr : ("react").data.isPrefixOf (c :: cs) = true
    · exfalso
      have hc : c = 'r' := by
        have h5 := hr
        simp only [List.isPrefixOf] at h5
        have : ('r' == c) = true := by
          cases hrc : ('r' == c) with
          | true => rfl
          | false => rw [hrc] at h5; simp at h5
        exact (beq_iff_eq.mp this).symm
      subst hc
      have : isPackage ('r' :: cs) = true := by
        simp [isPackage, List.isPrefixOf]
      rw [this] at h
      exact Bool.noConfusion h
    · exact eq_false_of_ne_true hr

/-- Every specifier in `allImports` is covered by the second pass: some
accepted spelling variant ends up with a map entry, or some variant names a
snapshot file (in which case the pass deliberately registers nothing). -/
theorem secondPass_covers (files : List (Str × Str)) :
    ∀ (l : List Str) (m : List (Str × Ref)), (∀ i ∈ l, isPackage i = false) →
      ∀ i ∈ l, ∃ v ∈ variationsOf i,
        hasA v (l.foldl (secondPassStep files) m) = true ∨ hasA v files = true := by
  intro l
  induction l with
  | nil => intro m _ i hi; simp at hi
  | cons a t ih =>
    intro m hnp i hi
    have hpa : isPackage a = false := hnp a (List.mem_cons_self _ _)
    rcases List.mem_cons.mp hi with rfl | hit
    · -- the step for `i` itself establishes coverage, preserved by the rest
      simp only [List.foldl_cons]
      by_cases h1 : (getA i m).isSome = true ∨ ("react").data.isPrefixOf i = true
      · rcases h1 with h1 | h1
        · refine ⟨i, by simp [variationsOf], Or.inl ?_⟩
          have hstep : hasA i (secondPassStep files m i) = true := by
            unfold secondPassStep
            rw [if_pos (Or.inl h1)]
            simpa [hasA] using h1
          exact hasA_secondPass_mono files t _ hstep
        · rw [local_not_react hpa] at h1
          exact Bool.noConfusion h1
      · have hcond1 : ¬ ((getA i m).isSome = true ∨ ("react").data.isPrefixOf i = true) := h1
        have hnone : getA i m = none := by
          cases hg : getA i m with
          | none => rfl
          | some x => exact absurd (Or.inl (by simp [hg])) hcond1
        by_cases hfound : ((variationsOf i).any
            (fun v => (getA v m).isSome ∨ hasA v files)) = true
        · rcases List.any_eq_true.mp hfound with ⟨v, hv, hcond⟩
          rcases of_decide_eq_true hcond with hc | hc
          · refine ⟨v, hv, Or.inl ?_⟩
            have hstep : hasA v (secondPassStep files m i) = true := by
              unfold secondPassStep
              rw [if_neg hcond1, if_neg (by simp [hpa]), if_pos hfound]
              simpa [hasA] using hc
            exact hasA_secondPass_mono files t _ hstep
          · exact ⟨v, hv, Or.inr hc⟩
        · refine ⟨i, by simp [variationsOf], Or.inl ?_⟩
          have hstep : hasA i (secondPassStep files m i) = true := by
            unfold secondPassStep
            rw [if_neg hcond1, if_neg (by simp [hpa]), if_neg hfound]
            by_cases hat : ("@/").data.isPrefixOf i = true
            · rw [if_pos hat]
              exact hasA_setA_mono _ _ (hasA_setA_mono _ _
                (by simp [hasA, getA_setA_self]))
            · rw [if_neg hat]
              simp [hasA, getA_setA_self]
          exact hasA_secondPass_mono files t _ hstep
    · exact ih _ (fun j hj => hnp j (List.mem_cons_of_mem _ hj)) i hit

/-- The CSS pass only appends to the styles blob. -/
theorem cssPass_preserves (files : List (Str × Str)) :
    ∀ (l : List (Str × Str)) (st : PassState),
      (l.foldl (cssPassStep files) st).allImports = st.allImports ∧
      (l.foldl (cssPassStep files) st).imports = st.imports ∧
      (l.foldl (cssPassStep files) st).errors = st.errors := by
  intro l
  induction l with
  | nil => intro st; exact ⟨rfl, rfl, rfl⟩
  | cons a t ih =>
    intro st
    have hstep : (cssPassStep files st a).allImports = st.allImports ∧
        (cssPassStep files st a).imports = st.imports ∧
        (cssPassStep files st a).errors = st.errors := by
      unfold cssPassStep
      split
      · exact ⟨rfl, rfl, rfl⟩
      · exact ⟨rfl, rfl, rfl⟩
    obtain ⟨h1, h2, h3⟩ := ih (cssPassStep files st a)
    simp only [List.foldl_cons]
    rw [h1, h2, h3, hstep.1, hstep.2.1, hstep.2.2]
    exact ⟨rfl, rfl, rfl⟩

/-- The import-collection loop adds only non-package specifiers to
`allImports`, and leaves `allCss`, `styles` and `errors` unchanged. -/
theorem collectImports_allImports :
    ∀ (l : List Str) (st : PassState) (x : Str),
      x ∈ (collectImports l st).allImports →
      x ∈ st.allImports ∨ isPackage x = false := by
  intro l
  induction l with
  | nil => intro st x h; exact Or.inl h
  | cons a t ih =>
    intro st x h
    unfold collectImports at h ih
    simp only [List.foldl_cons] at h
    rcases ih _ x h with h2 | h2
    · by_cases hp : isPackage a = true
      · rw [if_pos hp] at h2
        exact Or.inl h2
      · rw [if_neg hp] at h2
        rcases (mem_addUnique x a st.allImports).mp h2 with rfl | h3
        · exact Or.inr (by simpa using hp)
        · exact Or.inl h3
    · exact Or.inr h2

/-- One first-pass step adds only non-package specifiers to `allImports`. -/
theorem firstPassStep_allImports (babel : Compile) (st : PassState) (e : Str × Str)
    (x : Str) (h : x ∈ (firstPassStep babel st e).allImports) :
    x ∈ st.allImports ∨ isPackage x = false := by
  unfold firstPassStep at h
  by_cases hs : isScriptPath e.1 = true
  · rw [if_pos hs] at h
    cases he : (transformJSX babel e.2 e.1).error with
    | some err =>
      rw [he] at h
      exact Or.inl h
    | none =>
      rw [he] at h
      exact collectImports_allImports _ _ _ h
  · rw [if_neg hs] at h
    by_cases hc : (".css").data.isSuffixOf e.1 = true
    · rw [if_pos hc] at h
      exact Or.inl h
    · rw [if_neg hc] at h
      exact Or.inl h

/-- Every specifier collected into `allImports` over the whole first pass is
local (non-package). -/
theorem firstPass_allImports_package (babel : Compile) :
    ∀ (files : List (Str × Str)) (st : PassState) (x : Str),
      x ∈ (files.foldl (firstPassStep babel) st).allImports →
      x ∈ st.allImports ∨ isPackage x = false := by
  intro files
  induction files with
  | nil => intro st x h; exact Or.inl h
  | cons e t ih =>
    intro st x h
    simp only [List.foldl_cons] at h
    rcases ih _ x h with h2 | h2
    · exact firstPassStep_allImports babel st e x h2
    · exact Or.inr h2

/-! ### First-pass lemmas for the resolution map -/

theorem collectImports_fields (l : List Str) :
    ∀ st : PassState, (collectImports l st).allCss = st.allCss ∧
      (collectImports l st).styles = st.styles ∧
      (collectImports l st).errors = st.errors := by
  induction l with
  | nil => intro st; exact ⟨rfl, rfl, rfl⟩
  | cons a t ih =>
    intro st
    unfold collectImports
    simp only [List.foldl_cons]
    have h2 := ih (if isPackage a then
        { st with imports := setA a (Ref.url (esmUrl a)) st.imports }
      else { st with allImports := addUnique a st.allImports })
    unfold collectImports at h2
    refine ⟨?_, ?_, ?_⟩
    · rw [h2.1]
      split <;> rfl
    · rw [h2.2.1]
      split <;> rfl
    · rw [h2.2.2]
      split <;> rfl

theorem collectImports_imports_mono (l : List Str) :
    ∀ (st : PassState) (k : Str), hasA k st.imports = true →
      hasA k (collectImports l st).imports = true := by
  induction l with
  | nil => intro st k h; exact h
  | cons a t ih =>
    intro st k h
    unfold collectImports at ih ⊢
    simp only [List.foldl_cons]
    apply ih
    split
    · exact hasA_setA_mono _ _ h
    · exact h

theorem transformJSX_ok_code (babel : Compile) (code filename : Str)
    (h : (transformJSX babel code filename).error = none) :
    babel filename (stripCss code) = .ok (transformJSX babel code filename).code := by
  unfold transformJSX at h ⊢
  cases hb : babel filename (stripCss code) with
  | ok out => rfl
  | error e =>
    rw [hb] at h
    exact Option.noConfusion h

theorem firstPassStep_errors (babel : Compile) (st : PassState) (e : Str × Str) :
    (firstPassStep babel st e).errors = st.errors ++ errOf babel e := by
  unfold firstPassStep errOf
  by_cases hs : isScriptPath e.1 = true
  · rw [if_pos hs, if_pos hs]
    cases he : (transformJSX babel e.2 e.1).error with
    | some err => rfl
    | none => simp [(collectImports_fields _ _).2.2]
  · rw [if_neg hs, if_neg hs]
    split
    · simp
    · simp

theorem firstPass_errors (babel : Compile) :
    ∀ (files : List (Str × Str)) (st : PassState),
      (files.foldl (firstPassStep babel) st).errors
        = st.errors ++ (files.map (errOf babel)).flatten := by
  intro files
  induction files with
  | nil => intro st; simp
  | cons e t ih =>
    intro st
    simp only [List.foldl_cons, List.map_cons, List.flatten_cons]
    rw [ih, firstPassStep_errors]
    simp [List.append_assoc]

theorem hasA_regKeys_mono (p q : Str) (b : Ref) {k : Str} {m : List (Str × Ref)}
    (h : hasA k m = true) : hasA k (regKeys p q b m) = true := by
  unfold regKeys
  split
  · exact hasA_setA_mono _ _ (hasA_setA_mono _ _ (hasA_setA_mono _ _ (hasA_setA_mono _ _ h)))
  · exact hasA_setA_mono _ _ h

theorem hasA_regKeys_q (p q : Str) (b : Ref) (m : List (Str × Ref)) :
    hasA q (regKeys p q b m) = true := by
  unfold regKeys
  split
  · exact hasA_setA_mono _ _ (hasA_setA_mono _ _ (hasA_setA_mono _ _
      (by simp [hasA, getA_setA_self])))
  · simp [hasA, getA_setA_self]

theorem hasA_regKeys_abs (p q : Str) (b : Ref) (m : List (Str × Ref))
    (habs : p.head? = some '/') :
    hasA (q.drop 1) (regKeys p q b m) = true ∧
    hasA ('@' :: q) (regKeys p q b m) = true ∧
    hasA (("@/").data ++ q.drop 1) (regKeys p q b m) = true := by
  unfold regKeys
  rw [if_pos habs]
  refine ⟨?_, ?_, ?_⟩
  · exact hasA_setA_mono _ _ (hasA_setA_mono _ _ (by simp [hasA, getA_setA_self]))
  · exact hasA_setA_mono _ _ (by simp [hasA, getA_setA_self])
  · simp [hasA, getA_setA_self]

theorem hasA_firstPassStep_imports_mono (babel : Compile) (st : PassState)
    (e : Str × Str) {k : Str} (h : hasA k st.imports = true) :
    hasA k (firstPassStep babel st e).imports = true := by
  unfold firstPassStep
  by_cases hs : isScriptPath e.1 = true
  · rw [if_pos hs]
    cases he : (transformJSX babel e.2 e.1).error with
    | some err => exact h
    | none =>
      exact hasA_regKeys_mono _ _ _ (hasA_regKeys_mono _ _ _
        (collectImports_imports_mono _ _ _ h))
  · rw [if_neg hs]
    split
    · exact h
    · exact h

theorem hasA_firstPass_imports_mono (babel : Compile) :
    ∀ (l : List (Str × Str)) (st : PassState) (k : Str), hasA k st.imports = true →
      hasA k (l.foldl (firstPassStep babel) st).imports = true := by
  intro l
  induction l with
  | nil => intro st k h; exact h
  | cons e t ih =>
    intro st k h
    simp only [List.foldl_cons]
    exact ih _ _ (hasA_firstPassStep_imports_mono babel st e h)

theorem firstPassStep_registers (babel : Compile) (st : PassState) (e : Str × Str)
    (hs : isScriptPath e.1 = true) (he : (transformJSX babel e.2 e.1).error = none)
    (habs : e.1.head? = some '/') :
    ∀ k ∈ pathDerivedKeys e.1, hasA k (firstPassStep babel st e).imports = true := by
  intro k hk
  unfold firstPassStep
  rw [if_pos hs]
  cases hee : (transformJSX babel e.2 e.1).error with
  | some err => rw [he] at hee; exact Option.noConfusion hee
  | none =>
    show hasA k (regKeys e.1 (stripExt e.1) _ (regKeys e.1 e.1 _ _)) = true
    simp only [pathDerivedKeys, List.mem_cons] at hk
    rcases hk with rfl | rfl | rfl | rfl | rfl | rfl | rfl | rfl | hk
    · exact hasA_regKeys_mono _ _ _ (hasA_regKeys_q _ _ _ _)
    · exact hasA_regKeys_mono _ _ _ (hasA_regKeys_abs _ _ _ _ habs).1
    · exact hasA_regKeys_mono _ _ _ (hasA_regKeys_abs _ _ _ _ habs).2.1
    · exact hasA_regKeys_mono _ _ _ (hasA_regKeys_abs _ _ _ _ habs).2.2
    · exact hasA_regKeys_q _ _ _ _
    · exact (hasA_regKeys_abs _ _ _ _ habs).1
    · exact (hasA_regKeys_abs _ _ _ _ habs).2.1
    · exact (hasA_regKeys_abs _ _ _ _ habs).2.2
    · simp at hk

theorem firstPass_registers (babel : Compile) :
    ∀ (l : List (Str × Str)) (st : PassState), ∀ e ∈ l, isScriptPath e.1 = true →
      (transformJSX babel e.2 e.1).error = none → e.1.head? = some '/' →
      ∀ k ∈ pathDerivedKeys e.1,
        hasA k (l.foldl (firstPassStep babel) st).imports = true := by
  intro l
  induction l with
  | nil => intro st e he; simp at he
  | cons a t ih =>
    intro st e he hs hok habs k hk
    simp only [List.foldl_cons]
    rcases List.mem_cons.mp he with rfl | het
    · exact hasA_firstPass_imports_mono babel t _ k
        (firstPassStep_registers babel st e hs hok habs k hk)
    · exact ih _ e het hs hok habs k hk

/-! ### Blob provenance -/

theorem prov_initial (babel : Compile) (files : List (Str × Str)) :
    ProvOk babel files initialImports := by
  intro k b h
  simp only [initialImports, getA] at h
  split_ifs at h <;> simp_all

theorem prov_setA_url {babel : Compile} {files : List (Str × Str)}
    {m : List (Str × Ref)} (k' : Str) (u : Str) (h : ProvOk babel files m) :
    ProvOk babel files (setA k' (.url u) m) := by
  intro k b hget
  rw [getA_setA] at hget
  split at hget
  · exact absurd hget (by simp)
  · exact h k b hget

theorem prov_setA_blob {babel : Compile} {files : List (Str × Str)}
    {m : List (Str × Ref)} {b' : Str} (k' : Str)
    (hb : BlobSrc babel files b') (h : ProvOk babel files m) :
    ProvOk babel files (setA k' (.blob b') m) := by
  intro k b hget
  rw [getA_setA] at hget
  split at hget
  · cases hget
    next heq => cases heq; exact hb
  · exact h k b hget

theorem prov_collectImports {babel : Compile} {files : List (Str × Str)} :
    ∀ (l : List Str) (st : PassState), ProvOk babel files st.imports →
      ProvOk babel files (collectImports l st).imports := by
  intro l
  induction l with
  | nil => intro st h; exact h
  | cons a t ih =>
    intro st h
    unfold collectImports at ih ⊢
    simp only [List.foldl_cons]
    apply ih
    split
    · exact prov_setA_url _ _ h
    · exact h

theorem prov_regKeys {babel : Compile} {files : List (Str × Str)}
    {m : List (Str × Ref)} {b : Str} (p q : Str)
    (hb : BlobSrc babel files b) (h : ProvOk babel files m) :
    ProvOk babel files (regKeys p q (.blob b) m) := by
  unfold regKeys
  split
  · exact prov_setA_blob _ hb (prov_setA_blob _ hb (prov_setA_blob _ hb
      (prov_setA_blob _ hb h)))
  · exact prov_setA_blob _ hb h

theorem prov_firstPassStep {babel : Compile} {files : List (Str × Str)}
    {st : PassState} {e : Str × Str} (he : e ∈ files)
    (h : ProvOk babel files st.imports) :
    ProvOk babel files (firstPassStep babel st e).imports := by
  unfold firstPassStep
  by_cases hs : isScriptPath e.1 = true
  · rw [if_pos hs]
    cases hee : (transformJSX babel e.2 e.1).error with
    | some err => exact h
    | none =>
      have hb : BlobSrc babel files (transformJSX babel e.2 e.1).code :=
        Or.inl ⟨e.1, e.2, by simpa using he, hee, rfl⟩
      exact prov_regKeys _ _ hb (prov_regKeys _ _ hb (prov_collectImports _ _ h))
  · rw [if_neg hs]
    split
    · exact h
    · exact h

theorem prov_firstPass {babel : Compile} {files : List (Str × Str)} :
    ∀ (l : List (Str × Str)) (st : PassState), (∀ e ∈ l, e ∈ files) →
      ProvOk babel files st.imports →
      ProvOk babel files ((l.foldl (firstPassStep babel) st)).imports := by
  intro l
  induction l with
  | nil => intro st _ h; exact h
  | cons a t ih =>
    intro st hsub h
    simp only [List.foldl_cons]
    exact ih _ (fun e he => hsub e (List.mem_cons_of_mem _ he))
      (prov_firstPassStep (hsub a (List.mem_cons_self _ _)) h)

theorem prov_secondPassStep {babel : Compile} {files : List (Str × Str)}
    {m : List (Str × Ref)} (files' : List (Str × Str)) (i : Str)
    (h : ProvOk babel files m) :
    ProvOk babel files (secondPassStep files' m i) := by
  unfold secondPassStep
  split
  · exact h
  · split
    · exact prov_setA_url _ _ h
    · split
      · exact h
      · have hb : BlobSrc babel files (createPlaceholderModule (componentNameOf i)) :=
          Or.inr ⟨componentNameOf i, rfl⟩
        split
        · exact prov_setA_blob _ hb (prov_setA_blob _ hb (prov_setA_blob _ hb h))
        · exact prov_setA_blob _ hb h

theorem prov_secondPass {babel : Compile} {files : List (Str × Str)}
    (files' : List (Str × Str)) :
    ∀ (l : List Str) (m : List (Str × Ref)), ProvOk babel files m →
      ProvOk babel files (l.foldl (secondPassStep files') m) := by
  intro l
  induction l with
  | nil => intro m h; exact h
  | cons a t ih =>
    intro m h
    simp only [List.foldl_cons]
    exact ih _ (prov_secondPassStep files' a h)

/-! ### Claim theorems -/

/-- C7: the claim states that every output of `normalizePath` starts with
`/`, never contains `//` and never ends with `/` unless it is exactly `/`.
The concrete example of the spec holds, but the input `"a//"` is normalized
to `"/a/"`, which ends with a slash and is not the root: the function strips
only one trailing slash and collapses runs afterwards, so the documented
postcondition ("Remove trailing slash except for root") fails.  This theorem
exhibits the failing evaluation. -/
theorem c7_normalize_path_bug :
    normalizePath ("//folder//file.txt").data = ("/folder/file.txt").data ∧
    normalizePath ("a//").data = ("/a/").data ∧
    normalizePath ("a//").data ≠ ("/").data ∧
    (normalizePath ("a//").data).getLast? = some '/' := by decide

/-- C3: if either normalized path is root, or the source path is missing
from the flat table, or the destination path is already present, `rename`
returns `false` and the state is exactly the state before. -/
theorem c3_rename_guard_failures (s : VFS) (oldPath newPath : Str)
    (h : normalizePath oldPath = ['/'] ∨ normalizePath newPath = ['/'] ∨
      getA (normalizePath oldPath) s.files = none ∨
      hasA (normalizePath newPath) s.files = true) :
    s.rename oldPath newPath = (false, s) := by
  unfold VFS.rename
  by_cases h1 : normalizePath oldPath = ['/'] ∨ normalizePath newPath = ['/']
  · simp only [if_pos h1]
  · simp only [if_neg h1]
    rcases h with h | h | h | h
    · exact absurd (Or.inl h) h1
    · exact absurd (Or.inr h) h1
    · simp [VFS.lookup, h]
    · cases hl : s.lookup (normalizePath oldPath) with
      | none => simp
      | some e => cases e with
        | mk i n => simp [h]

theorem c3_rename_guard_failures_witness :
    (hasA (normalizePath ("/b.txt").data)
        ((VFS.init.createFile ("/a.txt").data ("A").data).2.createFile
          ("/b.txt").data ("B").data).2.files = true) ∧
    ((VFS.init.createFile ("/a.txt").data ("A").data).2.createFile
        ("/b.txt").data ("B").data).2.rename ("/a.txt").data ("/b.txt").data
      = (false,
        ((VFS.init.createFile ("/a.txt").data ("A").data).2.createFile
          ("/b.txt").data ("B").data).2) :=
  ⟨by decide,
    c3_rename_guard_failures _ _ _ (Or.inr (Or.inr (Or.inr (by decide))))⟩

/-- C10: on an existing file, `replaceInFile` with the empty search string
returns the `String not found` error string (the empty string is falsy in
the `!oldStr` guard) and leaves the state — in particular the file's
content — unchanged, even though every content contains the empty string. -/
theorem c10_replace_empty_needle_rejected (s : VFS) (path newStr : Str)
    (node : Node) (hn : s.getNode path = some node) (hf : node.type = .file) :
    s.replaceInFile path [] newStr
      = (("Error: String not found in file: \x22\x22").data, s) := by
  unfold VFS.replaceInFile
  rw [hn]
  simp [hf]

theorem c10_replace_empty_needle_rejected_witness :
    ((VFS.init.createFile ("/t.txt").data ("abc").data).2.getNode ("/t.txt").data
      = some { type := .file, name := ("t.txt").data, path := ("/t.txt").data,
               content := some ("abc").data }) ∧
    ((VFS.init.createFile ("/t.txt").data ("abc").data).2.replaceInFile
        ("/t.txt").data [] ("x").data
      = (("Error: String not found in file: \x22\x22").data,
         (VFS.init.createFile ("/t.txt").data ("abc").data).2)) :=
  ⟨by decide,
    c10_replace_empty_needle_rejected _ _ _
      { type := .file, name := ("t.txt").data, path := ("/t.txt").data,
        content := some ("abc").data }
      (by decide) (by decide)⟩

/-- C8: on an existing file whose content contains the non-empty `oldStr`,
`replaceInFile` splits the content at every leftmost non-overlapping literal
occurrence and joins with `newStr` (replacing all of them), and reports a
count equal to the number of occurrences replaced: the reported count is one
less than the number of split pieces, i.e. exactly the number of separators
the join replaced. -/
theorem c8_replace_all_occurrences (s : VFS) (path oldStr newStr : Str)
    (i : Nat) (node : Node)
    (hget : getA (normalizePath path) s.files = some i)
    (hheap : getA i s.heap = some node)
    (hfile : node.type = .file)
    (hne : oldStr ≠ [])
    (hin : strIncludes (node.content.getD []) oldStr = true) :
    s.replaceInFile path oldStr newStr
      = (("Replaced ").data ++ natToStr (countOcc oldStr (node.content.getD [])) ++
          (" occurrence(s) of the string in ").data ++ path,
        { s with heap := setA i ({ node with content := some (jsReplaceAll oldStr newStr (node.content.getD [])) }) s.heap }) ∧
    countOcc oldStr (node.content.getD []) + 1
      = (jsSplit oldStr (node.content.getD [])).length := by
  constructor
  · have hcase : (if newStr = [] then ([] : Str) else newStr) = newStr := by
      by_cases hn : newStr = []
      · simp [hn]
      · simp [hn]
    simp only [VFS.replaceInFile, VFS.getNode, VFS.readFile, VFS.updateFile, VFS.getEntry,
      VFS.lookup, hget, hheap, Option.map_some']
    simp [hfile, hne, hin, hcase]
  · exact countOcc_eq_jsSplit_length _ _

theorem c8_replace_all_occurrences_witness :
    ((VFS.init.createFile ("/t.txt").data ("foo bar foo baz foo").data).2.replaceInFile
        ("/t.txt").data ("foo").data ("hello").data).1
        = ("Replaced 3 occurrence(s) of the string in /t.txt").data ∧
    ((VFS.init.createFile ("/t.txt").data ("foo bar foo baz foo").data).2.replaceInFile
        ("/t.txt").data ("foo").data ("hello").data).2.readFile ("/t.txt").data
        = some ("hello bar hello baz hello").data ∧
    countOcc ("foo").data ("foo bar foo baz foo").data + 1
      = (jsSplit ("foo").data ("foo bar foo baz foo").data).length := by
  have h := c8_replace_all_occurrences
    (VFS.init.createFile ("/t.txt").data ("foo bar foo baz foo").data).2
    ("/t.txt").data ("foo").data ("hello").data 1
    { type := .file, name := ("t.txt").data, path := ("/t.txt").data,
      content := some ("foo bar foo baz foo").data }
    (by decide) (by decide) (by decide) (by decide) (by decide)
  refine ⟨?_, ?_, h.2⟩
  · rw [h.1]
    decide
  · rw [h.1]
    decide

/-- C9 counterexample: the file text `import styles from "./app.css"` is
an import statement referencing a `.css` specifier, and the import-from scan
does find the specifier `./app.css` in it; yet the stylesheet scan collects
nothing (the bare-import pattern requires a quote right after `import`), the
pre-compilation removal leaves the text unchanged, and the specifier is also
dropped from the regular import set — so, contrary to the claim, the
specifier is neither collected into the stylesheet set nor removed before
compilation. -/
theorem c9_css_import_with_binding_counterexample :
    scanImports ("import styles from \x22./app.css\x22").data
        = [("./app.css").data] ∧
    (transformJSX (fun _ c => .ok c) ("import styles from \x22./app.css\x22").data
        ("/App.jsx").data).cssImports = [] ∧
    stripCss ("import styles from \x22./app.css\x22").data
        = ("import styles from \x22./app.css\x22").data ∧
    (transformJSX (fun _ c => .ok c) ("import styles from \x22./app.css\x22").data
        ("/App.jsx").data).missingImports = [] := by decide

/-- C9 (amended): the stylesheet-specifier set of `transformJSX` is exactly
the set of specifiers of *bare* stylesheet imports (`import '<spec>.css'`
with no binding clause), each of which ends in `.css`; exactly those matches
are deleted from the text before it is compiled; and the regular import set
is exactly the set of import-from specifiers of the raw text that do not end
in `.css` — collected regardless of whether they resolve. -/
theorem c9_import_scan_amended (babel : Compile) (code filename : Str)
    (hok : (transformJSX babel code filename).error = none) :
    (∀ sp, sp ∈ (transformJSX babel code filename).cssImports ↔ sp ∈ scanCss code) ∧
    (∀ sp ∈ (transformJSX babel code filename).cssImports,
      (".css").data.isSuffixOf sp = true) ∧
    (∀ sp, sp ∈ (transformJSX babel code filename).missingImports ↔
      (sp ∈ scanImports code ∧ ¬ (".css").data.isSuffixOf sp = true)) ∧
    babel filename (stripCss code) = .ok (transformJSX babel code filename).code := by
  unfold transformJSX at hok ⊢
  cases hb : babel filename (stripCss code) with
  | error e => rw [hb] at hok; exact Option.noConfusion hok
  | ok out =>
    refine ⟨?_, ?_, ?_, rfl⟩
    · intro sp
      simpa using mem_foldl_addUnique (scanCss code) [] sp
    · intro sp hsp
      have := (mem_foldl_addUnique (scanCss code) [] sp).mp (by simpa using hsp)
      rcases this with h | h
      · simp at h
      · exact scanCssAux_suffix _ _ sp h
    · intro sp
      simpa using
        mem_foldl_addUnique_filter (fun i => (".css").data.isSuffixOf i)
          (scanImports code) [] sp

theorem c9_import_scan_amended_witness :
    ((transformJSX (fun _ c => .ok c)
        ("import \x27./a.css\x27;\nimport B from \x27./B\x27;").data
        ("/App.jsx").data).error = none) ∧
    (∀ sp, sp ∈ (transformJSX (fun _ c => .ok c)
        ("import \x27./a.css\x27;\nimport B from \x27./B\x27;").data
        ("/App.jsx").data).cssImports ↔
      sp ∈ scanCss ("import \x27./a.css\x27;\nimport B from \x27./B\x27;").data) ∧
    (∀ sp, sp ∈ (transformJSX (fun _ c => .ok c)
        ("import \x27./a.css\x27;\nimport B from \x27./B\x27;").data
        ("/App.jsx").data).missingImports ↔
      (sp ∈ scanImports ("import \x27./a.css\x27;\nimport B from \x27./B\x27;").data ∧
        ¬ (".css").data.isSuffixOf sp = true)) :=
  ⟨by decide,
   (c9_import_scan_amended (fun _ c => .ok c) _ _ (by decide)).1,
   (c9_import_scan_amended (fun _ c => .ok c) _ _ (by decide)).2.2.1⟩

/-- C5 counterexample: in the snapshot `{/A.jsx: import X from '/x'; import
Y from '@/x';}` (compiled successfully by the oracle), both `/x` and `@/x`
are collected local specifiers; the second pass gives `/x` a placeholder,
after which the lookup probe for `@/x` finds the variant `/x` registered and
deliberately registers nothing — so the collected local specifier `@/x` is
left without any entry in the final resolution map, contradicting the
claim. -/
theorem c5_alias_left_unresolved_counterexample :
    (("@/x").data ∈ collectedLocalImports (fun _ c => .ok c)
      [(("/A.jsx").data, ("import X from \x27/x\x27;\nimport Y from \x27@/x\x27;").data)]) ∧
    isPackage ("@/x").data = false ∧
    ((transformJSX (fun _ c => .ok c)
      ("import X from \x27/x\x27;\nimport Y from \x27@/x\x27;").data
      ("/A.jsx").data).error = none) ∧
    getA ("@/x").data (createImportMap (fun _ c => .ok c)
      [(("/A.jsx").data, ("import X from \x27/x\x27;\nimport Y from \x27@/x\x27;").data)]).imports
      = none := by decide

/-- C5 (amended): for every snapshot and every collected local import
specifier, the second pass guarantees coverage at the level of the accepted
spelling variants: some variant of the specifier has an entry in the final
resolution map (the specifier itself, when a placeholder is synthesized or
it was already registered), or some variant names an existing snapshot file
— in which case the pass registers nothing for it (the file may have failed
to compile, as in the counterexample above with `/B.tsx`, or be a
non-script file).  A collected local specifier can thus be left without a
map entry exactly when a variant is already registered or names a snapshot
file. -/
theorem c5_local_import_resolution_amended (babel : Compile)
    (files : List (Str × Str)) :
    ∀ i ∈ collectedLocalImports babel files,
      ∃ v ∈ variationsOf i,
        hasA v (createImportMap babel files).imports = true ∨
          hasA v files = true := by
  intro i hi
  have hnp : ∀ j ∈ collectedLocalImports babel files, isPackage j = false := by
    intro j hj
    rcases firstPass_allImports_package babel files initialPassState j hj with h | h
    · simp [initialPassState] at h
    · exact h
  have hcss := cssPass_preserves files (firstPass babel files).allCss (firstPass babel files)
  have hmain := secondPass_covers files (collectedLocalImports babel files)
    (cssPassState babel files).imports hnp i hi
  rcases hmain with ⟨v, hv, hcase⟩
  refine ⟨v, hv, ?_⟩
  show hasA v ((cssPassState babel files).allImports.foldl (secondPassStep files)
    (cssPassState babel files).imports) = true ∨ hasA v files = true
  have hAll : (cssPassState babel files).allImports = collectedLocalImports babel files := by
    unfold cssPassState collectedLocalImports
    exact hcss.1
  rw [hAll]
  exact hcase

theorem c5_local_import_resolution_amended_witness :
    (("@/x").data ∈ collectedLocalImports (fun _ c => .ok c)
      [(("/A.jsx").data, ("import X from \x27/x\x27;\nimport Y from \x27@/x\x27;").data)]) ∧
    (∃ v ∈ variationsOf ("@/x").data,
      hasA v (createImportMap (fun _ c => .ok c)
        [(("/A.jsx").data, ("import X from \x27/x\x27;\nimport Y from \x27@/x\x27;").data)]).imports
          = true ∨
        hasA v [(("/A.jsx").data,
          ("import X from \x27/x\x27;\nimport Y from \x27@/x\x27;").data)] = true) :=
  ⟨by decide,
    c5_local_import_resolution_amended (fun _ c => .ok c)
      [(("/A.jsx").data, ("import X from \x27/x\x27;\nimport Y from \x27@/x\x27;").data)]
      (("@/x").data) (by decide)⟩

theorem flatten_map_nil {α β : Type} (f : α → List β) (l : List α)
    (h : ∀ e ∈ l, f e = []) : (l.map f).flatten = [] := by
  induction l with
  | nil => rfl
  | cons a t ih =>
    simp only [List.map_cons, List.flatten_cons, h a (List.mem_cons_self _ _),
      List.nil_append]
    exact ih (fun e he => h e (List.mem_cons_of_mem _ he))

/-- C4: in a snapshot of script files at root-absolute paths in which exactly
one file fails to compile and all others succeed, `createImportMap` reports
exactly one error entry `{path, message}` for the failing file; every
registered specifier key of each of the other files is present in the
resolution map; every blob value in the map is either the compiled output of
a successfully transformed snapshot file or a synthesized placeholder; and
in particular no key derived from the failing file's path maps to an output
of the failing file. -/
theorem c4_single_compile_failure_isolated (babel : Compile)
    (l₁ l₂ : List (Str × Str)) (fp fc msg : Str)
    (hfail : (transformJSX babel fc fp).error = some msg)
    (hok : ∀ e ∈ l₁ ++ l₂, (transformJSX babel e.2 e.1).error = none)
    (hscript : ∀ e ∈ l₁ ++ (fp, fc) :: l₂, isScriptPath e.1 = true)
    (habs : ∀ e ∈ l₁ ++ (fp, fc) :: l₂, e.1.head? = some '/') :
    (createImportMap babel (l₁ ++ (fp, fc) :: l₂)).errors = [(fp, msg)] ∧
    (∀ e ∈ l₁ ++ l₂, ∀ k ∈ pathDerivedKeys e.1,
      hasA k (createImportMap babel (l₁ ++ (fp, fc) :: l₂)).imports = true) ∧
    ProvOk babel (l₁ ++ (fp, fc) :: l₂)
      (createImportMap babel (l₁ ++ (fp, fc) :: l₂)).imports ∧
    (∀ k ∈ pathDerivedKeys fp, ∀ b,
      getA k (createImportMap babel (l₁ ++ (fp, fc) :: l₂)).imports
        = some (.blob b) →
      (∃ p c, (p, c) ∈ l₁ ++ (fp, fc) :: l₂ ∧ ¬ (p = fp ∧ c = fc) ∧
        (transformJSX babel c p).error = none ∧
        b = (transformJSX babel c p).code) ∨
      ∃ nm, b = createPlaceholderModule nm) := by
  have hcssp := cssPass_preserves (l₁ ++ (fp, fc) :: l₂)
    (firstPass babel (l₁ ++ (fp, fc) :: l₂)).allCss (firstPass babel (l₁ ++ (fp, fc) :: l₂))
  have himps : (cssPassState babel (l₁ ++ (fp, fc) :: l₂)).imports
      = (firstPass babel (l₁ ++ (fp, fc) :: l₂)).imports := hcssp.2.1
  have hprov : ProvOk babel (l₁ ++ (fp, fc) :: l₂)
      (createImportMap babel (l₁ ++ (fp, fc) :: l₂)).imports := by
    show ProvOk babel _ ((cssPassState babel _).allImports.foldl
      (secondPassStep (l₁ ++ (fp, fc) :: l₂)) (cssPassState babel _).imports)
    apply prov_secondPass
    rw [himps]
    exact prov_firstPass _ _ (fun e he => he) (prov_initial babel _)
  refine ⟨?_, ?_, hprov, ?_⟩
  · show (cssPassState babel _).errors = [(fp, msg)]
    unfold cssPassState
    rw [hcssp.2.2]
    unfold firstPass
    rw [firstPass_errors]
    have h1 : (l₁.map (errOf babel)).flatten = [] := by
      apply flatten_map_nil
      intro e he
      unfold errOf
      rw [if_pos (hscript e (List.mem_append_left _ he)),
        hok e (List.mem_append_left _ he)]
    have h2 : (l₂.map (errOf babel)).flatten = [] := by
      apply flatten_map_nil
      intro e he
      unfold errOf
      rw [if_pos (hscript e (List.mem_append_right _ (List.mem_cons_of_mem _ he))),
        hok e (List.mem_append_right _ he)]
    have hmid : errOf babel (fp, fc) = [(fp, msg)] := by
      unfold errOf
      rw [if_pos (hscript (fp, fc) (List.mem_append_right _ (List.mem_cons_self _ _)))]
      rw [hfail]
    simp [initialPassState, h1, h2, hmid]
  · intro e he k hk
    have hmem : e ∈ l₁ ++ (fp, fc) :: l₂ := by
      rcases List.mem_append.mp he with h | h
      · exact List.mem_append_left _ h
      · exact List.mem_append_right _ (List.mem_cons_of_mem _ h)
    show hasA k ((cssPassState babel _).allImports.foldl
      (secondPassStep (l₁ ++ (fp, fc) :: l₂)) (cssPassState babel _).imports) = true
    apply hasA_secondPass_mono
    rw [himps]
    exact firstPass_registers babel _ initialPassState e hmem (hscript e hmem)
      (hok e he) (habs e hmem) k hk
  · intro k _ b hget
    rcases hprov k b hget with ⟨p, c, hmem, herr, hcode⟩ | hph
    · refine Or.inl ⟨p, c, hmem, ?_, herr, hcode⟩
      rintro ⟨rfl, rfl⟩
      rw [hfail] at herr
      exact Option.noConfusion herr
    · exact Or.inr hph

theorem c4_single_compile_failure_isolated_witness :
    (createImportMap
        (fun fn _ => if fn = ("/bad.jsx").data then
          Except.error (("Unexpected token (1:7)").data)
        else Except.ok (("ok").data))
        [(("/A.jsx").data, ("export default 1").data),
         (("/bad.jsx").data, ("const =").data)]).errors
      = [(("/bad.jsx").data, ("Unexpected token (1:7)").data)] ∧
    hasA ("/A.jsx").data (createImportMap
        (fun fn _ => if fn = ("/bad.jsx").data then
          Except.error (("Unexpected token (1:7)").data)
        else Except.ok (("ok").data))
        [(("/A.jsx").data, ("export default 1").data),
         (("/bad.jsx").data, ("const =").data)]).imports = true := by
  have h := c4_single_compile_failure_isolated
    (fun fn _ => if fn = ("/bad.jsx").data then
      Except.error (("Unexpected token (1:7)").data)
    else Except.ok (("ok").data))
    [(("/A.jsx").data, ("export default 1").data)] []
    ("/bad.jsx").data ("const =").data ("Unexpected token (1:7)").data
    (by decide) (by decide) (by decide) (by decide)
  exact ⟨h.1, h.2.1 (("/A.jsx").data, ("export default 1").data) (by decide)
    ("/A.jsx").data (by decide)⟩

/-- C6: the preview document contains the bootstrap loader and no error
banner exactly when `errors` is empty, and otherwise the error banner and no
loader.  "Contains no banner/loader" is stated structurally: the document
equals the template with the corresponding branch empty, so the only place
the builder can emit a banner or loader is absent.  When `errors` is
non-empty, the banner displays `(errors.length)`, and consists of one
`error-item` block per error carrying its path, its extracted `line:column`
when present, and its cleaned message. -/
theorem c6_preview_banner_and_loader (jsonImports : Str → Str → Option Str)
    (entryPoint importMap styles : Str) (errors : List (Str × Str)) :
    (errors = [] →
      createPreviewHTML jsonImports entryPoint importMap styles errors
        = previewT1 ++
          (if styles ≠ [] then ("<style>\n").data ++ styles ++ ("</style>").data else []) ++
          previewT2 ++ importMap ++ previewT3 ++ previewT4 ++
          loaderHTML (resolvedEntryUrl jsonImports entryPoint importMap)
            entryPoint importMap ++ previewT5 ∧
      ∃ pre post, createPreviewHTML jsonImports entryPoint importMap styles errors
        = pre ++ loaderHTML (resolvedEntryUrl jsonImports entryPoint importMap)
            entryPoint importMap ++ post) ∧
    (errors ≠ [] →
      createPreviewHTML jsonImports entryPoint importMap styles errors
        = previewT1 ++
          (if styles ≠ [] then ("<style>\n").data ++ styles ++ ("</style>").data else []) ++
          previewT2 ++ importMap ++ previewT3 ++ bannerHTML errors ++
          previewT4 ++ previewT5 ∧
      (∃ pre post, createPreviewHTML jsonImports entryPoint importMap styles errors
        = pre ++ bannerHTML errors ++ post) ∧
      (∃ pre post, bannerHTML errors
        = pre ++ ('(' :: (natToStr errors.length ++ [')'])) ++ post) ∧
      bannerHTML errors
        = bannerB1 ++ (if 1 < errors.length then [ 's' ] else []) ++ bannerB2 ++
          natToStr errors.length ++ bannerB3 ++
          (errors.map errorItemHTML).flatten ++ bannerB4 ∧
      (∀ e ∈ errors,
        (∃ pre post, errorItemHTML e = pre ++ e.1 ++ post) ∧
        (∃ pre post, errorItemHTML e = pre ++ cleanedError e.2 ++ post) ∧
        (errorLocation e.2 ≠ [] →
          ∃ pre post, errorItemHTML e = pre ++ errorLocation e.2 ++ post))) := by
  constructor
  · rintro rfl
    constructor
    · simp [createPreviewHTML]
    · refine ⟨previewT1 ++
        (if styles ≠ [] then ("<style>\n").data ++ styles ++ ("</style>").data else []) ++
        previewT2 ++ importMap ++ previewT3 ++ previewT4, previewT5, ?_⟩
      simp [createPreviewHTML, List.append_assoc]
  · intro hne
    have hlen : 0 < errors.length := List.length_pos.mpr hne
    have hlen0 : ¬ errors.length = 0 := by omega
    refine ⟨?_, ?_, ?_, ?_, ?_⟩
    · simp [createPreviewHTML, hlen, hlen0]
    · refine ⟨previewT1 ++
        (if styles ≠ [] then ("<style>\n").data ++ styles ++ ("</style>").data else []) ++
        previewT2 ++ importMap ++ previewT3, previewT4 ++ previewT5, ?_⟩
      simp [createPreviewHTML, hlen, hlen0, List.append_assoc]
    · refine ⟨bannerB1 ++ (if 1 < errors.length then [ 's' ] else []) ++ [ ' ' ],
        (bannerB3.drop 1) ++ (errors.map errorItemHTML).flatten ++ bannerB4, ?_⟩
      have hB2 : bannerB2 = [ ' ', '(' ] := by decide
      have hB3 : bannerB3 = ')' :: bannerB3.drop 1 := by decide
      rw [bannerHTML, hB2]
      conv_lhs => rw [hB3]
      simp [List.append_assoc]
    · rfl
    · intro e _
      refine ⟨⟨itemI1, ?_, ?_⟩, ?_, ?_⟩
      · exact itemI2 ++
          (if errorLocation e.2 ≠ [] then
            ("<span class=\x22error-location\x22>").data ++ errorLocation e.2 ++
              ("</span>").data
          else []) ++ itemI3 ++ cleanedError e.2 ++ itemI4
      · simp [errorItemHTML, List.append_assoc]
      · refine ⟨itemI1 ++ e.1 ++ itemI2 ++
          (if errorLocation e.2 ≠ [] then
            ("<span class=\x22error-location\x22>").data ++ errorLocation e.2 ++
              ("</span>").data
          else []) ++ itemI3, itemI4, ?_⟩
        simp [errorItemHTML, List.append_assoc]
      · intro hloc
        refine ⟨itemI1 ++ e.1 ++ itemI2 ++ ("<span class=\x22error-location\x22>").data,
          ("</span>").data ++ itemI3 ++ cleanedError e.2 ++ itemI4, ?_⟩
        simp [errorItemHTML, hloc, List.append_assoc]

theorem c6_preview_banner_and_loader_witness :
    (∃ pre post, createPreviewHTML (fun _ _ => none) ("/App.jsx").data
        ("im").data [] []
      = pre ++ loaderHTML (resolvedEntryUrl (fun _ _ => none) ("/App.jsx").data
          ("im").data) ("/App.jsx").data ("im").data ++ post) ∧
    (∃ pre post, createPreviewHTML (fun _ _ => none) ("/App.jsx").data
        ("im").data [] [(("/A.jsx").data, ("boom (3:5) oops").data)]
      = pre ++ bannerHTML [(("/A.jsx").data, ("boom (3:5) oops").data)] ++ post) ∧
    (∃ pre post, errorItemHTML (("/A.jsx").data, ("boom (3:5) oops").data)
      = pre ++ errorLocation ("boom (3:5) oops").data ++ post) :=
  ⟨((c6_preview_banner_and_loader (fun _ _ => none) (("/App.jsx").data)
      (("im").data) [] []).1 rfl).2,
   ((c6_preview_banner_and_loader (fun _ _ => none) (("/App.jsx").data)
      (("im").data) [] [(("/A.jsx").data, ("boom (3:5) oops").data)]).2
        (by decide)).2.1,
   (((c6_preview_banner_and_loader (fun _ _ => none) (("/App.jsx").data)
      (("im").data) [] [(("/A.jsx").data, ("boom (3:5) oops").data)]).2
        (by decide)).2.2.2.2 _ (by decide)).2.2 (by decide)⟩

/-- C1 counterexample: the claim's path equation `path = parent.path + "/" + name`,
read literally, fails for children of the root.  After the conforming mutation
`createFile("/a.txt", "x")` on the fresh file system, the node `/a.txt` sits in
the root's children collection under its name, but its stored path is `/a.txt`,
not `"/" + "/" + "a.txt" = "//a.txt"` — so the literal synchronization property
is violated in a reachable state. -/
theorem c1_literal_path_equation_counterexample :
    ReachableGood (applyOp VFS.init (Op.createFile ("/a.txt").data ("x").data)) ∧
    ¬ ClaimSyncLit (applyOp VFS.init (Op.createFile ("/a.txt").data ("x").data)) := by
  constructor
  · exact ReachableGood.step VFS.init (Op.createFile ("/a.txt").data ("x").data)
      ReachableGood.init ⟨by decide, by decide, by decide⟩
  · intro h
    obtain ⟨-, h2, -⟩ := h
    obtain ⟨n, hn, -, hall⟩ := h2 ("/a.txt").data 1 (by decide) (by decide)
    have hmem : ((("a.txt").data : Str), 1) ∈
        (({ type := NodeType.directory, name := ['/'], path := ['/'], children := some [(("a.txt").data, 1)] } : Node).children.getD []) := by decide
    have hres := hall ['/'] 0
      { type := NodeType.directory, name := ['/'], path := ['/'], children := some [(("a.txt").data, 1)] }
      (by decide) (by decide) ("a.txt").data hmem
    have hrec : getA 1 (applyOp VFS.init (Op.createFile ("/a.txt").data ("x").data)).heap =
        some { type := NodeType.file, name := ("a.txt").data, path := ("/a.txt").data, content := some ("x").data } := by decide
    rw [hrec] at hn
    injection hn with hx
    have hpath := hres.2
    rw [← hx] at hpath
    exact absurd hpath (by decide)

/-- C1 (amended): in every state reached from the fresh file system by
claim-conforming mutations (entry-creating path arguments normalize to fully
normalized paths, and no directory is renamed into its own subtree), the two
indices are synchronized: the root `/` is in the flat table, every non-root
table node is contained in exactly one live parent's children collection under
its own name with stored path equal to the parent's path joined with the name
(`parent.path + "/" + name`, except that children of the root get `"/" + name`),
and every child reachable from a table node appears in the flat table under its
own stored path. -/
theorem c1_index_sync_amended (s : VFS) (hs : ReachableGood s) : ClaimSync s :=
  Inv_ClaimSync (ReachableGood_Inv hs)

theorem c1_index_sync_amended_witness :
    ReachableGood (applyOp VFS.init (Op.createDirectory ("/docs").data)) ∧
    ClaimSync (applyOp VFS.init (Op.createDirectory ("/docs").data)) :=
  ⟨ReachableGood.step VFS.init (Op.createDirectory ("/docs").data) ReachableGood.init
      ⟨by decide, by decide, by decide⟩,
    c1_index_sync_amended _ (ReachableGood.step VFS.init (Op.createDirectory ("/docs").data)
      ReachableGood.init ⟨by decide, by decide, by decide⟩)⟩

/-- C2 counterexample: a destination that does not exist, is not root, and is
not inside the source subtree does not suffice for `rename` to succeed — an
existing file on the destination's ancestor chain makes the new-parent check
fail.  With a directory `/src` (holding `/src/a.txt`) and a file `/f`, the
destination `/f/x` satisfies all three of the claim's conditions, yet
`rename("/src", "/f/x")` returns `false`. -/
theorem c2_rename_file_ancestor_counterexample :
    (((((VFS.init.createDirectory ("/src").data).2.createFile ("/src/a.txt").data ("A").data).2.createFile ("/f").data ("F").data).2.lookup (normalizePath ("/src").data)).map (fun e => e.2.type) = some NodeType.directory) ∧
    getA (normalizePath ("/f/x").data) (((VFS.init.createDirectory ("/src").data).2.createFile ("/src/a.txt").data ("A").data).2.createFile ("/f").data ("F").data).2.files = none ∧
    normalizePath ("/f/x").data ≠ ['/'] ∧
    inSubB (normalizePath ("/src").data) (normalizePath ("/f/x").data) = false ∧
    ((((VFS.init.createDirectory ("/src").data).2.createFile ("/src/a.txt").data ("A").data).2.createFile ("/f").data ("F").data).2.rename ("/src").data ("/f/x").data).1 = false := by
  decide

/-- C2 (amended): in a reachable state holding a directory at the (normalized,
non-root) source path, if the normalized destination is fully normalized, not
root, absent from the table, not inside the source subtree, and every existing
table entry on the destination's proper ancestor chain is a directory, then
`rename` returns `true`, the destination is keyed to the moved node, every
table entry under the old path is gone (the old root too), each old subtree key
`old + "/" + tail` reappears as `new + "/" + tail` bound to the same node id,
the moved node keeps its type and content with its path rewritten to the
destination, and every relocated descendant keeps its type, name and content
with its path rewritten under the destination. -/
theorem c2_rename_moves_subtree_amended (s : VFS) (hg : ReachableGood s)
    (oldPath newPath : Str) (sid : Nat) (sourceNode : Node)
    (hsrc : s.lookup (normalizePath oldPath) = some (sid, sourceNode))
    (hdir : sourceNode.type = NodeType.directory)
    (hOroot : normalizePath oldPath ≠ ['/'])
    (hNok : pathOk (normalizePath newPath))
    (hNroot : normalizePath newPath ≠ ['/'])
    (hNmiss : getA (normalizePath newPath) s.files = none)
    (hNsub : inSubB (normalizePath oldPath) (normalizePath newPath) = false)
    (hanc : ∀ q i n, inSubB q (normalizePath newPath) = true → q ≠ normalizePath newPath →
      getA q s.files = some i → getA i s.heap = some n → n.type = NodeType.directory) :
    (s.rename oldPath newPath).1 = true ∧
    getA (normalizePath newPath) (s.rename oldPath newPath).2.files = some sid ∧
    (∀ tail, getA (normalizePath newPath ++ '/' :: tail) (s.rename oldPath newPath).2.files =
      getA (normalizePath oldPath ++ '/' :: tail) s.files) ∧
    getA (normalizePath oldPath) (s.rename oldPath newPath).2.files = none ∧
    (∀ tail, getA (normalizePath oldPath ++ '/' :: tail)
      (s.rename oldPath newPath).2.files = none) ∧
    (∃ nd, getA sid (s.rename oldPath newPath).2.heap = some nd ∧
      nd.type = sourceNode.type ∧ nd.content = sourceNode.content ∧
      nd.path = normalizePath newPath) ∧
    (∀ tail k, getA (normalizePath oldPath ++ '/' :: tail) s.files = some k →
      ∃ m0 m1, getA k s.heap = some m0 ∧
        getA k (s.rename oldPath newPath).2.heap = some m1 ∧
        m1.type = m0.type ∧ m1.name = m0.name ∧ m1.content = m0.content ∧
        m1.path = normalizePath newPath ++ '/' :: tail) := by
  have hNO : ¬ inSubB (normalizePath oldPath) (normalizePath newPath) = true := by
    rw [hNsub]
    exact Bool.false_ne_true
  exact rename_moves (ReachableGood_Inv hg) hsrc hdir hOroot hNok hNroot hNmiss hNO hanc

theorem c2_rename_moves_subtree_amended_witness :
    ReachableGood (applyOp (applyOp VFS.init (Op.createFile ("/src/index.ts").data ("A").data)) (Op.createFile ("/src/components/Button.tsx").data ("B").data)) ∧
    ((applyOp (applyOp VFS.init (Op.createFile ("/src/index.ts").data ("A").data)) (Op.createFile ("/src/components/Button.tsx").data ("B").data)).rename ("/src").data ("/app").data).1 = true ∧
    getA (normalizePath ("/app").data) ((applyOp (applyOp VFS.init (Op.createFile ("/src/index.ts").data ("A").data)) (Op.createFile ("/src/components/Button.tsx").data ("B").data)).rename ("/src").data ("/app").data).2.files = some 1 ∧
    getA (normalizePath ("/src").data) ((applyOp (applyOp VFS.init (Op.createFile ("/src/index.ts").data ("A").data)) (Op.createFile ("/src/components/Button.tsx").data ("B").data)).rename ("/src").data ("/app").data).2.files = none ∧
    getA (normalizePath ("/app").data ++ '/' :: ("components/Button.tsx").data) ((applyOp (applyOp VFS.init (Op.createFile ("/src/index.ts").data ("A").data)) (Op.createFile ("/src/components/Button.tsx").data ("B").data)).rename ("/src").data ("/app").data).2.files = getA (normalizePath ("/src").data ++ '/' :: ("components/Button.tsx").data) (applyOp (applyOp VFS.init (Op.createFile ("/src/index.ts").data ("A").data)) (Op.createFile ("/src/components/Button.tsx").data ("B").data)).files := by
  have hg : ReachableGood (applyOp (applyOp VFS.init (Op.createFile ("/src/index.ts").data ("A").data)) (Op.createFile ("/src/components/Button.tsx").data ("B").data)) :=
    ReachableGood.step _ (Op.createFile ("/src/components/Button.tsx").data ("B").data)
      (ReachableGood.step VFS.init (Op.createFile ("/src/index.ts").data ("A").data)
        ReachableGood.init ⟨by decide, by decide, by decide⟩)
      ⟨by decide, by decide, by decide⟩
  have h := c2_rename_moves_subtree_amended _ hg ("/src").data ("/app").data 1
    { type := NodeType.directory, name := ("src").data, path := ("/src").data, children := some [(("index.ts").data, 2), (("components").data, 3)] }
    (by decide) (by decide) (by decide) ⟨by decide, by decide, by decide⟩ (by decide)
    (by decide) (by decide)
    (by
      intro q i n hq hne hgq hgn
      have hmem := getA_mem_keysA hgq
      have hkeys : keysA (applyOp (applyOp VFS.init (Op.createFile ("/src/index.ts").data ("A").data)) (Op.createFile ("/src/components/Button.tsx").data ("B").data)).files = [['/'], ("/src").data, ("/src/index.ts").data, ("/src/components").data, ("/src/components/Button.tsx").data] := by decide
      rw [hkeys] at hmem
      simp only [List.mem_cons, List.not_mem_nil, or_false] at hmem
      rcases hmem with h0 | h0 | h0 | h0 | h0 <;> subst h0 <;> exact absurd hq (by decide))
  exact ⟨hg, h.1, h.2.1, h.2.2.2.1, h.2.2.1 (("components/Button.tsx").data)⟩

end Uigen
